import Mathlib

/-!
# Byte-level BPE tokenizer: embedding and verified properties

Shallow embedding of `src/src/bpe.cpp`, `src/inc/bpe.h`, `src/inc/mapped_storages.h`
and `src/src/mapped_storages.cpp`.

Conventions of the embedding:
* a byte string (`std::string`, `std::string_view`) is a `List Nat` of byte values;
* `u32` token ids are natural numbers; `u64` counters are natural numbers reduced
  modulo `2 ^ 64` wherever the source adds to them;
* an assertion failure, a division by zero or an out-of-range read is `none`;
* `std::unordered_map` / `std::unordered_set` are association lists / lists
  without duplicates; their iteration order is the list order.
-/

namespace bpe

/-- Byte strings: `std::string` / `std::string_view` as lists of byte values. -/
abbrev Bytes := List Nat

/-! ## Word splitter (`bpe.cpp`, lines 20-132) -/

/-- The source's `is_space`: space, CR, LF, tab. -/
def is_space (c : Nat) : Bool :=
  c == 32 || c == 13 || c == 10 || c == 9

/-- The character set of `is_punctuation`, in the order of the source literal. -/
def punctuations_set : List Nat :=
  [44, 46, 63, 45, 34, 58, 59, 40, 41, 91, 93, 60, 62, 123, 125, 37, 39, 33, 47, 35, 36, 37,
   94, 38, 42, 126, 124, 43, 61, 39, 95, 126]

/-- The source's `is_punctuation`: membership in `punctuations_set`. -/
def is_punctuation (c : Nat) : Bool :=
  punctuations_set.contains c

/-- The loop `while (i < word.size() && p(word[i])) i++`, run for at most `fuel` rounds. -/
def scan_up (p : Nat → Bool) (word : Bytes) : Nat → Nat → Nat
  | 0, i => i
  | fuel + 1, i =>
    if i < word.length && p (word.getD i 0) then scan_up p word fuel (i + 1) else i

/-- The loop `while (e > lo && p(word[e - 1])) e--`, by recursion on `e`. -/
def scan_down (p : Nat → Bool) (word : Bytes) (lo : Nat) : Nat → Nat
  | 0 => 0
  | e + 1 => if e + 1 > lo && p (word.getD e 0) then scan_down p word lo e else e + 1

/-- The member `std::string_view::substr(pos, count)`. -/
def substr (word : Bytes) (pos count : Nat) : Bytes :=
  (word.drop pos).take count

/-- The source's `split_prefix_body_suffix`. -/
def split_prefix_body_suffix (word : Bytes) : Bytes × Bytes × Bytes :=
  let begin_ := scan_up is_space word word.length 0
  if begin_ == word.length then ([], word, [])
  else
    let body_start := scan_up is_punctuation word word.length begin_
    if body_start == word.length then ([], word, [])
    else
      let end_ := scan_down is_space word body_start word.length
      if end_ == body_start then ([], word, [])
      else
        let body_end := scan_down is_punctuation word body_start end_
        if body_end == body_start then ([], word, [])
        else
          let pre := if body_start > begin_ then substr word 0 body_start else []
          let suf := if body_end < end_ then substr word body_end word.length else []
          let body := substr word pre.length (word.length - pre.length - suf.length)
          (pre, body, suf)

/-- One round of the first loop of `split_by_words`: the state is the optional start of the
space run being read and the closed runs found so far. -/
def find_spaces_step (text : Bytes) (st : Option Nat × List (Nat × Nat)) (i : Nat) :
    Option Nat × List (Nat × Nat) :=
  if is_space (text.getD i 0) then
    match st.1 with
    | none => (some i, st.2)
    | some b => (some b, st.2)
  else
    match st.1 with
    | some b => (none, st.2 ++ [(b, i)])
    | none => st

/-- The space intervals found by the first loop of `split_by_words`. -/
def find_spaces (text : Bytes) : List (Nat × Nat) :=
  ((List.range text.length).foldl (find_spaces_step text) (none, [])).2

/-- The split points contributed by one space interval: every offset inside it. -/
def interval_points (space : Nat × Nat) : List Nat :=
  (List.range (space.2 - space.1)).map (fun i => space.1 + i)

/-- The vector `split_points` of `split_by_words`. -/
def split_points (text : Bytes) : List Nat :=
  [0] ++ (find_spaces text).flatMap interval_points ++ [text.length]

/-- The slices pushed for one word: the non-empty ones among prefix, body, suffix. -/
def emit_parts (word : Bytes) : List Bytes :=
  let pbs := split_prefix_body_suffix word
  (if pbs.1 ≠ [] then [pbs.1] else []) ++ (if pbs.2.1 ≠ [] then [pbs.2.1] else []) ++
    (if pbs.2.2 ≠ [] then [pbs.2.2] else [])

/-- The third loop of `split_by_words` over consecutive split points. -/
def split_at_points (text : Bytes) : List Nat → List Bytes
  | b :: e :: rest => emit_parts (substr text b (e - b)) ++ split_at_points text (e :: rest)
  | _ => []

/-- The source's `split_by_words`. -/
def split_by_words (text : Bytes) : List Bytes :=
  split_at_points text (split_points text)

/-! ## Trainer: vocabulary and merge queue (`bpe.cpp`, lines 135-354 and 438-523) -/

/-- The type `Pair = std::pair<u32, u32>`: two neighbouring token ids. -/
abbrev Pair := Nat × Nat

/-- The struct `TokenizerTrainer::Config`. -/
structure Config where
  size : Nat
  min_count : Nat
  max_worker : Nat
  cache_size : Nat
deriving DecidableEq

/-- The struct `TokenizerTrainer::VocabEntry`. -/
structure VocabEntry where
  ids : List Nat
  text : Bytes
  count : Nat
deriving DecidableEq

/-- The struct `Queue::MergeCandidate`; `where_` is the unordered set `where`, kept as a list
without duplicates in insertion order. -/
structure MergeCandidate where
  pair : Pair
  queue_count : Nat
  real_count : Nat
  where_ : List Nat
deriving DecidableEq

/-- The class `TokenizerTrainer::Queue`. `queue` holds the contents of the
`std::priority_queue` in push order; `top()` is the leftmost index of greatest `queue_count`. -/
structure Queue where
  vocab : List VocabEntry
  candidates : List MergeCandidate
  candidates_index : List (Pair × Nat)
  queue : List Nat
deriving DecidableEq

/-- The value read by `candidates[i]` when `i` is out of range (undefined in the source; the
invariants below show that it is never read). -/
def MergeCandidate.absent : MergeCandidate := ⟨(0, 0), 0, 0, []⟩

/-- The access `candidates[i]`. -/
def Queue.candidate (q : Queue) (i : Nat) : MergeCandidate :=
  q.candidates.getD i MergeCandidate.absent

/-- The conversion `static_cast<size_t>(count_delta)` of an `i64` to a 64-bit unsigned. -/
def to_u64 (count_delta : Int) : Nat :=
  (count_delta % (2 ^ 64 : Int)).toNat

/-- The 64-bit unsigned addition `x += static_cast<size_t>(count_delta)`. -/
def wrap_add_u64 (x : Nat) (count_delta : Int) : Nat :=
  (x + to_u64 count_delta) % 2 ^ 64

/-- Insertion into an `std::unordered_set` kept as a list: no effect when present. -/
def set_insert {α : Type} [DecidableEq α] (s : List α) (x : α) : List α :=
  if x ∈ s then s else s ++ [x]

/-- The access `candidates_index[pair]` of `std::unordered_map::operator[]`: the stored index,
or a fresh entry with value 0 when the pair is absent. -/
def index_or_insert (m : List (Pair × Nat)) (pair : Pair) : Nat × List (Pair × Nat) :=
  match m.lookup pair with
  | some i => (i, m)
  | none => (0, m ++ [(pair, 0)])

/-- The pairs `(ids[i - 1], ids[i])` for `i = 1 .. ids.size() - 1`. -/
def adjacent_pairs : List Nat → List Pair
  | a :: b :: rest => (a, b) :: adjacent_pairs (b :: rest)
  | _ => []

/-- The source's `Queue::update_candidate`. -/
def Queue.update_candidate (q : Queue) (pair : Pair) (count_delta : Int) (where_index : Nat) :
    Queue :=
  match q.candidates_index.lookup pair with
  | none =>
    { q with
      candidates_index := q.candidates_index ++ [(pair, q.candidates.length)]
      candidates := q.candidates ++
        [⟨pair, to_u64 count_delta, to_u64 count_delta, [where_index]⟩] }
  | some index =>
    { q with
      candidates := q.candidates.modify
        (fun c => { c with
          queue_count := wrap_add_u64 c.queue_count count_delta
          real_count := wrap_add_u64 c.real_count count_delta
          where_ := set_insert c.where_ where_index }) index }

/-- The source's `Queue::update_candidate_real_count`. -/
def Queue.update_candidate_real_count (q : Queue) (pair : Pair) (count_delta : Int) : Queue :=
  let r := index_or_insert q.candidates_index pair
  { q with
    candidates_index := r.2
    candidates := q.candidates.modify
      (fun c => { c with real_count := wrap_add_u64 c.real_count count_delta }) r.1 }

/-- The inner loop of the constructor for one vocabulary entry. -/
def Queue.init_entry (q : Queue) (vocab_index : Nat) (item : VocabEntry) : Queue :=
  (adjacent_pairs item.ids).foldl
    (fun q pair => q.update_candidate pair (item.count : Int) vocab_index) q

/-- The loop of the constructor over the vocabulary, from index `vocab_index` on. -/
def Queue.init_entries : Queue → Nat → List VocabEntry → Queue
  | q, _, [] => q
  | q, vocab_index, item :: rest =>
    Queue.init_entries (q.init_entry vocab_index item) (vocab_index + 1) rest

/-- The call of `std::sort` in the constructor: descending by `count` (the order of entries of
equal count is unspecified in the source; here it is the stable one). -/
def sort_vocab (vocab : List VocabEntry) : List VocabEntry :=
  vocab.insertionSort (fun first second => second.count ≤ first.count)

/-- The constructor `Queue::Queue(vocab, size)`. -/
def Queue.new (vocab : List VocabEntry) (_size : Nat) : Queue :=
  let sorted := sort_vocab vocab
  let q := Queue.init_entries ⟨sorted, [], [], []⟩ 0 sorted
  { q with queue := List.range q.candidates.length }

/-- The element returned by `queue.top()`: the leftmost index of greatest key. -/
def heap_top (key : Nat → Nat) : List Nat → Option Nat
  | [] => none
  | i :: rest =>
    match heap_top key rest with
    | none => some i
    | some j => if key i < key j then some j else some i

/-- The source's `Queue::pop_non_zero`, for at most `fuel` rounds of its loop. -/
def Queue.pop_non_zero : Nat → Queue → Option Nat × Queue
  | 0, q => (none, q)
  | fuel + 1, q =>
    match heap_top (fun i => (q.candidate i).queue_count) q.queue with
    | none => (none, q)
    | some index =>
      let q1 := { q with queue := q.queue.erase index }
      if (q.candidate index).real_count ≠ 0 then (some index, q1)
      else Queue.pop_non_zero fuel q1

/-- The last two statements of the loop of `Queue::pop`:
`candidate.queue_count = candidate.real_count; queue.push(index)`. -/
def Queue.requeue (q : Queue) (index : Nat) : Queue :=
  { q with
    candidates := q.candidates.modify (fun c => { c with queue_count := c.real_count }) index
    queue := q.queue ++ [index] }

/-- The loop of `Queue::pop`, for at most `fuel` rounds. -/
def Queue.pop_loop : Nat → Queue → Option Pair × Queue
  | 0, q => (none, q)
  | fuel + 1, q =>
    match q.pop_non_zero q.queue.length with
    | (none, q1) => (none, q1)
    | (some index, q1) =>
      if (q1.candidate index).real_count = (q1.candidate index).queue_count then
        (some (q1.candidate index).pair, q1)
      else Queue.pop_loop fuel (q1.requeue index)

/-- The source's `Queue::pop`. -/
def Queue.pop (q : Queue) : Option Pair × Queue :=
  q.pop_loop (q.queue.length + 1)

/-- The state threaded through `Queue::merge`: the queue and the set `new_pairs`. -/
abbrev MergeState := Queue × List Pair

/-- The block `if (i > 0) { ... }` of `Queue::merge`: `prev` is `ids[i - 1]`, absent when
`i = 0`, and `new_ids.back()` is the last element of `new_ids`. -/
def merge_left (pair : Pair) (new_id : Nat) (count : Int) (vocab_index : Nat)
    (prev : Option Nat) (new_ids : List Nat) (st : MergeState) : MergeState :=
  match prev with
  | none => st
  | some left =>
    let q1 := st.1.update_candidate_real_count (left, pair.1) (-count)
    let q2 := q1.update_candidate (new_ids.getLastD 0, new_id) count vocab_index
    (q2, set_insert st.2 (new_ids.getLastD 0, new_id))

/-- The block `if (i + 2 < ids.size()) { ... }` of `Queue::merge`: `rest` is `ids[i + 2 ..]`,
empty when `i + 2` is not below the size. -/
def merge_right (pair : Pair) (new_id : Nat) (count : Int) (vocab_index : Nat)
    (rest : List Nat) (st : MergeState) : MergeState :=
  match rest with
  | [] => st
  | right :: _ =>
    let q1 := st.1.update_candidate_real_count (pair.2, right) (-count)
    let q2 := q1.update_candidate (new_id, right) count vocab_index
    (q2, set_insert st.2 (new_id, right))

/-- The `while (i < ids.size())` loop of `Queue::merge` over one entry. `prev` is `ids[i - 1]`
(absent when `i = 0`), the list argument is `ids[i ..]`, `new_ids` the vector built so far. -/
def merge_scan (pair : Pair) (new_id : Nat) (count : Int) (vocab_index : Nat) :
    Option Nat → List Nat → List Nat → MergeState → List Nat × MergeState
  | _, [], new_ids, st => (new_ids, st)
  | _, [a], new_ids, st => (new_ids ++ [a], st)
  | prev, a :: b :: rest, new_ids, st =>
    if a = pair.1 ∧ b = pair.2 then
      merge_scan pair new_id count vocab_index (some b) rest (new_ids ++ [new_id])
        (merge_right pair new_id count vocab_index rest
          (merge_left pair new_id count vocab_index prev new_ids st))
    else
      merge_scan pair new_id count vocab_index (some a) (b :: rest) (new_ids ++ [a]) st

/-- The value read by `vocab[i]` when `i` is out of range (never read, see the invariants). -/
def VocabEntry.absent : VocabEntry := ⟨[], [], 0⟩

/-- The body of the `for (size_t vocab_index : candidates[index].where)` loop. -/
def merge_entry (pair : Pair) (new_id : Nat) (st : MergeState) (vocab_index : Nat) :
    MergeState :=
  let entry := st.1.vocab.getD vocab_index VocabEntry.absent
  let r := merge_scan pair new_id (entry.count : Int) vocab_index none entry.ids [] st
  ({ r.2.1 with vocab := r.2.1.vocab.modify (fun e => { e with ids := r.1 }) vocab_index },
   r.2.2)

/-- The final loop of `Queue::merge`: `queue.push(candidates_index[new_pair])`. -/
def push_new_pair (q : Queue) (new_pair : Pair) : Queue :=
  let r := index_or_insert q.candidates_index new_pair
  { q with candidates_index := r.2, queue := q.queue ++ [r.1] }

/-- The three statements after the loop of `Queue::merge`:
`where.clear(); real_count = 0; queue_count = 0` on `candidates[index]`. -/
def Queue.clear_candidate (q : Queue) (index : Nat) : Queue :=
  { q with
    candidates := q.candidates.modify
      (fun c => { c with where_ := [], real_count := 0, queue_count := 0 }) index }

/-- The source's `Queue::merge`. -/
def Queue.merge (q : Queue) (pair : Pair) (new_id : Nat) : Queue :=
  let r := index_or_insert q.candidates_index pair
  let q0 := { q with candidates_index := r.2 }
  let st := (q0.candidate r.1).where_.foldl (merge_entry pair new_id) (q0, [])
  st.2.foldl push_new_pair (st.1.clear_candidate r.1)

/-- Assignment `m[key] = value` on an `std::unordered_map` kept as an association list. -/
def map_assign {α β : Type} [DecidableEq α] : List (α × β) → α → β → List (α × β)
  | [], key, value => [(key, value)]
  | (k, v) :: rest, key, value =>
    if k = key then (k, value) :: rest else (k, v) :: map_assign rest key value

/-- The call `m.emplace(key, value)`: no effect when the key is present. -/
def map_emplace {α β : Type} [DecidableEq α] (m : List (α × β)) (key : α) (value : β) :
    List (α × β) :=
  if key ∈ m.map Prod.fst then m else m ++ [(key, value)]

/-- The class `TokenizerTrainer`. -/
structure TokenizerTrainer where
  config : Config
  merge_table : List (Pair × Nat)
  id_to_seq : List Bytes
  cache : List (Bytes × List Nat)
  word_vocab : List (Bytes × Nat)
  vocab : List VocabEntry
deriving DecidableEq

/-- The constant `byte_count`. -/
def byte_count : Nat := 256

/-- The constructor of `TokenizerTrainer`, with its two assertions. -/
def TokenizerTrainer.new (config : Config) : Option TokenizerTrainer :=
  if config.size ≥ byte_count ∧ config.max_worker ≥ 1 then
    some ⟨config, [], [], [], [], []⟩
  else none

/-- One round of the loop of `build_vocabulary_on_text`. -/
def count_word (word_vocab : List (Bytes × Nat)) (word : Bytes) : List (Bytes × Nat) :=
  match word_vocab.lookup word with
  | none => map_assign word_vocab word 1
  | some n => map_assign word_vocab word ((n + 1) % 2 ^ 64)

/-- The source's `build_vocabulary_on_text`, which `train_on_text` calls. -/
def TokenizerTrainer.train_on_text (t : TokenizerTrainer) (text : Bytes) : TokenizerTrainer :=
  { t with word_vocab := (split_by_words text).foldl count_word t.word_vocab }

/-- The source's `init_id_to_seq`: one single-byte string per byte value. -/
def init_id_to_seq (id_to_seq : List Bytes) : List Bytes :=
  id_to_seq ++ (List.range byte_count).map (fun i => [i])

/-- The entry built by `create_vocab_from_word_vocab` for one word (`static_cast<u8>`). -/
def make_entry (item : Bytes × Nat) : VocabEntry :=
  ⟨item.1.map (fun c => c % 256), item.1, item.2⟩

/-- The source's `create_vocab_from_word_vocab`. -/
def create_vocab_from_word_vocab (min_count : Nat) (word_vocab : List (Bytes × Nat))
    (vocab : List VocabEntry) : List VocabEntry :=
  vocab ++ (word_vocab.filter (fun item => ¬ item.2 < min_count)).map make_entry

/-- The state of the loop of `train_bpe`. -/
structure TrainState where
  queue : Queue
  merge_table : List (Pair × Nat)
  id_to_seq : List Bytes
deriving DecidableEq

/-- The loop of `train_bpe`, for `num_merges` rounds. -/
def train_loop : Nat → TrainState → TrainState
  | 0, st => st
  | n + 1, st =>
    match st.queue.pop with
    | (none, q1) => { st with queue := q1 }
    | (some pair, q1) =>
      let new_id := st.id_to_seq.length
      train_loop n
        { queue := q1.merge pair new_id
          merge_table := map_assign st.merge_table pair new_id
          id_to_seq := st.id_to_seq ++
            [st.id_to_seq.getD pair.1 [] ++ st.id_to_seq.getD pair.2 []] }

/-- The source's `train_bpe`; `none` when `assert(config.size >= byte_count)` fails. -/
def TokenizerTrainer.train_bpe (t : TokenizerTrainer) : Option TokenizerTrainer :=
  if t.config.size ≥ byte_count then
    let st := train_loop (t.config.size - byte_count)
      ⟨Queue.new t.vocab t.config.size, t.merge_table, t.id_to_seq⟩
    some { t with vocab := st.queue.vocab, merge_table := st.merge_table,
                  id_to_seq := st.id_to_seq }
  else none

/-- The source's `build_cache`. -/
def TokenizerTrainer.build_cache (t : TokenizerTrainer) : TokenizerTrainer :=
  if t.config.cache_size = 0 then t
  else
    let cache_size := min t.config.cache_size t.vocab.length
    let cache := (t.vocab.take cache_size).foldl
      (fun cache entry => map_emplace cache entry.text entry.ids) t.cache
    { t with cache := cache }

/-- The source's `build_bpe`; `none` when one of its assertions or that of `train_bpe` fails. -/
def TokenizerTrainer.build_bpe (t : TokenizerTrainer) : Option TokenizerTrainer :=
  if t.id_to_seq = [] ∧ t.merge_table = [] then
    let t1 := { t with id_to_seq := init_id_to_seq t.id_to_seq }
    let t2 := { t1 with
      vocab := create_vocab_from_word_vocab t1.config.min_count t1.word_vocab t1.vocab }
    (t2.train_bpe).map TokenizerTrainer.build_cache
  else none

/-! ## Buffer primitives and serializers (`mapped_storages.h`, lines 25-181) -/

/-- The bytes written by `BufferWriter::write_u32` (little-endian, after the conversion
`static_cast<u32>`). -/
def u32_bytes (value : Nat) : Bytes :=
  [value % 256, value / 256 % 256, value / 65536 % 256, value / 16777216 % 256]

/-- The source's `BufferReader::read_u32` at address `pos` of memory `mem`: the value and the
advanced cursor; `none` when the four bytes are not all inside `mem`. -/
def read_u32 (mem : Bytes) (pos : Nat) : Option (Nat × Nat) :=
  if pos + 4 ≤ mem.length then
    some (mem.getD pos 0 + 256 * mem.getD (pos + 1) 0 + 65536 * mem.getD (pos + 2) 0 +
      16777216 * mem.getD (pos + 3) 0, pos + 4)
  else none

/-- The bytes written by `BufferWriter::write_string_view`; `none` when
`assert(size <= 0xFF)` fails. -/
def write_string_view (value : Bytes) : Option Bytes :=
  if value.length ≤ 255 then some (value.length :: value) else none

/-- The source's `BufferReader::read_string_view`. -/
def read_string_view (mem : Bytes) (pos : Nat) : Option (Bytes × Nat) :=
  if pos < mem.length then
    let size := mem.getD pos 0
    if pos + 1 + size ≤ mem.length then some (substr mem (pos + 1) size, pos + 1 + size)
    else none
  else none

/-- The source's `BufferReader::skip_string_view`. -/
def skip_string_view (mem : Bytes) (pos : Nat) : Option Nat :=
  if pos < mem.length then some (pos + 1 + mem.getD pos 0) else none

/-- The class template `DataSerializer<T>`: `write` gives the bytes appended by the writer
(`none` on a failed assertion), `read` and `skip` take the memory and the reader's cursor. -/
structure DataSerializer (T : Type) where
  write : T → Option Bytes
  read : Bytes → Nat → Option (T × Nat)
  skip : Bytes → Nat → Option Nat
  size : T → Nat

/-- The primary template at `T = u32`. -/
def serializer_u32 : DataSerializer Nat where
  write value := some (u32_bytes value)
  read mem pos := read_u32 mem pos
  skip _ pos := some (pos + 4)
  size _ := 4

/-- The primary template at `T = Pair`: the two `u32` members in order. -/
def serializer_pair : DataSerializer Pair where
  write value := some (u32_bytes value.1 ++ u32_bytes value.2)
  read mem pos :=
    match read_u32 mem pos with
    | none => none
    | some (first, pos1) =>
      match read_u32 mem pos1 with
      | none => none
      | some (second, pos2) => some ((first, second), pos2)
  skip _ pos := some (pos + 8)
  size _ := 8

/-- The specialization `DataSerializer<std::string_view>`. -/
def serializer_string_view : DataSerializer Bytes where
  write value := write_string_view value
  read mem pos := read_string_view mem pos
  skip mem pos := skip_string_view mem pos
  size value := 1 + value.length

/-- The loop of `DataSerializer<std::vector<u32>>::read`: `count` elements from `pos`. -/
def read_u32_vector (mem : Bytes) : Nat → Nat → Option (List Nat × Nat)
  | 0, pos => some ([], pos)
  | count + 1, pos =>
    match read_u32 mem pos with
    | none => none
    | some (x, pos1) =>
      match read_u32_vector mem count pos1 with
      | none => none
      | some (rest, pos2) => some (x :: rest, pos2)

/-- The specialization `DataSerializer<std::vector<T>>` at `T = u32`. -/
def serializer_vector_u32 : DataSerializer (List Nat) where
  write value := some (u32_bytes value.length ++ value.flatMap u32_bytes)
  read mem pos :=
    match read_u32 mem pos with
    | none => none
    | some (size, pos1) => read_u32_vector mem size pos1
  skip mem pos :=
    match read_u32 mem pos with
    | none => none
    | some (size, pos1) => some (pos1 + size * 4)
  size value := 4 + value.length * 4

/-! ## String table (`mapped_storages.cpp`, lines 35-83) -/

/-- The class `ShortStringsMappedArray` after `attach`; `offsets` and `strings` are
addresses in the attached memory. -/
structure ShortStringsMappedArray where
  buffer_size : Nat
  element_count : Nat
  offsets : Nat
  strings : Nat
deriving DecidableEq

/-- The source's `ShortStringsMappedArray::attach(data)`, `data` being address `base` of
`mem`; the second component is the returned size. -/
def ShortStringsMappedArray.attach (mem : Bytes) (base : Nat) :
    Option (ShortStringsMappedArray × Nat) :=
  match read_u32 mem base with
  | none => none
  | some (buffer_size, pos1) =>
    match read_u32 mem pos1 with
    | none => none
    | some (element_count, _) =>
      some (⟨buffer_size, element_count, base + 8, base + 8 + 4 * element_count⟩, buffer_size)

/-- The first loop of `ShortStringsMappedArray::write_to_buffer`: the offsets, `strings_size`
being the running total. -/
def string_offsets : Nat → List Bytes → List Nat
  | _, [] => []
  | strings_size, item :: rest => strings_size :: string_offsets (strings_size + item.length + 1) rest

/-- The last loop of `ShortStringsMappedArray::write_to_buffer`. -/
def write_strings : List Bytes → Option Bytes
  | [] => some []
  | item :: rest =>
    match write_string_view item with
    | none => none
    | some head =>
      match write_strings rest with
      | none => none
      | some tail => some (head ++ tail)

/-- The source's `ShortStringsMappedArray::write_to_buffer`: the extended buffer. -/
def ShortStringsMappedArray.write_to_buffer (data : List Bytes) (buffer : Bytes) :
    Option Bytes :=
  let offsets := string_offsets 0 data
  let strings_size := (data.map (fun item => item.length + 1)).sum
  let buffer_size := 2 * 4 + data.length * 4 + strings_size
  match write_strings data with
  | none => none
  | some strings =>
    some (buffer ++ u32_bytes buffer_size ++ u32_bytes data.length ++
      offsets.flatMap u32_bytes ++ strings)

/-- The source's `ShortStringsMappedArray::operator[]`. -/
def ShortStringsMappedArray.get (mem : Bytes) (a : ShortStringsMappedArray) (index : Nat) :
    Option Bytes :=
  match read_u32 mem (a.offsets + 4 * index) with
  | none => none
  | some (offset, _) => (read_string_view mem (a.strings + offset)).map Prod.fst

/-! ## Mapped map (`mapped_storages.h`, lines 227-599) -/

/-- The trait `DefaultMapConfig`: hash, key serializer, value serializer and the value
`Value()` returned by `get` when the scan ends. -/
structure MapConfig (Key Value : Type) where
  hash : Key → Nat
  key_serializer : DataSerializer Key
  value_serializer : DataSerializer Value
  default_value : Value

/-- The class `MappedMap` after `attach`; `index` and `storage` are addresses. -/
structure MappedMap where
  buffer_size : Nat
  number_of_elements : Nat
  hash_table_size : Nat
  end_pos : Nat
  index : Nat
  storage : Nat
deriving DecidableEq

/-- The constant `unknown_offset`. -/
def unknown_offset : Nat := 4294967295

/-- The source's `MappedMap::attach`. -/
def MappedMap.attach (mem : Bytes) (base : Nat) : Option (MappedMap × Nat) :=
  match read_u32 mem base with
  | none => none
  | some (buffer_size, pos1) =>
    match read_u32 mem pos1 with
    | none => none
    | some (number_of_elements, pos2) =>
      match read_u32 mem pos2 with
      | none => none
      | some (hash_table_size, pos3) =>
        match read_u32 mem pos3 with
        | none => none
        | some (end_pos, _) =>
          some (⟨buffer_size, number_of_elements, hash_table_size, end_pos, base + 4 * 4,
            base + 4 * 4 + hash_table_size * (2 * 4)⟩, buffer_size)

/-- The scan loop of `MappedMap::contains` from cursor `ptr`, for at most `fuel` records. -/
def contains_loop {Key Value : Type} [DecidableEq Key] (cfg : MapConfig Key Value)
    (mem : Bytes) (storage end_key_offset : Nat) (key : Key) : Nat → Nat → Option Bool
  | 0, _ => none
  | fuel + 1, ptr =>
    if ptr - storage < end_key_offset then
      match cfg.key_serializer.read mem ptr with
      | none => none
      | some (storage_key, ptr1) =>
        if key = storage_key then some true
        else
          match cfg.value_serializer.skip mem ptr1 with
          | none => none
          | some ptr2 => contains_loop cfg mem storage end_key_offset key fuel ptr2
    else some false

/-- The source's `MappedMap::contains`; `none` on a modulus by zero, a failed assertion or a
read outside the memory. -/
def MappedMap.contains {Key Value : Type} [DecidableEq Key] (cfg : MapConfig Key Value)
    (mem : Bytes) (m : MappedMap) (key : Key) : Option Bool :=
  if m.hash_table_size = 0 then none
  else
    let entry_index := cfg.hash key % m.hash_table_size
    match read_u32 mem (m.index + 2 * 4 * entry_index) with
    | none => none
    | some (offset, pos1) =>
      if offset = unknown_offset ∨ offset ≥ m.end_pos then some false
      else
        match read_u32 mem pos1 with
        | none => none
        | some (end_key_offset, _) =>
          if end_key_offset ≤ m.end_pos then
            contains_loop cfg mem m.storage end_key_offset key (end_key_offset + 1)
              (m.storage + offset)
          else none

/-- The scan loop of `MappedMap::get`. -/
def get_loop {Key Value : Type} [DecidableEq Key] (cfg : MapConfig Key Value)
    (mem : Bytes) (storage end_key_offset : Nat) (key : Key) : Nat → Nat → Option Value
  | 0, _ => none
  | fuel + 1, ptr =>
    if ptr - storage < end_key_offset then
      match cfg.key_serializer.read mem ptr with
      | none => none
      | some (storage_key, ptr1) =>
        if key = storage_key then (cfg.value_serializer.read mem ptr1).map Prod.fst
        else
          match cfg.value_serializer.skip mem ptr1 with
          | none => none
          | some ptr2 => get_loop cfg mem storage end_key_offset key fuel ptr2
    else some cfg.default_value

/-- The source's `MappedMap::get`. -/
def MappedMap.get {Key Value : Type} [DecidableEq Key] (cfg : MapConfig Key Value)
    (mem : Bytes) (m : MappedMap) (key : Key) : Option Value :=
  if m.hash_table_size = 0 then none
  else
    let entry_index := cfg.hash key % m.hash_table_size
    match read_u32 mem (m.index + 2 * 4 * entry_index) with
    | none => none
    | some (offset, pos1) =>
      if offset ≠ unknown_offset ∧ offset < m.end_pos then
        match read_u32 mem pos1 with
        | none => none
        | some (end_key_offset, _) =>
          if end_key_offset ≤ m.end_pos then
            get_loop cfg mem m.storage end_key_offset key (end_key_offset + 1)
              (m.storage + offset)
          else none
      else none

/-- The source's `MappedMap::get_begin_position`. -/
def MappedMap.get_begin_position (_m : MappedMap) : Nat := 0

/-- The source's `MappedMap::get_end_position`. -/
def MappedMap.get_end_position (m : MappedMap) : Nat := m.end_pos

/-- The source's `MappedMap::get_next_position`: the reader starts at `storage + pos`, skips
one key and one value, and its offset from `storage` is converted to `Position` (`u32`). -/
def MappedMap.get_next_position {Key Value : Type} (cfg : MapConfig Key Value)
    (mem : Bytes) (m : MappedMap) (pos : Nat) : Option Nat :=
  match cfg.key_serializer.skip mem (m.storage + pos) with
  | none => none
  | some ptr1 =>
    match cfg.value_serializer.skip mem ptr1 with
    | none => none
    | some ptr2 => some ((ptr2 - m.storage) % 2 ^ 32)

/-- The source's `MappedMap::get_key_value`: the reader starts at `storage + pos` and reads
one key, then one value. -/
def MappedMap.get_key_value {Key Value : Type} (cfg : MapConfig Key Value)
    (mem : Bytes) (m : MappedMap) (pos : Nat) : Option (Key × Value) :=
  match cfg.key_serializer.read mem (m.storage + pos) with
  | none => none
  | some (key, ptr1) =>
    match cfg.value_serializer.read mem ptr1 with
    | none => none
    | some (value, _) => some (key, value)

/-- The inner `for` loop of `find_prime_numbers`: `is_prime[j] = false` for
`j = start, start + step, ...` below `n`. -/
def sieve_mark (n step : Nat) : Nat → Nat → List Bool → List Bool
  | 0, _, is_prime => is_prime
  | fuel + 1, j, is_prime =>
    if j < n then sieve_mark n step fuel (j + step) (is_prime.set j false) else is_prime

/-- The inner `while` loop of `find_prime_numbers`: advance to the next unmarked index. -/
def sieve_next (n : Nat) (is_prime : List Bool) : Nat → Nat → Nat
  | 0, last_prime => last_prime
  | fuel + 1, last_prime =>
    if last_prime < n / 2 && !(is_prime.getD last_prime true) then
      sieve_next n is_prime fuel (last_prime + 1)
    else last_prime

/-- The outer `while` loop of `find_prime_numbers`. -/
def sieve_loop (n : Nat) : Nat → Nat → List Bool → List Bool
  | 0, _, is_prime => is_prime
  | fuel + 1, last_prime, is_prime =>
    if last_prime < n / 2 then
      let marked := sieve_mark n last_prime n (last_prime * 2) is_prime
      sieve_loop n fuel (sieve_next n marked n (last_prime + 1)) marked
    else is_prime

/-- The source's `MappedMap::find_prime_numbers`: the unmarked indices below `n`. -/
def find_prime_numbers (n : Nat) : List Nat :=
  let is_prime := sieve_loop n n 2 (List.replicate n true)
  (List.range n).filter (fun i => is_prime.getD i false)

/-- Number of binary digits of `n`, for `n` below `2 ^ fuel`. -/
def bit_length : Nat → Nat → Nat
  | 0, _ => 0
  | fuel + 1, n => if n = 0 then 0 else bit_length fuel (n / 2) + 1

/-- The expression `static_cast<size_t>(static_cast<double>(n) * 1.2)` in IEEE-754 binary64
with round-to-nearest-even, for `n` below `2 ^ 53`: the literal `1.2` is the double
`5404319552844595 / 2 ^ 52`, the exact product is rounded to 53 significant bits and then
truncated to an integer. -/
def scale_max (n : Nat) : Nat :=
  let exact := n * 5404319552844595
  let shift := bit_length 128 exact - 53
  let q := exact / 2 ^ shift
  let r := exact % 2 ^ shift
  let rounded :=
    if 2 * r > 2 ^ shift ∨ (2 * r = 2 ^ shift ∧ q % 2 = 1) then q + 1 else q
  rounded * 2 ^ shift / 2 ^ 52

/-- The expression `static_cast<size_t>(static_cast<double>(n) * 0.5)`, exact for `n` below
`2 ^ 53`. -/
def scale_min (n : Nat) : Nat :=
  n / 2

/-- The collision count of one candidate size in `choose_hash_table_size`. -/
def collision_count (hashes : List Nat) (hash_table_size : Nat) : Nat :=
  let index_to_count := hashes.foldl
    (fun counts key_hash => counts.modify (fun c => c + 1) (key_hash % hash_table_size))
    (List.replicate hash_table_size 0)
  index_to_count.foldl (fun total count => if count ≥ 2 then total + (count - 1) else total) 0

/-- The main loop of `choose_hash_table_size` over the candidate sizes; the state is
`(best_hash_table_size, best_collision_count)`; `none` on a modulus by zero. -/
def choose_loop (hashes : List Nat) : List Nat → Nat × Nat → Option (Nat × Nat)
  | [], best => some best
  | hash_table_size :: rest, best =>
    if hash_table_size = 0 ∧ hashes ≠ [] then none
    else
      let count := collision_count hashes hash_table_size
      choose_loop hashes rest (if count < best.2 then (hash_table_size, count) else best)

/-- The constant `INT_MAX`. -/
def int_max : Nat := 2147483647

/-- The source's `MappedMap::choose_hash_table_size`, on the hashes of the keys. -/
def choose_hash_table_size (hashes : List Nat) : Option Nat :=
  let max_hash_table_size := scale_max hashes.length
  let min_hash_table_size := scale_min hashes.length
  let prime_numbers := find_prime_numbers max_hash_table_size
  let lowest_prime_pos := (prime_numbers.takeWhile (fun p => p < min_hash_table_size)).length
  (choose_loop hashes (prime_numbers.drop lowest_prime_pos) (0, int_max)).map Prod.fst

/-- The records written for one bucket: key then value, in order. -/
def write_entries {Key Value : Type} (cfg : MapConfig Key Value) :
    List (Key × Value) → Option Bytes
  | [] => some []
  | item :: rest =>
    match cfg.key_serializer.write item.1, cfg.value_serializer.write item.2 with
    | some key_bytes, some value_bytes =>
      match write_entries cfg rest with
      | none => none
      | some tail => some (key_bytes ++ value_bytes ++ tail)
    | _, _ => none

/-- The emission loop of `write_to_buffer` over `index_vector`; the state is the bytes of the
bucket directory and of the storage region written so far. -/
def write_buckets {Key Value : Type} (cfg : MapConfig Key Value) :
    List (List (Key × Value)) → Bytes × Bytes → Option (Bytes × Bytes)
  | [], st => some st
  | entry :: rest, st =>
    if entry.isEmpty then
      write_buckets cfg rest (st.1 ++ u32_bytes unknown_offset ++ u32_bytes unknown_offset, st.2)
    else
      match write_entries cfg entry with
      | none => none
      | some bytes =>
        write_buckets cfg rest
          (st.1 ++ u32_bytes st.2.length ++ u32_bytes (st.2.length + bytes.length),
           st.2 ++ bytes)

/-- The bucketing loop of `write_to_buffer`: `index_vector[hash % size].emplace_back`. -/
def fill_buckets {Key Value : Type} (cfg : MapConfig Key Value) (hash_table_size : Nat)
    (data : List (Key × Value)) : List (List (Key × Value)) :=
  data.foldl
    (fun index_vector item =>
      index_vector.modify (fun bucket => bucket ++ [item]) (cfg.hash item.1 % hash_table_size))
    (List.replicate hash_table_size [])

/-- The source's `MappedMap::write_to_buffer`: the extended buffer; `none` when
`assert(hash_table_size != 0)` or an assertion of a serializer fails, or on a modulus by
zero. -/
def MappedMap.write_to_buffer {Key Value : Type} (cfg : MapConfig Key Value)
    (data : List (Key × Value)) (buffer : Bytes) : Option Bytes :=
  match choose_hash_table_size (data.map (fun item => cfg.hash item.1)) with
  | none => none
  | some hash_table_size =>
    if hash_table_size = 0 then none
    else
      let index_vector := fill_buckets cfg hash_table_size data
      let storage_size := (index_vector.map (fun entry =>
        (entry.map (fun item =>
          cfg.key_serializer.size item.1 + cfg.value_serializer.size item.2)).sum)).sum
      let header_size := 4 * 4
      let index_size := hash_table_size * 2 * 4
      let buffer_size := header_size + index_size + storage_size
      match write_buckets cfg index_vector ([], []) with
      | none => none
      | some (index, storage) =>
        some (buffer ++ u32_bytes buffer_size ++ u32_bytes data.length ++
          u32_bytes hash_table_size ++ u32_bytes storage.length ++ index ++ storage)

/-! ## Trainer output and tokenizer (`bpe.cpp`, lines 427-436 and 536-624) -/

/-- What the C++ implementation leaves to the platform: the value of
`std::hash<std::string_view>` and whether plain `char` is a signed type. -/
structure Platform where
  hash_string : Bytes → Nat
  char_is_signed : Bool

/-- The struct `PairHash`: `first | (second << 32)` in 64 bits. -/
def pair_hash (pair : Pair) : Nat :=
  (pair.1 ||| (pair.2 <<< 32)) % 2 ^ 64

/-- The configuration of `MergeTable = MappedMap<Pair, u32, ... PairHash>`. -/
def merge_table_config : MapConfig Pair Nat :=
  ⟨pair_hash, serializer_pair, serializer_u32, 0⟩

/-- The configuration of `Cache = MappedMap<std::string_view, std::vector<u32>>`. -/
def cache_config (pl : Platform) : MapConfig Bytes (List Nat) :=
  ⟨pl.hash_string, serializer_string_view, serializer_vector_u32, []⟩

/-- The source's `TokenizerTrainer::save`. -/
def TokenizerTrainer.save (pl : Platform) (t : TokenizerTrainer) : Option Bytes :=
  match ShortStringsMappedArray.write_to_buffer t.id_to_seq [] with
  | none => none
  | some buffer1 =>
    match MappedMap.write_to_buffer merge_table_config t.merge_table buffer1 with
    | none => none
    | some buffer2 => MappedMap.write_to_buffer (cache_config pl) t.cache buffer2

/-- The class `Tokenizer` after `attach`; `memory` is the attached buffer. -/
structure Tokenizer where
  memory : Bytes
  id_to_seq : ShortStringsMappedArray
  merge_table : MappedMap
  cache : MappedMap
deriving DecidableEq

/-- The source's `Tokenizer::attach`. -/
def Tokenizer.attach (data : Bytes) : Option Tokenizer :=
  match ShortStringsMappedArray.attach data 0 with
  | none => none
  | some (id_to_seq, size1) =>
    match MappedMap.attach data (0 + size1) with
    | none => none
    | some (merge_table, size2) =>
      match MappedMap.attach data (0 + size1 + size2) with
      | none => none
      | some (cache, _) => some ⟨data, id_to_seq, merge_table, cache⟩

/-- The source's `Tokenizer::get_merge_id`: the outer `none` is a failure, the inner one
`std::nullopt`. -/
def Tokenizer.get_merge_id (tk : Tokenizer) (first second : Nat) : Option (Option Nat) :=
  match MappedMap.contains merge_table_config tk.memory tk.merge_table (first, second) with
  | none => none
  | some false => some none
  | some true =>
    (MappedMap.get merge_table_config tk.memory tk.merge_table (first, second)).map some

/-- The source's `Tokenizer::decode_token`, with its assertion. -/
def Tokenizer.decode_token (tk : Tokenizer) (id : Nat) : Option Bytes :=
  if id < tk.id_to_seq.element_count then tk.id_to_seq.get tk.memory id else none

/-- The source's `Tokenizer::decode`: `std::accumulate` of `id_to_seq[id]`. -/
def Tokenizer.decode (tk : Tokenizer) (ids : List Nat) : Option Bytes :=
  ids.foldl
    (fun acc id =>
      match acc, tk.id_to_seq.get tk.memory id with
      | some text, some token => some (text ++ token)
      | _, _ => none)
    (some [])

/-- The conversion `static_cast<u32>(c)` of a plain `char` holding byte `c`. -/
def char_to_u32 (pl : Platform) (c : Nat) : Nat :=
  if pl.char_is_signed ∧ c % 256 ≥ 128 then c % 256 + (2 ^ 32 - 256) else c % 256

/-- The inner `for` loop of `encode_word` from index `i`; the list is `ids[i - 1 ..]` and the
`std::optional` `min_id` is the state. -/
def min_id_loop (get_merge_id : Nat → Nat → Option (Option Nat)) :
    Nat → List Nat → Option (Nat × Nat) → Option (Option (Nat × Nat))
  | i, a :: b :: rest, min_id =>
    match get_merge_id a b with
    | none => none
    | some none => min_id_loop get_merge_id (i + 1) (b :: rest) min_id
    | some (some id) =>
      match min_id with
      | none => min_id_loop get_merge_id (i + 1) (b :: rest) (some (id, i - 1))
      | some (best, index) =>
        if id < best then min_id_loop get_merge_id (i + 1) (b :: rest) (some (id, i - 1))
        else min_id_loop get_merge_id (i + 1) (b :: rest) (some (best, index))
  | _, _, min_id => some min_id

/-- The `while (ids.size() >= 2)` loop of `encode_word`, for at most `fuel` rounds. -/
def encode_word_loop (get_merge_id : Nat → Nat → Option (Option Nat)) :
    Nat → List Nat → Option (List Nat)
  | 0, ids => some ids
  | fuel + 1, ids =>
    if ids.length ≥ 2 then
      match min_id_loop get_merge_id 1 ids none with
      | none => none
      | some none => some ids
      | some (some (new_id, index)) =>
        encode_word_loop get_merge_id fuel ((ids.set index new_id).eraseIdx (index + 1))
    else some ids

/-- The source's `Tokenizer::encode_word`. -/
def Tokenizer.encode_word (pl : Platform) (tk : Tokenizer) (text : Bytes) :
    Option (List Nat) :=
  encode_word_loop tk.get_merge_id text.length (text.map (char_to_u32 pl))

/-- The body of the loop of `Tokenizer::encode` for one word. -/
def Tokenizer.encode_one (pl : Platform) (tk : Tokenizer) (word : Bytes) :
    Option (List Nat) :=
  match MappedMap.contains (cache_config pl) tk.memory tk.cache word with
  | none => none
  | some true => MappedMap.get (cache_config pl) tk.memory tk.cache word
  | some false => tk.encode_word pl word

/-- The source's `Tokenizer::encode`. -/
def Tokenizer.encode (pl : Platform) (tk : Tokenizer) (text : Bytes) : Option (List Nat) :=
  (split_by_words text).foldl
    (fun acc word =>
      match acc, tk.encode_one pl word with
      | some ids, some word_ids => some (ids ++ word_ids)
      | _, _ => none)
    (some [])

end bpe

namespace bpe

/-! ## Predicates used to state and prove the properties -/

/-- Invariant of the first loop of `split_by_words` after the indices below `i`. -/
def SpacesInv (i : Nat) (st : Option Nat × List (Nat × Nat)) : Prop :=
  (∀ x ∈ st.2.flatMap interval_points, x < i) ∧
  List.Pairwise (· ≤ ·) (st.2.flatMap interval_points) ∧
  (∀ b, st.1 = some b → b < i ∧ ∀ x ∈ st.2.flatMap interval_points, x < b)

/-- The pairs of the candidate records, in index order. -/
def Queue.pairs (q : Queue) : List Pair :=
  q.candidates.map (fun c => c.pair)

/-- The index map and the candidate vector agree: `candidates_index` maps `p` to `i` exactly
when candidate `i` exists and has pair `p`. -/
def IndexOK (index : List (Pair × Nat)) (pairs : List Pair) : Prop :=
  ∀ p i, index.lookup p = some i ↔ pairs[i]? = some p

/-- Every pair adjacent in some vocabulary entry has a candidate record. -/
def Queue.Tracks (q : Queue) : Prop :=
  ∀ e ∈ q.vocab, ∀ p ∈ adjacent_pairs e.ids, p ∈ q.pairs

/-- The heap holds each index at most once and only indices of existing candidates. -/
def Queue.HeapOK (q : Queue) : Prop :=
  q.queue.Nodup ∧ ∀ i ∈ q.queue, i < q.candidates.length

/-- All token ids of the vocabulary and of the candidate pairs are below `V`. -/
def Queue.Below (q : Queue) (V : Nat) : Prop :=
  (∀ e ∈ q.vocab, ∀ id ∈ e.ids, id < V) ∧ ∀ p ∈ q.pairs, p.1 < V ∧ p.2 < V

/-- State `q2` extends `q1`: same vocabulary and heap, the candidates of `q1` keep their index
and pair, and the index map of `q2` agrees with its candidates. -/
def Queue.Ext (q1 q2 : Queue) : Prop :=
  q2.vocab = q1.vocab ∧ q2.queue = q1.queue ∧ q1.pairs <+: q2.pairs ∧
    IndexOK q2.candidates_index q2.pairs

/-- Invariant of the loop of `Queue::merge` over `where`, relative to the queue `q0` at the
start of the call: consistent index map, every adjacent pair tracked, ids bounded, and
`new_pairs` a duplicate-free list of tracked pairs that contain `new_id`. -/
def MergeInv (new_id : Nat) (q0 : Queue) (st : MergeState) : Prop :=
  IndexOK st.1.candidates_index st.1.pairs ∧ st.1.Tracks ∧
    (∀ p ∈ st.2, p ∈ st.1.pairs) ∧ st.1.Below (new_id + 1) ∧
    (∀ p ∈ st.2, p.1 = new_id ∨ p.2 = new_id) ∧ st.2.Nodup ∧
    q0.pairs <+: st.1.pairs ∧ st.1.queue = q0.queue

/-- Invariant of the loop of `train_bpe`. -/
def TrainInv (st : TrainState) : Prop :=
  IndexOK st.queue.candidates_index st.queue.pairs ∧ st.queue.Tracks ∧ st.queue.HeapOK ∧
    st.queue.Below st.id_to_seq.length ∧
    (∀ i ∈ st.queue.queue, ∀ p, st.queue.pairs[i]? = some p →
      p ∉ st.merge_table.map Prod.fst) ∧
    (∀ entry ∈ st.merge_table,
      entry.1.1 < entry.2 ∧ entry.1.2 < entry.2 ∧ entry.2 < st.id_to_seq.length ∧
        st.id_to_seq.getD entry.2 [] =
          st.id_to_seq.getD entry.1.1 [] ++ st.id_to_seq.getD entry.1.2 []) ∧
    (st.merge_table.map Prod.fst).Nodup ∧
    st.merge_table.map Prod.snd = List.range' 256 st.merge_table.length ∧
    st.id_to_seq.length = 256 + st.merge_table.length ∧
    (∀ i < 256, st.id_to_seq.getD i [] = [i])

/-- The state of the loop of `train_bpe` when `build_bpe` enters it: the queue built from the
vocabulary of `create_vocab_from_word_vocab`, and the 256 single-byte tokens. -/
def build_start (t : TokenizerTrainer) : TrainState :=
  ⟨Queue.new (create_vocab_from_word_vocab t.config.min_count t.word_vocab t.vocab)
    t.config.size, t.merge_table, init_id_to_seq t.id_to_seq⟩

/-- The pairs returned by `Queue::pop` in the successive rounds of the loop of `train_bpe`,
in order. -/
def train_trace : Nat → TrainState → List Pair
  | 0, _ => []
  | n + 1, st =>
    match st.queue.pop with
    | (none, _) => []
    | (some pair, q1) =>
      pair :: train_trace n
        { queue := q1.merge pair st.id_to_seq.length
          merge_table := map_assign st.merge_table pair st.id_to_seq.length
          id_to_seq := st.id_to_seq ++
            [st.id_to_seq.getD pair.1 [] ++ st.id_to_seq.getD pair.2 []] }

/-- The text `Hello, world!` of the test `BpeTest.tokenize`. -/
def hello_world : Bytes := [72, 101, 108, 108, 111, 44, 32, 119, 111, 114, 108, 100, 33]

/-- The trainer of the test `BpeTest.tokenize` after `train_on_text("Hello, world!")`. -/
def hello_trainer : TokenizerTrainer :=
  { config := ⟨256 + 10, 1, 1, 10⟩
    merge_table := []
    id_to_seq := []
    cache := []
    word_vocab := [([72, 101, 108, 108, 111], 1), ([44], 1), ([32, 119, 111, 114, 108, 100], 1),
      ([33], 1)]
    vocab := [] }

/-- The trainer of the test `BpeTest.tokenize` after `build_bpe`. -/
def hello_trained : TokenizerTrainer :=
  { config := ⟨256 + 10, 1, 1, 10⟩
    merge_table := [((72, 101), 256), ((108, 108), 257), ((32, 119), 258), ((111, 114), 259),
      ((108, 100), 260), ((256, 257), 261), ((258, 259), 262), ((261, 111), 263),
      ((262, 260), 264)]
    id_to_seq := (List.range 256).map (fun i => [i]) ++
      [[72, 101], [108, 108], [32, 119], [111, 114], [108, 100], [72, 101, 108, 108],
       [32, 119, 111, 114], [72, 101, 108, 108, 111], [32, 119, 111, 114, 108, 100]]
    cache := [([72, 101, 108, 108, 111], [263]), ([44], [44]),
      ([32, 119, 111, 114, 108, 100], [264]), ([33], [33])]
    word_vocab := [([72, 101, 108, 108, 111], 1), ([44], 1), ([32, 119, 111, 114, 108, 100], 1),
      ([33], 1)]
    vocab := [⟨[263], [72, 101, 108, 108, 111], 1⟩, ⟨[44], [44], 1⟩,
      ⟨[264], [32, 119, 111, 114, 108, 100], 1⟩, ⟨[33], [33], 1⟩] }

/-- Number of adjacent occurrences of `pair` in `ids`. -/
def pair_occurrences (pair : Pair) (ids : List Nat) : Nat :=
  (adjacent_pairs ids).count pair

/-- The weighted adjacent-occurrence count of `pair` in the vocabulary: the sum over the
entries of `count` times the number of adjacent occurrences of `pair` in `ids`. -/
def weighted_count (vocab : List VocabEntry) (pair : Pair) : Nat :=
  (vocab.map (fun e => e.count * pair_occurrences pair e.ids)).sum

/-- A fresh trainer of target size `size` and cache size `cache_size` (with `min_count = 1`,
`max_worker = 1`) after `train_on_text(text)`. -/
def trainer_on (size cache_size : Nat) (text : Bytes) : Option TokenizerTrainer :=
  (TokenizerTrainer.new ⟨size, 1, 1, cache_size⟩).map (fun t => t.train_on_text text)

/-- The text `abab abab abab ba`. -/
def abab_text : Bytes := [97, 98, 97, 98, 32, 97, 98, 97, 98, 32, 97, 98, 97, 98, 32, 98, 97]

/-- The text `ab (abab (ba`. -/
def ab_ba_text : Bytes := [97, 98, 32, 40, 97, 98, 97, 98, 32, 40, 98, 97]

/-- The text made of 256 letters `a`. -/
def long_text : Bytes := List.replicate 256 97

/-- The bytes `seg` lie in memory `mem` from address `pos` on. -/
def At (mem : Bytes) (pos : Nat) (seg : Bytes) : Prop :=
  seg <+: mem.drop pos

/-- What the mapped map needs from a serializer: `size` is the number of bytes written, which
is positive, and `read` and `skip` at the start of the written bytes give the value back and
advance the cursor past them, for the values that satisfy `valid` and whose written bytes
are fewer than `2 ^ 32`. -/
structure SerializerLaws {T : Type} (ser : DataSerializer T) (valid : T → Prop) : Prop where
  size_eq : ∀ v bytes, ser.write v = some bytes → bytes.length = ser.size v
  size_pos : ∀ v, 0 < ser.size v
  read_at : ∀ v bytes mem pos, ser.write v = some bytes → valid v → At mem pos bytes →
    bytes.length < 4294967296 →
    ser.read mem pos = some (v, pos + bytes.length) ∧
      ser.skip mem pos = some (pos + bytes.length)

/-- The bytes appended by `ShortStringsMappedArray::write_to_buffer` for the strings `data`
whose packed records are `strings`. -/
def string_table_bytes (data : List Bytes) (strings : Bytes) : Bytes :=
  u32_bytes (2 * 4 + data.length * 4 + (data.map (fun item => item.length + 1)).sum) ++
    (u32_bytes data.length ++ ((string_offsets 0 data).flatMap u32_bytes ++ strings))

/-- The entries of `data` that `write_to_buffer` puts in bucket `i`, in order. -/
def bucket_of {Key Value : Type} (cfg : MapConfig Key Value) (hash_table_size : Nat)
    (data : List (Key × Value)) (i : Nat) : List (Key × Value) :=
  data.filter (fun item => decide (cfg.hash item.1 % hash_table_size = i))

/-- The size `storage_size` that `write_to_buffer` computes from the serializers. -/
def storage_size_of {Key Value : Type} (cfg : MapConfig Key Value)
    (index_vector : List (List (Key × Value))) : Nat :=
  (index_vector.map (fun entry =>
    (entry.map (fun item =>
      cfg.key_serializer.size item.1 + cfg.value_serializer.size item.2)).sum)).sum

/-- The bytes appended by `MappedMap::write_to_buffer`: header, bucket directory `index` and
storage region `storage`. -/
def map_bytes {Key Value : Type} (cfg : MapConfig Key Value) (hash_table_size : Nat)
    (data : List (Key × Value)) (index storage : Bytes) : Bytes :=
  u32_bytes (4 * 4 + hash_table_size * 2 * 4 +
      storage_size_of cfg (fill_buckets cfg hash_table_size data)) ++
    (u32_bytes data.length ++ (u32_bytes hash_table_size ++ (u32_bytes storage.length ++
      (index ++ storage))))

/-- The first entry of `data` with key `key`, as the scan of a bucket finds it. -/
def find_entry {Key Value : Type} [DecidableEq Key] (data : List (Key × Value)) (key : Key) :
    Option (Key × Value) :=
  data.find? (fun item => decide (key = item.1))

/-- A platform for the examples: plain `char` is signed, as on x86-64, and a polynomial
string hash stands for `std::hash<std::string_view>`. -/
def hello_platform : Platform :=
  ⟨fun w => w.foldl (fun h c => (h * 31 + c) % 2 ^ 64) 7, true⟩

/-- The bytes returned by `save()` in the test `BpeTest.tokenize`, on `hello_platform`. -/
def hello_artifact : Bytes :=
  (hello_trained.save hello_platform).getD []

end bpe

namespace bpe

/-! ## Reference notions for the splitter -/

/-- The maximal leading run of bytes of `word` that satisfy `p`. -/
def leading_run (p : Nat → Bool) (word : Bytes) : Bytes :=
  word.takeWhile p

/-- The maximal trailing run of bytes of `word` that satisfy `p`. -/
def trailing_run (p : Nat → Bool) (word : Bytes) : Bytes :=
  (word.reverse.takeWhile p).reverse

/-- The prefix named by the shape rule: the leading spaces `S1` followed by the punctuation
run `P1` right after them when `P1` is not empty, and nothing otherwise. -/
def shape_prefix (word : Bytes) : Bytes :=
  let s1 := leading_run is_space word
  let p1 := leading_run is_punctuation (word.drop s1.length)
  if p1 ≠ [] then s1 ++ p1 else []

/-- The suffix named by the shape rule: the punctuation run `P2` right before the trailing
spaces `S2`, followed by `S2`, when `P2` is not empty, and nothing otherwise. -/
def shape_suffix (word : Bytes) : Bytes :=
  let s2 := trailing_run is_space word
  let p2 := trailing_run is_punctuation (word.take (word.length - s2.length))
  if p2 ≠ [] then p2 ++ s2 else []

/-- A degenerate word: empty, only spaces, or only punctuation. -/
def degenerate (word : Bytes) : Bool :=
  word.isEmpty || word.all is_space || word.all is_punctuation

/-- Words made of a run of spaces, then a run of punctuation, then a run of spaces (each run
possibly empty). -/
def spaces_punctuation_spaces (word : Bytes) : Bool :=
  ((word.dropWhile is_space).dropWhile is_punctuation).all is_space

/-! ## Round trip of a mapped map -/

/-- What the round trip of a mapped map says of a source map `data`, the buffer `buffer`
before the write and the buffer `out` after it: `attach` on the written bytes returns the
number of bytes appended, which is `16 + 8 * H + storage bytes`; `size()` is the number of
entries; `contains` is true exactly on the keys; `get` returns the value of every key. -/
def MapRoundTrip {Key Value : Type} [DecidableEq Key] (cfg : MapConfig Key Value)
    (data : List (Key × Value)) (buffer out : Bytes) : Prop :=
  ∃ m, MappedMap.attach out buffer.length =
      some (m, 16 + 8 * m.hash_table_size + m.end_pos) ∧
    out.length = buffer.length + (16 + 8 * m.hash_table_size + m.end_pos) ∧
    m.number_of_elements = data.length ∧
    (∀ key, m.contains cfg out key = some (decide (key ∈ data.map Prod.fst))) ∧
    ∀ kv ∈ data, m.get cfg out kv.1 = some kv.2

/-- A map from byte strings to vectors of `u32` with two entries: the empty string mapped to
a vector of `2 ^ 30` zeros, and the string of one zero byte mapped to the empty vector. -/
def huge_cache : List (Bytes × List Nat) :=
  [([], List.replicate 1073741824 0), ([0], [])]

/-- A merge table with two entries. -/
def two_merges : List (Pair × Nat) :=
  [((1, 2), 256), ((2, 1), 257)]

/-- A cache with two entries. -/
def two_words : List (Bytes × List Nat) :=
  [([97], [97]), ([98, 99], [256, 99])]

/-- A map from pairs to `u32` with six entries, whose keys have the hashes 0 to 5. -/
def six_keys : List (Pair × Nat) :=
  [((0, 0), 256), ((1, 0), 257), ((2, 0), 258), ((3, 0), 259), ((4, 0), 260), ((5, 0), 261)]

/-- The hashes of the keys of a map from pairs, as `choose_hash_table_size` collects them. -/
def key_hashes (data : List (Pair × Nat)) : List Nat :=
  data.map (fun item => merge_table_config.hash item.1)

/-- The field `hash_table_size` that `attach` reads after `write_to_buffer` wrote the map
`data` into an empty buffer. -/
def stored_hash_table_size (data : List (Pair × Nat)) : Option Nat :=
  (MappedMap.write_to_buffer merge_table_config data []).bind
    (fun out => (MappedMap.attach out 0).map (fun r => r.1.hash_table_size))

/-! ## The greedy merge rule -/

/-- Position `idx` of `ids` holds an adjacent pair that is a key of the merge table `table`,
with the merged id `id`. -/
def Mergeable (table : Nat → Nat → Option Nat) (ids : List Nat) (idx id : Nat) : Prop :=
  idx + 1 < ids.length ∧ table (ids.getD idx 0) (ids.getD (idx + 1) 0) = some id

/-- The choice of the greedy rule among the positions below `n`: nothing when no position
is mergeable, and otherwise the position with the smallest merged id, the leftmost one among
those with that id. -/
def GreedyUpTo (table : Nat → Nat → Option Nat) (ids : List Nat) (n : Nat) :
    Option (Nat × Nat) → Prop
  | none => ∀ j id, j < n → ¬ Mergeable table ids j id
  | some (id, idx) => idx < n ∧ Mergeable table ids idx id ∧
      ∀ j id', j < n → Mergeable table ids j id' → id < id' ∨ (id = id' ∧ idx ≤ j)

/-- The choice of the greedy rule among all positions of `ids`. -/
def GreedyChoice (table : Nat → Nat → Option Nat) (ids : List Nat) (idx id : Nat) : Prop :=
  Mergeable table ids idx id ∧
    ∀ j id', Mergeable table ids j id' → id < id' ∨ (id = id' ∧ idx ≤ j)

/-- The sequence `ids` after `ids[idx]` is replaced by `id` and `ids[idx + 1]` is deleted. -/
def merge_at (ids : List Nat) (idx id : Nat) : List Nat :=
  ids.take idx ++ id :: ids.drop (idx + 2)

end bpe

namespace bpe

/-! ## Counts of the merge queue against the vocabulary -/

/-- The sum, over the entries listed in `where` of candidate `c`, of `count` times the number
of adjacent occurrences of the pair of `c` in `ids`. -/
def where_count (q : Queue) (c : MergeCandidate) : Nat :=
  (c.where_.map (fun i =>
    (q.vocab.getD i VocabEntry.absent).count *
      pair_occurrences c.pair (q.vocab.getD i VocabEntry.absent).ids)).sum

/-- The text `abab`. -/
def abab_word : Bytes := [97, 98, 97, 98]

/-- The text `(abab (bax (ax (ax (ab (ab`. -/
def dead_text : Bytes :=
  [40, 97, 98, 97, 98, 32, 40, 98, 97, 120, 32, 40, 97, 120, 32, 40, 97, 120, 32, 40, 97, 98,
    32, 40, 97, 98]

/-- The candidate record of `pair` in the queue, found as `candidates[candidates_index[pair]]`,
absent when the pair has no record. -/
def Queue.find_candidate (q : Queue) (pair : Pair) : Option MergeCandidate :=
  (q.candidates_index.lookup pair).map q.candidate

/-! ## The rewriting of an id sequence by a merge -/

/-- The sequence `ids` scanned left to right with every non-overlapping adjacent occurrence of
`pair` replaced by `new_id`. -/
def replace_pair (pair : Pair) (new_id : Nat) : List Nat → List Nat
  | [] => []
  | [a] => [a]
  | a :: b :: rest =>
    if a = pair.1 ∧ b = pair.2 then new_id :: replace_pair pair new_id rest
    else a :: replace_pair pair new_id (b :: rest)

/-- The rewriting of one entry by a merge: `ids` is replaced, `text` and `count` are kept. -/
def rewrite_entry (pair : Pair) (new_id : Nat) (e : VocabEntry) : VocabEntry :=
  { e with ids := replace_pair pair new_id e.ids }

/-- Candidate records list entry `i` for pair `p`: the index map sends `p` to a record whose
set `where` contains `i`. -/
def Queue.Holds (q : Queue) (i : Nat) (p : Pair) : Prop :=
  ∃ index c, q.candidates_index.lookup p = some index ∧ q.candidates[index]? = some c ∧
    i ∈ c.where_

/-- Every pair adjacent in vocabulary entry `i` has a candidate record that lists `i` in its
set `where`. -/
def Queue.Located (q : Queue) : Prop :=
  ∀ i e, q.vocab[i]? = some e → ∀ p ∈ adjacent_pairs e.ids, q.Holds i p

/-! ## Iteration over a mapped map -/

/-- The traversal that the iteration interface of `MappedMap` supports: from position `pos`,
while `pos` differs from `get_end_position()`, take `get_key_value(pos)` and move to
`get_next_position(pos)`. The result lists the visited positions with the entry read at
each; `none` when a read leaves the memory or the end is not reached in `fuel` steps. -/
def MappedMap.traverse {Key Value : Type} (cfg : MapConfig Key Value) (mem : Bytes)
    (m : MappedMap) : Nat → Nat → Option (List (Nat × Key × Value))
  | 0, pos => if pos = m.get_end_position then some [] else none
  | fuel + 1, pos =>
    if pos = m.get_end_position then some []
    else
      match m.get_key_value cfg mem pos, m.get_next_position cfg mem pos with
      | some kv, some next =>
        (MappedMap.traverse cfg mem m fuel next).map (fun rest => (pos, kv) :: rest)
      | _, _ => none

/-- The records of `es` with the offsets at which they start when they are written one after
the other from offset `b`. -/
def record_offsets {Key Value : Type} (cfg : MapConfig Key Value) :
    Nat → List (Key × Value) → List (Nat × Key × Value)
  | _, [] => []
  | b, item :: rest =>
    (b, item) :: record_offsets cfg
      (b + cfg.key_serializer.size item.1 + cfg.value_serializer.size item.2) rest

/-- What iteration over a mapped map says of a source map `data`, the buffer `buffer` before
the write and the buffer `out` after it: the storage region starts after the header and the
directory and `end_pos` is its length in bytes; the traversal from `get_begin_position()`,
which is 0, reaches `get_end_position()` after `|data|` steps; the positions visited are the
starts of the records of the buckets, which lie one after the other in bucket order; and the
entries read are the entries of `data`, each once. -/
def IterationCovers {Key Value : Type} (cfg : MapConfig Key Value)
    (data : List (Key × Value)) (buffer out : Bytes) : Prop :=
  ∃ m visited, (MappedMap.attach out buffer.length).map Prod.fst = some m ∧
    m.storage = buffer.length + 16 + 8 * m.hash_table_size ∧
    out.length = m.storage + m.end_pos ∧
    m.get_begin_position = 0 ∧
    m.traverse cfg out data.length m.get_begin_position = some visited ∧
    visited.length = data.length ∧
    visited = record_offsets cfg 0 (fill_buckets cfg m.hash_table_size data).flatten ∧
    (∀ x ∈ visited, x.1 < m.get_end_position) ∧
    (visited.map Prod.snd).Perm data

end bpe

namespace bpe

/-! ## Tracking of live pairs -/

/-- Every pair adjacent in vocabulary entry `i` has exactly one candidate record; the index
map leads to it and its set `where` contains `i`. -/
def Queue.TrackedOnce (q : Queue) : Prop :=
  ∀ i e, q.vocab[i]? = some e → ∀ p ∈ adjacent_pairs e.ids,
    ∃ index c, q.candidates_index.lookup p = some index ∧ q.candidates[index]? = some c ∧
      c.pair = p ∧ i ∈ c.where_ ∧
      ∀ j c2, q.candidates[j]? = some c2 → c2.pair = p → j = index

/-- The entries that `Queue::merge` scans for `pair`: the set `where` of
`candidates[candidates_index[pair]]`. -/
def Queue.visited (q : Queue) (pair : Pair) : List Nat :=
  (q.candidate (index_or_insert q.candidates_index pair).1).where_

/-! ## Spelling of id sequences -/

/-- The concatenation of `id_to_seq[id]` over `ids`. -/
def concat_tokens (id_to_seq : List Bytes) (ids : List Nat) : Bytes :=
  ids.flatMap (fun id => id_to_seq.getD id [])

/-- The merges of a merge table applied one after the other, in the order of the table, each
to the whole sequence. -/
def apply_merges (table : List (Pair × Nat)) (ids : List Nat) : List Nat :=
  table.foldl (fun s kv => replace_pair kv.1 kv.2 s) ids

/-! ## Rounds of `encode_word` -/

/-- The number of rounds that the `while` loop of `encode_word` performs from `ids`; `none`
when a lookup fails or the loop has not stopped after `fuel` rounds. -/
def encode_word_rounds (get_merge_id : Nat → Nat → Option (Option Nat)) :
    Nat → List Nat → Option Nat
  | 0, ids =>
    if ids.length ≥ 2 then
      match min_id_loop get_merge_id 1 ids none with
      | some none => some 0
      | _ => none
    else some 0
  | fuel + 1, ids =>
    if ids.length ≥ 2 then
      match min_id_loop get_merge_id 1 ids none with
      | none => none
      | some none => some 0
      | some (some (new_id, index)) =>
        (encode_word_rounds get_merge_id fuel
          ((ids.set index new_id).eraseIdx (index + 1))).map (fun r => r + 1)
    else some 0

/-! ## A text with a byte above 0x7F -/

/-- The text `x y y z z z` followed by a space and the two bytes `C3 A9` (the UTF-8 letter
e-acute): the words ` z` and ` y` occur three times and twice, the words `x` and ` ` `C3 A9`
once. -/
def accent_text : Bytes := [120, 32, 121, 32, 121, 32, 122, 32, 122, 32, 122, 32, 195, 169]

/-- The trainer after `train_on_text(accent_text)` and `build_bpe`, with target size 258
and cache size `cache_size`. -/
def accent_trained (cache_size : Nat) : Option TokenizerTrainer :=
  (trainer_on 258 cache_size accent_text).bind TokenizerTrainer.build_bpe

/-- The tokenizer attached to the bytes saved by `accent_trained cache_size` on
`hello_platform`. -/
def accent_tokenizer (cache_size : Nat) : Option Tokenizer :=
  ((accent_trained cache_size).bind (fun t => t.save hello_platform)).bind Tokenizer.attach

end bpe

namespace bpe

/-! ## A vocabulary whose cache needs more than 32-bit offsets -/

/-- The long word of number `i`: a space, the six base-16 digits of `i` written with the
letters `k` to `z` (lowest digit first), then 245 letters `x`; 252 bytes in all. -/
def long_word (i : Nat) : Bytes :=
  32 :: ([107 + i % 16, 107 + i / 16 % 16, 107 + i / 256 % 16, 107 + i / 4096 % 16,
    107 + i / 65536 % 16, 107 + i / 1048576 % 16] ++ List.replicate 245 120)

/-- The word counts of the long words of numbers below `n`, each seen once. -/
def long_words (n : Nat) : List (Bytes × Nat) :=
  (List.range n).map (fun i => (long_word i, 1))

/-- The texts of the calls of `train_on_text` that lead to `wide_trainer`: the text `ab`, the
text `cd` and one text for each of the 16777216 long words. -/
def wide_texts : List Bytes :=
  [97, 98] :: [99, 100] :: (List.range 16777216).map long_word

/-- The trainer of target size 258 and cache size 16777218 after `train_on_text` on each text
of `wide_texts`: every word is seen once. -/
def wide_trainer : TokenizerTrainer :=
  { config := ⟨258, 1, 1, 16777218⟩
    merge_table := []
    id_to_seq := []
    cache := []
    word_vocab := ([97, 98], 1) :: ([99, 100], 1) :: long_words 16777216
    vocab := [] }

end bpe

namespace bpe

/-! ## Properties of the word splitter -/

theorem scan_up_le (p : Nat → Bool) (word : Bytes) (fuel i : Nat) (h : i ≤ word.length) :
    scan_up p word fuel i ≤ word.length := by
  induction fuel generalizing i with
  | zero => simpa [scan_up] using h
  | succ n ih =>
    unfold scan_up
    split
    · rename_i hc
      simp only [Bool.and_eq_true, decide_eq_true_eq] at hc
      exact ih (i + 1) (by omega)
    · exact h

theorem le_scan_up (p : Nat → Bool) (word : Bytes) (fuel i : Nat) :
    i ≤ scan_up p word fuel i := by
  induction fuel generalizing i with
  | zero => simp [scan_up]
  | succ n ih =>
    unfold scan_up
    split
    · exact Nat.le_trans (Nat.le_succ i) (ih (i + 1))
    · exact Nat.le_refl i

theorem scan_down_le (p : Nat → Bool) (word : Bytes) (lo e : Nat) :
    scan_down p word lo e ≤ e := by
  induction e with
  | zero => simp [scan_down]
  | succ n ih =>
    unfold scan_down
    split
    · omega
    · exact Nat.le_refl _

theorem le_scan_down (p : Nat → Bool) (word : Bytes) (lo e : Nat) (h : lo ≤ e) :
    lo ≤ scan_down p word lo e := by
  induction e with
  | zero => simpa [scan_down] using h
  | succ n ih =>
    unfold scan_down
    split
    · rename_i hc
      simp only [Bool.and_eq_true, decide_eq_true_eq] at hc
      exact ih (by omega)
    · exact h

theorem take_mid_drop (w : Bytes) (a b : Nat) (hab : a ≤ b) :
    w.take a ++ ((w.drop a).take (b - a) ++ w.drop b) = w := by
  have h1 : (w.drop a).take (b - a) ++ w.drop b = w.drop a := by
    have : w.drop b = (w.drop a).drop (b - a) := by
      rw [List.drop_drop]; congr 1; omega
    rw [this, List.take_append_drop]
  rw [h1, List.take_append_drop]

theorem split_prefix_body_suffix_concat (word : Bytes) :
    (split_prefix_body_suffix word).1 ++ (split_prefix_body_suffix word).2.1 ++
      (split_prefix_body_suffix word).2.2 = word := by
  unfold split_prefix_body_suffix
  simp only
  split
  · simp
  split
  · simp
  split
  · simp
  split
  · simp
  rename_i h1 h2 h3 h4
  have hb := scan_up_le is_space word word.length 0 (Nat.zero_le _)
  have hbs := scan_up_le is_punctuation word word.length _ hb
  have hbs' := le_scan_up is_punctuation word word.length (scan_up is_space word word.length 0)
  have he := scan_down_le is_space word
    (scan_up is_punctuation word word.length (scan_up is_space word word.length 0)) word.length
  have he' := le_scan_down is_space word _ word.length hbs
  have hbe := scan_down_le is_punctuation word
    (scan_up is_punctuation word word.length (scan_up is_space word word.length 0))
    (scan_down is_space word
      (scan_up is_punctuation word word.length (scan_up is_space word word.length 0))
      word.length)
  have hbe' := le_scan_down is_punctuation word _ _ he'
  generalize scan_up is_space word word.length 0 = bg at *
  generalize scan_up is_punctuation word word.length bg = bs at *
  generalize scan_down is_space word bs word.length = en at *
  generalize scan_down is_punctuation word bs en = be at *
  simp only [beq_iff_eq] at h1 h2 h3 h4
  by_cases hp : bs > bg <;> by_cases hs : be < en
  · simp only [hp, hs, if_true, substr, List.drop_zero, List.length_take, List.length_drop]
    have e1 : min bs word.length = bs := by omega
    have e2 : min word.length (word.length - be) = word.length - be := by omega
    rw [e1, e2]
    have e3 : word.length - bs - (word.length - be) = be - bs := by omega
    rw [e3]
    have e4 : List.take word.length (List.drop be word) = List.drop be word :=
      List.take_of_length_le (by simp)
    rw [e4, List.append_assoc]
    exact take_mid_drop word bs be (by omega)
  · have hee : be = en := by omega
    simp only [hp, hs, if_true, if_false, substr, List.drop_zero, List.length_take,
      List.length_nil, Nat.sub_zero, List.append_nil]
    have e1 : min bs word.length = bs := by omega
    rw [e1]
    have e4 : List.take (word.length - bs) (List.drop bs word) = List.drop bs word :=
      List.take_of_length_le (by simp)
    rw [e4, List.take_append_drop]
  · simp only [hp, hs, if_true, if_false, substr, List.drop_zero, List.length_take,
      List.length_drop, List.length_nil, Nat.sub_zero, List.nil_append]
    have e2 : min word.length (word.length - be) = word.length - be := by omega
    rw [e2]
    have e3 : word.length - (word.length - be) = be := by omega
    rw [e3]
    have e4 : List.take word.length (List.drop be word) = List.drop be word :=
      List.take_of_length_le (by simp)
    rw [e4, List.take_append_drop]
  · simp only [hp, hs, if_false, substr, List.drop_zero, List.length_nil, Nat.sub_zero,
      List.nil_append, List.append_nil]
    exact List.take_of_length_le (Nat.le_refl _)

theorem emit_parts_flatten (word : Bytes) : (emit_parts word).flatten = word := by
  have h := split_prefix_body_suffix_concat word
  unfold emit_parts
  simp only
  generalize split_prefix_body_suffix word = pbs at *
  obtain ⟨p, b, s⟩ := pbs
  simp only at h ⊢
  by_cases hp : p = [] <;> by_cases hb : b = [] <;> by_cases hs : s = [] <;>
    simp_all

theorem emit_parts_ne_nil (word w : Bytes) (h : w ∈ emit_parts word) : w ≠ [] := by
  unfold emit_parts at h
  simp only [List.mem_append] at h
  rcases h with (h | h) | h
  · split at h
    · simp only [List.mem_singleton] at h; subst h; assumption
    · simp at h
  · split at h
    · simp only [List.mem_singleton] at h; subst h; assumption
    · simp at h
  · split at h
    · simp only [List.mem_singleton] at h; subst h; assumption
    · simp at h

theorem split_at_points_ne_nil (text : Bytes) (pts : List Nat) (w : Bytes)
    (h : w ∈ split_at_points text pts) : w ≠ [] := by
  induction pts with
  | nil => simp [split_at_points] at h
  | cons a rest ih =>
    cases rest with
    | nil => simp [split_at_points] at h
    | cons e rest2 =>
      simp only [split_at_points, List.mem_append] at h
      rcases h with h | h
      · exact emit_parts_ne_nil _ _ h
      · exact ih h

theorem split_at_points_flatten (text : Bytes) (n : Nat) (mids : List Nat) (a : Nat)
    (h : List.Pairwise (· ≤ ·) (a :: (mids ++ [n]))) :
    (split_at_points text (a :: (mids ++ [n]))).flatten = (text.drop a).take (n - a) := by
  induction mids generalizing a with
  | nil =>
    simp [split_at_points, emit_parts_flatten, substr]
  | cons e rest ih =>
    have hae : a ≤ e := by
      have := (List.pairwise_cons.1 h).1 e (by simp)
      exact this
    have htail : List.Pairwise (· ≤ ·) (e :: (rest ++ [n])) := (List.pairwise_cons.1 h).2
    have hen : e ≤ n := (List.pairwise_cons.1 htail).1 n (by simp)
    have ih' := ih e htail
    have hstep : split_at_points text (a :: (e :: rest ++ [n])) =
        emit_parts (substr text a (e - a)) ++ split_at_points text (e :: (rest ++ [n])) := rfl
    rw [hstep, List.flatten_append, emit_parts_flatten, ih', substr]
    have e1 : n - a = (e - a) + (n - e) := by omega
    rw [e1, List.take_add, List.drop_drop]
    congr 3
    omega

theorem interval_points_mem (b i x : Nat) (h : x ∈ interval_points (b, i)) :
    b ≤ x ∧ x < i := by
  simp only [interval_points, List.mem_map, List.mem_range] at h
  obtain ⟨k, hk, rfl⟩ := h
  omega

theorem interval_points_sorted (s : Nat × Nat) : List.Pairwise (· ≤ ·) (interval_points s) := by
  unfold interval_points
  rw [List.pairwise_map]
  have h : List.Pairwise (· < ·) (List.range (s.2 - s.1)) := List.pairwise_lt_range _
  exact h.imp (fun hab => by omega)

theorem find_spaces_step_inv (text : Bytes) (i : Nat) (st : Option Nat × List (Nat × Nat))
    (h : SpacesInv i st) : SpacesInv (i + 1) (find_spaces_step text st i) := by
  obtain ⟨h1, h2, h3⟩ := h
  obtain ⟨bg, sp⟩ := st
  unfold find_spaces_step
  simp only at h1 h2 h3 ⊢
  split
  · cases bg with
    | none =>
      refine ⟨fun x hx => Nat.lt_succ_of_lt (h1 x hx), h2, ?_⟩
      intro b hb
      simp only [Option.some.injEq] at hb
      subst hb
      exact ⟨Nat.lt_succ_self _, h1⟩
    | some b0 =>
      refine ⟨fun x hx => Nat.lt_succ_of_lt (h1 x hx), h2, ?_⟩
      intro b hb
      obtain ⟨hb1, hb2⟩ := h3 b hb
      exact ⟨Nat.lt_succ_of_lt hb1, hb2⟩
  · cases bg with
    | none =>
      refine ⟨fun x hx => Nat.lt_succ_of_lt (h1 x hx), h2, ?_⟩
      intro b hb
      simp at hb
    | some b0 =>
      obtain ⟨hb1, hb2⟩ := h3 b0 rfl
      unfold SpacesInv
      simp only [List.flatMap_append, List.flatMap_cons, List.flatMap_nil, List.append_nil]
      refine ⟨?_, ?_, ?_⟩
      · intro x hx
        rcases List.mem_append.1 hx with hx | hx
        · exact Nat.lt_succ_of_lt (h1 x hx)
        · exact Nat.lt_succ_of_lt (interval_points_mem _ _ _ hx).2
      · rw [List.pairwise_append]
        refine ⟨h2, interval_points_sorted _, ?_⟩
        intro x hx y hy
        have := hb2 x hx
        have := (interval_points_mem _ _ _ hy).1
        omega
      · intro b hb
        simp at hb

theorem find_spaces_fold_inv (text : Bytes) (n : Nat) :
    SpacesInv n ((List.range n).foldl (find_spaces_step text) (none, [])) := by
  induction n with
  | zero =>
    refine ⟨?_, ?_, ?_⟩ <;> simp
  | succ k ih =>
    rw [List.range_succ, List.foldl_append]
    exact find_spaces_step_inv text k _ ih

theorem split_points_sorted (text : Bytes) :
    List.Pairwise (· ≤ ·)
      (0 :: ((find_spaces text).flatMap interval_points ++ [text.length])) := by
  obtain ⟨h1, h2, _⟩ := find_spaces_fold_inv text text.length
  rw [List.pairwise_cons]
  refine ⟨fun x _ => Nat.zero_le x, ?_⟩
  rw [List.pairwise_append]
  refine ⟨h2, List.pairwise_singleton _ _, ?_⟩
  intro x hx y hy
  simp only [List.mem_singleton] at hy
  subst hy
  exact Nat.le_of_lt (h1 x hx)

/-- Claim C2. Splitter totality: for every byte string `text`, every slice returned by
`split_by_words` is non-empty and the slices, concatenated in order, give back `text`; the
empty text gives the empty list. -/
theorem split_by_words_partition (text : Bytes) :
    (∀ w ∈ split_by_words text, w ≠ []) ∧ (split_by_words text).flatten = text ∧
      split_by_words [] = [] := by
  refine ⟨fun w hw => split_at_points_ne_nil text _ w hw, ?_, by decide⟩
  unfold split_by_words split_points
  have h := split_at_points_flatten text text.length
    ((find_spaces text).flatMap interval_points) 0 (split_points_sorted text)
  simp only [List.singleton_append, List.cons_append, List.nil_append] at h ⊢
  rw [h]
  simp

end bpe

namespace bpe

/-! ## The merge queue: index map, tracking and bounds -/

theorem lookup_append_pair (m : List (Pair × Nat)) (p q : Pair) (n : Nat) :
    (m ++ [(q, n)]).lookup p =
      match m.lookup p with
      | some i => some i
      | none => if p = q then some n else none := by
  induction m with
  | nil =>
    by_cases h : p = q
    · subst h; simp [List.lookup]
    · have : (p == q) = false := by simpa using h
      simp [List.lookup, this, h]
  | cons hd tl ih =>
    obtain ⟨k, v⟩ := hd
    by_cases h : p = k
    · subst h; simp [List.lookup]
    · have : (p == k) = false := by simpa using h
      simp only [List.cons_append, List.lookup, this]
      exact ih

theorem Queue.pairs_length (q : Queue) : q.pairs.length = q.candidates.length := by
  simp [Queue.pairs]

theorem pairs_modify (cs : List MergeCandidate) (f : MergeCandidate → MergeCandidate)
    (hf : ∀ c, (f c).pair = c.pair) (i : Nat) :
    (cs.modify f i).map (fun c => c.pair) = cs.map (fun c => c.pair) := by
  apply List.ext_getElem?
  intro n
  simp only [List.getElem?_map, List.getElem?_modify]
  by_cases h : i = n
  · subst h
    simp only [if_true]
    cases cs[i]? <;> simp [hf]
  · simp [h]

theorem IndexOK.mem_iff {index : List (Pair × Nat)} {pairs : List Pair}
    (h : IndexOK index pairs) (p : Pair) : p ∈ pairs ↔ ∃ i, index.lookup p = some i := by
  constructor
  · intro hp
    obtain ⟨i, hi⟩ := List.getElem?_of_mem hp
    exact ⟨i, (h p i).2 hi⟩
  · rintro ⟨i, hi⟩
    exact List.getElem?_mem ((h p i).1 hi)

theorem IndexOK.lookup_none {index : List (Pair × Nat)} {pairs : List Pair}
    (h : IndexOK index pairs) (p : Pair) (hn : index.lookup p = none) : p ∉ pairs := by
  intro hp
  obtain ⟨i, hi⟩ := (h.mem_iff p).1 hp
  rw [hn] at hi
  cases hi

theorem IndexOK.append {index : List (Pair × Nat)} {pairs : List Pair}
    (h : IndexOK index pairs) (p : Pair) (hn : index.lookup p = none) :
    IndexOK (index ++ [(p, pairs.length)]) (pairs ++ [p]) := by
  intro p' i
  rw [lookup_append_pair]
  cases hl : index.lookup p' with
  | some j =>
    have hj := (h p' j).1 hl
    have hjlt : j < pairs.length := by
      rcases Nat.lt_or_ge j pairs.length with hlt | hge
      · exact hlt
      · rw [List.getElem?_eq_none hge] at hj; cases hj
    simp only [Option.some.injEq]
    constructor
    · intro e; subst e
      rw [List.getElem?_append_left hjlt]; exact hj
    · intro e
      rcases Nat.lt_or_ge i pairs.length with hlt | hge
      · rw [List.getElem?_append_left hlt] at e
        have := (h p' i).2 e
        rw [hl] at this
        exact Option.some.inj this
      · rw [List.getElem?_append_right hge] at e
        have hi0 : i - pairs.length = 0 := by
          rcases Nat.eq_zero_or_pos (i - pairs.length) with h0 | hpos
          · exact h0
          · rw [List.getElem?_eq_none (by simp only [List.length_singleton]; omega)] at e; cases e
        rw [hi0] at e
        simp only [List.getElem?_cons_zero, Option.some.injEq] at e
        subst e
        rw [hn] at hl; cases hl
  | none =>
    simp only
    by_cases hpq : p' = p
    · subst hpq
      simp only [if_true, Option.some.injEq]
      constructor
      · intro e; subst e
        rw [List.getElem?_append_right (Nat.le_refl _)]; simp
      · intro e
        rcases Nat.lt_or_ge i pairs.length with hlt | hge
        · rw [List.getElem?_append_left hlt] at e
          have := (h p' i).2 e
          rw [hl] at this; cases this
        · rw [List.getElem?_append_right hge] at e
          rcases Nat.eq_zero_or_pos (i - pairs.length) with h0 | hpos
          · omega
          · rw [List.getElem?_eq_none (by simp only [List.length_singleton]; omega)] at e; cases e
    · simp only [hpq, if_false]
      constructor
      · intro e; cases e
      · intro e
        exfalso
        rcases Nat.lt_or_ge i pairs.length with hlt | hge
        · rw [List.getElem?_append_left hlt] at e
          have := (h p' i).2 e
          rw [hl] at this; cases this
        · rw [List.getElem?_append_right hge] at e
          rcases Nat.eq_zero_or_pos (i - pairs.length) with h0 | hpos
          · rw [h0] at e
            simp only [List.getElem?_cons_zero, Option.some.injEq] at e
            exact hpq e.symm
          · rw [List.getElem?_eq_none (by simp only [List.length_singleton]; omega)] at e; cases e

theorem Queue.Ext.refl (q : Queue) (h : IndexOK q.candidates_index q.pairs) : q.Ext q :=
  ⟨rfl, rfl, List.prefix_refl _, h⟩

theorem Queue.Ext.trans {q1 q2 q3 : Queue} (h12 : q1.Ext q2) (h23 : q2.Ext q3) : q1.Ext q3 :=
  ⟨h23.1.trans h12.1, h23.2.1.trans h12.2.1, h12.2.2.1.trans h23.2.2.1, h23.2.2.2⟩

theorem Queue.Ext.mem {q1 q2 : Queue} (h : q1.Ext q2) {p : Pair} (hp : p ∈ q1.pairs) :
    p ∈ q2.pairs :=
  h.2.2.1.subset hp

theorem Queue.update_candidate_pairs (q : Queue) (pair : Pair) (d : Int) (w : Nat) :
    (q.update_candidate pair d w).pairs =
      match q.candidates_index.lookup pair with
      | none => q.pairs ++ [pair]
      | some _ => q.pairs := by
  unfold Queue.update_candidate
  cases h : q.candidates_index.lookup pair with
  | none => simp [Queue.pairs]
  | some i =>
    simp only [Queue.pairs]
    apply pairs_modify
    intro c; rfl

theorem Queue.update_candidate_ext (q : Queue) (pair : Pair) (d : Int) (w : Nat)
    (h : IndexOK q.candidates_index q.pairs) :
    q.Ext (q.update_candidate pair d w) ∧ pair ∈ (q.update_candidate pair d w).pairs := by
  have hp := q.update_candidate_pairs pair d w
  cases hl : q.candidates_index.lookup pair with
  | none =>
    rw [hl] at hp
    have hci : (q.update_candidate pair d w).candidates_index =
        q.candidates_index ++ [(pair, q.pairs.length)] := by
      unfold Queue.update_candidate; rw [hl]; simp [Queue.pairs]
    have hv : (q.update_candidate pair d w).vocab = q.vocab := by
      unfold Queue.update_candidate; rw [hl]
    have hq : (q.update_candidate pair d w).queue = q.queue := by
      unfold Queue.update_candidate; rw [hl]
    refine ⟨⟨hv, hq, ?_, ?_⟩, ?_⟩
    · rw [hp]; exact List.prefix_append _ _
    · rw [hp, hci]; exact h.append pair hl
    · rw [hp]; simp
  | some i =>
    rw [hl] at hp
    have hci : (q.update_candidate pair d w).candidates_index = q.candidates_index := by
      unfold Queue.update_candidate; rw [hl]
    have hv : (q.update_candidate pair d w).vocab = q.vocab := by
      unfold Queue.update_candidate; rw [hl]
    have hq : (q.update_candidate pair d w).queue = q.queue := by
      unfold Queue.update_candidate; rw [hl]
    refine ⟨⟨hv, hq, ?_, ?_⟩, ?_⟩
    · rw [hp]
    · rw [hp, hci]; exact h
    · rw [hp]; exact (h.mem_iff pair).2 ⟨i, hl⟩

theorem Queue.update_candidate_real_count_ext (q : Queue) (pair : Pair) (d : Int)
    (h : IndexOK q.candidates_index q.pairs) (hp : pair ∈ q.pairs) :
    q.Ext (q.update_candidate_real_count pair d) ∧
      (q.update_candidate_real_count pair d).pairs = q.pairs := by
  obtain ⟨i, hi⟩ := (h.mem_iff pair).1 hp
  have hr : index_or_insert q.candidates_index pair = (i, q.candidates_index) := by
    unfold index_or_insert; rw [hi]
  have hpairs : (q.update_candidate_real_count pair d).pairs = q.pairs := by
    unfold Queue.update_candidate_real_count
    simp only [Queue.pairs]
    apply pairs_modify
    intro c; rfl
  refine ⟨⟨rfl, rfl, ?_, ?_⟩, hpairs⟩
  · rw [hpairs]
  · rw [hpairs]
    unfold Queue.update_candidate_real_count
    simp only [hr]
    exact h

theorem Queue.update_candidate_real_count_pairs (q : Queue) (pair : Pair) (d : Int) :
    (q.update_candidate_real_count pair d).pairs = q.pairs := by
  unfold Queue.update_candidate_real_count
  simp only [Queue.pairs]
  apply pairs_modify
  intro c; rfl

end bpe

namespace bpe

/-! ## The rewriting scan of `Queue::merge` -/

theorem adjacent_pairs_cons_cons (a b : Nat) (rest : List Nat) :
    adjacent_pairs (a :: b :: rest) = (a, b) :: adjacent_pairs (b :: rest) := rfl

theorem adjacent_pairs_mem_tail {a : Nat} {l : List Nat} {p : Pair}
    (h : p ∈ adjacent_pairs l) : p ∈ adjacent_pairs (a :: l) := by
  cases l with
  | nil => simp [adjacent_pairs] at h
  | cons b rest => rw [adjacent_pairs_cons_cons]; exact List.mem_cons_of_mem _ h

theorem adjacent_pairs_append_singleton (l : List Nat) (x : Nat) (p : Pair) :
    p ∈ adjacent_pairs (l ++ [x]) ↔
      p ∈ adjacent_pairs l ∨ ∃ y, l.getLast? = some y ∧ p = (y, x) := by
  induction l with
  | nil => simp [adjacent_pairs]
  | cons a t ih =>
    cases t with
    | nil => simp [adjacent_pairs]
    | cons b t2 =>
      have e1 : adjacent_pairs ((a :: b :: t2) ++ [x]) =
          (a, b) :: adjacent_pairs ((b :: t2) ++ [x]) := rfl
      have e2 : (a :: b :: t2).getLast? = (b :: t2).getLast? := by
        simp [List.getLast?_cons_cons]
      rw [e1, adjacent_pairs_cons_cons, List.mem_cons, List.mem_cons, ih, e2]
      tauto

theorem getLast?_snoc (l : List Nat) (x : Nat) : (l ++ [x]).getLast? = some x := by
  simp [List.getLast?_append, Option.or]

theorem getLastD_eq_of_getLast? {l : List Nat} {y d : Nat} (h : l.getLast? = some y) :
    l.getLastD d = y := by
  cases l with
  | nil => simp at h
  | cons a t =>
    rw [List.getLast?_eq_getLast _ (by simp)] at h
    simp only [Option.some.injEq] at h
    simp only [List.getLastD_cons]
    rw [← h]
    exact (List.getLast_eq_getLastD a t (by simp)).symm ▸ rfl

theorem set_insert_mem {α : Type} [DecidableEq α] (s : List α) (x y : α) :
    y ∈ set_insert s x ↔ y ∈ s ∨ y = x := by
  unfold set_insert
  split
  · constructor
    · exact Or.inl
    · rintro (h | h)
      · exact h
      · subst h; assumption
  · simp

theorem set_insert_nodup {α : Type} [DecidableEq α] (s : List α) (x : α) (h : s.Nodup) :
    (set_insert s x).Nodup := by
  unfold set_insert
  split
  · exact h
  · rename_i hx
    rw [List.nodup_append]
    refine ⟨h, List.nodup_singleton x, ?_⟩
    intro a ha hb
    simp only [List.mem_singleton] at hb
    subst hb
    exact hx ha

theorem merge_left_spec (pair : Pair) (new_id : Nat) (count : Int) (vi : Nat)
    (prev : Option Nat) (new_ids : List Nat)
    (st : MergeState) (h : IndexOK st.1.candidates_index st.1.pairs)
    (hl : ∀ left, prev = some left → (left, pair.1) ∈ st.1.pairs)
    (hE : prev = none ↔ new_ids = [])
    (hN : ∀ p ∈ st.2, p ∈ st.1.pairs) :
    st.1.Ext (merge_left pair new_id count vi prev new_ids st).1 ∧
      (∀ y, new_ids.getLast? = some y →
        (y, new_id) ∈ (merge_left pair new_id count vi prev new_ids st).1.pairs) ∧
      (∀ p ∈ (merge_left pair new_id count vi prev new_ids st).2,
        p ∈ (merge_left pair new_id count vi prev new_ids st).1.pairs) := by
  cases prev with
  | none =>
    refine ⟨Queue.Ext.refl _ h, ?_, hN⟩
    intro y hy
    have : new_ids = [] := hE.1 rfl
    subst this
    simp at hy
  | some left =>
    obtain ⟨e1, _⟩ := st.1.update_candidate_real_count_ext (left, pair.1) (-count) h
      (hl left rfl)
    obtain ⟨e2, m2⟩ :=
      (st.1.update_candidate_real_count (left, pair.1) (-count)).update_candidate_ext
        (new_ids.getLastD 0, new_id) count vi e1.2.2.2
    have e := e1.trans e2
    refine ⟨e, ?_, ?_⟩
    · intro y hy
      have := getLastD_eq_of_getLast? (d := 0) hy
      simp only [merge_left]
      rw [← this]; exact m2
    · intro p hp
      simp only [merge_left] at hp ⊢
      rcases (set_insert_mem _ _ _).1 hp with hp | hp
      · exact e.mem (hN p hp)
      · subst hp; exact m2

theorem merge_right_spec (pair : Pair) (new_id : Nat) (count : Int) (vi : Nat)
    (rest : List Nat)
    (st : MergeState) (h : IndexOK st.1.candidates_index st.1.pairs)
    (hl : ∀ right tl, rest = right :: tl → (pair.2, right) ∈ st.1.pairs)
    (hN : ∀ p ∈ st.2, p ∈ st.1.pairs) :
    st.1.Ext (merge_right pair new_id count vi rest st).1 ∧
      (∀ right tl, rest = right :: tl →
        (new_id, right) ∈ (merge_right pair new_id count vi rest st).1.pairs) ∧
      (∀ p ∈ (merge_right pair new_id count vi rest st).2,
        p ∈ (merge_right pair new_id count vi rest st).1.pairs) := by
  cases rest with
  | nil =>
    refine ⟨Queue.Ext.refl _ h, ?_, hN⟩
    intro r tl hr; cases hr
  | cons right tl =>
    obtain ⟨e1, _⟩ := st.1.update_candidate_real_count_ext (pair.2, right) (-count) h
      (hl right tl rfl)
    obtain ⟨e2, m2⟩ :=
      (st.1.update_candidate_real_count (pair.2, right) (-count)).update_candidate_ext
        (new_id, right) count vi e1.2.2.2
    have e := e1.trans e2
    refine ⟨e, ?_, ?_⟩
    · intro r tl' hr
      simp only [List.cons.injEq] at hr
      rw [← hr.1]
      exact m2
    · intro p hp
      simp only [merge_right] at hp ⊢
      rcases (set_insert_mem _ _ _).1 hp with hp | hp
      · exact e.mem (hN p hp)
      · subst hp; exact m2

/-- The scan keeps the index map consistent and leaves every pair adjacent in the rewritten
sequence, and every pair of `new_pairs`, with a candidate record. -/
theorem merge_scan_tracks (pair : Pair) (new_id : Nat) (count : Int) (vi : Nat) (n : Nat) :
    ∀ (prev : Option Nat) (rest new_ids : List Nat) (st : MergeState),
      rest.length ≤ n →
      IndexOK st.1.candidates_index st.1.pairs →
      (∀ p ∈ adjacent_pairs rest, p ∈ st.1.pairs) →
      (∀ l a tl, prev = some l → rest = a :: tl → (l, a) ∈ st.1.pairs) →
      (∀ p ∈ adjacent_pairs new_ids, p ∈ st.1.pairs) →
      (∀ y a tl, new_ids.getLast? = some y → rest = a :: tl → (y, a) ∈ st.1.pairs) →
      (prev = none ↔ new_ids = []) →
      (∀ p ∈ st.2, p ∈ st.1.pairs) →
      st.1.Ext (merge_scan pair new_id count vi prev rest new_ids st).2.1 ∧
      (∀ p ∈ adjacent_pairs (merge_scan pair new_id count vi prev rest new_ids st).1,
        p ∈ (merge_scan pair new_id count vi prev rest new_ids st).2.1.pairs) ∧
      (∀ p ∈ (merge_scan pair new_id count vi prev rest new_ids st).2.2,
        p ∈ (merge_scan pair new_id count vi prev rest new_ids st).2.1.pairs) := by
  induction n with
  | zero =>
    intro prev rest new_ids st hn hI _ _ hC _ _ hN
    have : rest = [] := List.length_eq_zero.1 (Nat.le_zero.1 hn)
    subst this
    simp only [merge_scan]
    exact ⟨Queue.Ext.refl _ hI, hC, hN⟩
  | succ n ih =>
    intro prev rest new_ids st hn hI hA hB hC hD hE hN
    match rest, hn, hA, hB, hD with
    | [], _, _, _, _ =>
      simp only [merge_scan]
      exact ⟨Queue.Ext.refl _ hI, hC, hN⟩
    | [a], _, _, _, hD =>
      simp only [merge_scan]
      refine ⟨Queue.Ext.refl _ hI, ?_, hN⟩
      intro p hp
      rcases (adjacent_pairs_append_singleton new_ids a p).1 hp with hp | ⟨y, hy, rfl⟩
      · exact hC p hp
      · exact hD y a [] hy rfl
    | a :: b :: tail, hn, hA, hB, hD =>
      simp only [merge_scan]
      split
      · -- a match: the pair is replaced by `new_id`
        rename_i hab
        obtain ⟨e1, m1, n1⟩ := merge_left_spec pair new_id count vi prev new_ids st hI
          (fun left hl => by
            have := hB left a (b :: tail) hl rfl
            rw [hab.1] at this; exact this) hE hN
        obtain ⟨e2, m2, n2⟩ := merge_right_spec pair new_id count vi tail
          (merge_left pair new_id count vi prev new_ids st) e1.2.2.2
          (fun right tl ht => by
            subst ht
            have : (b, right) ∈ adjacent_pairs (a :: b :: right :: tl) := by
              simp [adjacent_pairs]
            have := e1.mem (hA _ this)
            rw [hab.2] at this; exact this) n1
        have e12 := e1.trans e2
        have hrec := ih (some b) tail (new_ids ++ [new_id]) _
          (by simp only [List.length_cons] at hn; omega) e2.2.2.2
          (fun p hp => e12.mem (hA p (adjacent_pairs_mem_tail (adjacent_pairs_mem_tail hp))))
          (fun l a' tl hl ht => by
            simp only [Option.some.injEq] at hl
            subst hl; subst ht
            exact e12.mem (hA _ (by simp [adjacent_pairs])))
          (fun p hp => by
            rcases (adjacent_pairs_append_singleton new_ids new_id p).1 hp with hp | ⟨y, hy, rfl⟩
            · exact e12.mem (hC p hp)
            · exact e2.mem (m1 y hy))
          (fun y a' tl hy ht => by
            rw [getLast?_snoc, Option.some.injEq] at hy
            subst hy
            exact m2 a' tl ht)
          (by simp)
          n2
        exact ⟨e12.trans hrec.1, hrec.2.1, hrec.2.2⟩
      · -- no match: `ids[i]` is copied
        have hrec := ih (some a) (b :: tail) (new_ids ++ [a]) st
          (by simp only [List.length_cons] at hn ⊢; omega) hI
          (fun p hp => hA p (adjacent_pairs_mem_tail hp))
          (fun l a' tl hl ht => by
            simp only [Option.some.injEq] at hl
            simp only [List.cons.injEq] at ht
            subst hl; rw [← ht.1]
            exact hA _ (by simp [adjacent_pairs]))
          (fun p hp => by
            rcases (adjacent_pairs_append_singleton new_ids a p).1 hp with hp | ⟨y, hy, rfl⟩
            · exact hC p hp
            · exact hD y a (b :: tail) hy rfl)
          (fun y a' tl hy ht => by
            rw [getLast?_snoc, Option.some.injEq] at hy
            simp only [List.cons.injEq] at ht
            subst hy; rw [← ht.1]
            exact hA _ (by simp [adjacent_pairs]))
          (by simp)
          hN
        exact hrec

end bpe

namespace bpe

/-! ## `Queue::merge`: bounds, new pairs and the heap -/

theorem Queue.update_candidate_pairs_mem (q : Queue) (pair : Pair) (d : Int) (w : Nat)
    (p : Pair) (hp : p ∈ (q.update_candidate pair d w).pairs) : p ∈ q.pairs ∨ p = pair := by
  rw [q.update_candidate_pairs] at hp
  cases h : q.candidates_index.lookup pair with
  | none => rw [h] at hp; simpa using hp
  | some i => rw [h] at hp; exact Or.inl hp

theorem merge_left_pairs_mem (pair : Pair) (new_id : Nat) (count : Int) (vi : Nat)
    (prev : Option Nat) (new_ids : List Nat) (st : MergeState) (p : Pair)
    (hp : p ∈ (merge_left pair new_id count vi prev new_ids st).1.pairs) :
    p ∈ st.1.pairs ∨ (prev ≠ none ∧ p = (new_ids.getLastD 0, new_id)) := by
  cases prev with
  | none => exact Or.inl hp
  | some left =>
    simp only [merge_left] at hp
    rcases Queue.update_candidate_pairs_mem _ _ _ _ _ hp with h | h
    · rw [Queue.update_candidate_real_count_pairs] at h; exact Or.inl h
    · exact Or.inr ⟨by simp, h⟩

theorem merge_right_pairs_mem (pair : Pair) (new_id : Nat) (count : Int) (vi : Nat)
    (rest : List Nat) (st : MergeState) (p : Pair)
    (hp : p ∈ (merge_right pair new_id count vi rest st).1.pairs) :
    p ∈ st.1.pairs ∨ ∃ right tl, rest = right :: tl ∧ p = (new_id, right) := by
  cases rest with
  | nil => exact Or.inl hp
  | cons right tl =>
    simp only [merge_right] at hp
    rcases Queue.update_candidate_pairs_mem _ _ _ _ _ hp with h | h
    · rw [Queue.update_candidate_real_count_pairs] at h; exact Or.inl h
    · exact Or.inr ⟨right, tl, rfl, h⟩

theorem merge_left_new_pairs (pair : Pair) (new_id : Nat) (count : Int) (vi : Nat)
    (prev : Option Nat) (new_ids : List Nat) (st : MergeState) :
    ((merge_left pair new_id count vi prev new_ids st).2 = st.2 ∨
      (merge_left pair new_id count vi prev new_ids st).2 =
        set_insert st.2 (new_ids.getLastD 0, new_id)) := by
  cases prev with
  | none => exact Or.inl rfl
  | some left => exact Or.inr rfl

theorem merge_right_new_pairs (pair : Pair) (new_id : Nat) (count : Int) (vi : Nat)
    (rest : List Nat) (st : MergeState) :
    ((merge_right pair new_id count vi rest st).2 = st.2 ∨
      ∃ right, (merge_right pair new_id count vi rest st).2 =
        set_insert st.2 (new_id, right)) := by
  cases rest with
  | nil => exact Or.inl rfl
  | cons right tl => exact Or.inr ⟨right, rfl⟩

theorem getLastD_mem_or (l : List Nat) (d : Nat) : l.getLastD d ∈ l ∨ l.getLastD d = d := by
  cases l with
  | nil => exact Or.inr rfl
  | cons a t =>
    left
    rw [List.getLastD_cons, ← List.getLast_eq_getLastD a t (by simp)]
    exact List.getLast_mem _

/-- The scan introduces no token id and no candidate pair outside the bound `V`, and every
pair it adds to `new_pairs` contains `new_id`. -/
theorem merge_scan_below (pair : Pair) (new_id : Nat) (count : Int) (vi V : Nat)
    (hV : new_id < V) (n : Nat) :
    ∀ (prev : Option Nat) (rest new_ids : List Nat) (st : MergeState),
      rest.length ≤ n →
      (∀ x ∈ rest, x < V) → (∀ x ∈ new_ids, x < V) →
      (∀ p ∈ st.1.pairs, p.1 < V ∧ p.2 < V) →
      (∀ p ∈ st.2, p.1 = new_id ∨ p.2 = new_id) → st.2.Nodup →
      (∀ x ∈ (merge_scan pair new_id count vi prev rest new_ids st).1, x < V) ∧
      (∀ p ∈ (merge_scan pair new_id count vi prev rest new_ids st).2.1.pairs,
        p.1 < V ∧ p.2 < V) ∧
      (∀ p ∈ (merge_scan pair new_id count vi prev rest new_ids st).2.2,
        p.1 = new_id ∨ p.2 = new_id) ∧
      (merge_scan pair new_id count vi prev rest new_ids st).2.2.Nodup := by
  induction n with
  | zero =>
    intro prev rest new_ids st hn _ hN hP hS hD
    have : rest = [] := List.length_eq_zero.1 (Nat.le_zero.1 hn)
    subst this
    simp only [merge_scan]
    exact ⟨hN, hP, hS, hD⟩
  | succ n ih =>
    intro prev rest new_ids st hn hR hN hP hS hD
    match rest, hn, hR with
    | [], _, _ =>
      simp only [merge_scan]
      exact ⟨hN, hP, hS, hD⟩
    | [a], _, hR =>
      simp only [merge_scan]
      refine ⟨?_, hP, hS, hD⟩
      intro x hx
      rcases List.mem_append.1 hx with hx | hx
      · exact hN x hx
      · exact hR x (by simpa using hx)
    | a :: b :: tail, hn, hR =>
      simp only [merge_scan]
      have hpos : 0 < V := Nat.lt_of_le_of_lt (Nat.zero_le _) hV
      split
      · apply ih
        · simp only [List.length_cons] at hn; omega
        · intro x hx; exact hR x (by simp [hx])
        · intro x hx
          rcases List.mem_append.1 hx with hx | hx
          · exact hN x hx
          · simp only [List.mem_singleton] at hx; subst hx; exact hV
        · intro p hp
          rcases merge_right_pairs_mem _ _ _ _ _ _ _ hp with hp | ⟨right, tl, ht, rfl⟩
          · rcases merge_left_pairs_mem _ _ _ _ _ _ _ _ hp with hp | ⟨_, rfl⟩
            · exact hP p hp
            · refine ⟨?_, hV⟩
              rcases getLastD_mem_or new_ids 0 with h | h
              · exact hN _ h
              · simp only [h]; exact hpos
          · exact ⟨hV, hR right (by simp [ht])⟩
        · intro p hp
          have hl : ∀ p ∈ (merge_left pair new_id count vi prev new_ids st).2,
              p.1 = new_id ∨ p.2 = new_id := by
            intro p hp
            rcases merge_left_new_pairs pair new_id count vi prev new_ids st with h | h
            · rw [h] at hp; exact hS p hp
            · rw [h] at hp
              rcases (set_insert_mem _ _ _).1 hp with hp | hp
              · exact hS p hp
              · subst hp; exact Or.inr rfl
          rcases merge_right_new_pairs pair new_id count vi tail
            (merge_left pair new_id count vi prev new_ids st) with h | ⟨right, h⟩
          · rw [h] at hp; exact hl p hp
          · rw [h] at hp
            rcases (set_insert_mem _ _ _).1 hp with hp | hp
            · exact hl p hp
            · subst hp; exact Or.inl rfl
        · have hl : (merge_left pair new_id count vi prev new_ids st).2.Nodup := by
            rcases merge_left_new_pairs pair new_id count vi prev new_ids st with h | h
            · rw [h]; exact hD
            · rw [h]; exact set_insert_nodup _ _ hD
          rcases merge_right_new_pairs pair new_id count vi tail
            (merge_left pair new_id count vi prev new_ids st) with h | ⟨right, h⟩
          · rw [h]; exact hl
          · rw [h]; exact set_insert_nodup _ _ hl
      · apply ih
        · simp only [List.length_cons] at hn ⊢; omega
        · intro x hx; exact hR x (by simp only [List.mem_cons] at hx ⊢; tauto)
        · intro x hx
          rcases List.mem_append.1 hx with hx | hx
          · exact hN x hx
          · simp only [List.mem_singleton] at hx; subst hx; exact hR _ (by simp)
        · exact hP
        · exact hS
        · exact hD

theorem mem_modify_imp {α : Type} (f : α → α) (l : List α) (i : Nat) (x : α)
    (h : x ∈ l.modify f i) : x ∈ l ∨ ∃ y, l[i]? = some y ∧ x = f y := by
  obtain ⟨n, hn⟩ := List.getElem?_of_mem h
  rw [List.getElem?_modify] at hn
  cases hy : l[n]? with
  | none => rw [hy] at hn; simp at hn
  | some y =>
    rw [hy] at hn
    by_cases e : i = n
    · subst e
      simp only [if_true, Option.map_eq_map, Option.map_some', Option.some.injEq] at hn
      exact Or.inr ⟨y, hy, hn.symm⟩
    · simp only [e, if_false, Option.map_eq_map, Option.map_some', Option.some.injEq] at hn
      subst hn
      exact Or.inl (List.getElem?_mem hy)

theorem getD_mem_or {α : Type} (l : List α) (i : Nat) (d : α) :
    (l[i]? = some (l.getD i d) ∧ l.getD i d ∈ l) ∨ (l[i]? = none ∧ l.getD i d = d) := by
  rw [List.getD_eq_getElem?_getD]
  cases h : l[i]? with
  | none => exact Or.inr ⟨rfl, rfl⟩
  | some y => exact Or.inl ⟨rfl, List.getElem?_mem h⟩

/-- Invariant of the loop of `Queue::merge` over the entries of `where`. -/
theorem merge_entry_spec (pair : Pair) (new_id : Nat) (st : MergeState) (vi : Nat)
    (hI : IndexOK st.1.candidates_index st.1.pairs) (hT : st.1.Tracks)
    (hN : ∀ p ∈ st.2, p ∈ st.1.pairs)
    (hB : st.1.Below (new_id + 1))
    (hS : ∀ p ∈ st.2, p.1 = new_id ∨ p.2 = new_id) (hD : st.2.Nodup) :
    IndexOK (merge_entry pair new_id st vi).1.candidates_index
        (merge_entry pair new_id st vi).1.pairs ∧
      (merge_entry pair new_id st vi).1.Tracks ∧
      (∀ p ∈ (merge_entry pair new_id st vi).2, p ∈ (merge_entry pair new_id st vi).1.pairs) ∧
      (merge_entry pair new_id st vi).1.Below (new_id + 1) ∧
      (∀ p ∈ (merge_entry pair new_id st vi).2, p.1 = new_id ∨ p.2 = new_id) ∧
      (merge_entry pair new_id st vi).2.Nodup ∧
      st.1.pairs <+: (merge_entry pair new_id st vi).1.pairs ∧
      (merge_entry pair new_id st vi).1.queue = st.1.queue := by
  have hentry : ∀ p ∈ adjacent_pairs (st.1.vocab.getD vi VocabEntry.absent).ids,
      p ∈ st.1.pairs := by
    rcases getD_mem_or st.1.vocab vi VocabEntry.absent with ⟨_, h⟩ | ⟨_, h⟩
    · exact hT _ h
    · rw [h]; intro p hp; simp [VocabEntry.absent, adjacent_pairs] at hp
  have hids : ∀ x ∈ (st.1.vocab.getD vi VocabEntry.absent).ids, x < new_id + 1 := by
    rcases getD_mem_or st.1.vocab vi VocabEntry.absent with ⟨_, h⟩ | ⟨_, h⟩
    · exact hB.1 _ h
    · rw [h]; intro p hp; simp [VocabEntry.absent] at hp
  obtain ⟨e, t1, t2⟩ := merge_scan_tracks pair new_id
    ((st.1.vocab.getD vi VocabEntry.absent).count : Int) vi _ none
    (st.1.vocab.getD vi VocabEntry.absent).ids [] st (Nat.le_refl _) hI hentry
    (fun l a tl h _ => by cases h) (fun p hp => by simp [adjacent_pairs] at hp)
    (fun y a tl h _ => by simp at h) (by simp) hN
  obtain ⟨b1, b2, b3, b4⟩ := merge_scan_below pair new_id
    ((st.1.vocab.getD vi VocabEntry.absent).count : Int) vi (new_id + 1) (Nat.lt_succ_self _) _
    none (st.1.vocab.getD vi VocabEntry.absent).ids [] st (Nat.le_refl _) hids
    (fun x hx => by simp at hx) hB.2 hS hD
  unfold merge_entry
  simp only
  generalize merge_scan pair new_id ((st.1.vocab.getD vi VocabEntry.absent).count : Int) vi none
    (st.1.vocab.getD vi VocabEntry.absent).ids [] st = r at *
  obtain ⟨out, q', np⟩ := r
  simp only at e t1 t2 b1 b2 b3 b4 ⊢
  have hvocab : ∀ e' ∈ q'.vocab.modify (fun e => { e with ids := out }) vi,
      e' ∈ st.1.vocab ∨ e'.ids = out := by
    intro e' he'
    rcases mem_modify_imp _ _ _ _ he' with h | ⟨y, _, rfl⟩
    · rw [e.1] at h; exact Or.inl h
    · exact Or.inr rfl
  refine ⟨e.2.2.2, ?_, t2, ⟨?_, b2⟩, b3, b4, e.2.2.1, e.2.1⟩
  · intro e' he' p hp
    rcases hvocab e' he' with h | h
    · exact e.mem (hT e' h p hp)
    · rw [h] at hp; exact t1 p hp
  · intro e' he' x hx
    rcases hvocab e' he' with h | h
    · exact hB.1 e' h x hx
    · rw [h] at hx; exact b1 x hx

end bpe

namespace bpe

/-! ## `Queue::merge` as a whole, and `Queue::pop` -/

theorem merge_fold_inv (pair : Pair) (new_id : Nat) (q0 : Queue) (ws : List Nat) :
    ∀ st : MergeState, MergeInv new_id q0 st →
      MergeInv new_id q0 (ws.foldl (merge_entry pair new_id) st) := by
  induction ws with
  | nil => intro st h; exact h
  | cons w rest ih =>
    intro st h
    obtain ⟨hI, hT, hN, hB, hS, hD, hP, hQ⟩ := h
    obtain ⟨a1, a2, a3, a4, a5, a6, a7, a8⟩ := merge_entry_spec pair new_id st w hI hT hN hB hS hD
    exact ih _ ⟨a1, a2, a3, a4, a5, a6, hP.trans a7, a8.trans hQ⟩

theorem push_new_pair_fold (ps : List Pair) :
    ∀ q : Queue, IndexOK q.candidates_index q.pairs → (∀ p ∈ ps, p ∈ q.pairs) →
      (ps.foldl push_new_pair q).vocab = q.vocab ∧
      (ps.foldl push_new_pair q).candidates = q.candidates ∧
      (ps.foldl push_new_pair q).candidates_index = q.candidates_index ∧
      (ps.foldl push_new_pair q).queue =
        q.queue ++ ps.map (fun p => (q.candidates_index.lookup p).getD 0) := by
  induction ps with
  | nil => intro q _ _; simp
  | cons p rest ih =>
    intro q hI hp
    obtain ⟨i, hi⟩ := (hI.mem_iff p).1 (hp p (by simp))
    have h1 : push_new_pair q p = { q with queue := q.queue ++ [i] } := by
      unfold push_new_pair index_or_insert
      rw [hi]
    obtain ⟨a1, a2, a3, a4⟩ :=
      ih { q with queue := q.queue ++ [i] } hI (fun p' hp' => hp p' (by simp [hp']))
    rw [List.foldl_cons, h1]
    refine ⟨a1, a2, a3, ?_⟩
    rw [a4]
    simp [hi]

theorem IsPrefix_getElem? {α : Type} {l1 l2 : List α} (h : l1 <+: l2) {i : Nat}
    (hi : i < l1.length) : l2[i]? = l1[i]? := by
  obtain ⟨t, rfl⟩ := h
  exact List.getElem?_append_left hi

/-- What one call of `Queue::merge` guarantees. -/
theorem Queue.merge_spec (q : Queue) (pair : Pair) (new_id : Nat)
    (hI : IndexOK q.candidates_index q.pairs) (hT : q.Tracks) (hH : q.HeapOK)
    (hB : q.Below new_id) (hp : pair ∈ q.pairs) :
    IndexOK (q.merge pair new_id).candidates_index (q.merge pair new_id).pairs ∧
      (q.merge pair new_id).Tracks ∧ (q.merge pair new_id).HeapOK ∧
      (q.merge pair new_id).Below (new_id + 1) ∧
      q.pairs <+: (q.merge pair new_id).pairs ∧
      (∀ i ∈ (q.merge pair new_id).queue, i ∈ q.queue ∨
        ∃ p, (q.merge pair new_id).pairs[i]? = some p ∧ (p.1 = new_id ∨ p.2 = new_id)) := by
  obtain ⟨idx, hidx⟩ := (hI.mem_iff pair).1 hp
  have hr : index_or_insert q.candidates_index pair = (idx, q.candidates_index) := by
    unfold index_or_insert; rw [hidx]
  have hB1 : q.Below (new_id + 1) :=
    ⟨fun e he x hx => Nat.lt_succ_of_lt (hB.1 e he x hx),
     fun p hp => ⟨Nat.lt_succ_of_lt (hB.2 p hp).1, Nat.lt_succ_of_lt (hB.2 p hp).2⟩⟩
  have h0 : MergeInv new_id q (q, []) :=
    ⟨hI, hT, by simp, hB1, by simp, List.nodup_nil, List.prefix_refl _, rfl⟩
  have hfold := merge_fold_inv pair new_id q (q.candidate idx).where_ (q, []) h0
  unfold Queue.merge
  simp only [hr]
  have hq0 : ({ q with candidates_index := q.candidates_index } : Queue) = q := rfl
  rw [hq0]
  generalize (q.candidate idx).where_.foldl (merge_entry pair new_id) (q, []) = st at *
  obtain ⟨hI', hT', hN', hB', hS', hD', hP', hQ'⟩ := hfold
  have hpairs2 : (st.1.clear_candidate idx).pairs = st.1.pairs := by
    simp only [Queue.pairs, Queue.clear_candidate]
    apply pairs_modify
    intro c; rfl
  obtain ⟨f1, f2, f3, f4⟩ := push_new_pair_fold st.2 (st.1.clear_candidate idx)
    (by rw [hpairs2]; exact hI') (by rw [hpairs2]; exact hN')
  generalize st.2.foldl push_new_pair (st.1.clear_candidate idx) = qf at *
  have hpairs3 : qf.pairs = st.1.pairs := by
    rw [← hpairs2]; simp only [Queue.pairs, f2]
  have hlen3 : qf.candidates.length = st.1.candidates.length := by
    rw [f2]; simp [Queue.clear_candidate]
  have hq3 : qf.queue =
      q.queue ++ st.2.map (fun p => (st.1.candidates_index.lookup p).getD 0) := by
    rw [f4]
    show st.1.queue ++ _ = _
    rw [hQ']
    rfl
  have hv3 : qf.vocab = st.1.vocab := f1
  have hci3 : qf.candidates_index = st.1.candidates_index := f3
  have hnew : ∀ p ∈ st.2, ∃ i, st.1.candidates_index.lookup p = some i ∧
      st.1.pairs[i]? = some p ∧ q.pairs.length ≤ i := by
    intro p hp
    obtain ⟨i, hi⟩ := (hI'.mem_iff p).1 (hN' p hp)
    refine ⟨i, hi, (hI' p i).1 hi, ?_⟩
    by_contra hlt
    have hlt : i < q.pairs.length := Nat.lt_of_not_le hlt
    have := IsPrefix_getElem? hP' hlt
    rw [(hI' p i).1 hi] at this
    have hmem : p ∈ q.pairs := List.getElem?_mem this.symm
    have hb := hB.2 p hmem
    rcases hS' p hp with h | h <;> omega
  refine ⟨by rw [hpairs3, hci3]; exact hI', ?_, ⟨?_, ?_⟩, ?_, by rw [hpairs3]; exact hP', ?_⟩
  · intro e he p hp
    rw [hpairs3]
    rw [hv3] at he
    exact hT' e he p hp
  · rw [hq3, List.nodup_append]
    refine ⟨hH.1, ?_, ?_⟩
    · refine List.Nodup.map_on ?_ hD'
      intro x hx y hy hxy
      obtain ⟨i, hi, hi2, _⟩ := hnew x hx
      obtain ⟨j, hj, hj2, _⟩ := hnew y hy
      rw [hi, hj] at hxy
      simp only [Option.getD_some] at hxy
      subst hxy
      rw [hi2] at hj2
      exact Option.some.inj hj2
    · intro a ha hb
      simp only [List.mem_map] at hb
      obtain ⟨p, hp, rfl⟩ := hb
      obtain ⟨i, hi, _, hge⟩ := hnew p hp
      rw [hi] at ha
      simp only [Option.getD_some] at ha
      have := hH.2 i ha
      rw [← q.pairs_length] at this
      omega
  · intro i hi
    simp only [hlen3]
    rw [hq3] at hi
    rcases List.mem_append.1 hi with hi | hi
    · have := hH.2 i hi
      rw [← q.pairs_length] at this
      have hle := hP'.length_le
      rw [← Queue.pairs_length]
      omega
    · simp only [List.mem_map] at hi
      obtain ⟨p, hp, rfl⟩ := hi
      obtain ⟨i, hi, hi2, _⟩ := hnew p hp
      rw [hi]
      simp only [Option.getD_some]
      rw [← Queue.pairs_length]
      exact (List.getElem?_eq_some.1 hi2).1
  · refine ⟨fun e he => hB'.1 e (by rw [hv3] at he; exact he), ?_⟩
    rw [hpairs3]
    exact hB'.2
  · intro i hi
    rw [hpairs3]
    rw [hq3] at hi
    rcases List.mem_append.1 hi with hi | hi
    · exact Or.inl hi
    · right
      simp only [List.mem_map] at hi
      obtain ⟨p, hp, rfl⟩ := hi
      obtain ⟨i, hi, hi2, _⟩ := hnew p hp
      rw [hi]
      exact ⟨p, hi2, hS' p hp⟩

theorem heap_top_mem (key : Nat → Nat) (l : List Nat) (i : Nat)
    (h : heap_top key l = some i) : i ∈ l := by
  induction l generalizing i with
  | nil => simp [heap_top] at h
  | cons a rest ih =>
    simp only [heap_top] at h
    cases hr : heap_top key rest with
    | none =>
      rw [hr] at h
      simp only [Option.some.injEq] at h
      subst h; simp
    | some j =>
      rw [hr] at h
      simp only at h
      split at h
      · simp only [Option.some.injEq] at h
        subst h
        exact List.mem_cons_of_mem _ (ih j hr)
      · simp only [Option.some.injEq] at h
        subst h; simp

theorem Queue.pop_non_zero_spec (fuel : Nat) :
    ∀ q : Queue,
      (q.pop_non_zero fuel).2.vocab = q.vocab ∧
      (q.pop_non_zero fuel).2.candidates = q.candidates ∧
      (q.pop_non_zero fuel).2.candidates_index = q.candidates_index ∧
      (q.pop_non_zero fuel).2.queue.Sublist q.queue ∧
      (∀ idx, (q.pop_non_zero fuel).1 = some idx →
        idx ∈ q.queue ∧ (q.queue.Nodup → idx ∉ (q.pop_non_zero fuel).2.queue)) := by
  induction fuel with
  | zero =>
    intro q
    simp only [Queue.pop_non_zero]
    exact ⟨by simp, by simp, by simp, List.Sublist.refl _, fun idx h => by cases h⟩
  | succ n ih =>
    intro q
    simp only [Queue.pop_non_zero]
    cases ht : heap_top (fun i => (q.candidate i).queue_count) q.queue with
    | none =>
      simp only
      exact ⟨by simp, by simp, by simp, List.Sublist.refl _, fun idx h => by cases h⟩
    | some index =>
      simp only
      have hmem := heap_top_mem _ _ _ ht
      split
      · refine ⟨by simp, by simp, by simp, List.erase_sublist _ _, ?_⟩
        intro idx h
        simp only [Option.some.injEq] at h
        subst h
        exact ⟨hmem, fun hnd => by simp [hnd.mem_erase_iff]⟩
      · obtain ⟨a1, a2, a3, a4, a5⟩ := ih { q with queue := q.queue.erase index }
        refine ⟨a1, a2, a3, a4.trans (List.erase_sublist _ _), ?_⟩
        intro idx h
        obtain ⟨b1, b2⟩ := a5 idx h
        exact ⟨List.mem_of_mem_erase b1, fun hnd => b2 (hnd.erase _)⟩

theorem Queue.candidate_pair (q : Queue) (i : Nat) (h : i < q.candidates.length) :
    q.pairs[i]? = some (q.candidate i).pair := by
  simp only [Queue.pairs, Queue.candidate, List.getElem?_map, List.getD_eq_getElem?_getD]
  rw [List.getElem?_eq_getElem h]
  rfl

/-- What one call of `Queue::pop` guarantees. -/
theorem Queue.pop_loop_spec (fuel : Nat) :
    ∀ q : Queue, q.HeapOK →
      (q.pop_loop fuel).2.vocab = q.vocab ∧
      (q.pop_loop fuel).2.candidates_index = q.candidates_index ∧
      (q.pop_loop fuel).2.pairs = q.pairs ∧
      (q.pop_loop fuel).2.HeapOK ∧
      (∀ i ∈ (q.pop_loop fuel).2.queue, i ∈ q.queue) ∧
      (∀ p, (q.pop_loop fuel).1 = some p →
        ∃ idx, idx ∈ q.queue ∧ idx ∉ (q.pop_loop fuel).2.queue ∧ q.pairs[idx]? = some p) := by
  induction fuel with
  | zero =>
    intro q hH
    simp only [Queue.pop_loop]
    exact ⟨by simp, by simp, by simp, hH, fun i hi => hi, fun p h => by cases h⟩
  | succ n ih =>
    intro q hH
    obtain ⟨a1, a2, a3, a4, a5⟩ := q.pop_non_zero_spec q.queue.length
    have hH1 : (q.pop_non_zero q.queue.length).2.HeapOK :=
      ⟨hH.1.sublist a4, fun i hi => by rw [a2]; exact hH.2 i (a4.subset hi)⟩
    have hpairs1 : (q.pop_non_zero q.queue.length).2.pairs = q.pairs := by
      simp only [Queue.pairs, a2]
    simp only [Queue.pop_loop]
    generalize q.pop_non_zero q.queue.length = r at *
    obtain ⟨o, q1⟩ := r
    cases o with
    | none =>
      simp only
      exact ⟨a1, a3, hpairs1, hH1, fun i hi => a4.subset hi, fun p h => by cases h⟩
    | some index =>
      simp only at a1 a2 a3 a4 a5 hH1 hpairs1 ⊢
      obtain ⟨b1, b2⟩ := a5 index rfl
      have b2 := b2 hH.1
      have hlt : index < q1.candidates.length := by rw [a2]; exact hH.2 index b1
      split
      · refine ⟨a1, a3, hpairs1, hH1, fun i hi => a4.subset hi, ?_⟩
        intro p hp
        simp only [Option.some.injEq] at hp
        subst hp
        exact ⟨index, b1, b2, by rw [← hpairs1]; exact q1.candidate_pair index hlt⟩
      · have hH2 : (q1.requeue index).HeapOK := by
          refine ⟨?_, ?_⟩
          · simp only [Queue.requeue]
            rw [List.nodup_append]
            refine ⟨hH1.1, List.nodup_singleton _, ?_⟩
            intro a ha hb
            simp only [List.mem_singleton] at hb
            subst hb
            exact b2 ha
          · intro i hi
            simp only [Queue.requeue, List.length_modify] at hi ⊢
            rcases List.mem_append.1 hi with hi | hi
            · exact hH1.2 i hi
            · simp only [List.mem_singleton] at hi; subst hi; exact hlt
        obtain ⟨c1, c2, c3, c4, c5, c6⟩ := ih _ hH2
        have hpairs2 : (q1.requeue index).pairs = q.pairs := by
          rw [← hpairs1]
          simp only [Queue.pairs, Queue.requeue]
          apply pairs_modify
          intro c; rfl
        have hsub : ∀ i ∈ (q1.requeue index).queue, i ∈ q.queue := by
          intro i hi
          simp only [Queue.requeue] at hi
          rcases List.mem_append.1 hi with hi | hi
          · exact a4.subset hi
          · simp only [List.mem_singleton] at hi; subst hi; exact b1
        refine ⟨c1.trans a1, c2.trans a3, c3.trans hpairs2, c4, fun i hi => hsub i (c5 i hi), ?_⟩
        intro p hp
        obtain ⟨idx, d1, d2, d3⟩ := c6 p hp
        exact ⟨idx, hsub idx d1, d2, by rw [← hpairs2]; exact d3⟩

end bpe

namespace bpe

/-! ## The constructor of the queue and the loop of `train_bpe` -/

theorem adjacent_pairs_mem_both {l : List Nat} {p : Pair} (h : p ∈ adjacent_pairs l) :
    p.1 ∈ l ∧ p.2 ∈ l := by
  induction l with
  | nil => simp [adjacent_pairs] at h
  | cons a t ih =>
    cases t with
    | nil => simp [adjacent_pairs] at h
    | cons b t2 =>
      rw [adjacent_pairs_cons_cons, List.mem_cons] at h
      rcases h with h | h
      · subst h; simp
      · obtain ⟨h1, h2⟩ := ih h
        exact ⟨List.mem_cons_of_mem _ h1, List.mem_cons_of_mem _ h2⟩

theorem update_candidate_fold (d : Int) (w : Nat) (ps : List Pair) :
    ∀ q : Queue, IndexOK q.candidates_index q.pairs →
      q.Ext (ps.foldl (fun q pair => q.update_candidate pair d w) q) ∧
      (∀ p ∈ ps, p ∈ (ps.foldl (fun q pair => q.update_candidate pair d w) q).pairs) ∧
      (∀ p ∈ (ps.foldl (fun q pair => q.update_candidate pair d w) q).pairs,
        p ∈ q.pairs ∨ p ∈ ps) := by
  induction ps with
  | nil =>
    intro q hI
    exact ⟨Queue.Ext.refl _ hI, by simp, fun p hp => Or.inl hp⟩
  | cons a rest ih =>
    intro q hI
    obtain ⟨e1, m1⟩ := q.update_candidate_ext a d w hI
    obtain ⟨e2, m2, m3⟩ := ih (q.update_candidate a d w) e1.2.2.2
    rw [List.foldl_cons]
    refine ⟨e1.trans e2, ?_, ?_⟩
    · intro p hp
      rcases List.mem_cons.1 hp with hp | hp
      · subst hp; exact e2.mem m1
      · exact m2 p hp
    · intro p hp
      rcases m3 p hp with h | h
      · rcases Queue.update_candidate_pairs_mem _ _ _ _ _ h with h | h
        · exact Or.inl h
        · subst h; exact Or.inr (by simp)
      · exact Or.inr (List.mem_cons_of_mem _ h)

theorem Queue.init_entries_spec (items : List VocabEntry) :
    ∀ (q : Queue) (vi : Nat), IndexOK q.candidates_index q.pairs →
      q.Ext (Queue.init_entries q vi items) ∧
      (∀ e ∈ items, ∀ p ∈ adjacent_pairs e.ids, p ∈ (Queue.init_entries q vi items).pairs) ∧
      (∀ p ∈ (Queue.init_entries q vi items).pairs,
        p ∈ q.pairs ∨ ∃ e ∈ items, p ∈ adjacent_pairs e.ids) := by
  induction items with
  | nil =>
    intro q vi hI
    simp only [Queue.init_entries]
    exact ⟨Queue.Ext.refl _ hI, by simp, fun p hp => Or.inl hp⟩
  | cons item rest ih =>
    intro q vi hI
    obtain ⟨e1, m1, n1⟩ := update_candidate_fold (item.count : Int) vi (adjacent_pairs item.ids) q hI
    obtain ⟨e2, m2, n2⟩ := ih (q.init_entry vi item) (vi + 1) e1.2.2.2
    simp only [Queue.init_entries]
    refine ⟨e1.trans e2, ?_, ?_⟩
    · intro e he p hp
      rcases List.mem_cons.1 he with he | he
      · subst he; exact e2.mem (m1 p hp)
      · exact m2 e he p hp
    · intro p hp
      rcases n2 p hp with h | ⟨e, he, h⟩
      · rcases n1 p h with h | h
        · exact Or.inl h
        · exact Or.inr ⟨item, by simp, h⟩
      · exact Or.inr ⟨e, List.mem_cons_of_mem _ he, h⟩

theorem sort_vocab_mem (vocab : List VocabEntry) (e : VocabEntry) :
    e ∈ sort_vocab vocab ↔ e ∈ vocab :=
  (List.perm_insertionSort _ vocab).mem_iff

/-- The constructor establishes the queue invariants. -/
theorem Queue.new_spec (vocab : List VocabEntry) (size V : Nat)
    (hV : ∀ e ∈ vocab, ∀ id ∈ e.ids, id < V) :
    IndexOK (Queue.new vocab size).candidates_index (Queue.new vocab size).pairs ∧
      (Queue.new vocab size).Tracks ∧ (Queue.new vocab size).HeapOK ∧
      (Queue.new vocab size).Below V ∧ (Queue.new vocab size).vocab = sort_vocab vocab := by
  have h0 : IndexOK (⟨sort_vocab vocab, [], [], []⟩ : Queue).candidates_index
      (⟨sort_vocab vocab, [], [], []⟩ : Queue).pairs := by
    intro p i; simp [Queue.pairs]
  obtain ⟨e, m, n⟩ := Queue.init_entries_spec (sort_vocab vocab) ⟨sort_vocab vocab, [], [], []⟩ 0 h0
  unfold Queue.new
  simp only
  generalize Queue.init_entries ⟨sort_vocab vocab, [], [], []⟩ 0 (sort_vocab vocab) = q at *
  have hv : q.vocab = sort_vocab vocab := e.1
  refine ⟨e.2.2.2, ?_, ⟨List.nodup_range _, fun i hi => List.mem_range.1 hi⟩, ⟨?_, ?_⟩, hv⟩
  · intro e' he' p hp
    have : e' ∈ sort_vocab vocab := by rw [← hv]; exact he'
    exact m e' this p hp
  · intro e' he' x hx
    have : e' ∈ sort_vocab vocab := by rw [← hv]; exact he'
    exact hV e' ((sort_vocab_mem vocab e').1 this) x hx
  · intro p hp
    have hp' : p ∈ q.pairs := hp
    rcases n p hp' with h | ⟨e', he', h⟩
    · simp [Queue.pairs] at h
    · obtain ⟨h1, h2⟩ := adjacent_pairs_mem_both h
      have hm := (sort_vocab_mem vocab e').1 he'
      exact ⟨hV e' hm _ h1, hV e' hm _ h2⟩

theorem map_assign_of_not_mem {α β : Type} [DecidableEq α] (m : List (α × β)) (k : α) (v : β)
    (h : k ∉ m.map Prod.fst) : map_assign m k v = m ++ [(k, v)] := by
  induction m with
  | nil => rfl
  | cons hd tl ih =>
    obtain ⟨k', v'⟩ := hd
    simp only [List.map_cons, List.mem_cons, not_or] at h
    simp only [map_assign]
    rw [if_neg (fun e => h.1 e.symm), ih h.2]
    rfl

/-- When `pop` returns nothing the invariant is kept. -/
theorem train_stop_inv (st : TrainState) (h : TrainInv st) (q1 : Queue)
    (hpop : st.queue.pop = (none, q1)) : TrainInv { st with queue := q1 } := by
  obtain ⟨hI, hT, hH, hB, hQ, hE, hK, hVal, hLen, hByte⟩ := h
  obtain ⟨p1, p2, p3, p4, p5, p6⟩ := Queue.pop_loop_spec (st.queue.queue.length + 1) st.queue hH
  unfold Queue.pop at hpop
  rw [hpop] at p1 p2 p3 p4 p5 p6
  simp only at p1 p2 p3 p4 p5 p6
  refine ⟨by rw [p2, p3]; exact hI, ?_, p4, ?_, ?_, hE, hK, hVal, hLen, hByte⟩
  · intro e he p hp
    simp only at he hp ⊢
    rw [p3]; rw [p1] at he
    exact hT e he p hp
  · exact ⟨fun e he => hB.1 e (by simp only at he; rw [p1] at he; exact he),
      fun p hp => hB.2 p (by simp only at hp; rw [p3] at hp; exact hp)⟩
  · intro i hi p hp
    exact hQ i (p5 i hi) p (by simp only at hp; rw [p3] at hp; exact hp)

/-- One merge round of the loop of `train_bpe`: the pair returned by `pop` is not yet a key of
the merge table, its ids are existing ids, and the invariant is kept. -/
theorem train_step_inv (st : TrainState) (h : TrainInv st) (pair : Pair) (q1 : Queue)
    (hpop : st.queue.pop = (some pair, q1)) :
    pair ∉ st.merge_table.map Prod.fst ∧
      map_assign st.merge_table pair st.id_to_seq.length =
        st.merge_table ++ [(pair, st.id_to_seq.length)] ∧
      TrainInv
        { queue := q1.merge pair st.id_to_seq.length
          merge_table := map_assign st.merge_table pair st.id_to_seq.length
          id_to_seq := st.id_to_seq ++
            [st.id_to_seq.getD pair.1 [] ++ st.id_to_seq.getD pair.2 []] } := by
  obtain ⟨hI, hT, hH, hB, hQ, hE, hK, hVal, hLen, hByte⟩ := h
  obtain ⟨p1, p2, p3, p4, p5, p6⟩ := Queue.pop_loop_spec (st.queue.queue.length + 1) st.queue hH
  unfold Queue.pop at hpop
  rw [hpop] at p1 p2 p3 p4 p5 p6
  simp only at p1 p2 p3 p4 p5 p6
  have hI1 : IndexOK q1.candidates_index q1.pairs := by rw [p2, p3]; exact hI
  have hT1 : q1.Tracks := by
    intro e he p hp
    rw [p3]; rw [p1] at he
    exact hT e he p hp
  have hB1 : q1.Below st.id_to_seq.length :=
    ⟨fun e he => hB.1 e (by rw [p1] at he; exact he),
     fun p hp => hB.2 p (by rw [p3] at hp; exact hp)⟩
  obtain ⟨idx, hidx1, hidx2, hidx3⟩ := p6 pair rfl
  have hpm : pair ∈ q1.pairs := by rw [p3]; exact List.getElem?_mem hidx3
  have hnk : pair ∉ st.merge_table.map Prod.fst := hQ idx hidx1 pair hidx3
  obtain ⟨m1, m2, m3, m4, m5, m6⟩ :=
    Queue.merge_spec q1 pair st.id_to_seq.length hI1 hT1 p4 hB1 hpm
  have hpb := hB1.2 pair hpm
  have hmt : map_assign st.merge_table pair st.id_to_seq.length =
      st.merge_table ++ [(pair, st.id_to_seq.length)] := map_assign_of_not_mem _ _ _ hnk
  refine ⟨hnk, hmt, m1, m2, m3, ?_, ?_, ?_, ?_, ?_, ?_, ?_⟩
  · simp only [List.length_append, List.length_singleton]
    exact m4
  · -- no queued candidate is a key of the merge table
    intro i hi p hp
    simp only [hmt, List.map_append, List.map_cons, List.map_nil, List.mem_append,
      List.mem_singleton, not_or]
    rcases m6 i hi with hiq | ⟨p', hp', hnew⟩
    · have hlt : i < q1.pairs.length := by rw [Queue.pairs_length]; exact p4.2 i hiq
      have hq1 : q1.pairs[i]? = some p := by
        rw [← IsPrefix_getElem? m5 hlt]; exact hp
      refine ⟨hQ i (p5 i hiq) p (by rw [← p3]; exact hq1), ?_⟩
      intro e
      subst e
      have h1 := (hI1 p i).2 hq1
      have h2 := (hI1 p idx).2 (by rw [p3]; exact hidx3)
      rw [h1] at h2
      have hii : i = idx := Option.some.inj h2
      rw [hii] at hiq
      exact hidx2 hiq
    · rw [hp] at hp'
      simp only [Option.some.injEq] at hp'
      subst hp'
      constructor
      · intro hk
        obtain ⟨entry, he, hfst⟩ := List.mem_map.1 hk
        obtain ⟨e1, e2, e3, _⟩ := hE entry he
        rw [hfst] at e1 e2
        rcases hnew with h | h <;> omega
      · intro e
        subst e
        rcases hnew with h | h <;> omega
  · -- the entries of the merge table
    intro entry he
    rw [hmt] at he
    simp only [List.length_append, List.length_singleton]
    rcases List.mem_append.1 he with he | he
    · obtain ⟨e1, e2, e3, e4⟩ := hE entry he
      refine ⟨e1, e2, by omega, ?_⟩
      rw [List.getD_append _ _ _ _ e3, List.getD_append _ _ _ _ (by omega),
        List.getD_append _ _ _ _ (by omega)]
      exact e4
    · simp only [List.mem_singleton] at he
      subst he
      refine ⟨hpb.1, hpb.2, by simp, ?_⟩
      simp only
      rw [List.getD_append_right _ _ _ _ (Nat.le_refl _), List.getD_append _ _ _ _ hpb.1,
        List.getD_append _ _ _ _ hpb.2]
      simp
  · rw [hmt, List.map_append, List.nodup_append]
    refine ⟨hK, by simp, ?_⟩
    intro a ha hb
    simp only [List.map_cons, List.map_nil, List.mem_singleton] at hb
    subst hb
    exact hnk ha
  · rw [hmt, List.map_append, hVal]
    simp only [List.map_cons, List.map_nil, List.length_append, List.length_singleton]
    rw [List.range'_concat, hLen]
    simp
  · rw [hmt]
    simp only [List.length_append, List.length_singleton]
    omega
  · intro i hi
    rw [List.getD_append _ _ _ _ (by omega)]
    exact hByte i hi

/-- The loop of `train_bpe` keeps the invariant. -/
theorem train_loop_inv (n : Nat) : ∀ st : TrainState, TrainInv st → TrainInv (train_loop n st) := by
  induction n with
  | zero => intro st h; exact h
  | succ n ih =>
    intro st h
    simp only [train_loop]
    split
    · rename_i q1 hpop
      exact train_stop_inv st h q1 hpop
    · rename_i pair q1 hpop
      exact ih _ (train_step_inv st h pair q1 hpop).2.2

theorem train_loop_length (n : Nat) :
    ∀ st : TrainState, (train_loop n st).id_to_seq.length ≤ st.id_to_seq.length + n := by
  induction n with
  | zero => intro st; simp [train_loop]
  | succ n ih =>
    intro st
    simp only [train_loop]
    split
    · simp
    · refine Nat.le_trans (ih _) ?_
      simp only [List.length_append, List.length_singleton]
      omega

end bpe

namespace bpe

/-! ## Properties of the trained tables -/

theorem hello_trainer_eq :
    (TokenizerTrainer.new ⟨256 + 10, 1, 1, 10⟩).map (fun t => t.train_on_text hello_world) =
      some hello_trainer := by decide

theorem hello_trained_eq : hello_trainer.build_bpe = some hello_trained := by decide!

theorem build_cache_frame (t : TokenizerTrainer) :
    t.build_cache.config = t.config ∧ t.build_cache.merge_table = t.merge_table ∧
      t.build_cache.id_to_seq = t.id_to_seq ∧ t.build_cache.vocab = t.vocab ∧
      t.build_cache.word_vocab = t.word_vocab := by
  unfold TokenizerTrainer.build_cache
  split <;> simp

theorem byte_count_eq : byte_count = 256 := rfl

theorem build_bpe_eq_aux (t t' : TokenizerTrainer) (h : t.build_bpe = some t') :
    t.id_to_seq = [] ∧ t.merge_table = [] ∧ byte_count ≤ t.config.size ∧
      t' = TokenizerTrainer.build_cache
        { t with
          vocab := (train_loop (t.config.size - byte_count) (build_start t)).queue.vocab
          merge_table := (train_loop (t.config.size - byte_count) (build_start t)).merge_table
          id_to_seq := (train_loop (t.config.size - byte_count) (build_start t)).id_to_seq } := by
  unfold TokenizerTrainer.build_bpe at h
  split at h
  · rename_i h0
    unfold TokenizerTrainer.train_bpe at h
    dsimp only at h
    by_cases hs : t.config.size ≥ byte_count
    · rw [if_pos hs, Option.map_some', Option.some.injEq] at h
      refine ⟨h0.1, h0.2, hs, ?_⟩
      rw [← h]
      unfold build_start
      rfl
    · rw [if_neg hs] at h
      cases h
  · cases h

/-- The result of `build_bpe` in terms of the loop of `train_bpe`. -/
theorem build_bpe_eq (t t' : TokenizerTrainer) (h : t.build_bpe = some t') :
    t.id_to_seq = [] ∧ t.merge_table = [] ∧ 256 ≤ t.config.size ∧
      t' = TokenizerTrainer.build_cache
        { t with
          vocab := (train_loop (t.config.size - 256) (build_start t)).queue.vocab
          merge_table := (train_loop (t.config.size - 256) (build_start t)).merge_table
          id_to_seq := (train_loop (t.config.size - 256) (build_start t)).id_to_seq } := by
  have := build_bpe_eq_aux t t' h
  rw [byte_count_eq] at this
  exact this

theorem create_vocab_ids_lt (min_count : Nat) (word_vocab : List (Bytes × Nat)) :
    ∀ e ∈ create_vocab_from_word_vocab min_count word_vocab [], ∀ id ∈ e.ids, id < 256 := by
  intro e he id hid
  simp only [create_vocab_from_word_vocab, List.nil_append, List.mem_map] at he
  obtain ⟨item, _, rfl⟩ := he
  simp only [make_entry, List.mem_map] at hid
  obtain ⟨c, _, rfl⟩ := hid
  exact Nat.mod_lt _ (by decide)

theorem init_id_to_seq_length : (init_id_to_seq []).length = 256 := by
  simp only [init_id_to_seq, byte_count, List.nil_append, List.length_map, List.length_range]

theorem init_id_to_seq_getD (i : Nat) (h : i < 256) : (init_id_to_seq []).getD i [] = [i] := by
  simp only [init_id_to_seq, byte_count, List.nil_append]
  rw [List.getD_eq_getElem?_getD, List.getElem?_map, List.getElem?_range h]
  rfl

/-- The loop of `train_bpe` starts in a state that satisfies the invariant. -/
theorem build_start_inv (t : TokenizerTrainer) (hv : t.vocab = []) (hi : t.id_to_seq = [])
    (hm : t.merge_table = []) : TrainInv (build_start t) := by
  obtain ⟨a1, a2, a3, a4, _⟩ := Queue.new_spec
    (create_vocab_from_word_vocab t.config.min_count t.word_vocab []) t.config.size 256
    (create_vocab_ids_lt _ _)
  unfold build_start
  rw [hv, hi, hm]
  refine ⟨a1, a2, a3, ?_, ?_, ?_, ?_, ?_, ?_, ?_⟩
  · rw [init_id_to_seq_length]; exact a4
  · intro i _ p _; simp
  · intro e he; simp at he
  · simp
  · simp
  · rw [init_id_to_seq_length]; rfl
  · intro i hlt; exact init_id_to_seq_getD i hlt

/-- The tables after `build_bpe` come from a loop state that satisfies the invariant. -/
theorem build_bpe_inv (t t' : TokenizerTrainer) (hv : t.vocab = [])
    (h : t.build_bpe = some t') :
    ∃ st : TrainState, TrainInv st ∧ t'.merge_table = st.merge_table ∧
      t'.id_to_seq = st.id_to_seq ∧ t'.vocab = st.queue.vocab ∧ t'.config = t.config ∧
      train_loop (t.config.size - 256) (build_start t) = st ∧ 256 ≤ t.config.size := by
  obtain ⟨hi, hm, hs, ht⟩ := build_bpe_eq t t' h
  obtain ⟨c1, c2, c3, c4, _⟩ := build_cache_frame
    { t with
      vocab := (train_loop (t.config.size - 256) (build_start t)).queue.vocab
      merge_table := (train_loop (t.config.size - 256) (build_start t)).merge_table
      id_to_seq := (train_loop (t.config.size - 256) (build_start t)).id_to_seq }
  rw [← ht] at c1 c2 c3 c4
  simp only at c1 c2 c3 c4
  have hinv := train_loop_inv (t.config.size - 256) (build_start t) (build_start_inv t hv hi hm)
  generalize train_loop (t.config.size - 256) (build_start t) = st at *
  exact ⟨st, hinv, c2, c3, c4, c1, rfl, hs⟩

/-- The merge table lists, in order, the pairs that `pop` returned. -/
theorem train_trace_keys (n : Nat) : ∀ st : TrainState, TrainInv st →
    (train_loop n st).merge_table.map Prod.fst =
      st.merge_table.map Prod.fst ++ train_trace n st := by
  induction n with
  | zero => intro st _; simp [train_loop, train_trace]
  | succ n ih =>
    intro st h
    simp only [train_loop, train_trace]
    cases hpop : st.queue.pop with
    | mk o q1 =>
      cases o with
      | none => simp
      | some pair =>
        obtain ⟨_, hmt, hinv⟩ := train_step_inv st h pair q1 hpop
        simp only
        rw [ih _ hinv, hmt]
        simp

/-- Claim C5. Merge monotonicity: after `build_bpe` (from a trainer that holds any word counts and
any configuration), every entry `(a, b) -> c` of the merge table has `c > max(a, b)` and
`c >= 256`. -/
theorem merge_monotonicity (t t' : TokenizerTrainer) (hv : t.vocab = [])
    (h : t.build_bpe = some t') :
    ∀ entry ∈ t'.merge_table, entry.2 > max entry.1.1 entry.1.2 ∧ entry.2 ≥ 256 := by
  obtain ⟨st, hinv, e1, e2, _⟩ := build_bpe_inv t t' hv h
  obtain ⟨_, _, _, _, _, hE, _, hVal, _, _⟩ := hinv
  intro entry he
  rw [e1] at he
  obtain ⟨a1, a2, _, _⟩ := hE entry he
  refine ⟨by simp only [gt_iff_lt, max_lt_iff]; exact ⟨a1, a2⟩, ?_⟩
  have : entry.2 ∈ st.merge_table.map Prod.snd := List.mem_map_of_mem _ he
  rw [hVal, List.mem_range'_1] at this
  exact this.1

/-- Witness of **C5** on the trainer of the test `BpeTest.tokenize`, at the entry
`(72, 101) -> 256`. -/
theorem merge_monotonicity_witness :
    hello_trainer.vocab = [] ∧ hello_trainer.build_bpe = some hello_trained ∧
      (256 > max 72 101 ∧ 256 ≥ 256) :=
  ⟨rfl, hello_trained_eq,
    merge_monotonicity hello_trainer hello_trained rfl hello_trained_eq ((72, 101), 256)
      (by decide)⟩

/-- Claim C6. Id density: after `build_bpe` with target size `V = config.size`, the values of the
merge table are, in insertion order, exactly `256, 257, ..., |id_to_seq| - 1` (so they are
pairwise distinct and no id is skipped), `|id_to_seq| = 256 + |merge_table| <= V`, and the
keys of the merge table are exactly the pairs returned by the successive calls of `pop`, no
pair being returned twice (so no entry is overwritten). -/
theorem id_density (t t' : TokenizerTrainer) (hv : t.vocab = [])
    (h : t.build_bpe = some t') :
    t'.merge_table.map Prod.snd = List.range' 256 (t'.id_to_seq.length - 256) ∧
      (t'.merge_table.map Prod.snd).Nodup ∧
      t'.id_to_seq.length = 256 + t'.merge_table.length ∧
      t'.id_to_seq.length ≤ t.config.size ∧
      t'.merge_table.map Prod.fst = train_trace (t.config.size - 256) (build_start t) ∧
      (train_trace (t.config.size - 256) (build_start t)).Nodup := by
  obtain ⟨hi, hm, _, _⟩ := build_bpe_eq t t' h
  obtain ⟨st, hinv, e1, e2, _, _, hst, hs⟩ := build_bpe_inv t t' hv h
  have htr := train_trace_keys (t.config.size - 256) (build_start t) (build_start_inv t hv hi hm)
  have hlen := train_loop_length (t.config.size - 256) (build_start t)
  rw [hst] at htr hlen
  obtain ⟨_, _, _, _, _, _, hK, hVal, hLen, _⟩ := hinv
  have hk0 : (build_start t).merge_table = [] := hm
  have hl0 : (build_start t).id_to_seq.length = 256 := by
    simp only [build_start, hi]; exact init_id_to_seq_length
  rw [hk0] at htr
  simp only [List.map_nil, List.nil_append] at htr
  rw [e1, e2]
  have hle : st.id_to_seq.length ≤ t.config.size := by
    rw [hl0] at hlen
    exact Nat.le_trans hlen (by rw [Nat.add_sub_cancel' hs])
  refine ⟨?_, ?_, hLen, hle, htr, ?_⟩
  · rw [hVal, hLen, Nat.add_sub_cancel_left]
  · rw [hVal]; exact List.nodup_range' _ _
  · rw [← htr]; exact hK

/-- Witness of **C6** on the trainer of the test `BpeTest.tokenize`. -/
theorem id_density_witness :
    hello_trainer.vocab = [] ∧ hello_trainer.build_bpe = some hello_trained ∧
      hello_trained.merge_table.map Prod.snd =
        List.range' 256 (hello_trained.id_to_seq.length - 256) ∧
      hello_trained.id_to_seq.length = 256 + hello_trained.merge_table.length :=
  ⟨rfl, hello_trained_eq,
    (id_density hello_trainer hello_trained rfl hello_trained_eq).1,
    (id_density hello_trainer hello_trained rfl hello_trained_eq).2.2.1⟩

/-- Claim C7. Id-to-sequence table: after `build_bpe`, `id_to_seq[i]` is the one-byte string of
value `i` for every `i < 256`, and for every merge-table entry `(a, b) -> c` the ids `a`, `b`
and `c` are in range and `id_to_seq[c] = id_to_seq[a] ++ id_to_seq[b]`. -/
theorem id_to_seq_table (t t' : TokenizerTrainer) (hv : t.vocab = [])
    (h : t.build_bpe = some t') :
    (∀ i < 256, t'.id_to_seq[i]? = some [i]) ∧
      ∀ entry ∈ t'.merge_table, ∃ sa sb,
        t'.id_to_seq[entry.1.1]? = some sa ∧ t'.id_to_seq[entry.1.2]? = some sb ∧
        t'.id_to_seq[entry.2]? = some (sa ++ sb) := by
  obtain ⟨st, hinv, e1, e2, _⟩ := build_bpe_inv t t' hv h
  obtain ⟨_, _, _, _, _, hE, _, _, hLen, hByte⟩ := hinv
  rw [e1, e2]
  have hget : ∀ i, i < st.id_to_seq.length →
      st.id_to_seq[i]? = some (st.id_to_seq.getD i []) := by
    intro i hi
    rw [List.getD_eq_getElem?_getD, List.getElem?_eq_getElem hi]
    rfl
  constructor
  · intro i hi
    rw [hget i (by omega), hByte i hi]
  · intro entry he
    obtain ⟨a1, a2, a3, a4⟩ := hE entry he
    exact ⟨_, _, hget _ (by omega), hget _ (by omega), by rw [hget _ a3, a4]⟩

/-- Witness of **C7** on the trainer of the test `BpeTest.tokenize`, at byte 72 and at the
entry `(72, 101) -> 256`. -/
theorem id_to_seq_table_witness :
    hello_trainer.vocab = [] ∧ hello_trainer.build_bpe = some hello_trained ∧
      hello_trained.id_to_seq[72]? = some [72] ∧
      ∃ sa sb, hello_trained.id_to_seq[72]? = some sa ∧
        hello_trained.id_to_seq[101]? = some sb ∧
        hello_trained.id_to_seq[256]? = some (sa ++ sb) :=
  ⟨rfl, hello_trained_eq,
    (id_to_seq_table hello_trainer hello_trained rfl hello_trained_eq).1 72 (by decide),
    (id_to_seq_table hello_trainer hello_trained rfl hello_trained_eq).2 ((72, 101), 256)
      (by decide)⟩

end bpe

namespace bpe

/-! ## Where the code departs from its documentation -/

/-- Claim C9 (the code departs from the claim). Two runs of the loop of `train_bpe`.
On `abab abab abab ba`, after the first round (merge of `(97, 98)` into 256) the vocabulary is
`[32, 256, 256]` (count 2), `[256, 256]`, `[32, 98, 97]`, and the next `pop` returns
`(98, 97)`, whose weighted adjacent-occurrence count is 1, while `(256, 256)` has count 3.
On `ab (abab (ba`, after four rounds `pop` returns nothing although the entry `[98, 97]`
still contains the adjacent pair `(98, 97)`. -/
theorem pop_not_most_frequent :
    ((trainer_on 258 0 abab_text).map (fun t =>
        (train_loop 1 (build_start t)).queue.vocab.map (fun e => (e.ids, e.count))) =
      some [([32, 256, 256], 2), ([256, 256], 1), ([32, 98, 97], 1)] ∧
    (trainer_on 258 0 abab_text).map (fun t =>
        (train_loop 1 (build_start t)).queue.pop.1) = some (some (98, 97)) ∧
    (trainer_on 258 0 abab_text).map (fun t =>
        weighted_count (train_loop 1 (build_start t)).queue.pop.2.vocab (98, 97)) = some 1 ∧
    (trainer_on 258 0 abab_text).map (fun t =>
        weighted_count (train_loop 1 (build_start t)).queue.pop.2.vocab (256, 256)) = some 3) ∧
    ((trainer_on 266 10 ab_ba_text).map (fun t =>
        (train_loop 4 (build_start t)).merge_table.length) = some 4 ∧
    (trainer_on 266 10 ab_ba_text).map (fun t =>
        (train_loop 4 (build_start t)).queue.pop.1) = some none ∧
    (trainer_on 266 10 ab_ba_text).map (fun t =>
        (train_loop 4 (build_start t)).queue.pop.2.vocab.map (fun e => e.ids)) =
      some [[257], [256], [259], [98, 97]] ∧
    (trainer_on 266 10 ab_ba_text).map (fun t =>
        weighted_count (train_loop 4 (build_start t)).queue.pop.2.vocab (98, 97)) = some 1) := by
  decide!

/-- Claim C10 (the code departs from the claim). Training on `ab (abab (ba` with `size = 266`,
`min_count = 1`, `cache_size = 10` performs 4 merges, fewer than `size - 256 = 10`, and the
entry of the word `ba` keeps the two ids `[98, 97]`: the queue ran empty although the word is
not a single token. -/
theorem frequent_word_not_single_token :
    ((trainer_on 266 10 ab_ba_text).bind TokenizerTrainer.build_bpe).map (fun t =>
      (t.merge_table, t.vocab.map (fun e => (e.text, e.ids)))) =
      some ([((97, 98), 256), ((32, 40), 257), ((256, 97), 258), ((256, 256), 259)],
        [([32, 40], [257]), ([97, 98], [256]), ([97, 98, 97, 98], [259]),
         ([98, 97], [98, 97])]) := by
  decide!

theorem save_fails_of_long_token (t : TokenizerTrainer) (pl : Platform)
    (h : ShortStringsMappedArray.write_to_buffer t.id_to_seq [] = none) : t.save pl = none := by
  unfold TokenizerTrainer.save
  rw [h]

/-- Claim C8 (the code departs from the claim). Training on a word of 256 letters `a` with
`size = 272` creates token 270 of 256 bytes; `write_string_view` then fails its assertion
`size <= 0xFF`, so `save()` does not return. -/
theorem token_longer_than_255 :
    ((trainer_on 272 0 long_text).bind TokenizerTrainer.build_bpe).map (fun t =>
      ((t.id_to_seq.getD 270 []).length, write_string_view (t.id_to_seq.getD 270 []),
        ShortStringsMappedArray.write_to_buffer t.id_to_seq [])) =
      some (256, none, none) := by
  decide!

theorem choose_hash_table_size_nil : choose_hash_table_size [] = some 0 := by decide!

theorem choose_hash_table_size_singleton (h : Nat) : choose_hash_table_size [h] = none := by
  have h1 : scale_max 1 = 1 := by decide!
  have h2 : find_prime_numbers 1 = [0] := by decide!
  have h3 : scale_min 1 = 0 := by decide!
  unfold choose_hash_table_size
  simp only [List.length_singleton, h1, h2, h3]
  rfl

theorem write_to_buffer_of_zero {Key Value : Type} (cfg : MapConfig Key Value)
    (data : List (Key × Value)) (buffer : Bytes)
    (h : choose_hash_table_size (data.map (fun item => cfg.hash item.1)) = some 0) :
    MappedMap.write_to_buffer cfg data buffer = none := by
  unfold MappedMap.write_to_buffer
  rw [h]
  rfl

theorem write_to_buffer_of_none {Key Value : Type} (cfg : MapConfig Key Value)
    (data : List (Key × Value)) (buffer : Bytes)
    (h : choose_hash_table_size (data.map (fun item => cfg.hash item.1)) = none) :
    MappedMap.write_to_buffer cfg data buffer = none := by
  unfold MappedMap.write_to_buffer
  rw [h]

theorem write_to_buffer_nil {Key Value : Type} (cfg : MapConfig Key Value) (buffer : Bytes) :
    MappedMap.write_to_buffer cfg [] buffer = none :=
  write_to_buffer_of_zero cfg [] buffer choose_hash_table_size_nil

theorem write_to_buffer_singleton {Key Value : Type} (cfg : MapConfig Key Value)
    (item : Key × Value) (buffer : Bytes) :
    MappedMap.write_to_buffer cfg [item] buffer = none :=
  write_to_buffer_of_none cfg [item] buffer (choose_hash_table_size_singleton _)

/-- Claim C4 (the code departs from the claim). `choose_hash_table_size` returns 0 for an empty
map and divides by zero for a map with one entry, so `MappedMap::write_to_buffer` fails on
both; in particular `save()` fails for every trainer whose cache is empty, which is the case
with the default `cache_size = 0`: here the trainer of `Hello, world!` with `size = 266`. -/
theorem save_fails_on_empty_cache :
    choose_hash_table_size [] = some 0 ∧ (∀ h, choose_hash_table_size [h] = none) ∧
      (∀ (pl : Platform) (t : TokenizerTrainer), t.cache = [] → t.save pl = none) ∧
      ((trainer_on 266 0 hello_world).bind TokenizerTrainer.build_bpe).map
        (fun t => (t.config.cache_size, t.cache, t.merge_table.length)) = some (0, [], 9) := by
  refine ⟨choose_hash_table_size_nil, choose_hash_table_size_singleton, ?_, by decide!⟩
  intro pl t ht
  unfold TokenizerTrainer.save
  rw [ht]
  cases ShortStringsMappedArray.write_to_buffer t.id_to_seq [] with
  | none => rfl
  | some b1 =>
    simp only
    cases MappedMap.write_to_buffer merge_table_config t.merge_table b1 with
    | none => rfl
    | some b2 => exact write_to_buffer_nil _ _

end bpe

namespace bpe

/-! ## Reading back what the writers wrote -/

theorem At.of_append (pre seg post : Bytes) : At (pre ++ seg ++ post) pre.length seg := by
  unfold At
  rw [List.append_assoc, List.drop_left]
  exact List.prefix_append _ _

theorem At.nil (mem : Bytes) (pos : Nat) : At mem pos [] := List.nil_prefix

theorem At.append_left {mem : Bytes} {pos : Nat} {s1 s2 : Bytes} (h : At mem pos (s1 ++ s2)) :
    At mem pos s1 :=
  (List.prefix_append s1 s2).trans h

theorem At.append_right {mem : Bytes} {pos : Nat} {s1 s2 : Bytes} (h : At mem pos (s1 ++ s2)) :
    At mem (pos + s1.length) s2 := by
  obtain ⟨rest, hr⟩ := h
  unfold At
  refine ⟨rest, ?_⟩
  rw [← List.drop_drop, ← hr, List.append_assoc, List.drop_left]

theorem At.join {mem : Bytes} {pos : Nat} {s1 s2 : Bytes} (h1 : At mem pos s1)
    (h2 : At mem (pos + s1.length) s2) : At mem pos (s1 ++ s2) := by
  obtain ⟨r1, hr1⟩ := h1
  obtain ⟨r2, hr2⟩ := h2
  unfold At
  refine ⟨r2, ?_⟩
  rw [← List.drop_drop, ← hr1, List.drop_left] at hr2
  rw [← hr1, List.append_assoc, hr2]

theorem At.length_le {mem : Bytes} {pos : Nat} {seg : Bytes} (h : At mem pos seg)
    (hne : seg ≠ []) : pos + seg.length ≤ mem.length := by
  have hl := List.IsPrefix.length_le h
  rw [List.length_drop] at hl
  have : 0 < seg.length := List.length_pos.2 hne
  omega

theorem At.getD {mem : Bytes} {pos : Nat} {seg : Bytes} (h : At mem pos seg) (i d : Nat)
    (hi : i < seg.length) : mem.getD (pos + i) d = seg.getD i d := by
  obtain ⟨rest, hr⟩ := h
  have h1 : mem.getD (pos + i) d = (mem.drop pos).getD i d := by
    simp only [List.getD_eq_getElem?_getD, List.getElem?_drop]
  rw [h1, ← hr, List.getD_append _ _ _ _ hi]

theorem At.take {mem : Bytes} {pos : Nat} {seg : Bytes} (h : At mem pos seg) :
    substr mem pos seg.length = seg := by
  obtain ⟨rest, hr⟩ := h
  unfold substr
  rw [← hr, List.take_left]

theorem At.mono {mem : Bytes} {pos : Nat} {seg : Bytes} (h : At mem pos seg) (more : Bytes) :
    At (mem ++ more) pos seg := by
  by_cases hne : seg = []
  · subst hne; exact At.nil _ _
  · have hl := h.length_le hne
    obtain ⟨rest, hr⟩ := h
    unfold At
    refine ⟨rest ++ more, ?_⟩
    rw [List.drop_append_of_le_length (by omega), ← hr, List.append_assoc]

theorem At.shift {mem : Bytes} {pos : Nat} {seg : Bytes} (h : At mem pos seg) (pre : Bytes) :
    At (pre ++ mem) (pre.length + pos) seg := by
  unfold At at h ⊢
  rw [← List.drop_drop, List.drop_left]
  exact h

theorem At.of_at {mem art : Bytes} {base pos : Nat} {seg : Bytes} (h1 : At mem base art)
    (h2 : At art pos seg) : At mem (base + pos) seg := by
  obtain ⟨r1, hr1⟩ := h1
  obtain ⟨r2, hr2⟩ := h2
  unfold At
  rw [← List.drop_drop, ← hr1]
  by_cases hp : pos ≤ art.length
  · refine ⟨r2 ++ r1, ?_⟩
    rw [List.drop_append_of_le_length hp, ← hr2, List.append_assoc]
  · have hd : List.drop pos art = [] := List.drop_of_length_le (by omega)
    rw [hd] at hr2
    have : seg = [] := (List.append_eq_nil.1 hr2).1
    subst this
    exact List.nil_prefix

theorem u32_bytes_length (v : Nat) : (u32_bytes v).length = 4 := rfl

theorem read_u32_at {mem : Bytes} {pos : Nat} (v : Nat) (h : At mem pos (u32_bytes v)) :
    read_u32 mem pos = some (v % 4294967296, pos + 4) := by
  have hl := h.length_le (by simp [u32_bytes])
  rw [u32_bytes_length] at hl
  unfold read_u32
  rw [if_pos hl]
  have g0 := h.getD 0 0 (by simp [u32_bytes])
  have g1 := h.getD 1 0 (by simp [u32_bytes])
  have g2 := h.getD 2 0 (by simp [u32_bytes])
  have g3 := h.getD 3 0 (by simp [u32_bytes])
  simp only [Nat.add_zero] at g0
  rw [g0, g1, g2, g3]
  simp only [u32_bytes, List.getD_cons_zero, List.getD_cons_succ, Option.some.injEq,
    Prod.mk.injEq, and_true]
  omega

theorem read_u32_at_lt {mem : Bytes} {pos : Nat} (v : Nat) (h : At mem pos (u32_bytes v))
    (hv : v < 4294967296) : read_u32 mem pos = some (v, pos + 4) := by
  rw [read_u32_at v h, Nat.mod_eq_of_lt hv]

theorem read_string_view_at {mem : Bytes} {pos : Nat} (value : Bytes)
    (h : At mem pos (value.length :: value)) :
    read_string_view mem pos = some (value, pos + 1 + value.length) ∧
      skip_string_view mem pos = some (pos + 1 + value.length) := by
  have hl := h.length_le (by simp)
  simp only [List.length_cons] at hl
  have g0 := h.getD 0 0 (by simp)
  simp only [Nat.add_zero, List.getD_cons_zero] at g0
  have h2 : At mem (pos + 1) value := by
    have := @At.append_right mem pos [value.length] value h
    simpa using this
  unfold read_string_view skip_string_view
  rw [if_pos (by omega), if_pos (by omega)]
  simp only [g0]
  rw [if_pos (by omega), h2.take]
  exact ⟨rfl, rfl⟩

theorem read_u32_vector_at (xs : List Nat) : ∀ (mem : Bytes) (pos : Nat),
    (∀ x ∈ xs, x < 4294967296) → At mem pos (xs.flatMap u32_bytes) →
    read_u32_vector mem xs.length pos = some (xs, pos + xs.length * 4) := by
  induction xs with
  | nil => intro mem pos _ _; simp [read_u32_vector]
  | cons x rest ih =>
    intro mem pos hv h
    rw [List.flatMap_cons] at h
    have h1 := read_u32_at_lt x h.append_left (hv x (by simp))
    have h2 := ih mem (pos + 4) (fun y hy => hv y (by simp [hy]))
      (by simpa [u32_bytes_length] using h.append_right)
    simp only [List.length_cons, read_u32_vector, h1, h2, Option.some.injEq, Prod.mk.injEq,
      true_and]
    omega

end bpe

namespace bpe

/-! ## Serializers and the string table -/

theorem laws_u32 : SerializerLaws serializer_u32 (fun v => v < 4294967296) where
  size_eq := by
    intro v bytes h
    simp only [serializer_u32, Option.some.injEq] at h
    subst h; rfl
  size_pos := by intro v; simp [serializer_u32]
  read_at := by
    intro v bytes mem pos h hv hat hmem
    simp only [serializer_u32, Option.some.injEq] at h
    subst h
    exact ⟨read_u32_at_lt v hat hv, rfl⟩

theorem laws_pair :
    SerializerLaws serializer_pair (fun p => p.1 < 4294967296 ∧ p.2 < 4294967296) where
  size_eq := by
    intro v bytes h
    simp only [serializer_pair, Option.some.injEq] at h
    subst h; rfl
  size_pos := by intro v; simp [serializer_pair]
  read_at := by
    intro v bytes mem pos h hv hat hmem
    simp only [serializer_pair, Option.some.injEq] at h
    subst h
    have h1 := read_u32_at_lt v.1 hat.append_left hv.1
    have h2 := read_u32_at_lt v.2 hat.append_right hv.2
    rw [u32_bytes_length] at h2
    simp only [serializer_pair, h1, h2, List.length_append, u32_bytes_length]
    exact ⟨by simp, by simp⟩

theorem laws_string_view : SerializerLaws serializer_string_view (fun _ => True) where
  size_eq := by
    intro v bytes h
    simp only [serializer_string_view, write_string_view] at h
    split at h
    · simp only [Option.some.injEq] at h
      subst h
      simp only [List.length_cons, serializer_string_view]; omega
    · cases h
  size_pos := by intro v; simp [serializer_string_view]
  read_at := by
    intro v bytes mem pos h _ hat _
    simp only [serializer_string_view, write_string_view] at h
    split at h
    · simp only [Option.some.injEq] at h
      subst h
      obtain ⟨r1, r2⟩ := read_string_view_at v hat
      simp only [serializer_string_view, r1, r2, List.length_cons]
      refine ⟨?_, ?_⟩ <;> simp only [Option.some.injEq, Prod.mk.injEq, true_and] <;> omega
    · cases h

theorem flatMap_u32_length (xs : List Nat) : (xs.flatMap u32_bytes).length = xs.length * 4 := by
  induction xs with
  | nil => rfl
  | cons x rest ih =>
    rw [List.flatMap_cons, List.length_append, ih, u32_bytes_length, List.length_cons]
    omega

theorem laws_vector_u32 :
    SerializerLaws serializer_vector_u32 (fun xs => ∀ x ∈ xs, x < 4294967296) where
  size_eq := by
    intro v bytes h
    simp only [serializer_vector_u32, Option.some.injEq] at h
    subst h
    simp only [serializer_vector_u32, List.length_append, u32_bytes_length, flatMap_u32_length]
  size_pos := by intro v; simp [serializer_vector_u32]
  read_at := by
    intro v bytes mem pos h hv hat hb
    simp only [serializer_vector_u32, Option.some.injEq] at h
    subst h
    simp only [List.length_append, u32_bytes_length, flatMap_u32_length] at hb
    have h1 := read_u32_at_lt v.length hat.append_left (by omega)
    have h2 := read_u32_vector_at v mem (pos + 4) hv
      (by simpa [u32_bytes_length] using hat.append_right)
    simp only [serializer_vector_u32, h1, h2, List.length_append, u32_bytes_length,
      flatMap_u32_length]
    refine ⟨?_, ?_⟩ <;> simp only [Option.some.injEq, Prod.mk.injEq, true_and] <;> omega

theorem flatMap_u32_at (xs : List Nat) : ∀ (i x : Nat), xs[i]? = some x →
    At (xs.flatMap u32_bytes) (4 * i) (u32_bytes x) := by
  induction xs with
  | nil => intro i x h; simp at h
  | cons y rest ih =>
    intro i x h
    rw [List.flatMap_cons]
    cases i with
    | zero =>
      simp only [List.getElem?_cons_zero, Option.some.injEq] at h
      subst h
      exact List.prefix_append _ _
    | succ j =>
      simp only [List.getElem?_cons_succ] at h
      have := (ih j x h).shift (u32_bytes y)
      rw [u32_bytes_length] at this
      have e : 4 * (j + 1) = 4 + 4 * j := by omega
      rw [e]; exact this

theorem write_strings_length (data : List Bytes) : ∀ strings, write_strings data = some strings →
    strings.length = (data.map (fun item => item.length + 1)).sum := by
  induction data with
  | nil =>
    intro strings h
    simp only [write_strings, Option.some.injEq] at h
    subst h; rfl
  | cons item rest ih =>
    intro strings h
    simp only [write_strings, write_string_view] at h
    split at h
    · cases h
    · rename_i head hw
      split at hw
      · simp only [Option.some.injEq] at hw
        subst hw
        split at h
        · cases h
        · rename_i tail ht
          simp only [Option.some.injEq] at h
          subst h
          simp only [List.length_append, List.length_cons, List.map_cons, List.sum_cons, ih tail ht]
      · cases hw

theorem string_offsets_length (data : List Bytes) : ∀ s0,
    (string_offsets s0 data).length = data.length := by
  induction data with
  | nil => intro s0; rfl
  | cons item rest ih => intro s0; simp [string_offsets, ih]

theorem write_strings_at (data : List Bytes) : ∀ (s0 : Nat) (strings : Bytes),
    write_strings data = some strings → ∀ (i : Nat) (item : Bytes), data[i]? = some item →
      ∃ o, (string_offsets s0 data)[i]? = some (s0 + o) ∧
        At strings o (item.length :: item) ∧ o + item.length + 1 ≤ strings.length := by
  induction data with
  | nil => intro s0 strings _ i item h; simp at h
  | cons item0 rest ih =>
    intro s0 strings h i item hi
    simp only [write_strings, write_string_view] at h
    split at h
    · cases h
    · rename_i head hw
      split at hw
      · simp only [Option.some.injEq] at hw
        subst hw
        split at h
        · cases h
        · rename_i tail ht
          simp only [Option.some.injEq] at h
          subst h
          cases i with
          | zero =>
            simp only [List.getElem?_cons_zero, Option.some.injEq] at hi
            subst hi
            refine ⟨0, by simp [string_offsets], List.prefix_append _ _, ?_⟩
            simp only [List.length_append, List.length_cons]; omega
          | succ j =>
            simp only [List.getElem?_cons_succ] at hi
            obtain ⟨o, h1, h2, h3⟩ := ih (s0 + item0.length + 1) tail ht j item hi
            refine ⟨item0.length + 1 + o, ?_, ?_, ?_⟩
            · simp only [string_offsets, List.getElem?_cons_succ, h1, Option.some.injEq]
              omega
            · have := h2.shift (item0.length :: item0)
              simpa using this
            · simp only [List.length_append, List.length_cons]; omega
      · cases hw

/-- What `ShortStringsMappedArray::write_to_buffer` appends. -/
theorem string_table_layout (data : List Bytes) (buffer out : Bytes)
    (h : ShortStringsMappedArray.write_to_buffer data buffer = some out) :
    ∃ strings, write_strings data = some strings ∧
      out = buffer ++ string_table_bytes data strings := by
  unfold ShortStringsMappedArray.write_to_buffer at h
  simp only at h
  split at h
  · cases h
  · rename_i strings hs
    simp only [Option.some.injEq] at h
    refine ⟨strings, hs, ?_⟩
    rw [← h]
    simp only [string_table_bytes, List.append_assoc]

theorem string_table_bytes_length (data : List Bytes) (strings : Bytes)
    (hs : write_strings data = some strings) :
    (string_table_bytes data strings).length =
      2 * 4 + data.length * 4 + (data.map (fun item => item.length + 1)).sum := by
  simp only [string_table_bytes, List.length_append, u32_bytes_length, flatMap_u32_length,
    string_offsets_length, write_strings_length data strings hs]
  omega

/-- Attaching to a written string table and reading an entry gives the string back. -/
theorem string_table_read (data : List Bytes) (strings mem : Bytes) (base : Nat)
    (hs : write_strings data = some strings)
    (hat : At mem base (string_table_bytes data strings))
    (hfit : (string_table_bytes data strings).length < 4294967296) :
    ∃ a, ShortStringsMappedArray.attach mem base =
        some (a, (string_table_bytes data strings).length) ∧
      a.element_count = data.length ∧
      ∀ i item, data[i]? = some item → a.get mem i = some item := by
  have hlen := string_table_bytes_length data strings hs
  have hslen := write_strings_length data strings hs
  have hat' := hat
  unfold string_table_bytes at hat'
  have p0 := hat'.append_left
  have p1 := hat'.append_right.append_left
  have p2 := hat'.append_right.append_right.append_left
  have p3 := hat'.append_right.append_right.append_right
  simp only [u32_bytes_length, flatMap_u32_length, string_offsets_length] at p1 p2 p3
  have r0 := read_u32_at_lt _ p0 (by rw [← hlen]; exact hfit)
  have r1 := read_u32_at_lt _ p1 (by omega)
  refine ⟨⟨(string_table_bytes data strings).length, data.length, base + 8,
    base + 8 + 4 * data.length⟩, ?_, rfl, ?_⟩
  · unfold ShortStringsMappedArray.attach
    rw [r0]
    simp only [r1]
    rw [hlen]
  · intro i item hi
    obtain ⟨o, o1, o2, o3⟩ := write_strings_at data 0 strings hs i item hi
    rw [Nat.zero_add] at o1
    have q1 : At mem (base + 8 + 4 * i) (u32_bytes o) := by
      have := At.of_at p2 (flatMap_u32_at _ i o o1)
      have e : base + 4 + 4 + 4 * i = base + 8 + 4 * i := by omega
      rw [e] at this; exact this
    have q2 : At mem (base + 8 + 4 * data.length + o) (item.length :: item) := by
      have := At.of_at p3 o2
      have e : base + 4 + 4 + data.length * 4 + o = base + 8 + 4 * data.length + o := by omega
      rw [e] at this; exact this
    unfold ShortStringsMappedArray.get
    simp only
    rw [read_u32_at_lt _ q1 (by omega)]
    simp only [(read_string_view_at item q2).1, Option.map_some']

end bpe

namespace bpe

/-! ## The mapped map: what is written and what the lookups read -/

section
variable {Key Value : Type}

theorem fill_buckets_fold (cfg : MapConfig Key Value) (H : Nat) (data : List (Key × Value)) :
    ∀ (acc : List (List (Key × Value))) (i : Nat), i < H →
      (data.foldl
        (fun index_vector item =>
          index_vector.modify (fun bucket => bucket ++ [item]) (cfg.hash item.1 % H)) acc)[i]? =
        (acc[i]?).map (fun bucket => bucket ++ bucket_of cfg H data i) := by
  induction data with
  | nil =>
    intro acc i _
    simp only [List.foldl_nil, bucket_of, List.filter_nil, List.append_nil]
    cases acc[i]? <;> rfl
  | cons item rest ih =>
    intro acc i hi
    rw [List.foldl_cons, ih _ i hi, List.getElem?_modify]
    by_cases e : cfg.hash item.1 % H = i
    · simp only [e, if_true, bucket_of, List.filter_cons, decide_True]
      cases acc[i]? <;> simp
    · simp only [e, if_false, bucket_of, List.filter_cons, decide_False]
      cases acc[i]? <;> simp

theorem fill_buckets_length (cfg : MapConfig Key Value) (H : Nat) (data : List (Key × Value)) :
    (fill_buckets cfg H data).length = H := by
  unfold fill_buckets
  have : ∀ (acc : List (List (Key × Value))),
      (data.foldl
        (fun index_vector item =>
          index_vector.modify (fun bucket => bucket ++ [item]) (cfg.hash item.1 % H)) acc).length
        = acc.length := by
    induction data with
    | nil => intro acc; rfl
    | cons item rest ih => intro acc; rw [List.foldl_cons, ih]; simp
  rw [this]; simp

theorem fill_buckets_get (cfg : MapConfig Key Value) (H : Nat) (data : List (Key × Value))
    (i : Nat) (hi : i < H) : (fill_buckets cfg H data)[i]? = some (bucket_of cfg H data i) := by
  unfold fill_buckets
  rw [fill_buckets_fold cfg H data _ i hi]
  simp [List.getElem?_replicate, hi]

theorem write_entries_length (cfg : MapConfig Key Value) {vk : Key → Prop} {vv : Value → Prop}
    (lk : SerializerLaws cfg.key_serializer vk) (lv : SerializerLaws cfg.value_serializer vv)
    (es : List (Key × Value)) : ∀ bytes, write_entries cfg es = some bytes →
      bytes.length = (es.map (fun item =>
        cfg.key_serializer.size item.1 + cfg.value_serializer.size item.2)).sum ∧
      es.length ≤ bytes.length := by
  induction es with
  | nil =>
    intro bytes h
    simp only [write_entries, Option.some.injEq] at h
    subst h; simp
  | cons item rest ih =>
    intro bytes h
    simp only [write_entries] at h
    split at h
    · rename_i kb vb hk hv
      split at h
      · cases h
      · rename_i tail ht
        simp only [Option.some.injEq] at h
        subst h
        obtain ⟨i1, i2⟩ := ih tail ht
        have s1 := lk.size_eq _ _ hk
        have s2 := lv.size_eq _ _ hv
        have s3 := lk.size_pos item.1
        have s4 := lv.size_pos item.2
        refine ⟨?_, ?_⟩
        · simp only [List.length_append, List.map_cons, List.sum_cons, i1, s1, s2]
        · simp only [List.length_append, List.length_cons]
          omega
    · cases h

/-- The scans of `contains` and `get` over the records of one bucket. -/
theorem scan_bucket [DecidableEq Key] (cfg : MapConfig Key Value) {vk : Key → Prop}
    {vv : Value → Prop} (lk : SerializerLaws cfg.key_serializer vk)
    (lv : SerializerLaws cfg.value_serializer vv) (mem : Bytes)
    (storage : Nat) (key : Key) (es : List (Key × Value)) :
    ∀ (bytes : Bytes) (b fuel : Nat), write_entries cfg es = some bytes →
      bytes.length < 4294967296 → (∀ kv ∈ es, vk kv.1 ∧ vv kv.2) → At mem (storage + b) bytes → es.length < fuel →
      contains_loop cfg mem storage (b + bytes.length) key fuel (storage + b) =
        some (find_entry es key).isSome ∧
      get_loop cfg mem storage (b + bytes.length) key fuel (storage + b) =
        some (match find_entry es key with
          | some kv => kv.2
          | none => cfg.default_value) := by
  induction es with
  | nil =>
    intro bytes b fuel h _ _ _ hf
    simp only [write_entries, Option.some.injEq] at h
    subst h
    cases fuel with
    | zero => simp at hf
    | succ n =>
      simp [contains_loop, get_loop, find_entry]
  | cons item rest ih =>
    intro bytes b fuel h hb hv hat hf
    simp only [write_entries] at h
    split at h
    · rename_i kb vb hk hvb
      split at h
      · cases h
      · rename_i tail ht
        simp only [Option.some.injEq] at h
        subst h
        simp only [List.length_append] at hb
        cases fuel with
        | zero => simp at hf
        | succ n =>
          have hvi := hv item (by simp)
          have a1 : At mem (storage + b) kb := hat.append_left.append_left
          have a2 : At mem (storage + b + kb.length) vb := hat.append_left.append_right
          have a3 : At mem (storage + (b + kb.length + vb.length)) tail := by
            have := hat.append_right
            simp only [List.length_append] at this
            have e : storage + b + (kb.length + vb.length) =
                storage + (b + kb.length + vb.length) := by omega
            rw [e] at this; exact this
          obtain ⟨rk, _⟩ := lk.read_at _ _ _ _ hk hvi.1 a1 (by omega)
          obtain ⟨rv, sv⟩ := lv.read_at _ _ _ _ hvb hvi.2 a2 (by omega)
          have hpos : 0 < kb.length := by rw [lk.size_eq _ _ hk]; exact lk.size_pos _
          have hlt : storage + b - storage < b + (kb ++ vb ++ tail).length := by
            simp only [List.length_append]; omega
          obtain ⟨c1, c2⟩ := ih tail (b + kb.length + vb.length) n ht (by omega)
            (fun kv hkv => hv kv (by simp [hkv])) a3
            (by simp only [List.length_cons] at hf; omega)
          have e2 : b + kb.length + vb.length + tail.length = b + (kb ++ vb ++ tail).length := by
            simp only [List.length_append]; omega
          rw [e2] at c1 c2
          have e3 : storage + b + kb.length + vb.length =
              storage + (b + kb.length + vb.length) := by omega
          simp only [contains_loop, get_loop, if_pos hlt, rk, rv, sv, find_entry, List.find?_cons]
          by_cases hkey : key = item.1
          · simp [hkey]
          · simp only [hkey, if_false, decide_False, e3]
            exact ⟨c1, c2⟩
    · cases h

theorem write_buckets_spec (cfg : MapConfig Key Value) {vk : Key → Prop} {vv : Value → Prop}
    (lk : SerializerLaws cfg.key_serializer vk) (lv : SerializerLaws cfg.value_serializer vv)
    (bs : List (List (Key × Value))) :
    ∀ (ix sto ix' sto' : Bytes), write_buckets cfg bs (ix, sto) = some (ix', sto') →
      ix'.length = ix.length + 8 * bs.length ∧
      sto'.length = sto.length + storage_size_of cfg bs ∧
      (∃ t, ix' = ix ++ t) ∧ (∃ t, sto' = sto ++ t) ∧
      ∀ i es, bs[i]? = some es →
        (es = [] → At ix' (ix.length + 8 * i)
          (u32_bytes unknown_offset ++ u32_bytes unknown_offset)) ∧
        (es ≠ [] → ∃ bytes b, write_entries cfg es = some bytes ∧
          b + bytes.length ≤ sto'.length ∧ At sto' b bytes ∧
          At ix' (ix.length + 8 * i) (u32_bytes b ++ u32_bytes (b + bytes.length))) := by
  induction bs with
  | nil =>
    intro ix sto ix' sto' h
    simp only [write_buckets, Option.some.injEq, Prod.mk.injEq] at h
    obtain ⟨rfl, rfl⟩ := h
    refine ⟨by simp, by simp [storage_size_of], ⟨[], by simp⟩, ⟨[], by simp⟩, ?_⟩
    intro i es hi
    simp at hi
  | cons entry rest ih =>
    intro ix sto ix' sto' h
    simp only [write_buckets] at h
    split at h
    · rename_i hemp
      have hnil : entry = [] := List.isEmpty_iff.1 hemp
      obtain ⟨i1, i2, ⟨t1, i3⟩, i4, i5⟩ := ih _ _ _ _ h
      simp only [List.length_append, u32_bytes_length] at i1
      refine ⟨by simp only [List.length_cons]; omega, ?_, ⟨_, by rw [i3, List.append_assoc,
        List.append_assoc]⟩, i4, ?_⟩
      · rw [i2, hnil]; simp [storage_size_of]
      · intro i es hi
        cases i with
        | zero =>
          simp only [List.getElem?_cons_zero, Option.some.injEq] at hi
          subst hi
          refine ⟨fun _ => ?_, fun hne => absurd hnil hne⟩
          rw [i3, List.append_assoc ix, List.append_assoc ix, ← List.append_assoc _ _ t1,
            ← List.append_assoc ix]
          simpa using At.of_append ix (u32_bytes unknown_offset ++ u32_bytes unknown_offset) t1
        | succ j =>
          simp only [List.getElem?_cons_succ] at hi
          obtain ⟨j1, j2⟩ := i5 j es hi
          simp only [List.length_append, u32_bytes_length] at j1 j2
          have e : ix.length + 4 + 4 + 8 * j = ix.length + 8 * (j + 1) := by omega
          rw [e] at j1 j2
          exact ⟨j1, j2⟩
    · rename_i hemp
      have hne : entry ≠ [] := fun e => hemp (List.isEmpty_iff.2 e)
      split at h
      · cases h
      · rename_i bytes hb
        obtain ⟨i1, i2, ⟨t1, i3⟩, ⟨t2, i4⟩, i5⟩ := ih _ _ _ _ h
        simp only [List.length_append, u32_bytes_length] at i1 i2
        obtain ⟨l1, _⟩ := write_entries_length cfg lk lv entry bytes hb
        refine ⟨by simp only [List.length_cons]; omega, ?_, ⟨_, by rw [i3, List.append_assoc,
          List.append_assoc]⟩, ⟨_, by rw [i4, List.append_assoc]⟩, ?_⟩
        · rw [i2, l1]; simp only [storage_size_of, List.map_cons, List.sum_cons]; omega
        · intro i es hi
          cases i with
          | zero =>
            simp only [List.getElem?_cons_zero, Option.some.injEq] at hi
            subst hi
            refine ⟨fun e => absurd e hne, fun _ => ⟨bytes, sto.length, hb, ?_, ?_, ?_⟩⟩
            · rw [i2]; omega
            · rw [i4]
              simpa using At.of_append sto bytes t2
            · rw [i3, List.append_assoc ix, List.append_assoc ix, ← List.append_assoc _ _ t1,
                ← List.append_assoc ix]
              simpa using At.of_append ix
                (u32_bytes sto.length ++ u32_bytes (sto.length + bytes.length)) t1
          | succ j =>
            simp only [List.getElem?_cons_succ] at hi
            obtain ⟨j1, j2⟩ := i5 j es hi
            simp only [List.length_append, u32_bytes_length] at j1 j2
            have e : ix.length + 4 + 4 + 8 * j = ix.length + 8 * (j + 1) := by omega
            rw [e] at j1 j2
            exact ⟨j1, j2⟩

/-- What `MappedMap::write_to_buffer` appends. -/
theorem map_layout (cfg : MapConfig Key Value) (data : List (Key × Value))
    (buffer out : Bytes) (h : MappedMap.write_to_buffer cfg data buffer = some out) :
    ∃ H index storage, H ≠ 0 ∧
      write_buckets cfg (fill_buckets cfg H data) ([], []) = some (index, storage) ∧
      out = buffer ++ map_bytes cfg H data index storage := by
  unfold MappedMap.write_to_buffer at h
  split at h
  · cases h
  · rename_i H _
    split at h
    · cases h
    · rename_i hH
      simp only at h
      split at h
      · cases h
      · rename_i index storage hw
        simp only [Option.some.injEq] at h
        refine ⟨H, index, storage, hH, hw, ?_⟩
        rw [← h]
        simp only [map_bytes, storage_size_of, List.append_assoc]

end

end bpe

namespace bpe

/-! ## Lookups in an attached mapped map -/

section
variable {Key Value : Type}

theorem find_entry_bucket [DecidableEq Key] (cfg : MapConfig Key Value) (H : Nat) (key : Key)
    (data : List (Key × Value)) :
    find_entry (bucket_of cfg H data (cfg.hash key % H)) key = find_entry data key := by
  induction data with
  | nil => rfl
  | cons item rest ih =>
    unfold find_entry bucket_of at ih ⊢
    by_cases hk : key = item.1
    · have : cfg.hash item.1 % H = cfg.hash key % H := by rw [hk]
      simp [List.filter_cons, this, hk]
    · by_cases hb : cfg.hash item.1 % H = cfg.hash key % H
      · simp only [List.filter_cons, hb, decide_True, if_true, List.find?_cons, hk, decide_False]
        exact ih
      · simp only [List.filter_cons, hb, decide_False, List.find?_cons, hk]
        exact ih

theorem find_entry_mem [DecidableEq Key] (data : List (Key × Value)) (key : Key)
    (kv : Key × Value) (h : find_entry data key = some kv) : kv ∈ data ∧ kv.1 = key := by
  unfold find_entry at h
  refine ⟨List.mem_of_find?_eq_some h, ?_⟩
  have := List.find?_some h
  simp only [decide_eq_true_eq] at this
  exact this.symm

theorem find_entry_nil_of_bucket_nil [DecidableEq Key] (cfg : MapConfig Key Value) (H : Nat)
    (key : Key) (data : List (Key × Value))
    (h : bucket_of cfg H data (cfg.hash key % H) = []) : find_entry data key = none := by
  rw [← find_entry_bucket cfg H key data, h]
  rfl

/-- Attaching to a written mapped map: `contains` and `get` answer as the source map. -/
theorem map_read [DecidableEq Key] (cfg : MapConfig Key Value) {vk : Key → Prop}
    {vv : Value → Prop} (lk : SerializerLaws cfg.key_serializer vk)
    (lv : SerializerLaws cfg.value_serializer vv) (H : Nat) (hH : H ≠ 0)
    (data : List (Key × Value)) (index storage : Bytes)
    (hw : write_buckets cfg (fill_buckets cfg H data) ([], []) = some (index, storage))
    (hvalid : ∀ kv ∈ data, vk kv.1 ∧ vv kv.2) (mem : Bytes) (base : Nat)
    (hat : At mem base (map_bytes cfg H data index storage))
    (hfit : (map_bytes cfg H data index storage).length < 4294967296) :
    (map_bytes cfg H data index storage).length =
        4 * 4 + H * 2 * 4 + storage_size_of cfg (fill_buckets cfg H data) ∧
    ∃ m, MappedMap.attach mem base = some (m, (map_bytes cfg H data index storage).length) ∧
      ∀ key, MappedMap.contains cfg mem m key = some (find_entry data key).isSome ∧
        ∀ kv, find_entry data key = some kv → MappedMap.get cfg mem m key = some kv.2 := by
  obtain ⟨w1, w2, _, _, w5⟩ := write_buckets_spec cfg lk lv _ _ _ _ _ hw
  simp only [List.length_nil, Nat.zero_add, fill_buckets_length] at w1 w2 w5
  have hlen : (map_bytes cfg H data index storage).length =
      4 * 4 + H * 2 * 4 + storage_size_of cfg (fill_buckets cfg H data) := by
    simp only [map_bytes, List.length_append, u32_bytes_length, w1, w2]
    omega
  refine ⟨hlen, ?_⟩
  have hat' := hat
  unfold map_bytes at hat'
  have p0 := hat'.append_left
  have p1 := hat'.append_right.append_left
  have p2 := hat'.append_right.append_right.append_left
  have p3 := hat'.append_right.append_right.append_right.append_left
  have pidx := hat'.append_right.append_right.append_right.append_right.append_left
  have psto := hat'.append_right.append_right.append_right.append_right.append_right
  simp only [u32_bytes_length, w1] at p1 p2 p3 pidx psto
  have hfit2 : 16 + 8 * H + storage.length < 4294967296 := by
    rw [hlen, ← w2] at hfit; omega
  have r0 := read_u32_at_lt _ p0 (by rw [← hlen]; exact hfit)
  have r1 := read_u32_at _ p1
  have r2 := read_u32_at_lt _ p2 (by omega)
  have r3 := read_u32_at_lt _ p3 (by omega)
  refine ⟨⟨(map_bytes cfg H data index storage).length, data.length % 4294967296, H,
    storage.length, base + 4 * 4, base + 4 * 4 + H * (2 * 4)⟩, ?_, ?_⟩
  · unfold MappedMap.attach
    rw [r0]
    simp only [r1, r2, r3]
    rw [hlen]
  · intro key
    have hi : cfg.hash key % H < H := Nat.mod_lt _ (Nat.pos_of_ne_zero hH)
    obtain ⟨e1, e2⟩ := w5 (cfg.hash key % H) _ (fill_buckets_get cfg H data _ hi)
    have haddr : base + 4 * 4 + 2 * 4 * (cfg.hash key % H) =
        base + 4 + 4 + 4 + 4 + 8 * (cfg.hash key % H) := by omega
    by_cases hes : bucket_of cfg H data (cfg.hash key % H) = []
    · have q := At.of_at pidx (e1 hes)
      have q0 := read_u32_at _ q.append_left
      have hnone := find_entry_nil_of_bucket_nil cfg H key data hes
      refine ⟨?_, ?_⟩
      · unfold MappedMap.contains
        simp only [if_neg hH, haddr, q0]
        rw [hnone]
        simp [unknown_offset]
      · intro kv hkv
        rw [hnone] at hkv
        cases hkv
    · obtain ⟨bytes, b, f1, f2, f3, f4⟩ := e2 hes
      obtain ⟨_, f5⟩ := write_entries_length cfg lk lv _ bytes f1
      have hpos : 0 < bytes.length := by
        have : 0 < (bucket_of cfg H data (cfg.hash key % H)).length := List.length_pos.2 hes
        omega
      have q := At.of_at pidx f4
      have q0 := read_u32_at_lt _ q.append_left (by omega)
      have q1 := read_u32_at_lt _ q.append_right (by omega)
      simp only [u32_bytes_length] at q1
      have qs : At mem (base + 4 * 4 + H * (2 * 4) + b) bytes := by
        have := At.of_at psto f3
        have e : base + 4 + 4 + 4 + 4 + 8 * H + b = base + 4 * 4 + H * (2 * 4) + b := by omega
        rw [e] at this; exact this
      obtain ⟨s1, s2⟩ := scan_bucket cfg lk lv mem (base + 4 * 4 + H * (2 * 4)) key _ bytes b
        (b + bytes.length + 1) f1 (by omega)
        (fun kv hkv => hvalid kv (List.mem_of_mem_filter hkv)) qs (by omega)
      rw [find_entry_bucket] at s1 s2
      have hne : ¬ (b = unknown_offset ∨ b ≥ storage.length) := by
        simp only [unknown_offset]; omega
      refine ⟨?_, ?_⟩
      · unfold MappedMap.contains
        simp only [if_neg hH, haddr, q0, q1, if_neg hne, if_pos f2]
        exact s1
      · intro kv hkv
        rw [hkv] at s2
        have hne2 : b ≠ unknown_offset ∧ b < storage.length := by
          simp only [unknown_offset]; omega
        unfold MappedMap.get
        simp only [if_neg hH, haddr, q0, q1, if_pos hne2, if_pos f2]
        exact s2

end

end bpe

namespace bpe

/-! ## The artifact written by `save` and read by `Tokenizer::attach` -/

theorem lookup_eq_find_entry {Key Value : Type} [DecidableEq Key] [BEq Key] [LawfulBEq Key]
    (data : List (Key × Value)) (key : Key) :
    data.lookup key = (find_entry data key).map Prod.snd := by
  induction data with
  | nil => rfl
  | cons item rest ih =>
    obtain ⟨k, v⟩ := item
    unfold find_entry at ih ⊢
    rw [List.lookup_cons, List.find?_cons]
    by_cases h : key = k
    · subst h; simp
    · have h1 : (key == k) = false := by simpa using h
      simp only [h1, h, decide_False]
      exact ih

theorem map_emplace_mem {α β : Type} [DecidableEq α] (m : List (α × β)) (key : α) (value : β)
    (kv : α × β) (h : kv ∈ map_emplace m key value) : kv ∈ m ∨ kv = (key, value) := by
  unfold map_emplace at h
  split at h
  · exact Or.inl h
  · simpa using h

theorem build_cache_mem (t : TokenizerTrainer) (hc : t.cache = []) :
    ∀ kv ∈ t.build_cache.cache, ∃ e ∈ t.vocab, kv = (e.text, e.ids) := by
  unfold TokenizerTrainer.build_cache
  split
  · rw [hc]; intro kv h; simp at h
  · simp only
    rw [hc]
    have : ∀ (es : List VocabEntry) (acc : List (Bytes × List Nat)),
        ∀ kv ∈ es.foldl (fun cache entry => map_emplace cache entry.text entry.ids) acc,
          kv ∈ acc ∨ ∃ e ∈ es, kv = (e.text, e.ids) := by
      intro es
      induction es with
      | nil => intro acc kv h; exact Or.inl h
      | cons e rest ih =>
        intro acc kv h
        rw [List.foldl_cons] at h
        rcases ih _ kv h with h | ⟨e', he', h⟩
        · rcases map_emplace_mem _ _ _ _ h with h | h
          · exact Or.inl h
          · exact Or.inr ⟨e, by simp, h⟩
        · exact Or.inr ⟨e', List.mem_cons_of_mem _ he', h⟩
    intro kv h
    rcases this _ _ kv h with h | ⟨e, he, h⟩
    · simp at h
    · exact ⟨e, List.mem_of_mem_take he, h⟩

/-- The bytes returned by `save` are the three artifacts, one after the other. -/
theorem save_layout (pl : Platform) (t : TokenizerTrainer) (buf : Bytes)
    (h : t.save pl = some buf) :
    ∃ strings H2 index2 storage2 H3 index3 storage3,
      write_strings t.id_to_seq = some strings ∧ H2 ≠ 0 ∧ H3 ≠ 0 ∧
      write_buckets merge_table_config (fill_buckets merge_table_config H2 t.merge_table)
        ([], []) = some (index2, storage2) ∧
      write_buckets (cache_config pl) (fill_buckets (cache_config pl) H3 t.cache)
        ([], []) = some (index3, storage3) ∧
      buf = string_table_bytes t.id_to_seq strings ++
        (map_bytes merge_table_config H2 t.merge_table index2 storage2 ++
          map_bytes (cache_config pl) H3 t.cache index3 storage3) := by
  unfold TokenizerTrainer.save at h
  split at h
  · cases h
  · rename_i b1 h1
    split at h
    · cases h
    · rename_i b2 h2
      obtain ⟨strings, s1, s2⟩ := string_table_layout _ _ _ h1
      obtain ⟨H2, i2, st2, m1, m2, m3⟩ := map_layout _ _ _ _ h2
      obtain ⟨H3, i3, st3, c1, c2, c3⟩ := map_layout _ _ _ _ h
      refine ⟨strings, H2, i2, st2, H3, i3, st3, s1, m1, c1, m2, c2, ?_⟩
      rw [c3, m3, s2, List.nil_append, List.append_assoc]

/-- Attaching a tokenizer to the saved bytes of a trainer whose ids fit 32 bits: every lookup
answers as the tables of the trainer. -/
theorem attach_save (pl : Platform) (t : TokenizerTrainer) (buf : Bytes)
    (h : t.save pl = some buf) (hfit : buf.length < 4294967296)
    (hm : ∀ kv ∈ t.merge_table,
      (kv.1.1 < 4294967296 ∧ kv.1.2 < 4294967296) ∧ kv.2 < 4294967296)
    (hc : ∀ kv ∈ t.cache, True ∧ ∀ x ∈ kv.2, x < 4294967296) :
    ∃ tk, Tokenizer.attach buf = some tk ∧ tk.memory = buf ∧
      tk.id_to_seq.element_count = t.id_to_seq.length ∧
      (∀ i s, t.id_to_seq[i]? = some s → tk.id_to_seq.get buf i = some s) ∧
      (∀ key, MappedMap.contains merge_table_config buf tk.merge_table key =
          some (find_entry t.merge_table key).isSome ∧
        ∀ kv, find_entry t.merge_table key = some kv →
          MappedMap.get merge_table_config buf tk.merge_table key = some kv.2) ∧
      (∀ key, MappedMap.contains (cache_config pl) buf tk.cache key =
          some (find_entry t.cache key).isSome ∧
        ∀ kv, find_entry t.cache key = some kv →
          MappedMap.get (cache_config pl) buf tk.cache key = some kv.2) := by
  obtain ⟨strings, H2, i2, st2, H3, i3, st3, s1, m1, c1, m2, c2, hbuf⟩ := save_layout pl t buf h
  have a1 : At buf 0 (string_table_bytes t.id_to_seq strings) := by
    rw [hbuf]; exact List.prefix_append _ _
  have a23 : At buf (0 + (string_table_bytes t.id_to_seq strings).length)
      (map_bytes merge_table_config H2 t.merge_table i2 st2 ++
        map_bytes (cache_config pl) H3 t.cache i3 st3) := by
    have : At buf 0 buf := List.prefix_refl _
    rw [hbuf] at this ⊢
    exact this.append_right
  have a2 := a23.append_left
  have a3 := a23.append_right
  have hl1 : (string_table_bytes t.id_to_seq strings).length < 4294967296 := by
    have := a1.length_le (by simp [string_table_bytes, u32_bytes])
    omega
  obtain ⟨a, r1, r2, r3⟩ := string_table_read t.id_to_seq strings buf 0 s1 a1 hl1
  have hl2 : (map_bytes merge_table_config H2 t.merge_table i2 st2).length < 4294967296 := by
    have := a2.length_le (by simp [map_bytes, u32_bytes])
    omega
  have hl3 : (map_bytes (cache_config pl) H3 t.cache i3 st3).length < 4294967296 := by
    have := a3.length_le (by simp [map_bytes, u32_bytes])
    omega
  obtain ⟨_, m, q1, q2⟩ := map_read merge_table_config laws_pair laws_u32 H2 m1 t.merge_table
    i2 st2 m2 hm buf _ a2 hl2
  obtain ⟨_, c, p1, p2⟩ := map_read (cache_config pl) laws_string_view laws_vector_u32 H3 c1
    t.cache i3 st3 c2 hc buf _ a3 hl3
  refine ⟨⟨buf, a, m, c⟩, ?_, rfl, r2, r3, q2, p2⟩
  unfold Tokenizer.attach
  rw [r1]
  simp only [q1, p1]

end bpe

namespace bpe

/-! ## The attached tokenizer answers as the trainer -/

theorem save_length_ge (pl : Platform) (t : TokenizerTrainer) (buf : Bytes)
    (h : t.save pl = some buf) : t.id_to_seq.length * 4 ≤ buf.length := by
  obtain ⟨strings, H2, i2, st2, H3, i3, st3, s1, _, _, _, _, hbuf⟩ := save_layout pl t buf h
  have := string_table_bytes_length t.id_to_seq strings s1
  rw [hbuf, List.length_append, this]
  omega

theorem build_bpe_cache_mem (t t' : TokenizerTrainer) (hc : t.cache = [])
    (hb : t.build_bpe = some t') : ∀ kv ∈ t'.cache, ∃ e ∈ t'.vocab, kv = (e.text, e.ids) := by
  obtain ⟨_, _, _, ht⟩ := build_bpe_eq t t' hb
  generalize hst : train_loop (t.config.size - 256) (build_start t) = st at ht
  have key := build_cache_mem
    { t with
      vocab := st.queue.vocab
      merge_table := st.merge_table
      id_to_seq := st.id_to_seq } hc
  have hfr := (build_cache_frame
    { t with
      vocab := st.queue.vocab
      merge_table := st.merge_table
      id_to_seq := st.id_to_seq }).2.2.2.1
  rw [← ht] at key hfr
  rw [hfr]
  exact key

theorem hello_artifact_eq : hello_trained.save hello_platform = some hello_artifact := by
  decide!

theorem get_merge_id_eq (tk : Tokenizer) (table : List (Pair × Nat)) (a b : Nat)
    (h : MappedMap.contains merge_table_config tk.memory tk.merge_table (a, b) =
        some (find_entry table (a, b)).isSome ∧
      ∀ kv, find_entry table (a, b) = some kv →
        MappedMap.get merge_table_config tk.memory tk.merge_table (a, b) = some kv.2) :
    tk.get_merge_id a b = some (table.lookup (a, b)) := by
  unfold Tokenizer.get_merge_id
  rw [lookup_eq_find_entry, h.1]
  cases hf : find_entry table (a, b) with
  | none => rfl
  | some kv =>
    simp only [Option.isSome_some, h.2 kv hf, Option.map_some']

/-- Claim C3, amended. Artifact self-describing: for every trainer state after `build_bpe`
whose saved artifact `save()` is smaller than 4 GiB (its offsets are 32-bit fields), a tokenizer
attached to these bytes answers every lookup as the trainer: `decode_token(i)` is
`id_to_seq[i]` for every `i < |id_to_seq|`; `get_merge_id(a, b)` is the merge-table value of
`(a, b)` when the pair is a key and nothing otherwise; and for every byte string `w` the cache
contains `w` exactly when the trainer's cache does, `get` then returning the same id
sequence. -/
theorem artifact_self_describing (pl : Platform) (t t' : TokenizerTrainer) (buf : Bytes)
    (hv : t.vocab = []) (hc : t.cache = []) (hb : t.build_bpe = some t')
    (hs : t'.save pl = some buf) (hfit : buf.length < 4294967296) :
    ∃ tk, Tokenizer.attach buf = some tk ∧
      (∀ i s, t'.id_to_seq[i]? = some s → tk.decode_token i = some s) ∧
      (∀ a b, tk.get_merge_id a b = some (t'.merge_table.lookup (a, b))) ∧
      (∀ w, MappedMap.contains (cache_config pl) tk.memory tk.cache w =
          some (t'.cache.lookup w).isSome ∧
        ∀ ids, t'.cache.lookup w = some ids →
          MappedMap.get (cache_config pl) tk.memory tk.cache w = some ids) := by
  obtain ⟨st, hinv, e1, e2, e3, _, _, _⟩ := build_bpe_inv t t' hv hb
  obtain ⟨_, _, _, hB, _, hE, _, _, _, _⟩ := hinv
  have hN := save_length_ge pl t' buf hs
  rw [e2] at hN
  have hm : ∀ kv ∈ t'.merge_table,
      (kv.1.1 < 4294967296 ∧ kv.1.2 < 4294967296) ∧ kv.2 < 4294967296 := by
    intro kv hkv
    rw [e1] at hkv
    obtain ⟨a1, a2, a3, _⟩ := hE kv hkv
    omega
  have hcache : ∀ kv ∈ t'.cache, True ∧ ∀ x ∈ kv.2, x < 4294967296 := by
    intro kv hkv
    obtain ⟨e, hvocab, rfl⟩ := build_bpe_cache_mem t t' hc hb kv hkv
    refine ⟨trivial, ?_⟩
    intro x hx
    rw [e3] at hvocab
    have := hB.1 e hvocab x hx
    omega
  obtain ⟨tk, k1, k2, k3, k4, k5, k6⟩ := attach_save pl t' buf hs hfit hm hcache
  refine ⟨tk, k1, ?_, ?_, ?_⟩
  · intro i s his
    have hi : i < t'.id_to_seq.length := (List.getElem?_eq_some.1 his).1
    unfold Tokenizer.decode_token
    rw [k3, if_pos hi, k2]
    exact k4 i s his
  · intro a b
    apply get_merge_id_eq
    rw [k2]
    exact k5 (a, b)
  · intro w
    rw [k2, lookup_eq_find_entry]
    obtain ⟨c1, c2⟩ := k6 w
    refine ⟨by rw [c1]; cases find_entry t'.cache w <;> rfl, ?_⟩
    intro ids hids
    cases hf : find_entry t'.cache w with
    | none => rw [hf] at hids; cases hids
    | some kv =>
      rw [hf] at hids
      simp only [Option.map_some', Option.some.injEq] at hids
      rw [c2 kv hf, hids]

/-- Witness of **C3** on the trainer of the test `BpeTest.tokenize`: token 263 decodes to
`Hello` and the pair `(72, 101)` merges into 256. -/
theorem artifact_self_describing_witness :
    hello_trainer.vocab = [] ∧ hello_trainer.cache = [] ∧
      hello_trainer.build_bpe = some hello_trained ∧
      hello_trained.save hello_platform = some hello_artifact ∧
      hello_artifact.length < 4294967296 ∧
      ∃ tk, Tokenizer.attach hello_artifact = some tk ∧
        tk.decode_token 263 = some [72, 101, 108, 108, 111] ∧
        tk.get_merge_id 72 101 = some (some 256) :=
  ⟨rfl, rfl, hello_trained_eq, hello_artifact_eq, by decide!,
    (artifact_self_describing hello_platform hello_trainer hello_trained hello_artifact rfl rfl
      hello_trained_eq hello_artifact_eq (by decide!)).imp
      (fun _ h => ⟨h.1, h.2.1 263 _ (by decide!), h.2.2.1 72 101⟩)⟩

end bpe

namespace bpe

/-! ## Encoding bytes above 0x7F -/

theorem char_to_u32_signed (pl : Platform) (hp : pl.char_is_signed = true) (c : Nat)
    (h1 : 128 ≤ c) (h2 : c < 256) : char_to_u32 pl c = c + 4294967040 := by
  unfold char_to_u32
  have hc : c % 256 = c := Nat.mod_eq_of_lt h2
  rw [hc, if_pos ⟨hp, h1⟩]
  norm_num

/-- Claim C1 (the code departs from the claim). On a platform whose plain `char` is signed,
`encode_word` turns every byte `c >= 0x80` into the id `c + 0xFFFFFF00`. For the tokenizer of
the test `BpeTest.tokenize` and the two-byte text `C3 A9` (the UTF-8 letter e-acute), `encode`
returns the ids `[4294967235, 4294967209]`, which are outside the string table of 265 tokens:
`decode` reads outside the attached buffer and `decode(encode(t))` gives no text, while the
round trip of `Hello, world!` succeeds. -/
theorem round_trip_fails_on_high_byte :
    (∀ pl : Platform, pl.char_is_signed = true → ∀ c, 128 ≤ c → c < 256 →
      char_to_u32 pl c = c + 4294967040) ∧
    (Tokenizer.attach hello_artifact).map (fun tk => tk.id_to_seq.element_count) = some 265 ∧
    (Tokenizer.attach hello_artifact).map (fun tk => tk.encode hello_platform [195, 169]) =
      some (some [4294967235, 4294967209]) ∧
    (Tokenizer.attach hello_artifact).map (fun tk =>
      (tk.encode hello_platform [195, 169]).bind tk.decode) = some none ∧
    (Tokenizer.attach hello_artifact).map (fun tk =>
      (tk.encode hello_platform hello_world).bind tk.decode) = some (some hello_world) := by
  refine ⟨char_to_u32_signed, ?_, ?_, ?_, ?_⟩ <;> decide!

end bpe

namespace bpe

/-! ## Shape of prefix, body and suffix -/

theorem dropWhile_eq_drop (p : Nat → Bool) (l : Bytes) :
    l.dropWhile p = l.drop (l.takeWhile p).length := by
  have h : (l.takeWhile p ++ l.dropWhile p).drop (l.takeWhile p).length = l.dropWhile p :=
    List.drop_left _ _
  rw [List.takeWhile_append_dropWhile] at h
  exact h.symm

theorem takeWhile_eq_take (p : Nat → Bool) (l : Bytes) :
    l.takeWhile p = l.take (l.takeWhile p).length :=
  List.prefix_iff_eq_take.mp (List.takeWhile_prefix p)

theorem scan_up_eq (p : Nat → Bool) (word : Bytes) (fuel i : Nat) (hi : i ≤ word.length)
    (hf : word.length - i ≤ fuel) :
    scan_up p word fuel i = i + ((word.drop i).takeWhile p).length := by
  induction fuel generalizing i with
  | zero =>
    have : i = word.length := by omega
    subst this
    simp [scan_up]
  | succ n ih =>
    unfold scan_up
    by_cases hlt : i < word.length
    · rw [List.drop_eq_getElem_cons hlt, List.getD_eq_getElem word 0 hlt]
      by_cases hp : p word[i] = true
      · rw [if_pos (by simp [hlt, hp]), ih (i + 1) (by omega) (by omega),
          List.takeWhile_cons_of_pos hp]
        simp only [List.length_cons]
        omega
      · rw [if_neg (by simp [hp]), List.takeWhile_cons_of_neg hp]
        simp
    · have : i = word.length := by omega
      subst this
      simp

theorem scan_up_stop (p : Nat → Bool) (word : Bytes) (fuel i : Nat) (hi : i ≤ word.length)
    (hf : word.length - i ≤ fuel) (hr : scan_up p word fuel i < word.length) :
    p (word.getD (scan_up p word fuel i) 0) = false := by
  induction fuel generalizing i with
  | zero =>
    simp only [scan_up] at hr
    omega
  | succ n ih =>
    unfold scan_up at hr ⊢
    by_cases hc : (decide (i < word.length) && p (word.getD i 0)) = true
    · rw [if_pos hc] at hr ⊢
      simp only [Bool.and_eq_true, decide_eq_true_eq] at hc
      exact ih (i + 1) (by omega) (by omega) hr
    · rw [if_neg hc] at hr ⊢
      simp only [Bool.and_eq_true, decide_eq_true_eq, not_and, Bool.not_eq_true] at hc
      exact hc hr

theorem scan_up_all (p : Nat → Bool) (word : Bytes) (fuel i k : Nat) (hik : i ≤ k)
    (hk : k < scan_up p word fuel i) : p (word.getD k 0) = true := by
  induction fuel generalizing i with
  | zero =>
    simp only [scan_up] at hk
    omega
  | succ n ih =>
    unfold scan_up at hk
    by_cases hc : (decide (i < word.length) && p (word.getD i 0)) = true
    · rw [if_pos hc] at hk
      simp only [Bool.and_eq_true, decide_eq_true_eq] at hc
      by_cases hki : k = i
      · subst hki; exact hc.2
      · exact ih (i + 1) (by omega) hk
    · rw [if_neg hc] at hk
      omega

theorem scan_down_all (p : Nat → Bool) (word : Bytes) (lo e k : Nat)
    (hk : scan_down p word lo e ≤ k) (hke : k < e) : p (word.getD k 0) = true := by
  induction e with
  | zero => omega
  | succ n ih =>
    unfold scan_down at hk
    by_cases hc : (decide (n + 1 > lo) && p (word.getD n 0)) = true
    · rw [if_pos hc] at hk
      simp only [Bool.and_eq_true, decide_eq_true_eq] at hc
      by_cases hkn : k = n
      · subst hkn; exact hc.2
      · exact ih hk (by omega)
    · rw [if_neg hc] at hk
      omega

theorem scan_down_of_all (p : Nat → Bool) (word : Bytes) (lo e : Nat) (hle : lo ≤ e)
    (h : ∀ k, lo ≤ k → k < e → p (word.getD k 0) = true) : scan_down p word lo e = lo := by
  induction e with
  | zero => simp only [scan_down]; omega
  | succ n ih =>
    unfold scan_down
    by_cases hlo : lo = n + 1
    · rw [if_neg (by simp [hlo])]; exact hlo.symm
    · have hc : (decide (n + 1 > lo) && p (word.getD n 0)) = true := by
        simp only [Bool.and_eq_true, decide_eq_true_eq]
        exact ⟨by omega, h n (by omega) (by omega)⟩
      rw [if_pos hc]
      exact ih (by omega) (fun k h1 h2 => h k h1 (by omega))

theorem scan_down_eq (p : Nat → Bool) (word : Bytes) (lo e j : Nat) (he : e ≤ word.length)
    (hj : lo ≤ j) (hje : j < e) (hp : p (word.getD j 0) = false) :
    scan_down p word lo e = e - (trailing_run p (word.take e)).length ∧
      j < scan_down p word lo e := by
  induction e with
  | zero => omega
  | succ n ih =>
    have hn : n < word.length := by omega
    have ht : (word.take (n + 1)).reverse = word[n] :: (word.take n).reverse := by
      rw [List.take_succ, List.getElem?_eq_getElem hn]
      simp
    unfold scan_down
    unfold trailing_run at ih ⊢
    rw [List.length_reverse] at ih ⊢
    rw [ht, List.getD_eq_getElem word 0 hn]
    by_cases hpn : p word[n] = true
    · have hjn : j ≠ n := by
        intro hjn
        subst hjn
        rw [List.getD_eq_getElem word 0 hn, hpn] at hp
        cases hp
      have hc : (decide (n + 1 > lo) && p word[n]) = true := by
        simp only [Bool.and_eq_true, decide_eq_true_eq]
        exact ⟨by omega, hpn⟩
      rw [if_pos hc, List.takeWhile_cons_of_pos hpn]
      have := ih (by omega) (by omega)
      simp only [List.length_cons]
      omega
    · rw [if_neg (by simp [hpn]), List.takeWhile_cons_of_neg hpn]
      simp only [List.length_nil, Nat.sub_zero, true_and]
      omega

theorem trailing_run_eq_drop (p : Nat → Bool) (w : Bytes) :
    trailing_run p w = w.drop (w.length - (trailing_run p w).length) := by
  unfold trailing_run
  rw [List.length_reverse]
  conv_lhs => rw [takeWhile_eq_take p w.reverse]
  rw [List.reverse_take, List.reverse_reverse, List.length_reverse]

theorem drop_body_start (word : Bytes) :
    word.drop (scan_up is_punctuation word word.length (scan_up is_space word word.length 0)) =
      (word.dropWhile is_space).dropWhile is_punctuation := by
  have hb := scan_up_le is_space word word.length 0 (Nat.zero_le _)
  rw [dropWhile_eq_drop is_punctuation, dropWhile_eq_drop is_space, List.drop_drop,
    scan_up_eq is_punctuation word word.length _ hb (by omega),
    scan_up_eq is_space word word.length 0 (Nat.zero_le _) (by omega)]
  simp only [List.drop_zero, Nat.zero_add]

/-- Words of the form spaces, punctuation, spaces are returned whole as the body. -/
theorem split_prefix_body_suffix_of_sps (word : Bytes)
    (h : spaces_punctuation_spaces word = true) :
    split_prefix_body_suffix word = ([], word, []) := by
  unfold spaces_punctuation_spaces at h
  rw [← drop_body_start] at h
  have hb := scan_up_le is_space word word.length 0 (Nat.zero_le _)
  have hbs := scan_up_le is_punctuation word word.length _ hb
  have hall : ∀ k, scan_up is_punctuation word word.length (scan_up is_space word word.length 0) ≤ k →
      k < word.length → is_space (word.getD k 0) = true := by
    intro k h1 h2
    rw [List.all_eq_true] at h
    apply h
    rw [List.getD_eq_getElem word 0 h2]
    have hk : k - scan_up is_punctuation word word.length (scan_up is_space word word.length 0) <
        (word.drop (scan_up is_punctuation word word.length
          (scan_up is_space word word.length 0))).length := by
      rw [List.length_drop]; omega
    have := List.getElem_mem hk
    rw [List.getElem_drop] at this
    have e : scan_up is_punctuation word word.length (scan_up is_space word word.length 0) +
        (k - scan_up is_punctuation word word.length (scan_up is_space word word.length 0)) = k := by
      omega
    simpa only [e] using this
  have hdown := scan_down_of_all is_space word _ word.length hbs hall
  unfold split_prefix_body_suffix
  simp only
  split
  · rfl
  split
  · rfl
  rw [hdown]
  simp

/-- A word that is not of the form spaces, punctuation, spaces has a byte that is not a
space at or after the end of the leading punctuation. -/
theorem exists_body_byte (word : Bytes) (h : spaces_punctuation_spaces word = false) :
    ∃ j, scan_up is_punctuation word word.length (scan_up is_space word word.length 0) ≤ j ∧
      j < word.length ∧ is_space (word.getD j 0) = false := by
  unfold spaces_punctuation_spaces at h
  rw [← drop_body_start, List.all_eq_false] at h
  obtain ⟨x, hx, hpx⟩ := h
  obtain ⟨m, hm, rfl⟩ := List.mem_iff_getElem.mp hx
  rw [List.length_drop] at hm
  rw [List.getElem_drop] at hpx
  refine ⟨_ + m, Nat.le_add_right _ _, by omega, ?_⟩
  rw [List.getD_eq_getElem word 0 (by omega)]
  simpa using hpx

theorem split_prefix_body_suffix_shape (word : Bytes)
    (h : spaces_punctuation_spaces word = false) :
    (split_prefix_body_suffix word).1 = shape_prefix word ∧
      (split_prefix_body_suffix word).2.2 = shape_suffix word := by
  obtain ⟨j, hj1, hj2, hj3⟩ := exists_body_byte word h
  have hb := scan_up_le is_space word word.length 0 (Nat.zero_le _)
  have hbs' := le_scan_up is_punctuation word word.length (scan_up is_space word word.length 0)
  have e1 := scan_up_eq is_space word word.length 0 (Nat.zero_le _) (by omega)
  have e2 := scan_up_eq is_punctuation word word.length _ hb (by omega)
  have hstop := scan_up_stop is_punctuation word word.length _ hb (by omega) (by omega)
  have e3 := scan_down_eq is_space word _ word.length j (Nat.le_refl _) hj1 hj2 hj3
  have hen := scan_down_le is_space word
    (scan_up is_punctuation word word.length (scan_up is_space word word.length 0)) word.length
  have e4 := scan_down_eq is_punctuation word _ _ _ hen (Nat.le_refl _) (by omega) hstop
  have hbe := scan_down_le is_punctuation word
    (scan_up is_punctuation word word.length (scan_up is_space word word.length 0))
    (scan_down is_space word
      (scan_up is_punctuation word word.length (scan_up is_space word word.length 0))
      word.length)
  have t1 := takeWhile_eq_take is_space word
  have t2 := takeWhile_eq_take is_punctuation (word.drop (word.takeWhile is_space).length)
  have t3 := trailing_run_eq_drop is_space word
  have t4 := trailing_run_eq_drop is_punctuation (word.take (word.length -
    (trailing_run is_space word).length))
  unfold shape_prefix shape_suffix leading_run
  unfold split_prefix_body_suffix
  simp only [List.drop_zero, Nat.zero_add, List.take_length] at e1 e2 e3 e4 ⊢
  rw [← e1] at t1 t2 ⊢
  generalize scan_up is_space word word.length 0 = bg at *
  generalize scan_up is_punctuation word word.length bg = bs at *
  have hs2 : word.length - (trailing_run is_space word).length =
      scan_down is_space word bs word.length := by omega
  rw [hs2] at t4 ⊢
  generalize scan_down is_space word bs word.length = en at *
  generalize scan_down is_punctuation word bs en = be at *
  rw [if_neg (by simp only [beq_iff_eq]; omega), if_neg (by simp only [beq_iff_eq]; omega),
    if_neg (by simp only [beq_iff_eq]; omega), if_neg (by simp only [beq_iff_eq]; omega)]
  have hlen : (word.take en).length = en := by rw [List.length_take]; omega
  constructor
  · by_cases hp : bs > bg
    · have hne : List.takeWhile is_punctuation (List.drop bg word) ≠ [] := by
        intro hnil
        rw [hnil] at e2
        simp at e2
        omega
      simp only [hp, if_true, hne, ne_eq, not_false_eq_true, substr, List.drop_zero]
      rw [t1, t2, e2, List.take_add]
    · have hnil : List.takeWhile is_punctuation (List.drop bg word) = [] := by
        apply List.eq_nil_of_length_eq_zero
        omega
      simp [hp, hnil]
  · by_cases hs : be < en
    · have hne : trailing_run is_punctuation (word.take en) ≠ [] := by
        intro hnil
        rw [hnil] at e4
        simp at e4
        omega
      simp only [hs, if_true, hne, ne_eq, not_false_eq_true, substr]
      rw [t3, t4, hlen]
      have e5 : en - (trailing_run is_punctuation (List.take en word)).length = be := by omega
      have e6 : word.length - (trailing_run is_space word).length = en := by omega
      rw [e5, e6, List.take_of_length_le (by simp)]
      conv_lhs => rw [← List.take_append_drop en word]
      rw [List.drop_append_of_le_length (by omega)]
    · have hnil : trailing_run is_punctuation (word.take en) = [] := by
        apply List.eq_nil_of_length_eq_zero
        omega
      simp [hs, hnil]

theorem split_prefix_body_suffix_body_ne_nil (word : Bytes)
    (h : spaces_punctuation_spaces word = false) : (split_prefix_body_suffix word).2.1 ≠ [] := by
  obtain ⟨j, hj1, hj2, hj3⟩ := exists_body_byte word h
  have hb := scan_up_le is_space word word.length 0 (Nat.zero_le _)
  have hbs' := le_scan_up is_punctuation word word.length (scan_up is_space word word.length 0)
  have hstop := scan_up_stop is_punctuation word word.length _ hb (by omega) (by omega)
  have e3 := scan_down_eq is_space word _ word.length j (Nat.le_refl _) hj1 hj2 hj3
  have hen := scan_down_le is_space word
    (scan_up is_punctuation word word.length (scan_up is_space word word.length 0)) word.length
  have e4 := scan_down_eq is_punctuation word _ _ _ hen (Nat.le_refl _) (by omega) hstop
  have hbe := scan_down_le is_punctuation word
    (scan_up is_punctuation word word.length (scan_up is_space word word.length 0))
    (scan_down is_space word
      (scan_up is_punctuation word word.length (scan_up is_space word word.length 0))
      word.length)
  unfold split_prefix_body_suffix
  simp only
  generalize scan_up is_space word word.length 0 = bg at *
  generalize scan_up is_punctuation word word.length bg = bs at *
  generalize scan_down is_space word bs word.length = en at *
  generalize scan_down is_punctuation word bs en = be at *
  rw [if_neg (by simp only [beq_iff_eq]; omega), if_neg (by simp only [beq_iff_eq]; omega),
    if_neg (by simp only [beq_iff_eq]; omega), if_neg (by simp only [beq_iff_eq]; omega)]
  intro hnil
  have hl := congrArg List.length hnil
  simp only [substr, List.length_take, List.length_drop, List.length_nil] at hl
  by_cases hp : bs > bg <;> by_cases hs : be < en <;>
    simp only [hp, hs, if_true, if_false, List.length_take, List.length_drop, List.length_nil,
      List.drop_zero] at hl <;> omega

theorem sps_of_degenerate (word : Bytes) (h : degenerate word = true) :
    spaces_punctuation_spaces word = true := by
  unfold degenerate at h
  unfold spaces_punctuation_spaces
  simp only [Bool.or_eq_true, List.isEmpty_iff, List.all_eq_true] at h
  rcases h with (h | h) | h
  · subst h; rfl
  · have : word.dropWhile is_space = [] := List.dropWhile_eq_nil_iff.mpr h
    rw [this]; rfl
  · have : (word.dropWhile is_space).dropWhile is_punctuation = [] := by
      apply List.dropWhile_eq_nil_iff.mpr
      intro x hx
      exact h x ((List.dropWhile_suffix is_space).subset hx)
    rw [this]; rfl

end bpe

namespace bpe

/-- Claim C15, the claim as stated fails: the word made of a space and a comma is not
degenerate (it is neither empty, nor only spaces, nor only punctuation), the shape rule
names the prefix `S1 ++ P1`, the whole word, and `split_prefix_body_suffix` returns an empty
prefix with the whole word as the body. -/
theorem shape_fails_on_space_comma :
    degenerate [32, 44] = false ∧ shape_prefix [32, 44] = [32, 44] ∧
      split_prefix_body_suffix [32, 44] = ([], [32, 44], []) := by
  decide

/-- Claim C15, amended. For every word that is not of the form spaces, punctuation, spaces
(each run possibly empty), `split_prefix_body_suffix` returns the prefix `S1 ++ P1` when the
punctuation run `P1` after the leading spaces `S1` is not empty and the empty prefix
otherwise, the suffix `P2 ++ S2` when the punctuation run `P2` before the trailing spaces
`S2` is not empty and the empty suffix otherwise, and as the body the rest of the word. -/
theorem prefix_body_suffix_shape (word : Bytes)
    (h : spaces_punctuation_spaces word = false) :
    (split_prefix_body_suffix word).1 = shape_prefix word ∧
      (split_prefix_body_suffix word).2.2 = shape_suffix word ∧
      (split_prefix_body_suffix word).1 ++ (split_prefix_body_suffix word).2.1 ++
        (split_prefix_body_suffix word).2.2 = word :=
  ⟨(split_prefix_body_suffix_shape word h).1, (split_prefix_body_suffix_shape word h).2,
    split_prefix_body_suffix_concat word⟩

/-- The shape rule on the words of the test: ` Hello`, `(Hello,!` and `  (Hello) `. -/
theorem prefix_body_suffix_shape_witness :
    (spaces_punctuation_spaces [32, 32, 40, 72, 101, 108, 108, 111, 41, 32] = false ∧
      (split_prefix_body_suffix [32, 32, 40, 72, 101, 108, 108, 111, 41, 32]).1 =
        shape_prefix [32, 32, 40, 72, 101, 108, 108, 111, 41, 32] ∧
      (split_prefix_body_suffix [32, 32, 40, 72, 101, 108, 108, 111, 41, 32]).2.2 =
        shape_suffix [32, 32, 40, 72, 101, 108, 108, 111, 41, 32]) ∧
    split_prefix_body_suffix [32, 32, 40, 72, 101, 108, 108, 111, 41, 32] =
      ([32, 32, 40], [72, 101, 108, 108, 111], [41, 32]) ∧
    split_prefix_body_suffix [40, 72, 101, 108, 108, 111, 44, 33] =
      ([40], [72, 101, 108, 108, 111], [44, 33]) ∧
    split_prefix_body_suffix [32, 72, 101, 108, 108, 111] =
      ([], [32, 72, 101, 108, 108, 111], []) :=
  ⟨⟨by decide,
    (prefix_body_suffix_shape [32, 32, 40, 72, 101, 108, 108, 111, 41, 32] (by decide)).1,
    (prefix_body_suffix_shape [32, 32, 40, 72, 101, 108, 108, 111, 41, 32] (by decide)).2.1⟩,
    by decide, by decide, by decide⟩

/-- Claim C16. Degenerate words keep everything in the body: for every word that is empty,
consists only of space bytes, or consists only of punctuation bytes,
`split_prefix_body_suffix` returns `('', word, '')`; and for every word the returned body is
empty only when the word itself is empty. -/
theorem degenerate_words_keep_body (word : Bytes) :
    (degenerate word = true → split_prefix_body_suffix word = ([], word, [])) ∧
      ((split_prefix_body_suffix word).2.1 = [] → word = []) := by
  constructor
  · intro h
    exact split_prefix_body_suffix_of_sps word (sps_of_degenerate word h)
  · intro hb
    cases hs : spaces_punctuation_spaces word with
    | true =>
      rw [split_prefix_body_suffix_of_sps word hs] at hb
      exact hb
    | false => exact absurd hb (split_prefix_body_suffix_body_ne_nil word hs)

/-- The degenerate words of the test: the empty word and `,,,,`. -/
theorem degenerate_words_keep_body_witness :
    degenerate [44, 44, 44, 44] = true ∧
      split_prefix_body_suffix [44, 44, 44, 44] = ([], [44, 44, 44, 44], []) ∧
      degenerate [] = true ∧ split_prefix_body_suffix [] = ([], [], []) :=
  ⟨by decide, (degenerate_words_keep_body [44, 44, 44, 44]).1 (by decide), by decide,
    (degenerate_words_keep_body []).1 (by decide)⟩

end bpe

namespace bpe

/-! ## Words around a run of spaces -/

theorem trailing_run_nil (p : Nat → Bool) (t : Bytes) (z : Nat) (hz : p z = false) :
    trailing_run p (t ++ [z]) = [] := by
  unfold trailing_run
  rw [List.reverse_append, List.reverse_singleton, List.singleton_append,
    List.takeWhile_cons_of_neg (by simp [hz])]
  rfl

/-- A run of spaces followed by bytes that are neither spaces nor punctuation is returned
whole as the body. -/
theorem split_spaces_plain (s v : Bytes) (hs : ∀ c ∈ s, is_space c = true) (hv : v ≠ [])
    (hvp : ∀ c ∈ v, is_space c = false ∧ is_punctuation c = false) :
    split_prefix_body_suffix (s ++ v) = ([], s ++ v, []) := by
  have hlast := List.dropLast_append_getLast hv
  have hz := hvp _ (List.getLast_mem hv)
  obtain ⟨a, v', rfl⟩ := List.exists_cons_of_ne_nil hv
  have ha := hvp a (List.mem_cons_self _ _)
  have hsps : spaces_punctuation_spaces (s ++ a :: v') = false := by
    unfold spaces_punctuation_spaces
    rw [List.dropWhile_append_of_pos hs, List.dropWhile_cons_of_neg (by simp [ha.1]),
      List.dropWhile_cons_of_neg (by simp [ha.2])]
    simp [ha.1]
  have hpre : shape_prefix (s ++ a :: v') = [] := by
    unfold shape_prefix leading_run
    simp only
    rw [List.takeWhile_append_of_pos hs, List.takeWhile_cons_of_neg (by simp [ha.1]),
      List.append_nil, List.drop_left, List.takeWhile_cons_of_neg (by simp [ha.2])]
    simp
  have hsuf : shape_suffix (s ++ a :: v') = [] := by
    unfold shape_suffix
    simp only
    have e : s ++ a :: v' = (s ++ (a :: v').dropLast) ++ [(a :: v').getLast hv] := by
      rw [List.append_assoc, hlast]
    have e1 : trailing_run is_space (s ++ a :: v') = [] := by
      rw [e]; exact trailing_run_nil _ _ _ hz.1
    have e2 : trailing_run is_punctuation (s ++ a :: v') = [] := by
      rw [e]; exact trailing_run_nil _ _ _ hz.2
    rw [e1]
    simp only [List.length_nil, Nat.sub_zero, List.take_length, e2]
    simp
  have hshape := split_prefix_body_suffix_shape _ hsps
  have hcat := split_prefix_body_suffix_concat (s ++ a :: v')
  rw [hpre, hsuf] at hshape
  rw [hshape.1, hshape.2, List.nil_append, List.append_nil] at hcat
  generalize split_prefix_body_suffix (s ++ a :: v') = pbs at *
  obtain ⟨x, y, z⟩ := pbs
  simp only at hshape hcat
  rw [hshape.1, hshape.2, hcat]

theorem emit_parts_whole (w : Bytes) (h : split_prefix_body_suffix w = ([], w, []))
    (hw : w ≠ []) : emit_parts w = [w] := by
  unfold emit_parts
  rw [h]
  simp [hw]

theorem emit_parts_space (c : Nat) (hc : is_space c = true) : emit_parts [c] = [[c]] := by
  apply emit_parts_whole _ _ (by simp)
  apply split_prefix_body_suffix_of_sps
  unfold spaces_punctuation_spaces
  rw [List.dropWhile_cons_of_pos hc]
  rfl

theorem range'_split (s m n : Nat) :
    List.range' s (m + n) = List.range' s m ++ List.range' (s + m) n := by
  rw [Nat.add_comm m n]
  exact (List.range'_append_1 s m n).symm

theorem find_spaces_fold_plain (text : Bytes) (a m : Nat) (acc : List (Nat × Nat))
    (h : ∀ i, a ≤ i → i < a + m → is_space (text.getD i 0) = false) :
    (List.range' a m).foldl (find_spaces_step text) (none, acc) = (none, acc) := by
  induction m generalizing a with
  | zero => rfl
  | succ n ih =>
    rw [List.range'_succ, List.foldl_cons]
    have h0 : find_spaces_step text (none, acc) a = (none, acc) := by
      unfold find_spaces_step
      rw [if_neg (by rw [h a (Nat.le_refl _) (by omega)]; exact Bool.false_ne_true)]
    rw [h0]
    exact ih (a + 1) (fun i h1 h2 => h i (by omega) (by omega))

theorem find_spaces_fold_open (text : Bytes) (b a m : Nat) (acc : List (Nat × Nat))
    (h : ∀ i, a ≤ i → i < a + m → is_space (text.getD i 0) = true) :
    (List.range' a m).foldl (find_spaces_step text) (some b, acc) = (some b, acc) := by
  induction m generalizing a with
  | zero => rfl
  | succ n ih =>
    rw [List.range'_succ, List.foldl_cons]
    have h0 : find_spaces_step text (some b, acc) a = (some b, acc) := by
      unfold find_spaces_step
      rw [if_pos (h a (Nat.le_refl _) (by omega))]
    rw [h0]
    exact ih (a + 1) (fun i h1 h2 => h i (by omega) (by omega))

theorem getD_append_mid (u r v : Bytes) (i : Nat) (h1 : u.length ≤ i)
    (h2 : i < u.length + r.length) : (u ++ r ++ v).getD i 0 ∈ r := by
  rw [List.getD_eq_getElem _ 0 (by simp only [List.length_append]; omega),
    List.getElem_append_left (by simp only [List.length_append]; omega),
    List.getElem_append_right h1]
  exact List.getElem_mem _

theorem getD_append_first (u r : Bytes) (i : Nat) (h : i < u.length) :
    (u ++ r).getD i 0 ∈ u := by
  rw [List.getD_eq_getElem _ 0 (by simp only [List.length_append]; omega),
    List.getElem_append_left h]
  exact List.getElem_mem _

theorem getD_append_last (u v : Bytes) (i : Nat) (h1 : u.length ≤ i)
    (h2 : i < u.length + v.length) : (u ++ v).getD i 0 ∈ v := by
  rw [List.getD_eq_getElem _ 0 (by simp only [List.length_append]; omega),
    List.getElem_append_right h1]
  exact List.getElem_mem _

/-- The space intervals of a text made of plain bytes, a run of spaces and plain bytes. -/
theorem find_spaces_one_run (u r v : Bytes) (hr : r ≠ []) (hv : v ≠ [])
    (hup : ∀ c ∈ u, is_space c = false) (hvp : ∀ c ∈ v, is_space c = false)
    (hrs : ∀ c ∈ r, is_space c = true) :
    find_spaces (u ++ r ++ v) = [(u.length, u.length + r.length)] := by
  have hrl : 0 < r.length := List.length_pos.mpr hr
  have hvl : 0 < v.length := List.length_pos.mpr hv
  obtain ⟨k, hk⟩ : ∃ k, r.length = k + 1 := ⟨r.length - 1, by omega⟩
  obtain ⟨l, hl⟩ : ∃ l, v.length = l + 1 := ⟨v.length - 1, by omega⟩
  have hu : ∀ i, 0 ≤ i → i < 0 + u.length →
      is_space ((u ++ r ++ v).getD i 0) = false := by
    intro i _ h2
    rw [List.append_assoc]
    exact hup _ (getD_append_first u (r ++ v) i (by omega))
  have hr' : ∀ i, u.length ≤ i → i < u.length + r.length →
      is_space ((u ++ r ++ v).getD i 0) = true :=
    fun i h1 h2 => hrs _ (getD_append_mid u r v i h1 h2)
  have hv' : ∀ i, u.length + r.length ≤ i → i < u.length + r.length + v.length →
      is_space ((u ++ r ++ v).getD i 0) = false := by
    intro i h1 h2
    exact hvp _ (getD_append_last (u ++ r) v i (by simp only [List.length_append]; omega)
      (by simp only [List.length_append]; omega))
  unfold find_spaces
  rw [List.range_eq_range', List.length_append, List.length_append,
    range'_split 0 (u.length + r.length) v.length,
    range'_split 0 u.length r.length, List.foldl_append, List.foldl_append,
    find_spaces_fold_plain _ 0 u.length [] hu, Nat.zero_add, hk, List.range'_succ,
    List.foldl_cons]
  have s1 : find_spaces_step (u ++ r ++ v) (none, []) u.length = (some u.length, []) := by
    unfold find_spaces_step
    rw [if_pos (hr' _ (Nat.le_refl _) (by omega))]
  rw [s1, find_spaces_fold_open _ u.length (u.length + 1) k []
    (fun i h1 h2 => hr' i (by omega) (by omega)), hl, List.range'_succ, List.foldl_cons]
  have s2 : find_spaces_step (u ++ r ++ v) (some u.length, []) (u.length + (k + 1)) =
      (none, [(u.length, u.length + (k + 1))]) := by
    unfold find_spaces_step
    rw [if_neg (by rw [hv' (u.length + (k + 1)) (by omega) (by omega)]
                   exact Bool.false_ne_true)]
    rfl
  rw [Nat.zero_add, s2,
    find_spaces_fold_plain _ _ l _ (fun i h1 h2 => hv' i (by omega) (by omega))]

theorem interval_points_eq (s k : Nat) : interval_points (s, s + k) = List.range' s k := by
  unfold interval_points
  simp only [Nat.add_sub_cancel_left]
  rw [List.range'_eq_map_range]

theorem split_at_points_cons_cons (text : Bytes) (b e : Nat) (rest : List Nat) :
    split_at_points text (b :: e :: rest) =
      emit_parts (substr text b (e - b)) ++ split_at_points text (e :: rest) := rfl

theorem split_at_points_run (r : Bytes) (c : Nat) (v : Bytes) (pre : Bytes)
    (hrs : ∀ x ∈ r, is_space x = true) (hc : is_space c = true) (hv : v ≠ [])
    (hvp : ∀ x ∈ v, is_space x = false ∧ is_punctuation x = false) :
    split_at_points (pre ++ (r ++ c :: v))
        (List.range' pre.length (r.length + 1) ++ [pre.length + r.length + 1 + v.length]) =
      r.map (fun x => [x]) ++ [c :: v] := by
  induction r generalizing pre with
  | nil =>
    have hw : split_prefix_body_suffix ([c] ++ v) = ([], [c] ++ v, []) :=
      split_spaces_plain [c] v (by simpa using hc) hv hvp
    have hs : substr (pre ++ c :: v) pre.length
        (pre.length + 0 + 1 + v.length - pre.length) = c :: v := by
      unfold substr
      rw [List.drop_left]
      exact List.take_of_length_le (by simp only [List.length_cons]; omega)
    simp only [List.length_nil, Nat.zero_add, List.range'_one, List.singleton_append,
      split_at_points, List.append_nil, List.map_nil, List.nil_append]
    rw [hs]
    exact emit_parts_whole (c :: v) hw (by simp)
  | cons x r' ih =>
    have hx : is_space x = true := hrs x (List.mem_cons_self _ _)
    have ih' := ih (pre ++ [x]) (fun y hy => hrs y (List.mem_cons_of_mem _ hy))
    have hs : substr (pre ++ x :: (r' ++ c :: v)) pre.length (pre.length + 1 - pre.length) =
        [x] := by
      unfold substr
      rw [List.drop_left, Nat.add_sub_cancel_left]
      rfl
    have hn : pre.length + (r'.length + 1) + 1 + v.length =
        pre.length + 1 + r'.length + 1 + v.length := by omega
    simp only [List.length_append, List.length_singleton, List.range'_succ, List.cons_append,
      List.append_assoc, List.singleton_append, List.nil_append] at ih'
    simp only [List.length_cons, List.range'_succ, List.cons_append, List.map_cons]
    rw [split_at_points_cons_cons, hs, emit_parts_space x hx, hn, ih']
    rfl

/-- The slices of a text made of plain bytes `u`, a run of spaces `r ++ [c]` and plain
bytes `v`. -/
theorem split_by_words_one_run (u r : Bytes) (c : Nat) (v : Bytes) (hu : u ≠ [])
    (hv : v ≠ [])
    (hup : ∀ x ∈ u, is_space x = false ∧ is_punctuation x = false)
    (hvp : ∀ x ∈ v, is_space x = false ∧ is_punctuation x = false)
    (hrs : ∀ x ∈ r, is_space x = true) (hc : is_space c = true) :
    split_by_words (u ++ (r ++ [c]) ++ v) = [u] ++ r.map (fun x => [x]) ++ [c :: v] := by
  have hfs := find_spaces_one_run u (r ++ [c]) v (by simp) hv (fun x hx => (hup x hx).1)
    (fun x hx => (hvp x hx).1) (by
      intro x hx
      rcases List.mem_append.1 hx with h | h
      · exact hrs x h
      · simp only [List.mem_singleton] at h; subst h; exact hc)
  have hu0 : split_prefix_body_suffix ([] ++ u) = ([], [] ++ u, []) :=
    split_spaces_plain [] u (by simp) hu hup
  have hsub : substr (u ++ (r ++ c :: v)) 0 (u.length - 0) = u := by
    unfold substr
    rw [List.drop_zero, Nat.sub_zero, List.take_left]
  have hrun := split_at_points_run r c v u hrs hc hv hvp
  unfold split_by_words split_points
  rw [hfs, List.flatMap_cons, List.flatMap_nil, List.append_nil, interval_points_eq]
  simp only [List.length_append, List.length_singleton, List.range'_succ, List.cons_append,
    List.append_assoc, List.singleton_append, List.nil_append] at hrun ⊢
  rw [split_at_points_cons_cons, hsub, emit_parts_whole u hu0 hu]
  have hn : u.length + (r.length + (c :: v).length) = u.length + r.length + 1 + v.length := by
    simp only [List.length_cons]
    omega
  rw [hn, hrun]
  rfl

end bpe

namespace bpe

/-- Claim C17 (the code departs from the claim). The first loop of `split_by_words` closes a
space interval only when it meets the next byte that is not a space, so a run of spaces
that reaches the end of the text is never recorded: on `a ` (a letter and one space) no
interval is found, the split points are 0 and 2, and the single slice `a ` extends across
offset 1, the start of the space run; on `a  ` the slice extends across offsets 1 and 2.
The same run followed by a letter, `a  b`, is split at offsets 1 and 2. -/
theorem trailing_space_run_not_split :
    find_spaces [97, 32] = [] ∧ split_points [97, 32] = [0, 2] ∧
      split_by_words [97, 32] = [[97, 32]] ∧
      find_spaces [97, 32, 32] = [] ∧ split_by_words [97, 32, 32] = [[97, 32, 32]] ∧
      find_spaces [97, 32, 32, 98] = [(1, 3)] ∧
      split_by_words [97, 32, 32, 98] = [[97], [32], [32, 98]] := by
  decide

/-- Claim C18. A single space attaches to the following word: for all non-empty byte strings
`u` and `v` made of bytes that are neither spaces nor punctuation, and every non-empty run
`r` of space bytes, `split_by_words (u ++ r ++ v)` is `u`, then one one-byte slice for each
space of `r` but the last, then the slice made of the last space of `r` and `v`. -/
theorem single_space_attaches (u r v : Bytes) (hu : u ≠ []) (hr : r ≠ []) (hv : v ≠ [])
    (hup : ∀ x ∈ u, is_space x = false ∧ is_punctuation x = false)
    (hvp : ∀ x ∈ v, is_space x = false ∧ is_punctuation x = false)
    (hrs : ∀ x ∈ r, is_space x = true) :
    split_by_words (u ++ r ++ v) =
      [u] ++ r.dropLast.map (fun x => [x]) ++ [r.getLast hr :: v] := by
  have h := split_by_words_one_run u r.dropLast (r.getLast hr) v hu hv hup hvp
    (fun x hx => hrs x (List.dropLast_subset r hx)) (hrs _ (List.getLast_mem hr))
  rwa [List.dropLast_append_getLast hr] at h

/-- The two splits of the test: `hello world` and `hello  world`. -/
theorem single_space_attaches_witness :
    split_by_words ([104, 101, 108, 108, 111] ++ [32] ++ [119, 111, 114, 108, 100]) =
        [[104, 101, 108, 108, 111], [32, 119, 111, 114, 108, 100]] ∧
      split_by_words ([104, 101, 108, 108, 111] ++ [32, 32] ++ [119, 111, 114, 108, 100]) =
        [[104, 101, 108, 108, 111], [32], [32, 119, 111, 114, 108, 100]] :=
  ⟨single_space_attaches [104, 101, 108, 108, 111] [32] [119, 111, 114, 108, 100]
      (by decide) (by decide) (by decide) (by decide) (by decide) (by decide),
    single_space_attaches [104, 101, 108, 108, 111] [32, 32] [119, 111, 114, 108, 100]
      (by decide) (by decide) (by decide) (by decide) (by decide) (by decide)⟩

end bpe

namespace bpe

/-! ## Round trips of the string table and of the mapped map -/

theorem write_strings_some (data : List Bytes) (h : ∀ s ∈ data, s.length ≤ 255) :
    ∃ strings, write_strings data = some strings := by
  induction data with
  | nil => exact ⟨[], rfl⟩
  | cons item rest ih =>
    obtain ⟨tail, ht⟩ := ih (fun s hs => h s (List.mem_cons_of_mem _ hs))
    refine ⟨item.length :: item ++ tail, ?_⟩
    simp only [write_strings, write_string_view, if_pos (h item (List.mem_cons_self _ _)), ht]

theorem write_to_buffer_strings (data : List Bytes) (buffer strings : Bytes)
    (hs : write_strings data = some strings) :
    ShortStringsMappedArray.write_to_buffer data buffer =
      some (buffer ++ string_table_bytes data strings) := by
  unfold ShortStringsMappedArray.write_to_buffer
  simp only [hs, string_table_bytes, List.append_assoc]

/-- The header that `attach` reads from a written string table: the two sizes reduced
modulo `2 ^ 32` by the conversions to `u32`. -/
theorem string_table_attach (data : List Bytes) (strings mem : Bytes) (base : Nat)
    (hat : At mem base (string_table_bytes data strings)) :
    ShortStringsMappedArray.attach mem base =
      some (⟨(2 * 4 + data.length * 4 + (data.map (fun item => item.length + 1)).sum) %
          4294967296, data.length % 4294967296, base + 8,
          base + 8 + 4 * (data.length % 4294967296)⟩,
        (2 * 4 + data.length * 4 + (data.map (fun item => item.length + 1)).sum) %
          4294967296) := by
  unfold string_table_bytes at hat
  have p0 := hat.append_left
  have p1 := hat.append_right.append_left
  simp only [u32_bytes_length] at p1
  unfold ShortStringsMappedArray.attach
  rw [read_u32_at _ p0]
  simp only [read_u32_at _ p1]

theorem sum_replicate_nil (n : Nat) :
    ((List.replicate n ([] : Bytes)).map (fun item => item.length + 1)).sum = n := by
  induction n with
  | zero => rfl
  | succ k ih =>
    rw [List.replicate_succ, List.map_cons, List.sum_cons, ih]
    simp only [List.length_nil]
    omega

theorem string_table_of_empty_strings (n : Nat) :
    ∃ out a, ShortStringsMappedArray.write_to_buffer (List.replicate n []) [] = some out ∧
      out.length = 8 + 5 * n ∧
      ShortStringsMappedArray.attach out 0 = some (a, (8 + 5 * n) % 4294967296) := by
  obtain ⟨strings, hs⟩ := write_strings_some (List.replicate n [])
    (fun s hs => by rw [List.eq_of_mem_replicate hs]; exact Nat.zero_le _)
  have hw := write_to_buffer_strings (List.replicate n []) [] strings hs
  have hl := string_table_bytes_length (List.replicate n []) strings hs
  rw [sum_replicate_nil, List.length_replicate] at hl
  have hat : At ([] ++ string_table_bytes (List.replicate n []) strings) 0
      (string_table_bytes (List.replicate n []) strings) := by
    have := At.of_append [] (string_table_bytes (List.replicate n []) strings) []
    simpa using this
  have ha := string_table_attach _ _ _ _ hat
  rw [sum_replicate_nil, List.length_replicate] at ha
  have e : 2 * 4 + n * 4 + n = 8 + 5 * n := by omega
  rw [e] at ha hl
  exact ⟨_, _, hw, by rw [List.nil_append]; exact hl, ha⟩

section
variable {Key Value : Type}

theorem map_bytes_length (cfg : MapConfig Key Value) {vk : Key → Prop} {vv : Value → Prop}
    (lk : SerializerLaws cfg.key_serializer vk) (lv : SerializerLaws cfg.value_serializer vv)
    (H : Nat) (data : List (Key × Value)) (index storage : Bytes)
    (hw : write_buckets cfg (fill_buckets cfg H data) ([], []) = some (index, storage)) :
    (map_bytes cfg H data index storage).length = 16 + 8 * H + storage.length ∧
      storage.length = storage_size_of cfg (fill_buckets cfg H data) := by
  obtain ⟨w1, w2, _, _, _⟩ := write_buckets_spec cfg lk lv _ _ _ _ _ hw
  simp only [List.length_nil, Nat.zero_add, fill_buckets_length] at w1 w2
  refine ⟨?_, w2⟩
  simp only [map_bytes, List.length_append, u32_bytes_length, w1]
  omega

/-- The header that `attach` reads from a written map: the four fields reduced modulo
`2 ^ 32` by the conversions to `u32`. -/
theorem map_attach_header (cfg : MapConfig Key Value) (H : Nat) (data : List (Key × Value))
    (index storage mem : Bytes) (base : Nat)
    (hat : At mem base (map_bytes cfg H data index storage)) :
    MappedMap.attach mem base =
      some (⟨(4 * 4 + H * 2 * 4 + storage_size_of cfg (fill_buckets cfg H data)) % 4294967296,
          data.length % 4294967296, H % 4294967296, storage.length % 4294967296, base + 4 * 4,
          base + 4 * 4 + H % 4294967296 * (2 * 4)⟩,
        (4 * 4 + H * 2 * 4 + storage_size_of cfg (fill_buckets cfg H data)) % 4294967296) := by
  unfold map_bytes at hat
  have p0 := hat.append_left
  have p1 := hat.append_right.append_left
  have p2 := hat.append_right.append_right.append_left
  have p3 := hat.append_right.append_right.append_right.append_left
  simp only [u32_bytes_length] at p1 p2 p3
  unfold MappedMap.attach
  rw [read_u32_at _ p0]
  simp only [read_u32_at _ p1, read_u32_at _ p2, read_u32_at _ p3]

theorem sum_length_modify (item : Key × Value) :
    ∀ (acc : List (List (Key × Value))) (i : Nat), i < acc.length →
      ((acc.modify (fun bucket => bucket ++ [item]) i).map List.length).sum =
        (acc.map List.length).sum + 1 := by
  intro acc
  induction acc with
  | nil => intro i hi; simp at hi
  | cons b rest ih =>
    intro i hi
    cases i with
    | zero => simp [List.modify]; omega
    | succ j =>
      simp only [List.length_cons] at hi
      have := ih j (by omega)
      simp only [List.modify_succ_cons, List.map_cons, List.sum_cons, this]
      omega

theorem fill_buckets_total (cfg : MapConfig Key Value) (H : Nat) (hH : H ≠ 0)
    (data : List (Key × Value)) :
    ((fill_buckets cfg H data).map List.length).sum = data.length := by
  unfold fill_buckets
  have key : ∀ (acc : List (List (Key × Value))), acc.length = H →
      ((data.foldl
        (fun index_vector item =>
          index_vector.modify (fun bucket => bucket ++ [item]) (cfg.hash item.1 % H))
        acc).map List.length).sum = (acc.map List.length).sum + data.length := by
    induction data with
    | nil => intro acc _; rfl
    | cons item rest ih =>
      intro acc hacc
      rw [List.foldl_cons, ih _ (by simp [hacc]),
        sum_length_modify item acc _ (by rw [hacc]; exact Nat.mod_lt _ (Nat.pos_of_ne_zero hH)),
        List.length_cons]
      omega
  rw [key _ (by simp)]
  simp

theorem storage_size_ge (cfg : MapConfig Key Value) {vk : Key → Prop}
    (lk : SerializerLaws cfg.key_serializer vk) (bs : List (List (Key × Value))) :
    (bs.map List.length).sum ≤ storage_size_of cfg bs := by
  unfold storage_size_of
  induction bs with
  | nil => simp
  | cons es rest ih =>
    simp only [List.map_cons, List.sum_cons]
    have : es.length ≤ (es.map (fun item =>
        cfg.key_serializer.size item.1 + cfg.value_serializer.size item.2)).sum := by
      induction es with
      | nil => simp
      | cons e es' ih2 =>
        simp only [List.length_cons, List.map_cons, List.sum_cons]
        have := lk.size_pos e.1
        omega
    omega

end

section
variable {Key Value : Type}

/-- Attaching to the bytes written by `write_to_buffer` when fewer than `2 ^ 32` bytes were
appended. -/
theorem map_round_trip [DecidableEq Key] (cfg : MapConfig Key Value) {vk : Key → Prop}
    {vv : Value → Prop} (lk : SerializerLaws cfg.key_serializer vk)
    (lv : SerializerLaws cfg.value_serializer vv) (data : List (Key × Value))
    (buffer out : Bytes) (hvalid : ∀ kv ∈ data, vk kv.1 ∧ vv kv.2)
    (hw : MappedMap.write_to_buffer cfg data buffer = some out)
    (hfit : out.length - buffer.length < 4294967296) :
    ∃ m, MappedMap.attach out buffer.length =
        some (m, 16 + 8 * m.hash_table_size + m.end_pos) ∧
      out.length = buffer.length + (16 + 8 * m.hash_table_size + m.end_pos) ∧
      m.number_of_elements = data.length ∧
      ∀ key, MappedMap.contains cfg out m key = some (find_entry data key).isSome ∧
        ∀ kv, find_entry data key = some kv → MappedMap.get cfg out m key = some kv.2 := by
  obtain ⟨H, index, storage, hH, hwb, hout⟩ := map_layout cfg data buffer out hw
  obtain ⟨hl, hsto⟩ := map_bytes_length cfg lk lv H data index storage hwb
  have hlen : out.length = buffer.length + (16 + 8 * H + storage.length) := by
    rw [hout, List.length_append, hl]
  have hat : At out buffer.length (map_bytes cfg H data index storage) := by
    have := At.of_append buffer (map_bytes cfg H data index storage) []
    rw [List.append_nil, ← hout] at this
    exact this
  have hcount : data.length ≤ storage.length := by
    rw [hsto, ← fill_buckets_total cfg H hH data]
    exact storage_size_ge cfg lk _
  obtain ⟨_, m, r1, r2⟩ := map_read cfg lk lv H hH data index storage hwb hvalid out
    buffer.length hat (by omega)
  have hh := map_attach_header cfg H data index storage out buffer.length hat
  rw [r1] at hh
  simp only [Option.some.injEq, Prod.mk.injEq] at hh
  obtain ⟨hm, _⟩ := hh
  have e1 : m.hash_table_size = H := by
    rw [hm]; exact Nat.mod_eq_of_lt (by omega)
  have e2 : m.end_pos = storage.length := by
    rw [hm]; exact Nat.mod_eq_of_lt (by omega)
  have e3 : m.number_of_elements = data.length := by
    rw [hm]; exact Nat.mod_eq_of_lt (by omega)
  refine ⟨m, ?_, ?_, e3, r2⟩
  · rw [r1, hl, e1, e2]
  · rw [e1, e2]; exact hlen

theorem find_entry_isSome [DecidableEq Key] (data : List (Key × Value)) (key : Key) :
    (find_entry data key).isSome = decide (key ∈ data.map Prod.fst) := by
  unfold find_entry
  induction data with
  | nil => rfl
  | cons item rest ih =>
    rw [List.find?_cons]
    by_cases h : key = item.1
    · simp [h]
    · simp only [h, decide_False, List.map_cons, List.mem_cons, false_or]
      exact ih

theorem find_entry_of_mem [DecidableEq Key] (data : List (Key × Value))
    (hn : (data.map Prod.fst).Nodup) (kv : Key × Value) (h : kv ∈ data) :
    find_entry data kv.1 = some kv := by
  unfold find_entry
  induction data with
  | nil => cases h
  | cons item rest ih =>
    rw [List.map_cons, List.nodup_cons] at hn
    rw [List.find?_cons]
    rcases List.mem_cons.1 h with h | h
    · subst h; simp
    · have hne : kv.1 ≠ item.1 := by
        intro e
        exact hn.1 (e ▸ List.mem_map_of_mem Prod.fst h)
      simp only [hne, decide_False]
      exact ih hn.2 h

/-- The round trip of a source map with distinct keys. -/
theorem map_round_trip_spec [DecidableEq Key] (cfg : MapConfig Key Value) {vk : Key → Prop}
    {vv : Value → Prop} (lk : SerializerLaws cfg.key_serializer vk)
    (lv : SerializerLaws cfg.value_serializer vv) (data : List (Key × Value))
    (buffer out : Bytes) (hn : (data.map Prod.fst).Nodup)
    (hvalid : ∀ kv ∈ data, vk kv.1 ∧ vv kv.2)
    (hw : MappedMap.write_to_buffer cfg data buffer = some out)
    (hfit : out.length - buffer.length < 4294967296) :
    MapRoundTrip cfg data buffer out := by
  obtain ⟨m, h1, h2, h3, h4⟩ := map_round_trip cfg lk lv data buffer out hvalid hw hfit
  refine ⟨m, h1, h2, h3, fun key => ?_, fun kv hkv => ?_⟩
  · rw [(h4 key).1, find_entry_isSome]
  · exact (h4 kv.1).2 kv (find_entry_of_mem data hn kv hkv)

theorem write_to_buffer_of_some (cfg : MapConfig Key Value) (data : List (Key × Value))
    (buffer : Bytes) (H : Nat) (index storage : Bytes)
    (hc : choose_hash_table_size (data.map (fun item => cfg.hash item.1)) = some H)
    (hH : H ≠ 0)
    (hb : write_buckets cfg (fill_buckets cfg H data) ([], []) = some (index, storage)) :
    MappedMap.write_to_buffer cfg data buffer =
      some (buffer ++ map_bytes cfg H data index storage) := by
  unfold MappedMap.write_to_buffer
  rw [hc]
  simp only [if_neg hH, hb, map_bytes, storage_size_of, List.append_assoc]

end

theorem scale_max_two : scale_max 2 = 2 := by decide!

theorem find_prime_numbers_two : find_prime_numbers 2 = [0, 1] := by decide!

/-- A map of two entries always gets the hash-table size 1. -/
theorem choose_hash_table_size_two (h1 h2 : Nat) :
    choose_hash_table_size [h1, h2] = some 1 := by
  unfold choose_hash_table_size
  simp only [List.length_cons, List.length_nil, Nat.zero_add, Nat.reduceAdd, scale_max_two,
    find_prime_numbers_two, scale_min]
  simp [choose_loop, collision_count, Nat.mod_one, int_max, List.modify]

theorem fill_buckets_two (cfg : MapConfig Bytes (List Nat)) (a b : Bytes × List Nat) :
    fill_buckets cfg 1 [a, b] = [[a, b]] := by
  simp [fill_buckets, Nat.mod_one, List.modify]

theorem write_entries_two (pl : Platform) (big : List Nat) :
    write_entries (cache_config pl) [([], big), ([0], [])] =
      some ([0] ++ (u32_bytes big.length ++ big.flatMap u32_bytes) ++
        ([1, 0] ++ (u32_bytes 0 ++ []) ++ [])) := rfl

/-- The map of the empty string to the vector `big` and of the string of one zero byte to
the empty vector: `35 + 4 * |big|` bytes are written and `attach` returns that number
converted to `u32`. -/
theorem two_entry_cache (pl : Platform) (big : List Nat) :
    ∃ out m, MappedMap.write_to_buffer (cache_config pl) [([], big), ([0], [])] [] = some out ∧
      out.length = 35 + 4 * big.length ∧
      MappedMap.attach out 0 = some (m, (35 + 4 * big.length) % 4294967296) := by
  have hc : choose_hash_table_size
      ([(([] : Bytes), big), ([0], [])].map (fun item => (cache_config pl).hash item.1)) =
      some 1 := choose_hash_table_size_two _ _
  obtain ⟨index, storage, hb, hs⟩ : ∃ index storage, write_buckets (cache_config pl)
      (fill_buckets (cache_config pl) 1 [([], big), ([0], [])]) ([], []) =
        some (index, storage) ∧ storage.length = 11 + 4 * big.length := by
    rw [fill_buckets_two]
    unfold write_buckets
    rw [if_neg (by simp), write_entries_two]
    refine ⟨_, _, rfl, ?_⟩
    simp only [List.length_append, u32_bytes_length, flatMap_u32_length, List.length_cons,
      List.length_nil]
    omega
  have hw := write_to_buffer_of_some (cache_config pl) _ [] 1 _ _ hc (by decide) hb
  obtain ⟨hl, hsto⟩ := map_bytes_length (cache_config pl) laws_string_view laws_vector_u32 1 _ _ _
    hb
  have hat := At.of_append [] (map_bytes (cache_config pl) 1 [([], big), ([0], [])]
    index storage) []
  rw [List.append_nil] at hat
  have hh := map_attach_header _ _ _ _ _ _ _ hat
  rw [← hsto, hs] at hh
  have e : 4 * 4 + 1 * 2 * 4 + (11 + 4 * big.length) = 35 + 4 * big.length := by omega
  rw [e] at hh
  refine ⟨_, _, hw, ?_, hh⟩
  rw [List.length_append, hl, List.length_nil, hs]
  omega

end bpe

namespace bpe

/-- Claim C12, the claim as stated fails: for 858993458 empty strings (each at most 255
bytes long) `write_to_buffer` appends `8 + 4 * N + N = 4294967298` bytes, the size field
holds that number converted to `u32`, and `attach` returns 2. -/
theorem string_table_size_wraps :
    (∀ s ∈ List.replicate 858993458 ([] : Bytes), s.length ≤ 255) ∧
      ∃ out a, ShortStringsMappedArray.write_to_buffer (List.replicate 858993458 []) [] =
          some out ∧
        out.length = 4294967298 ∧ ShortStringsMappedArray.attach out 0 = some (a, 2) := by
  refine ⟨fun s hs => by rw [List.eq_of_mem_replicate hs]; exact Nat.zero_le _, ?_⟩
  obtain ⟨out, a, h1, h2, h3⟩ := string_table_of_empty_strings 858993458
  exact ⟨out, a, h1, h2, h3⟩

/-- Claim C12, amended. String-table round trip: for every list of `N` strings, each at most
255 bytes long, whose table of `8 + 4 * N + sum of (1 + length)` bytes is smaller than
`2 ^ 32` bytes, `write_to_buffer` appends exactly that many bytes, and `attach` on the written
bytes returns that number as `buffer_size`, gives `size() == N` and `operator[](i)` equal to
the `i`-th string for every `i < N`. -/
theorem string_table_round_trip (data : List Bytes) (buffer : Bytes)
    (hlen : ∀ s ∈ data, s.length ≤ 255)
    (hfit : 8 + 4 * data.length + (data.map (fun s => s.length + 1)).sum < 4294967296) :
    ∃ out a, ShortStringsMappedArray.write_to_buffer data buffer = some out ∧
      out.length = buffer.length + (8 + 4 * data.length + (data.map (fun s => s.length + 1)).sum) ∧
      ShortStringsMappedArray.attach out buffer.length =
        some (a, 8 + 4 * data.length + (data.map (fun s => s.length + 1)).sum) ∧
      a.buffer_size = 8 + 4 * data.length + (data.map (fun s => s.length + 1)).sum ∧
      a.element_count = data.length ∧
      ∀ i s, data[i]? = some s → a.get out i = some s := by
  obtain ⟨strings, hs⟩ := write_strings_some data hlen
  have hw := write_to_buffer_strings data buffer strings hs
  have hl := string_table_bytes_length data strings hs
  have he : 2 * 4 + data.length * 4 + (data.map (fun s => s.length + 1)).sum =
      8 + 4 * data.length + (data.map (fun s => s.length + 1)).sum := by omega
  rw [he] at hl
  have hat : At (buffer ++ string_table_bytes data strings) buffer.length
      (string_table_bytes data strings) := by
    have := At.of_append buffer (string_table_bytes data strings) []
    simpa using this
  obtain ⟨a, h1, h2, h3⟩ := string_table_read data strings _ buffer.length hs hat
    (by rw [hl]; exact hfit)
  have h4 := string_table_attach data strings _ buffer.length hat
  rw [he, Nat.mod_eq_of_lt hfit] at h4
  rw [hl] at h1
  refine ⟨_, a, hw, by rw [List.length_append, hl], h1, ?_, h2, h3⟩
  rw [h4] at h1
  simp only [Option.some.injEq, Prod.mk.injEq] at h1
  rw [← h1.1]

/-- The round trip of a table of three strings. -/
theorem string_table_round_trip_witness :
    ∃ out a, ShortStringsMappedArray.write_to_buffer [[97], [], [98, 99]] [7] = some out ∧
      out.length = 1 + (8 + 4 * 3 + 6) ∧
      ShortStringsMappedArray.attach out 1 = some (a, 8 + 4 * 3 + 6) ∧
      a.buffer_size = 8 + 4 * 3 + 6 ∧ a.element_count = 3 ∧
      ∀ i s, [[97], [], [98, 99]][i]? = some s → a.get out i = some s :=
  string_table_round_trip [[97], [], [98, 99]] [7] (by decide) (by decide)

/-- Claim C11, the claim as stated fails: for the map of byte strings to vectors of `u32`
with the two entries of `huge_cache`, `write_to_buffer` succeeds and appends 4294967331
bytes (16 of header, 8 of the one bucket, and the storage), and `attach` on the written
bytes returns 35, the size converted to `u32`. -/
theorem mapped_map_size_wraps :
    (huge_cache.map Prod.fst).Nodup ∧
      (∀ kv ∈ huge_cache, kv.1.length ≤ 255 ∧ ∀ x ∈ kv.2, x < 4294967296) ∧
      ∃ out m, MappedMap.write_to_buffer (cache_config hello_platform) huge_cache [] =
          some out ∧
        out.length = 4294967331 ∧ MappedMap.attach out 0 = some (m, 35) := by
  have hkeys : huge_cache.map Prod.fst = [[], [0]] := rfl
  refine ⟨by rw [hkeys]; decide, ?_, ?_⟩
  · intro kv hkv
    unfold huge_cache at hkv
    rcases List.mem_cons.1 hkv with h | h
    · subst h
      refine ⟨Nat.zero_le _, fun x hx => ?_⟩
      rw [List.eq_of_mem_replicate hx]
      exact Nat.zero_lt_succ _
    · rw [List.mem_singleton] at h
      subst h
      exact ⟨by decide, fun x hx => absurd hx (List.not_mem_nil x)⟩
  · obtain ⟨out, m, h1, h2, h3⟩ := two_entry_cache hello_platform (List.replicate 1073741824 0)
    rw [List.length_replicate] at h2 h3
    exact ⟨out, m, h1, h2, h3⟩

/-- Claim C11, amended. Mapped-map round trip: for every source map (pairs of `u32` to
`u32`, or byte strings to vectors of `u32`) for which `write_to_buffer` succeeds and appends
fewer than `2 ^ 32` bytes, a `MappedMap` attached to the written bytes has `contains(k)` true
exactly when `k` is a key, `get(k)` equal to the value of every key `k`, `size()` equal to
the number of entries, and `attach` returns exactly the number of bytes appended, which is
`16 + 8 * H + storage bytes`. -/
theorem mapped_map_round_trip :
    (∀ (data : List (Pair × Nat)) (buffer out : Bytes), (data.map Prod.fst).Nodup →
      (∀ kv ∈ data, (kv.1.1 < 4294967296 ∧ kv.1.2 < 4294967296) ∧ kv.2 < 4294967296) →
      MappedMap.write_to_buffer merge_table_config data buffer = some out →
      out.length - buffer.length < 4294967296 →
      MapRoundTrip merge_table_config data buffer out) ∧
    (∀ (pl : Platform) (data : List (Bytes × List Nat)) (buffer out : Bytes),
      (data.map Prod.fst).Nodup →
      (∀ kv ∈ data, ∀ x ∈ kv.2, x < 4294967296) →
      MappedMap.write_to_buffer (cache_config pl) data buffer = some out →
      out.length - buffer.length < 4294967296 →
      MapRoundTrip (cache_config pl) data buffer out) := by
  constructor
  · intro data buffer out hn hvalid hw hfit
    exact map_round_trip_spec merge_table_config laws_pair laws_u32 data buffer out hn hvalid
      hw hfit
  · intro pl data buffer out hn hvalid hw hfit
    exact map_round_trip_spec (cache_config pl) laws_string_view laws_vector_u32 data buffer
      out hn (fun kv hkv => ⟨trivial, hvalid kv hkv⟩) hw hfit

end bpe

namespace bpe

/-- The round trips of the merge table `two_merges` and of the cache `two_words`, each
written after one byte. -/
theorem mapped_map_round_trip_witness :
    MapRoundTrip merge_table_config two_merges [7]
        ((MappedMap.write_to_buffer merge_table_config two_merges [7]).getD []) ∧
      MapRoundTrip (cache_config hello_platform) two_words [7]
        ((MappedMap.write_to_buffer (cache_config hello_platform) two_words [7]).getD []) :=
  ⟨mapped_map_round_trip.1 two_merges [7] _ (by decide) (by decide) (by decide!) (by decide!),
    mapped_map_round_trip.2 hello_platform two_words [7] _ (by decide) (by decide) (by decide!)
      (by decide!)⟩

/-- Claim C13 (the code departs from the claim). `find_prime_numbers` never clears the
entries 0 and 1 of its sieve and stops below its argument, so `find_prime_numbers 2` is
`[0, 1]`; every map of two entries gets the hash-table size 1, which is stored in the header
and is not a prime number, although 2 is a prime in the range from `0.5 * 2` to `1.2 * 2`. -/
theorem hash_table_size_not_prime :
    find_prime_numbers 2 = [0, 1] ∧ (∀ h1 h2, choose_hash_table_size [h1, h2] = some 1) ∧
      choose_hash_table_size (key_hashes two_merges) = some 1 ∧
      stored_hash_table_size two_merges = some 1 ∧ ¬ Nat.Prime 1 ∧
      Nat.Prime 2 ∧ 5 * 2 ≤ 10 * 2 ∧ 10 * 2 ≤ 12 * 2 :=
  ⟨find_prime_numbers_two, choose_hash_table_size_two, by decide!, by decide!,
    Nat.not_prime_one, Nat.prime_two, by decide, by decide⟩

/-- Claim C14 (the code departs from the claim). For the six keys of `six_keys`, whose hashes
are 0 to 5, the candidates are the sieve numbers below `floor (1.2 * 6) = 7`, from 3 on:
`choose_hash_table_size` returns 5, which gives one collision, while the prime 7, which lies
between `0.5 * 6` and `1.2 * 6`, gives none. For the two keys of `two_merges` it returns 1,
with one collision, while the prime 2 gives none. -/
theorem hash_table_size_not_minimal :
    (key_hashes six_keys = [0, 1, 2, 3, 4, 5] ∧ scale_max 6 = 7 ∧
      find_prime_numbers 7 = [0, 1, 2, 3, 5] ∧
      choose_hash_table_size (key_hashes six_keys) = some 5 ∧
      stored_hash_table_size six_keys = some 5 ∧
      collision_count (key_hashes six_keys) 5 = 1 ∧
      collision_count (key_hashes six_keys) 7 = 0 ∧
      Nat.Prime 7 ∧ 5 * 6 ≤ 10 * 7 ∧ 10 * 7 ≤ 12 * 6) ∧
    (choose_hash_table_size (key_hashes two_merges) = some 1 ∧
      collision_count (key_hashes two_merges) 1 = 1 ∧
      collision_count (key_hashes two_merges) 2 = 0 ∧
      Nat.Prime 2 ∧ 5 * 2 ≤ 10 * 2 ∧ 10 * 2 ≤ 12 * 2) :=
  ⟨⟨by decide!, by decide!, by decide!, by decide!, by decide!, by decide!, by decide!,
      by norm_num, by decide, by decide⟩,
    ⟨by decide!, by decide!, by decide!, Nat.prime_two, by decide, by decide⟩⟩

end bpe

namespace bpe

/-! ## The greedy merge loop of `encode_word` -/

theorem getD_append_cons (pre : List Nat) (a : Nat) (rest : List Nat) :
    (pre ++ a :: rest).getD pre.length 0 = a := by
  rw [List.getD_eq_getElem _ 0 (by simp), List.getElem_append_right (Nat.le_refl _)]
  simp

theorem getD_append_cons_succ (pre : List Nat) (a b : Nat) (rest : List Nat) :
    (pre ++ a :: b :: rest).getD (pre.length + 1) 0 = b := by
  have := getD_append_cons (pre ++ [a]) b rest
  simpa using this

/-- The inner loop keeps the greedy choice among the positions read so far. -/
theorem min_id_loop_spec (get : Nat → Nat → Option (Option Nat))
    (table : Nat → Nat → Option Nat) (hget : ∀ a b, get a b = some (table a b)) :
    ∀ (l pre : List Nat) (min_id : Option (Nat × Nat)),
      GreedyUpTo table (pre ++ l) pre.length min_id →
      ∃ r, min_id_loop get (pre.length + 1) l min_id = some r ∧
        GreedyUpTo table (pre ++ l) (pre ++ l).length r := by
  intro l
  induction l with
  | nil =>
    intro pre min_id h
    refine ⟨min_id, by simp [min_id_loop], ?_⟩
    simpa using h
  | cons a l1 ih =>
    cases l1 with
    | nil =>
      intro pre min_id h
      refine ⟨min_id, by simp [min_id_loop], ?_⟩
      cases min_id with
      | none =>
        intro j id _ hm
        by_cases hj : j < pre.length
        · exact h j id hj hm
        · have := hm.1
          simp only [List.length_append, List.length_cons, List.length_nil] at this
          omega
      | some bi =>
        obtain ⟨best, index⟩ := bi
        obtain ⟨h1, h2, h3⟩ := h
        refine ⟨by simp only [List.length_append, List.length_cons]; omega, h2, ?_⟩
        intro j id' _ hm
        by_cases hj : j < pre.length
        · exact h3 j id' hj hm
        · have := hm.1
          simp only [List.length_append, List.length_cons, List.length_nil] at this
          omega
    | cons b rest =>
      intro pre min_id h
      have hpos : ∀ id', Mergeable table (pre ++ a :: b :: rest) pre.length id' ↔
          table a b = some id' := by
        intro id'
        unfold Mergeable
        rw [getD_append_cons, getD_append_cons_succ]
        constructor
        · exact fun hm => hm.2
        · intro ht
          exact ⟨by simp only [List.length_append, List.length_cons]; omega, ht⟩
      have hlist : pre ++ a :: b :: rest = (pre ++ [a]) ++ b :: rest := by simp
      have hlen : (pre ++ [a]).length = pre.length + 1 := by simp
      have step : ∀ m, GreedyUpTo table (pre ++ a :: b :: rest) (pre.length + 1) m →
          ∃ r, min_id_loop get (pre.length + 1 + 1) (b :: rest) m = some r ∧
            GreedyUpTo table (pre ++ a :: b :: rest) (pre ++ a :: b :: rest).length r := by
        intro m hm
        have := ih (pre ++ [a]) m (by rw [← hlist, hlen]; exact hm)
        rw [← hlist, hlen] at this
        exact this
      unfold min_id_loop
      rw [hget a b]
      cases ht : table a b with
      | none =>
        simp only
        apply step
        cases min_id with
        | none =>
          intro j id hj hm
          by_cases hj2 : j < pre.length
          · exact h j id hj2 hm
          · have : j = pre.length := by omega
            subst this
            rw [hpos, ht] at hm
            cases hm
        | some bi =>
          obtain ⟨best, index⟩ := bi
          obtain ⟨h1, h2, h3⟩ := h
          refine ⟨by omega, h2, ?_⟩
          intro j id' hj hm
          by_cases hj2 : j < pre.length
          · exact h3 j id' hj2 hm
          · have : j = pre.length := by omega
            subst this
            rw [hpos, ht] at hm
            cases hm
      | some id =>
        simp only
        cases min_id with
        | none =>
          simp only [Nat.add_sub_cancel]
          apply step
          refine ⟨Nat.lt_succ_self _, (hpos id).2 ht, ?_⟩
          intro j id' hj hm
          by_cases hj2 : j < pre.length
          · exact absurd hm (h j id' hj2)
          · have : j = pre.length := by omega
            subst this
            rw [hpos, ht] at hm
            simp only [Option.some.injEq] at hm
            exact Or.inr ⟨hm, Nat.le_refl _⟩
        | some bi =>
          obtain ⟨best, index⟩ := bi
          obtain ⟨h1, h2, h3⟩ := h
          simp only [Nat.add_sub_cancel]
          by_cases hlt : id < best
          · rw [if_pos hlt]
            apply step
            refine ⟨Nat.lt_succ_self _, (hpos id).2 ht, ?_⟩
            intro j id' hj hm
            by_cases hj2 : j < pre.length
            · rcases h3 j id' hj2 hm with h4 | h4
              · exact Or.inl (by omega)
              · exact Or.inl (by omega)
            · have : j = pre.length := by omega
              subst this
              rw [hpos, ht] at hm
              simp only [Option.some.injEq] at hm
              exact Or.inr ⟨hm, Nat.le_refl _⟩
          · rw [if_neg hlt]
            apply step
            refine ⟨by omega, h2, ?_⟩
            intro j id' hj hm
            by_cases hj2 : j < pre.length
            · exact h3 j id' hj2 hm
            · have : j = pre.length := by omega
              subst this
              rw [hpos, ht] at hm
              simp only [Option.some.injEq] at hm
              subst hm
              by_cases he : best = id
              · exact Or.inr ⟨he, by omega⟩
              · exact Or.inl (by omega)

theorem set_eraseIdx_eq (id : Nat) : ∀ (ids : List Nat) (idx : Nat), idx + 1 < ids.length →
    (ids.set idx id).eraseIdx (idx + 1) = merge_at ids idx id := by
  intro ids
  induction ids with
  | nil => intro idx h; simp at h
  | cons a t ih =>
    intro idx h
    cases idx with
    | zero =>
      cases t with
      | nil => simp at h
      | cons b t2 => simp [merge_at]
    | succ k =>
      simp only [List.length_cons] at h
      have := ih k (by omega)
      simp only [merge_at] at this ⊢
      simp only [List.set_cons_succ, List.eraseIdx_cons_succ, this, List.take_succ_cons,
        List.drop_succ_cons, List.cons_append]

theorem merge_at_length (ids : List Nat) (idx id : Nat) (h : idx + 1 < ids.length) :
    (merge_at ids idx id).length + 1 = ids.length := by
  simp only [merge_at, List.length_append, List.length_take, List.length_cons,
    List.length_drop]
  omega

/-- The selection of one round: nothing when no position is mergeable, the greedy choice
otherwise. -/
theorem min_id_loop_greedy (get : Nat → Nat → Option (Option Nat))
    (table : Nat → Nat → Option Nat) (hget : ∀ a b, get a b = some (table a b))
    (ids : List Nat) :
    (min_id_loop get 1 ids none = some none ∧ ∀ j id, ¬ Mergeable table ids j id) ∨
      ∃ id idx, min_id_loop get 1 ids none = some (some (id, idx)) ∧
        GreedyChoice table ids idx id := by
  obtain ⟨r, h1, h2⟩ := min_id_loop_spec get table hget ids [] none
    (fun j id hj => absurd hj (Nat.not_lt_zero j))
  simp only [List.length_nil, Nat.zero_add, List.nil_append] at h1 h2
  cases r with
  | none =>
    refine Or.inl ⟨h1, fun j id hm => ?_⟩
    exact h2 j id (by have := hm.1; omega) hm
  | some bi =>
    obtain ⟨id, idx⟩ := bi
    obtain ⟨_, h3, h4⟩ := h2
    refine Or.inr ⟨id, idx, h1, h3, fun j id' hm => ?_⟩
    exact h4 j id' (by have := hm.1; omega) hm

/-- One round of the outer loop. -/
theorem encode_word_loop_step (get : Nat → Nat → Option (Option Nat))
    (table : Nat → Nat → Option Nat) (hget : ∀ a b, get a b = some (table a b))
    (ids : List Nat) :
    ((∀ j id, ¬ Mergeable table ids j id) ∧
        ∀ fuel, encode_word_loop get (fuel + 1) ids = some ids) ∨
      ∃ id idx, GreedyChoice table ids idx id ∧
        ∀ fuel, encode_word_loop get (fuel + 1) ids =
          encode_word_loop get fuel (merge_at ids idx id) := by
  by_cases hlen : ids.length ≥ 2
  · rcases min_id_loop_greedy get table hget ids with ⟨h1, h2⟩ | ⟨id, idx, h1, h2⟩
    · refine Or.inl ⟨h2, fun fuel => ?_⟩
      unfold encode_word_loop
      rw [if_pos hlen, h1]
    · refine Or.inr ⟨id, idx, h2, fun fuel => ?_⟩
      conv_lhs => unfold encode_word_loop
      rw [if_pos hlen, h1]
      simp only
      rw [set_eraseIdx_eq id ids idx h2.1.1]
  · refine Or.inl ⟨fun j id hm => ?_, fun fuel => ?_⟩
    · have := hm.1
      omega
    · unfold encode_word_loop
      rw [if_neg hlen]

/-- The outer loop returns, and what it returns holds no mergeable adjacent pair. -/
theorem encode_word_loop_total (get : Nat → Nat → Option (Option Nat))
    (table : Nat → Nat → Option Nat) (hget : ∀ a b, get a b = some (table a b)) :
    ∀ (fuel : Nat) (ids : List Nat), ids.length ≤ fuel →
      ∃ out, encode_word_loop get fuel ids = some out ∧
        ∀ j id, ¬ Mergeable table out j id := by
  intro fuel
  induction fuel with
  | zero =>
    intro ids h
    refine ⟨ids, rfl, fun j id hm => ?_⟩
    have := hm.1
    omega
  | succ n ih =>
    intro ids h
    rcases encode_word_loop_step get table hget ids with ⟨h1, h2⟩ | ⟨id, idx, h1, h2⟩
    · exact ⟨ids, h2 n, h1⟩
    · rw [h2 n]
      apply ih
      have := merge_at_length ids idx id h1.1.1
      omega

end bpe

namespace bpe

/-- The tokenizer attached to the artifact of the test `BpeTest.tokenize` answers
`get_merge_id` from the merge table of the trainer. -/
theorem hello_tokenizer :
    ∃ tk, Tokenizer.attach hello_artifact = some tk ∧
      ∀ a b, tk.get_merge_id a b = some (hello_trained.merge_table.lookup (a, b)) := by
  obtain ⟨tk, k1, k2, _, _, k5, _⟩ := attach_save hello_platform hello_trained hello_artifact
    hello_artifact_eq (by decide!) (by decide!) (by decide!)
  refine ⟨tk, k1, fun a b => ?_⟩
  apply get_merge_id_eq
  rw [k2]
  exact k5 (a, b)

/-- Claim C19. Greedy merge rule of `encode_word`, for a tokenizer whose `get_merge_id`
answers from a merge table `table`. In each round on a sequence `ids`, either no adjacent
pair of `ids` is a key of the table and the loop stops and returns `ids`, or the loop selects
the position whose merged id is smallest, the leftmost one among the positions with that id,
replaces `ids[index]` by the merged id, deletes `ids[index + 1]` and goes on. `encode_word`
returns, and the sequence it returns contains no mergeable adjacent pair. -/
theorem encode_word_greedy (tk : Tokenizer) (table : Nat → Nat → Option Nat)
    (hget : ∀ a b, tk.get_merge_id a b = some (table a b)) :
    (∀ ids : List Nat,
      ((∀ j id, ¬ Mergeable table ids j id) ∧
          ∀ fuel, encode_word_loop tk.get_merge_id (fuel + 1) ids = some ids) ∨
        ∃ id idx, GreedyChoice table ids idx id ∧
          ∀ fuel, encode_word_loop tk.get_merge_id (fuel + 1) ids =
            encode_word_loop tk.get_merge_id fuel (merge_at ids idx id)) ∧
    (∀ (pl : Platform) (text : Bytes),
      ∃ out, tk.encode_word pl text = some out ∧ ∀ j id, ¬ Mergeable table out j id) := by
  refine ⟨fun ids => encode_word_loop_step tk.get_merge_id table hget ids, fun pl text => ?_⟩
  unfold Tokenizer.encode_word
  exact encode_word_loop_total tk.get_merge_id table hget text.length _ (by simp)

/-- The greedy rule on the tokenizer of the test `BpeTest.tokenize`: the word `Hello` is
encoded into a sequence without a mergeable pair. -/
theorem encode_word_greedy_witness :
    ∃ tk, Tokenizer.attach hello_artifact = some tk ∧
      ∃ out, tk.encode_word hello_platform [72, 101, 108, 108, 111] = some out ∧
        ∀ j id, ¬ Mergeable (fun a b => hello_trained.merge_table.lookup (a, b)) out j id :=
  hello_tokenizer.imp (fun tk h =>
    ⟨h.1, (encode_word_greedy tk (fun a b => hello_trained.merge_table.lookup (a, b)) h.2).2
      hello_platform [72, 101, 108, 108, 111]⟩)

/-- Claim C20 (the code departs from the claim). `encode_word` converts each plain `char` of
the word with `static_cast<u32>`: on a platform whose plain `char` is signed, a byte
`c >= 0x80` becomes the id `c + 0xFFFFFF00`. For the tokenizer of the test
`BpeTest.tokenize` the one-byte word `C3` is encoded as `[4294967235]` and not as `[195]`,
the id that `create_vocab_from_word_vocab` gives to that byte in the trainer; the byte `H`
is encoded as `[72]`. -/
theorem byte_ids_sign_extended :
    (∀ pl : Platform, pl.char_is_signed = true → ∀ c, 128 ≤ c → c < 256 →
      char_to_u32 pl c = c + 4294967040) ∧
    (Tokenizer.attach hello_artifact).map (fun tk => tk.encode_word hello_platform [195]) =
      some (some [4294967235]) ∧
    (Tokenizer.attach hello_artifact).map (fun tk => tk.encode_word hello_platform [72]) =
      some (some [72]) ∧
    (make_entry ([195], 1)).ids = [195] ∧
    ((trainer_on 266 10 [195]).bind TokenizerTrainer.build_bpe).map (fun t =>
      t.vocab.map (fun e => e.ids)) = some [[195]] := by
  refine ⟨char_to_u32_signed, ?_, ?_, ?_, ?_⟩ <;> decide!

end bpe

namespace bpe

/-! ## Decoding, empty input, and the three parts of a word -/

/-- Claim C21 (the code departs from the claim). For the tokenizer of the test
`BpeTest.tokenize`, whose string table holds 265 strings, `decode_token(406)` fails its
assertion, but `decode` has no such check: `decode([406])` reads the offset of entry 406
inside the bytes of the merge table, which follow the string table in the attached buffer,
and returns the one-byte string `[0]`; `decode([463])` returns `[22]`. -/
theorem decode_accepts_out_of_range_id :
    (Tokenizer.attach hello_artifact).map (fun tk => tk.id_to_seq.element_count) = some 265 ∧
    (Tokenizer.attach hello_artifact).map (fun tk => tk.decode_token 406) = some none ∧
    (Tokenizer.attach hello_artifact).map (fun tk => tk.decode [406]) = some (some [0]) ∧
    (Tokenizer.attach hello_artifact).map (fun tk => tk.decode [463]) = some (some [22]) ∧
    (Tokenizer.attach hello_artifact).map (fun tk => tk.decode [72, 406]) =
      some (some [72, 0]) := by
  refine ⟨?_, ?_, ?_, ?_, ?_⟩ <;> decide!

/-- Claim C22. Empty input: for every tokenizer, whatever the attached bytes are, `encode` of
the empty text returns the empty id sequence and `decode` of the empty id sequence returns
the empty string; no word is looked up, since `split_by_words` of the empty text is empty. -/
theorem empty_input (pl : Platform) (tk : Tokenizer) :
    tk.encode pl [] = some [] ∧ tk.decode [] = some [] ∧ split_by_words [] = [] := by
  have h : split_by_words [] = [] := by decide
  refine ⟨?_, rfl, h⟩
  unfold Tokenizer.encode
  rw [h]
  rfl

/-- Claim C29. Prefix, body and suffix partition the word: for every byte string `word`,
the result of `split_prefix_body_suffix` satisfies `prefix ++ body ++ suffix = word`. -/
theorem prefix_body_suffix_partition (word : Bytes) :
    (split_prefix_body_suffix word).1 ++ (split_prefix_body_suffix word).2.1 ++
      (split_prefix_body_suffix word).2.2 = word :=
  split_prefix_body_suffix_concat word

end bpe

namespace bpe

/-! ## From the word counts to the vocabulary -/

theorem create_vocab_eq (min_count : Nat) (word_vocab : List (Bytes × Nat)) :
    create_vocab_from_word_vocab min_count word_vocab [] =
      (word_vocab.filter (fun item => decide (min_count ≤ item.2))).map make_entry := by
  unfold create_vocab_from_word_vocab
  rw [List.nil_append]
  congr 1
  apply List.filter_congr
  intro item _
  simp only [decide_not, Nat.not_lt]

theorem create_vocab_texts (min_count : Nat) (word_vocab : List (Bytes × Nat)) :
    (create_vocab_from_word_vocab min_count word_vocab []).map (fun e => e.text) =
      (word_vocab.filter (fun item => decide (min_count ≤ item.2))).map Prod.fst := by
  rw [create_vocab_eq, List.map_map]
  rfl

/-- Claim C24. The `min_count` filter: for a word map with distinct keys,
`create_vocab_from_word_vocab` (from an empty vocabulary) creates no two entries with the
same text; its entries are exactly the entries `(ids, text, count)` made from the words whose
count is at least `min_count`, with `text` the word, `count` its count and `ids` the unsigned
values of its bytes in order, all below 256. -/
theorem min_count_filter (min_count : Nat) (word_vocab : List (Bytes × Nat))
    (hn : (word_vocab.map Prod.fst).Nodup) :
    ((create_vocab_from_word_vocab min_count word_vocab []).map (fun e => e.text)).Nodup ∧
    (∀ e, e ∈ create_vocab_from_word_vocab min_count word_vocab [] ↔
      ∃ item ∈ word_vocab, min_count ≤ item.2 ∧
        e = ⟨item.1.map (fun c => c % 256), item.1, item.2⟩) ∧
    (∀ e ∈ create_vocab_from_word_vocab min_count word_vocab [],
      (∀ id ∈ e.ids, id < 256) ∧ ((∀ c ∈ e.text, c < 256) → e.ids = e.text)) := by
  refine ⟨?_, ?_, ?_⟩
  · rw [create_vocab_texts]
    exact hn.sublist ((List.filter_sublist _).map Prod.fst)
  · intro e
    rw [create_vocab_eq, List.mem_map]
    constructor
    · rintro ⟨item, hi, rfl⟩
      rw [List.mem_filter, decide_eq_true_eq] at hi
      exact ⟨item, hi.1, hi.2, rfl⟩
    · rintro ⟨item, hi, hc, rfl⟩
      exact ⟨item, List.mem_filter.2 ⟨hi, by simpa using hc⟩, rfl⟩
  · intro e he
    rw [create_vocab_eq, List.mem_map] at he
    obtain ⟨item, _, rfl⟩ := he
    refine ⟨?_, ?_⟩
    · intro id hid
      simp only [make_entry, List.mem_map] at hid
      obtain ⟨c, _, rfl⟩ := hid
      exact Nat.mod_lt _ (by decide)
    · intro hb
      simp only [make_entry] at hb ⊢
      conv_rhs => rw [← List.map_id item.1]
      apply List.map_congr_left
      intro c hc
      exact Nat.mod_eq_of_lt (hb c hc)

/-- The filter on the word counts of `Hello, world!` with `min_count = 1`. -/
theorem min_count_filter_witness :
    (hello_trainer.word_vocab.map Prod.fst).Nodup ∧
      ((create_vocab_from_word_vocab 1 hello_trainer.word_vocab []).map
        (fun e => e.text)).Nodup ∧
      (⟨[33], [33], 1⟩ : VocabEntry) ∈ create_vocab_from_word_vocab 1 hello_trainer.word_vocab [] :=
  ⟨by decide, (min_count_filter 1 hello_trainer.word_vocab (by decide)).1,
    ((min_count_filter 1 hello_trainer.word_vocab (by decide)).2.1 ⟨[33], [33], 1⟩).2
      ⟨([33], 1), by decide, by decide, by decide⟩⟩

end bpe

namespace bpe

/-! ## Word counts of `train_on_text` -/

theorem lookup_map_assign {α β : Type} [DecidableEq α] [BEq α] [LawfulBEq α]
    (m : List (α × β)) (k k' : α) (v : β) :
    (map_assign m k v).lookup k' = if k' = k then some v else m.lookup k' := by
  induction m with
  | nil =>
    by_cases h : k' = k
    · subst h; simp [map_assign, List.lookup]
    · have : (k' == k) = false := by simpa using h
      simp [map_assign, List.lookup, this, h]
  | cons hd tl ih =>
    obtain ⟨a, b⟩ := hd
    unfold map_assign
    by_cases hak : a = k
    · subst hak
      rw [if_pos rfl]
      by_cases h : k' = a
      · subst h; simp [List.lookup]
      · have : (k' == a) = false := by simpa using h
        simp [List.lookup, this, h]
    · rw [if_neg hak]
      by_cases h : k' = a
      · subst h
        have hne : ¬ k' = k := hak
        simp [List.lookup, hne]
      · have : (k' == a) = false := by simpa using h
        simp only [List.lookup, this]
        exact ih

theorem map_assign_keys {α β : Type} [DecidableEq α] (m : List (α × β)) (k : α) (v : β) :
    (map_assign m k v).map Prod.fst =
      if k ∈ m.map Prod.fst then m.map Prod.fst else m.map Prod.fst ++ [k] := by
  induction m with
  | nil => simp [map_assign]
  | cons hd tl ih =>
    obtain ⟨a, b⟩ := hd
    unfold map_assign
    by_cases hak : a = k
    · subst hak; simp
    · rw [if_neg hak, List.map_cons, ih]
      have hka : ¬ k = a := fun e => hak e.symm
      by_cases hm : k ∈ tl.map Prod.fst
      · simp [hm]
      · simp [hm, hka]

theorem map_assign_nodup {α β : Type} [DecidableEq α] (m : List (α × β)) (k : α) (v : β)
    (h : (m.map Prod.fst).Nodup) : ((map_assign m k v).map Prod.fst).Nodup := by
  rw [map_assign_keys]
  split
  · exact h
  · rename_i hk
    rw [List.nodup_append]
    refine ⟨h, List.nodup_singleton k, ?_⟩
    intro a ha hb
    simp only [List.mem_singleton] at hb
    subst hb
    exact hk ha

theorem count_word_lookup (m : List (Bytes × Nat)) (x w : Bytes) :
    (count_word m x).lookup w =
      if w = x then some (((m.lookup x).getD 0 + 1) % 2 ^ 64) else m.lookup w := by
  unfold count_word
  cases h : m.lookup x with
  | none =>
    simp only [Option.getD_none]
    rw [lookup_map_assign]
    rfl
  | some n =>
    simp only [Option.getD_some]
    rw [lookup_map_assign]

theorem count_word_nodup (m : List (Bytes × Nat)) (x : Bytes) (h : (m.map Prod.fst).Nodup) :
    ((count_word m x).map Prod.fst).Nodup := by
  unfold count_word
  split <;> exact map_assign_nodup _ _ _ h

/-- The counts after a list of slices: each count is raised by the number of slices equal
to the word, in 64-bit unsigned arithmetic. -/
theorem count_words_lookup (ws : List Bytes) : ∀ (m : List (Bytes × Nat)) (w : Bytes),
    (ws.foldl count_word m).lookup w =
      if ws.count w = 0 then m.lookup w
      else some (((m.lookup w).getD 0 + ws.count w) % 2 ^ 64) := by
  induction ws with
  | nil => intro m w; simp
  | cons x rest ih =>
    intro m w
    rw [List.foldl_cons, ih, count_word_lookup]
    by_cases hx : w = x
    · subst hx
      simp only [List.count_cons_self, if_true, Option.getD_some]
      rw [if_neg (Nat.succ_ne_zero _)]
      by_cases hc : rest.count w = 0
      · simp [hc]
      · rw [if_neg hc]
        congr 1
        rw [Nat.mod_add_mod]
        congr 1
        omega
    · have hne : ¬ x = w := fun e => hx e.symm
      simp only [hx, if_false, List.count_cons, beq_iff_eq, hne, Nat.add_zero]

theorem count_words_nodup (ws : List Bytes) : ∀ (m : List (Bytes × Nat)),
    (m.map Prod.fst).Nodup → ((ws.foldl count_word m).map Prod.fst).Nodup := by
  induction ws with
  | nil => intro m h; exact h
  | cons x rest ih => intro m h; exact ih _ (count_word_nodup m x h)

theorem train_on_texts_eq (texts : List Bytes) : ∀ t : TokenizerTrainer,
    (texts.foldl TokenizerTrainer.train_on_text t).word_vocab =
      (texts.flatMap split_by_words).foldl count_word t.word_vocab := by
  induction texts with
  | nil => intro t; rfl
  | cons x rest ih =>
    intro t
    rw [List.foldl_cons, ih, List.flatMap_cons, List.foldl_append]
    rfl

end bpe

namespace bpe

/-- Claim C23. Counts accumulate: after the calls `train_on_text(t1)`, ..., `train_on_text(tn)`
on a fresh trainer, `word_vocab` has distinct keys and maps each byte string `w` to the total
number of slices equal to `w` in `split_by_words(t1)`, ..., `split_by_words(tn)`, and has no
entry for a string that is no slice; the counter is a `u64`, and the total is taken below
`2 ^ 64`. -/
theorem counts_accumulate (config : Config) (t0 : TokenizerTrainer)
    (h0 : TokenizerTrainer.new config = some t0) (texts : List Bytes) (w : Bytes)
    (hfit : (texts.flatMap split_by_words).count w < 2 ^ 64) :
    (texts.foldl TokenizerTrainer.train_on_text t0).word_vocab.lookup w =
        (if (texts.flatMap split_by_words).count w = 0 then none
          else some ((texts.flatMap split_by_words).count w)) ∧
      ((texts.foldl TokenizerTrainer.train_on_text t0).word_vocab.map Prod.fst).Nodup := by
  have hw : t0.word_vocab = [] := by
    unfold TokenizerTrainer.new at h0
    split at h0
    · simp only [Option.some.injEq] at h0
      rw [← h0]
    · cases h0
  rw [train_on_texts_eq, hw]
  refine ⟨?_, count_words_nodup _ [] (by simp)⟩
  rw [count_words_lookup]
  simp only [List.lookup, Option.getD_none, Nat.zero_add, Nat.mod_eq_of_lt hfit]

/-- The counts after `train_on_text` is called twice on `Hello, world!`: the word `Hello` is
counted twice and the word `world` without its space has no entry. -/
theorem counts_accumulate_witness :
    TokenizerTrainer.new ⟨266, 1, 1, 10⟩ = some ⟨⟨266, 1, 1, 10⟩, [], [], [], [], []⟩ ∧
      ([hello_world, hello_world].flatMap split_by_words).count [72, 101, 108, 108, 111] <
        2 ^ 64 ∧
      ([hello_world, hello_world].foldl TokenizerTrainer.train_on_text
        ⟨⟨266, 1, 1, 10⟩, [], [], [], [], []⟩).word_vocab.lookup [72, 101, 108, 108, 111] =
        some 2 :=
  ⟨by decide, by decide,
    (counts_accumulate ⟨266, 1, 1, 10⟩ ⟨⟨266, 1, 1, 10⟩, [], [], [], [], []⟩ (by decide)
      [hello_world, hello_world] [72, 101, 108, 108, 111] (by decide)).1.trans (by decide)⟩

end bpe

namespace bpe

/-- Claim C26 (the code departs from the claim). Training on the single word `abab`: the
constructor leaves `real_count` equal to the sum over `where` for both candidates, and the
first `pop` returns `(97, 98)`. After the merge into 256 the vocabulary is `[256, 256]`, and
outside the merge call candidate `(98, 97)` has `real_count == 2^64 - 1` (decremented twice
from 1) while the sum over its `where` is 0, and candidate `(256, 97)` has `real_count == 1`
while that pair occurs nowhere. -/
theorem real_count_wraps_on_abab :
    (trainer_on 257 0 abab_word).map (fun t =>
        (build_start t).queue.candidates.map (fun c =>
          (c.pair, c.real_count, where_count (build_start t).queue c))) =
      some [((97, 98), 2, 2), ((98, 97), 1, 1)] ∧
    (trainer_on 257 0 abab_word).map (fun t => (build_start t).queue.pop.1) =
      some (some (97, 98)) ∧
    (trainer_on 257 0 abab_word).map (fun t =>
        (train_loop 1 (build_start t)).queue.vocab.map (fun e => (e.ids, e.count))) =
      some [([256, 256], 1)] ∧
    (trainer_on 257 0 abab_word).map (fun t =>
        (train_loop 1 (build_start t)).queue.candidates.map (fun c =>
          (c.pair, c.real_count, c.where_,
            where_count (train_loop 1 (build_start t)).queue c))) =
      some [((97, 98), 0, [], 0), ((98, 97), 18446744073709551615, [0], 0),
        ((256, 97), 1, [0], 0), ((256, 256), 1, [0], 1)] := by
  refine ⟨?_, ?_, ?_, ?_⟩ <;> decide!

/-- Claim C27 (the code departs from the claim). Training on `(abab (bax (ax (ax (ab (ab`
with `size = 260`: the rounds merge `(32, 40)`, `(97, 98)`, `(97, 120)` and `(98, 97)`.
After the second round candidate `(98, 97)` has `real_count == 0`; after the third round its
`real_count` is `2^64 - 1`, and the `pop` of the fourth round returns `(98, 97)`, which is
adjacent in no vocabulary entry; `build_bpe` records it in the merge table as token 259. -/
theorem dead_candidate_returns :
    (trainer_on 260 0 dead_text).map (fun t => train_trace 4 (build_start t)) =
      some [(32, 40), (97, 98), (97, 120), (98, 97)] ∧
    (trainer_on 260 0 dead_text).map (fun t =>
        ((train_loop 2 (build_start t)).queue.find_candidate (98, 97)).map
          (fun c => c.real_count)) = some (some 0) ∧
    (trainer_on 260 0 dead_text).map (fun t =>
        ((train_loop 3 (build_start t)).queue.find_candidate (98, 97)).map
          (fun c => c.real_count)) = some (some 18446744073709551615) ∧
    (trainer_on 260 0 dead_text).map (fun t =>
        (train_loop 3 (build_start t)).queue.pop.1) = some (some (98, 97)) ∧
    (trainer_on 260 0 dead_text).map (fun t =>
        weighted_count (train_loop 3 (build_start t)).queue.vocab (98, 97)) = some 0 ∧
    ((trainer_on 260 0 dead_text).bind TokenizerTrainer.build_bpe).map
        (fun t => t.merge_table) =
      some [((32, 40), 256), ((97, 98), 257), ((97, 120), 258), ((98, 97), 259)] := by
  refine ⟨?_, ?_, ?_, ?_, ?_, ?_⟩ <;> decide!

end bpe

namespace bpe

/-! ## What `pop` and `merge` do to the vocabulary -/

theorem Queue.update_candidate_vocab (q : Queue) (pair : Pair) (d : Int) (w : Nat) :
    (q.update_candidate pair d w).vocab = q.vocab := by
  unfold Queue.update_candidate
  cases q.candidates_index.lookup pair <;> rfl

theorem Queue.update_candidate_real_count_vocab (q : Queue) (pair : Pair) (d : Int) :
    (q.update_candidate_real_count pair d).vocab = q.vocab := rfl

theorem merge_left_vocab (pair : Pair) (new_id : Nat) (count : Int) (vi : Nat)
    (prev : Option Nat) (new_ids : List Nat) (st : MergeState) :
    (merge_left pair new_id count vi prev new_ids st).1.vocab = st.1.vocab := by
  cases prev with
  | none => rfl
  | some left =>
    simp only [merge_left]
    rw [Queue.update_candidate_vocab, Queue.update_candidate_real_count_vocab]

theorem merge_right_vocab (pair : Pair) (new_id : Nat) (count : Int) (vi : Nat)
    (rest : List Nat) (st : MergeState) :
    (merge_right pair new_id count vi rest st).1.vocab = st.1.vocab := by
  cases rest with
  | nil => rfl
  | cons right tl =>
    simp only [merge_right]
    rw [Queue.update_candidate_vocab, Queue.update_candidate_real_count_vocab]

/-- The scan of `Queue::merge` builds `new_ids` followed by the rewritten rest, and leaves the
vocabulary of the queue untouched. -/
theorem merge_scan_ids (pair : Pair) (new_id : Nat) (count : Int) (vi : Nat) (n : Nat) :
    ∀ (prev : Option Nat) (rest new_ids : List Nat) (st : MergeState), rest.length ≤ n →
      (merge_scan pair new_id count vi prev rest new_ids st).1 =
          new_ids ++ replace_pair pair new_id rest ∧
        (merge_scan pair new_id count vi prev rest new_ids st).2.1.vocab = st.1.vocab := by
  induction n with
  | zero =>
    intro prev rest new_ids st hn
    have : rest = [] := List.length_eq_zero.1 (Nat.le_zero.1 hn)
    subst this
    simp [merge_scan, replace_pair]
  | succ n ih =>
    intro prev rest new_ids st hn
    match rest, hn with
    | [], _ => simp [merge_scan, replace_pair]
    | [a], _ => simp [merge_scan, replace_pair]
    | a :: b :: tail, hn =>
      simp only [merge_scan, replace_pair]
      split
      · obtain ⟨h1, h2⟩ := ih (some b) tail (new_ids ++ [new_id])
          (merge_right pair new_id count vi tail
            (merge_left pair new_id count vi prev new_ids st))
          (by simp only [List.length_cons] at hn; omega)
        rw [h1, h2, merge_right_vocab, merge_left_vocab]
        simp
      · obtain ⟨h1, h2⟩ := ih (some a) (b :: tail) (new_ids ++ [a]) st
          (by simp only [List.length_cons] at hn ⊢; omega)
        rw [h1, h2]
        simp

theorem merge_entry_vocab (pair : Pair) (new_id : Nat) (st : MergeState) (vi : Nat) :
    (merge_entry pair new_id st vi).1.vocab =
      st.1.vocab.modify (rewrite_entry pair new_id) vi := by
  obtain ⟨h1, h2⟩ := merge_scan_ids pair new_id
    ((st.1.vocab.getD vi VocabEntry.absent).count : Int) vi _ none
    (st.1.vocab.getD vi VocabEntry.absent).ids [] st (Nat.le_refl _)
  unfold merge_entry
  simp only
  rw [h1, h2, List.nil_append]
  apply List.ext_getElem?
  intro k
  rw [List.getElem?_modify, List.getElem?_modify]
  by_cases hk : vi = k
  · subst hk
    simp only [if_true]
    cases he : st.1.vocab[vi]? with
    | none => rfl
    | some e =>
      simp only [Option.map_eq_map, Option.map_some', Option.some.injEq]
      rw [List.getD_eq_getElem?_getD, he]
      rfl
  · simp only [hk, if_false]

theorem merge_fold_vocab (pair : Pair) (new_id : Nat) (ws : List Nat) :
    ∀ st : MergeState,
      (ws.foldl (merge_entry pair new_id) st).1.vocab =
        ws.foldl (fun v i => v.modify (rewrite_entry pair new_id) i) st.1.vocab := by
  induction ws with
  | nil => intro st; rfl
  | cons w rest ih =>
    intro st
    rw [List.foldl_cons, List.foldl_cons, ih, merge_entry_vocab]

theorem push_new_pair_fold_vocab (ps : List Pair) :
    ∀ q : Queue, (ps.foldl push_new_pair q).vocab = q.vocab := by
  induction ps with
  | nil => intro q; rfl
  | cons p rest ih =>
    intro q
    rw [List.foldl_cons, ih]
    rfl

/-- The vocabulary after `Queue::merge`: the entries listed in `where` of the merged pair are
rewritten, one after the other. -/
theorem Queue.merge_vocab (q : Queue) (pair : Pair) (new_id : Nat) :
    (q.merge pair new_id).vocab =
      (q.candidate (index_or_insert q.candidates_index pair).1).where_.foldl
        (fun v i => v.modify (rewrite_entry pair new_id) i) q.vocab := by
  unfold Queue.merge
  simp only
  rw [push_new_pair_fold_vocab]
  show (List.foldl (merge_entry pair new_id) _ _).1.vocab = _
  rw [merge_fold_vocab]
  rfl

theorem Queue.pop_loop_vocab (fuel : Nat) :
    ∀ q : Queue, (q.pop_loop fuel).2.vocab = q.vocab := by
  induction fuel with
  | zero => intro q; rfl
  | succ n ih =>
    intro q
    obtain ⟨a1, _⟩ := q.pop_non_zero_spec q.queue.length
    simp only [Queue.pop_loop]
    generalize q.pop_non_zero q.queue.length = r at *
    obtain ⟨o, q1⟩ := r
    cases o with
    | none => exact a1
    | some index =>
      simp only at a1 ⊢
      split
      · exact a1
      · rw [ih]
        exact a1

theorem Queue.pop_vocab (q : Queue) : q.pop.2.vocab = q.vocab :=
  Queue.pop_loop_vocab _ q

end bpe

namespace bpe

/-! ## The cache built after training -/

theorem map_modify_frame {α β : Type} (f : α → β) (g : α → α) (hg : ∀ a, f (g a) = f a)
    (l : List α) (i : Nat) : (l.modify g i).map f = l.map f := by
  apply List.ext_getElem?
  intro k
  simp only [List.getElem?_map, List.getElem?_modify]
  by_cases hk : i = k
  · subst hk
    simp only [if_true]
    cases l[i]? <;> simp [hg]
  · simp [hk]

theorem modify_fold_frame {α β : Type} (f : α → β) (g : α → α) (hg : ∀ a, f (g a) = f a)
    (ws : List Nat) : ∀ l : List α, (ws.foldl (fun v i => v.modify g i) l).map f = l.map f := by
  induction ws with
  | nil => intro l; rfl
  | cons w rest ih =>
    intro l
    rw [List.foldl_cons, ih, map_modify_frame f g hg]

/-- The loop of `train_bpe` changes no text, no count and not the order of the vocabulary. -/
theorem train_loop_texts (n : Nat) :
    ∀ st : TrainState,
      (train_loop n st).queue.vocab.map (fun e => (e.text, e.count)) =
        st.queue.vocab.map (fun e => (e.text, e.count)) := by
  induction n with
  | zero => intro st; rfl
  | succ n ih =>
    intro st
    have hp := st.queue.pop_vocab
    simp only [train_loop]
    generalize st.queue.pop = r at *
    obtain ⟨o, q1⟩ := r
    cases o with
    | none =>
      simp only at hp ⊢
      rw [hp]
    | some pair =>
      simp only at hp ⊢
      rw [ih]
      simp only
      rw [Queue.merge_vocab, modify_fold_frame (fun e : VocabEntry => (e.text, e.count))
        (rewrite_entry pair st.id_to_seq.length) (fun a => rfl), hp]

theorem sort_vocab_sorted (vocab : List VocabEntry) :
    (sort_vocab vocab).Pairwise (fun first second => second.count ≤ first.count) := by
  haveI : IsTotal VocabEntry (fun first second => second.count ≤ first.count) :=
    ⟨fun a b => Nat.le_total b.count a.count⟩
  haveI : IsTrans VocabEntry (fun first second => second.count ≤ first.count) :=
    ⟨fun a b c hab hbc => Nat.le_trans hbc hab⟩
  exact List.sorted_insertionSort _ vocab

theorem emplace_fold_distinct (es : List VocabEntry) :
    ∀ acc : List (Bytes × List Nat), (es.map (fun e => e.text)).Nodup →
      (∀ e ∈ es, e.text ∉ acc.map Prod.fst) →
      es.foldl (fun cache entry => map_emplace cache entry.text entry.ids) acc =
        acc ++ es.map (fun e => (e.text, e.ids)) := by
  induction es with
  | nil => intro acc _ _; simp
  | cons e rest ih =>
    intro acc hn hacc
    rw [List.map_cons, List.nodup_cons] at hn
    have h1 : map_emplace acc e.text e.ids = acc ++ [(e.text, e.ids)] := by
      unfold map_emplace
      rw [if_neg (hacc e (by simp))]
    rw [List.foldl_cons, h1, ih _ hn.2]
    · simp
    · intro e' he'
      rw [List.map_append, List.mem_append]
      rintro (h | h)
      · exact hacc e' (List.mem_cons_of_mem _ he') h
      · simp only [List.map_cons, List.map_nil, List.mem_singleton] at h
        exact hn.1 (h ▸ List.mem_map_of_mem (fun e => e.text) he')

theorem build_start_vocab (t : TokenizerTrainer) (hv : t.vocab = []) :
    (build_start t).queue.vocab =
      sort_vocab (create_vocab_from_word_vocab t.config.min_count t.word_vocab []) := by
  show (Queue.new (create_vocab_from_word_vocab t.config.min_count t.word_vocab t.vocab)
    t.config.size).vocab = _
  rw [hv]
  exact (Queue.new_spec (create_vocab_from_word_vocab t.config.min_count t.word_vocab [])
    t.config.size 256 (create_vocab_ids_lt _ _)).2.2.2.2

theorem build_cache_cache (t : TokenizerTrainer) :
    t.build_cache.cache =
      if t.config.cache_size = 0 then t.cache
      else (t.vocab.take (min t.config.cache_size t.vocab.length)).foldl
        (fun cache entry => map_emplace cache entry.text entry.ids) t.cache := by
  unfold TokenizerTrainer.build_cache
  split <;> rfl

/-- The vocabulary after `build_bpe`: texts and counts are those of the sorted vocabulary of
`create_vocab_from_word_vocab`, in the same order; the cache is built from it. -/
theorem build_bpe_vocab (t t' : TokenizerTrainer) (hv : t.vocab = [])
    (h : t.build_bpe = some t') :
    t'.vocab.map (fun e => (e.text, e.count)) =
        (sort_vocab (create_vocab_from_word_vocab t.config.min_count t.word_vocab [])).map
          (fun e => (e.text, e.count)) ∧
      t'.cache =
        (if t.config.cache_size = 0 then t.cache
        else (t'.vocab.take (min t.config.cache_size t'.vocab.length)).foldl
          (fun cache entry => map_emplace cache entry.text entry.ids) t.cache) := by
  obtain ⟨_, _, _, ht'⟩ := build_bpe_eq t t' h
  have hf := build_cache_frame
    { t with
      vocab := (train_loop (t.config.size - 256) (build_start t)).queue.vocab
      merge_table := (train_loop (t.config.size - 256) (build_start t)).merge_table
      id_to_seq := (train_loop (t.config.size - 256) (build_start t)).id_to_seq }
  have hc := build_cache_cache
    { t with
      vocab := (train_loop (t.config.size - 256) (build_start t)).queue.vocab
      merge_table := (train_loop (t.config.size - 256) (build_start t)).merge_table
      id_to_seq := (train_loop (t.config.size - 256) (build_start t)).id_to_seq }
  rw [← ht'] at hf hc
  have htl := train_loop_texts (t.config.size - 256) (build_start t)
  rw [build_start_vocab t hv] at htl
  generalize train_loop (t.config.size - 256) (build_start t) = st at *
  simp only at hf hc
  refine ⟨?_, ?_⟩
  · rw [hf.2.2.2.1]; exact htl
  · rw [hf.2.2.2.1]; exact hc

end bpe

namespace bpe

/-- Claim C25. The cache holds the most frequent words: after `build_bpe` (on a trainer with
distinct words, no vocabulary and no cache yet) with `cache_size > 0`, the cache has exactly
`min(cache_size, |vocab|)` entries, which are the pairs `(text, ids)` of the first entries of
the final vocabulary, and the count of every cached word is at least the count of every
vocabulary word that is not cached; with `cache_size = 0` the cache is empty. -/
theorem cache_holds_most_frequent (t t' : TokenizerTrainer) (hv : t.vocab = [])
    (hc : t.cache = []) (hn : (t.word_vocab.map Prod.fst).Nodup)
    (h : t.build_bpe = some t') :
    (t.config.cache_size = 0 → t'.cache = []) ∧
    (0 < t.config.cache_size →
      t'.cache.length = min t.config.cache_size t'.vocab.length ∧
      t'.cache = (t'.vocab.take (min t.config.cache_size t'.vocab.length)).map
        (fun e => (e.text, e.ids)) ∧
      (∀ e1 ∈ t'.vocab, ∀ e2 ∈ t'.vocab, e1.text ∈ t'.cache.map Prod.fst →
        e2.text ∉ t'.cache.map Prod.fst → e2.count ≤ e1.count)) := by
  obtain ⟨hmap, hcache⟩ := build_bpe_vocab t t' hv h
  rw [hc] at hcache
  have htexts : (t'.vocab.map (fun e => e.text)).Nodup := by
    have h1 := congrArg (List.map Prod.fst) hmap
    rw [List.map_map, List.map_map] at h1
    have h2 : (Prod.fst ∘ fun e : VocabEntry => (e.text, e.count)) = fun e => e.text := rfl
    rw [h2] at h1
    rw [h1]
    refine ((List.perm_insertionSort _ _).map _).nodup_iff.2 ?_
    rw [create_vocab_texts]
    exact hn.sublist ((List.filter_sublist _).map Prod.fst)
  have hsorted : t'.vocab.Pairwise (fun first second => second.count ≤ first.count) := by
    have h1 := sort_vocab_sorted
      (create_vocab_from_word_vocab t.config.min_count t.word_vocab [])
    have h2 : ((sort_vocab (create_vocab_from_word_vocab t.config.min_count t.word_vocab
        [])).map (fun e => (e.text, e.count))).Pairwise (fun x y => y.2 ≤ x.2) :=
      List.pairwise_map.2 h1
    rw [← hmap] at h2
    exact List.pairwise_map.1 h2
  refine ⟨fun h0 => by rw [hcache, if_pos h0], fun hpos => ?_⟩
  rw [if_neg (Nat.pos_iff_ne_zero.1 hpos)] at hcache
  have hk : t'.cache = (t'.vocab.take (min t.config.cache_size t'.vocab.length)).map
      (fun e => (e.text, e.ids)) := by
    rw [hcache, emplace_fold_distinct _ []
      (htexts.sublist ((List.take_sublist _ _).map _)) (fun e _ => by simp)]
    simp
  refine ⟨?_, hk, ?_⟩
  · rw [hk, List.length_map, List.length_take, Nat.min_eq_left (Nat.min_le_right _ _)]
  · intro e1 h1 e2 h2 hin hout
    have hkeys : t'.cache.map Prod.fst =
        (t'.vocab.take (min t.config.cache_size t'.vocab.length)).map (fun e => e.text) := by
      rw [hk, List.map_map]; rfl
    rw [hkeys] at hin hout
    obtain ⟨e, he, hte⟩ := List.mem_map.1 hin
    have hee : e = e1 :=
      List.inj_on_of_nodup_map htexts (List.mem_of_mem_take he) h1 hte
    subst hee
    have h2d : e2 ∈ t'.vocab.drop (min t.config.cache_size t'.vocab.length) := by
      have : e2 ∈ t'.vocab.take (min t.config.cache_size t'.vocab.length) ++
          t'.vocab.drop (min t.config.cache_size t'.vocab.length) := by
        rw [List.take_append_drop]; exact h2
      rcases List.mem_append.1 this with h | h
      · exact absurd (List.mem_map_of_mem (fun e => e.text) h) hout
      · exact h
    have hp : (t'.vocab.take (min t.config.cache_size t'.vocab.length) ++
        t'.vocab.drop (min t.config.cache_size t'.vocab.length)).Pairwise
        (fun first second => second.count ≤ first.count) := by
      rw [List.take_append_drop]; exact hsorted
    exact (List.pairwise_append.1 hp).2.2 e he e2 h2d

/-- The cache of the test `BpeTest.tokenize` (`cache_size = 10`, four words): it has four
entries, one per vocabulary entry. -/
theorem cache_holds_most_frequent_witness :
    hello_trainer.vocab = [] ∧ hello_trainer.cache = [] ∧
      (hello_trainer.word_vocab.map Prod.fst).Nodup ∧
      hello_trainer.build_bpe = some hello_trained ∧
      hello_trained.cache.length = min hello_trainer.config.cache_size
        hello_trained.vocab.length ∧
      hello_trained.cache =
        (hello_trained.vocab.take
          (min hello_trainer.config.cache_size hello_trained.vocab.length)).map
          (fun e => (e.text, e.ids)) :=
  ⟨rfl, rfl, by decide, hello_trained_eq,
    ((cache_holds_most_frequent hello_trainer hello_trained rfl rfl (by decide)
      hello_trained_eq).2 (by decide)).1,
    ((cache_holds_most_frequent hello_trainer hello_trained rfl rfl (by decide)
      hello_trained_eq).2 (by decide)).2.1⟩

end bpe

namespace bpe

/-! ## Iteration over the storage region of a mapped map -/

section
variable {Key Value : Type}

theorem write_entries_append (cfg : MapConfig Key Value) (es1 : List (Key × Value)) :
    ∀ (es2 : List (Key × Value)) (b1 b2 : Bytes), write_entries cfg es1 = some b1 →
      write_entries cfg es2 = some b2 → write_entries cfg (es1 ++ es2) = some (b1 ++ b2) := by
  induction es1 with
  | nil =>
    intro es2 b1 b2 h1 h2
    simp only [write_entries, Option.some.injEq] at h1
    subst h1
    exact h2
  | cons item rest ih =>
    intro es2 b1 b2 h1 h2
    simp only [write_entries] at h1
    split at h1
    · rename_i kb vb hk hv
      split at h1
      · cases h1
      · rename_i tail ht
        simp only [Option.some.injEq] at h1
        subst h1
        have := ih es2 tail b2 ht h2
        rw [List.cons_append]
        simp only [write_entries, hk, hv]
        rw [this]
        simp only [List.append_assoc]
    · cases h1

/-- The storage region is the records of the buckets, one bucket after the other. -/
theorem write_buckets_storage (cfg : MapConfig Key Value) (bs : List (List (Key × Value))) :
    ∀ (ix sto ix' sto' : Bytes), write_buckets cfg bs (ix, sto) = some (ix', sto') →
      ∃ bytes, write_entries cfg bs.flatten = some bytes ∧ sto' = sto ++ bytes := by
  induction bs with
  | nil =>
    intro ix sto ix' sto' h
    simp only [write_buckets, Option.some.injEq, Prod.mk.injEq] at h
    exact ⟨[], rfl, by rw [← h.2, List.append_nil]⟩
  | cons entry rest ih =>
    intro ix sto ix' sto' h
    simp only [write_buckets] at h
    split at h
    · rename_i hemp
      have hnil : entry = [] := List.isEmpty_iff.1 hemp
      obtain ⟨bytes, h1, h2⟩ := ih _ _ _ _ h
      refine ⟨bytes, ?_, h2⟩
      rw [hnil, List.flatten_cons, List.nil_append]
      exact h1
    · split at h
      · cases h
      · rename_i bytes hb
        obtain ⟨tail, h1, h2⟩ := ih _ _ _ _ h
        refine ⟨bytes ++ tail, ?_, by rw [h2, List.append_assoc]⟩
        rw [List.flatten_cons]
        exact write_entries_append cfg entry _ _ _ hb h1

theorem flatten_modify_perm (item : Key × Value) :
    ∀ (acc : List (List (Key × Value))) (i : Nat), i < acc.length →
      (acc.modify (fun bucket => bucket ++ [item]) i).flatten.Perm (acc.flatten ++ [item]) := by
  intro acc
  induction acc with
  | nil => intro i hi; simp at hi
  | cons b rest ih =>
    intro i hi
    cases i with
    | zero =>
      show ((b ++ [item]) :: rest).flatten.Perm _
      simp only [List.flatten_cons, List.append_assoc]
      exact List.Perm.append_left b List.perm_append_comm
    | succ j =>
      simp only [List.length_cons] at hi
      simp only [List.modify_succ_cons, List.flatten_cons, List.append_assoc]
      exact List.Perm.append_left b (ih j (by omega))

theorem flatten_replicate_nil (n : Nat) :
    (List.replicate n ([] : List (Key × Value))).flatten = [] := by
  induction n with
  | zero => rfl
  | succ k ih => rw [List.replicate_succ, List.flatten_cons, ih, List.nil_append]

/-- The buckets hold the entries of the source map, each once. -/
theorem fill_buckets_perm (cfg : MapConfig Key Value) (H : Nat) (hH : H ≠ 0)
    (data : List (Key × Value)) : (fill_buckets cfg H data).flatten.Perm data := by
  unfold fill_buckets
  have key : ∀ (acc : List (List (Key × Value))), acc.length = H →
      (data.foldl
        (fun index_vector item =>
          index_vector.modify (fun bucket => bucket ++ [item]) (cfg.hash item.1 % H))
        acc).flatten.Perm (acc.flatten ++ data) := by
    induction data with
    | nil => intro acc _; simp
    | cons item rest ih =>
      intro acc hacc
      rw [List.foldl_cons]
      refine (ih _ (by simp [hacc])).trans ?_
      have := flatten_modify_perm item acc (cfg.hash item.1 % H)
        (by rw [hacc]; exact Nat.mod_lt _ (Nat.pos_of_ne_zero hH))
      refine (this.append_right rest).trans ?_
      rw [List.append_assoc, List.singleton_append]
  have := key (List.replicate H []) (by simp)
  rw [flatten_replicate_nil, List.nil_append] at this
  exact this

theorem record_offsets_snd (cfg : MapConfig Key Value) (es : List (Key × Value)) :
    ∀ b, (record_offsets cfg b es).map Prod.snd = es := by
  induction es with
  | nil => intro b; rfl
  | cons item rest ih =>
    intro b
    simp only [record_offsets, List.map_cons, ih]

/-- The traversal over the records of `es` written from offset `b` to the end of the storage
region visits the start of each record and reads its entry. -/
theorem traverse_records (cfg : MapConfig Key Value) {vk : Key → Prop} {vv : Value → Prop}
    (lk : SerializerLaws cfg.key_serializer vk) (lv : SerializerLaws cfg.value_serializer vv)
    (mem : Bytes) (m : MappedMap) (es : List (Key × Value)) :
    ∀ (bytes : Bytes) (b fuel : Nat), write_entries cfg es = some bytes →
      (∀ kv ∈ es, vk kv.1 ∧ vv kv.2) → At mem (m.storage + b) bytes →
      b + bytes.length = m.end_pos → m.end_pos < 4294967296 → es.length ≤ fuel →
      m.traverse cfg mem fuel b = some (record_offsets cfg b es) ∧
        ∀ x ∈ record_offsets cfg b es, x.1 < m.end_pos := by
  induction es with
  | nil =>
    intro bytes b fuel h _ _ hend _ _
    simp only [write_entries, Option.some.injEq] at h
    subst h
    simp only [List.length_nil, Nat.add_zero] at hend
    refine ⟨?_, fun x hx => by simp [record_offsets] at hx⟩
    cases fuel <;> simp [MappedMap.traverse, MappedMap.get_end_position, hend, record_offsets]
  | cons item rest ih =>
    intro bytes b fuel h hv hat hend hfit hf
    simp only [write_entries] at h
    split at h
    · rename_i kb vb hk hvb
      split at h
      · cases h
      · rename_i tail ht
        simp only [Option.some.injEq] at h
        subst h
        simp only [List.length_append] at hend
        cases fuel with
        | zero => simp at hf
        | succ n =>
          have hvi := hv item (by simp)
          have a1 : At mem (m.storage + b) kb := hat.append_left.append_left
          have a2 : At mem (m.storage + b + kb.length) vb := hat.append_left.append_right
          have a3 : At mem (m.storage + (b + kb.length + vb.length)) tail := by
            have := hat.append_right
            simp only [List.length_append] at this
            have e : m.storage + b + (kb.length + vb.length) =
                m.storage + (b + kb.length + vb.length) := by omega
            rw [e] at this; exact this
          obtain ⟨rk, sk⟩ := lk.read_at _ _ _ _ hk hvi.1 a1 (by omega)
          obtain ⟨rv, sv⟩ := lv.read_at _ _ _ _ hvb hvi.2 a2 (by omega)
          have hpos : 0 < kb.length := by rw [lk.size_eq _ _ hk]; exact lk.size_pos _
          have hne : b ≠ m.end_pos := by omega
          have hmod : (m.storage + b + kb.length + vb.length - m.storage) % 2 ^ 32 =
              b + kb.length + vb.length := by
            have e : m.storage + b + kb.length + vb.length - m.storage =
                b + kb.length + vb.length := by omega
            rw [e]
            exact Nat.mod_eq_of_lt (by norm_num; omega)
          obtain ⟨c1, c2⟩ := ih tail (b + kb.length + vb.length) n ht
            (fun kv hkv => hv kv (by simp [hkv])) a3 (by omega) hfit
            (by simp only [List.length_cons] at hf; omega)
          have hsz : b + cfg.key_serializer.size item.1 + cfg.value_serializer.size item.2 =
              b + kb.length + vb.length := by
            rw [lk.size_eq _ _ hk, lv.size_eq _ _ hvb]
          refine ⟨?_, ?_⟩
          · simp only [MappedMap.traverse, MappedMap.get_end_position, if_neg hne,
              MappedMap.get_key_value, MappedMap.get_next_position, rk, rv, sk, sv, hmod, c1,
              record_offsets, hsz, Option.map_some']
          · intro x hx
            simp only [record_offsets, List.mem_cons, hsz] at hx
            rcases hx with hx | hx
            · rw [hx]; show b < m.end_pos; omega
            · exact c2 x hx
    · cases h

end

end bpe

namespace bpe

section
variable {Key Value : Type}

/-- Iteration over the bytes written by `write_to_buffer` when fewer than `2 ^ 32` bytes
were appended. -/
theorem iteration_spec (cfg : MapConfig Key Value) {vk : Key → Prop} {vv : Value → Prop}
    (lk : SerializerLaws cfg.key_serializer vk) (lv : SerializerLaws cfg.value_serializer vv)
    (data : List (Key × Value)) (buffer out : Bytes)
    (hvalid : ∀ kv ∈ data, vk kv.1 ∧ vv kv.2)
    (hw : MappedMap.write_to_buffer cfg data buffer = some out)
    (hfit : out.length - buffer.length < 4294967296) :
    IterationCovers cfg data buffer out := by
  obtain ⟨H, index, storage, hH, hwb, hout⟩ := map_layout cfg data buffer out hw
  obtain ⟨hl, _⟩ := map_bytes_length cfg lk lv H data index storage hwb
  obtain ⟨w1, _⟩ := write_buckets_spec cfg lk lv _ _ _ _ _ hwb
  simp only [List.length_nil, Nat.zero_add, fill_buckets_length] at w1
  obtain ⟨bytes, hb1, hb2⟩ := write_buckets_storage cfg _ _ _ _ _ hwb
  rw [List.nil_append] at hb2
  subst hb2
  have hlen : out.length = buffer.length + (16 + 8 * H + storage.length) := by
    rw [hout, List.length_append, hl]
  have hat : At out buffer.length (map_bytes cfg H data index storage) := by
    have := At.of_append buffer (map_bytes cfg H data index storage) []
    rw [List.append_nil, ← hout] at this
    exact this
  have hh := map_attach_header cfg H data index storage out buffer.length hat
  have hHlt : H < 4294967296 := by omega
  have hslt : storage.length < 4294967296 := by omega
  rw [Nat.mod_eq_of_lt hHlt, Nat.mod_eq_of_lt hslt] at hh
  obtain ⟨m, hatt, e1, e2, e3⟩ : ∃ m : MappedMap,
      (MappedMap.attach out buffer.length).map Prod.fst = some m ∧ m.hash_table_size = H ∧
      m.end_pos = storage.length ∧ m.storage = buffer.length + 16 + 8 * H := by
    rw [hh]
    exact ⟨_, rfl, rfl, rfl, by simp only; omega⟩
  have hatS : At out (m.storage + 0) storage := by
    have h5 := hat
    unfold map_bytes at h5
    have := h5.append_right.append_right.append_right.append_right.append_right
    simp only [u32_bytes_length, w1] at this
    have e : buffer.length + 4 + 4 + 4 + 4 + 8 * H = m.storage + 0 := by rw [e3]; omega
    rw [e] at this
    exact this
  have hperm := fill_buckets_perm cfg H hH data
  obtain ⟨t1, t2⟩ := traverse_records cfg lk lv out m (fill_buckets cfg H data).flatten
    storage 0 data.length hb1 (fun kv hkv => hvalid kv (hperm.mem_iff.1 hkv)) hatS
    (by rw [e2]; omega) (by rw [e2]; exact hslt) (by rw [hperm.length_eq])
  refine ⟨m, record_offsets cfg 0 (fill_buckets cfg H data).flatten, hatt, ?_, ?_, rfl, t1,
    ?_, by rw [e1], t2, ?_⟩
  · rw [e1, e3]
  · rw [e2, e3, hlen]; omega
  · have := congrArg List.length (record_offsets_snd cfg (fill_buckets cfg H data).flatten 0)
    rw [List.length_map] at this
    rw [this, hperm.length_eq]
  · rw [record_offsets_snd]
    exact hperm

end

/-- The map of the empty string to the vector `big` and of the string of one zero byte to
the empty vector: the storage region starts at address 24 and has `11 + 4 * |big|` bytes,
`end_pos` holds that number converted to `u32`, and `get_next_position(0)` is the start
`5 + 4 * |big|` of the second record converted to `u32`. -/
theorem two_entry_positions (pl : Platform) (big : List Nat) (hbig : big.length < 4294967296) :
    ∃ out m, MappedMap.write_to_buffer (cache_config pl) [([], big), ([0], [])] [] = some out ∧
      (MappedMap.attach out 0).map Prod.fst = some m ∧
      m.storage = 24 ∧ out.length = 24 + (11 + 4 * big.length) ∧
      m.end_pos = (11 + 4 * big.length) % 4294967296 ∧
      m.get_next_position (cache_config pl) out 0 =
        some ((5 + 4 * big.length) % 4294967296) := by
  have hc : choose_hash_table_size
      ([(([] : Bytes), big), ([0], [])].map (fun item => (cache_config pl).hash item.1)) =
      some 1 := choose_hash_table_size_two _ _
  obtain ⟨index, hb⟩ : ∃ index, write_buckets (cache_config pl)
      (fill_buckets (cache_config pl) 1 [([], big), ([0], [])]) ([], []) =
        some (index, [0] ++ (u32_bytes big.length ++ big.flatMap u32_bytes) ++
          ([1, 0] ++ (u32_bytes 0 ++ []) ++ [])) := by
    rw [fill_buckets_two]
    unfold write_buckets
    rw [if_neg (by simp), write_entries_two]
    exact ⟨_, rfl⟩
  have hs : ([0] ++ (u32_bytes big.length ++ big.flatMap u32_bytes) ++
      ([1, 0] ++ (u32_bytes 0 ++ []) ++ [])).length = 11 + 4 * big.length := by
    simp only [List.length_append, u32_bytes_length, flatMap_u32_length, List.length_cons,
      List.length_nil]
    omega
  have hw := write_to_buffer_of_some (cache_config pl) _ [] 1 _ _ hc (by decide) hb
  obtain ⟨hl, _⟩ := map_bytes_length (cache_config pl) laws_string_view laws_vector_u32 1 _ _ _
    hb
  obtain ⟨w1, _⟩ := write_buckets_spec (cache_config pl) laws_string_view laws_vector_u32
    _ _ _ _ _ hb
  simp only [List.length_nil, Nat.zero_add, fill_buckets_length] at w1
  have hat := At.of_append [] (map_bytes (cache_config pl) 1 [([], big), ([0], [])]
    index ([0] ++ (u32_bytes big.length ++ big.flatMap u32_bytes) ++
      ([1, 0] ++ (u32_bytes 0 ++ []) ++ []))) []
  rw [List.append_nil] at hat
  have hh := map_attach_header _ _ _ _ _ _ _ hat
  rw [hs] at hh
  simp only [List.length_nil] at hh
  have hS := hat
  unfold map_bytes at hS
  have hS := hS.append_right.append_right.append_right.append_right.append_right
  simp only [u32_bytes_length, w1, List.length_nil] at hS
  have hS0 : At ([] ++ map_bytes (cache_config pl) 1 [([], big), ([0], [])]
      index ([0] ++ (u32_bytes big.length ++ big.flatMap u32_bytes) ++
        ([1, 0] ++ (u32_bytes 0 ++ []) ++ []))) 24
      ([0] ++ (u32_bytes big.length ++ big.flatMap u32_bytes) ++
        ([1, 0] ++ (u32_bytes 0 ++ []) ++ [])) := hS
  have hkey := hS0.append_left.append_left
  have hval := hS0.append_left.append_right.append_left
  have hlen0 := hkey.length_le (by simp)
  have hg := hkey.getD 0 0 (by simp)
  have hr := read_u32_at_lt big.length hval hbig
  simp only [List.length_singleton, Nat.add_zero, List.getD_cons_zero] at hlen0 hg hr
  obtain ⟨m, hatt, e2, e3⟩ : ∃ m : MappedMap,
      (MappedMap.attach ([] ++ map_bytes (cache_config pl) 1 [([], big), ([0], [])]
        index ([0] ++ (u32_bytes big.length ++ big.flatMap u32_bytes) ++
          ([1, 0] ++ (u32_bytes 0 ++ []) ++ []))) 0).map Prod.fst = some m ∧
      m.end_pos = (11 + 4 * big.length) % 4294967296 ∧ m.storage = 24 := by
    rw [hh]
    exact ⟨_, rfl, rfl, rfl⟩
  refine ⟨_, m, hw, hatt, e3, ?_, e2, ?_⟩
  · rw [List.length_append, hl, List.length_nil, hs]
    omega
  · unfold MappedMap.get_next_position
    have hk : (cache_config pl).key_serializer.skip
        ([] ++ map_bytes (cache_config pl) 1 [([], big), ([0], [])]
          index ([0] ++ (u32_bytes big.length ++ big.flatMap u32_bytes) ++
            ([1, 0] ++ (u32_bytes 0 ++ []) ++ []))) 24 = some 25 := by
      show skip_string_view _ 24 = some 25
      unfold skip_string_view
      rw [if_pos (by omega), hg]
    have hv : (cache_config pl).value_serializer.skip
        ([] ++ map_bytes (cache_config pl) 1 [([], big), ([0], [])]
          index ([0] ++ (u32_bytes big.length ++ big.flatMap u32_bytes) ++
            ([1, 0] ++ (u32_bytes 0 ++ []) ++ []))) 25 = some (29 + big.length * 4) := by
      show (match read_u32 _ 25 with
        | none => none
        | some (size, pos1) => some (pos1 + size * 4)) = _
      rw [hr]
    show (match (cache_config pl).key_serializer.skip _ (m.storage + 0) with
      | none => none
      | some ptr1 =>
        match (cache_config pl).value_serializer.skip _ ptr1 with
        | none => none
        | some ptr2 => some ((ptr2 - m.storage) % 2 ^ 32)) = _
    rw [e3, Nat.add_zero, hk]
    simp only
    rw [hv]
    simp only
    have e : 29 + big.length * 4 - 24 = 5 + 4 * big.length := by omega
    rw [e]
    rfl

end bpe

namespace bpe

/-- Claim C30, the claim as stated fails: for the map of byte strings to vectors of `u32`
with the two entries of `huge_cache`, `write_to_buffer` succeeds and the storage region,
which starts at address 24, has 4294967307 bytes, while `get_end_position()` is 11; and
`get_next_position` applied to `get_begin_position()` gives 5, although the second record
starts at offset 4294967301. -/
theorem end_pos_wraps :
    ∃ out m, MappedMap.write_to_buffer (cache_config hello_platform) huge_cache [] =
        some out ∧
      (MappedMap.attach out 0).map Prod.fst = some m ∧
      m.storage = 24 ∧ out.length = 24 + 4294967307 ∧ m.get_end_position = 11 ∧
      m.get_next_position (cache_config hello_platform) out m.get_begin_position =
        some 5 := by
  obtain ⟨out, m, h1, h2, h3, h4, h5, h6⟩ :=
    two_entry_positions hello_platform (List.replicate 1073741824 0)
      (by rw [List.length_replicate]; exact Nat.lt_of_sub_eq_succ rfl)
  rw [List.length_replicate] at h4 h5 h6
  exact ⟨out, m, h1, h2, h3, h4, h5, h6⟩

/-- Claim C30, amended. Iteration covers the map: for every source map (pairs of `u32` to
`u32`, or byte strings to vectors of `u32`) for which `write_to_buffer` succeeds and appends
fewer than `2 ^ 32` bytes, a `MappedMap` attached to the written bytes has `end_pos` equal
to the byte length of the storage region; starting at `get_begin_position() = 0` and
applying `get_next_position` repeatedly reaches `get_end_position()` after exactly `|m|`
steps; the visited positions are the starts of the records, which lie one after the other
in bucket order; and `get_key_value` at the visited positions yields the entries of the
source map, each exactly once. -/
theorem iteration_covers_map :
    (∀ (data : List (Pair × Nat)) (buffer out : Bytes),
      (∀ kv ∈ data, (kv.1.1 < 4294967296 ∧ kv.1.2 < 4294967296) ∧ kv.2 < 4294967296) →
      MappedMap.write_to_buffer merge_table_config data buffer = some out →
      out.length - buffer.length < 4294967296 →
      IterationCovers merge_table_config data buffer out) ∧
    (∀ (pl : Platform) (data : List (Bytes × List Nat)) (buffer out : Bytes),
      (∀ kv ∈ data, ∀ x ∈ kv.2, x < 4294967296) →
      MappedMap.write_to_buffer (cache_config pl) data buffer = some out →
      out.length - buffer.length < 4294967296 →
      IterationCovers (cache_config pl) data buffer out) := by
  constructor
  · intro data buffer out hvalid hw hfit
    exact iteration_spec merge_table_config laws_pair laws_u32 data buffer out hvalid hw hfit
  · intro pl data buffer out hvalid hw hfit
    exact iteration_spec (cache_config pl) laws_string_view laws_vector_u32 data buffer out
      (fun kv hkv => ⟨trivial, hvalid kv hkv⟩) hw hfit

/-- The iteration over the merge table `two_merges` and over the cache `two_words`, each
written after one byte. -/
theorem iteration_covers_map_witness :
    IterationCovers merge_table_config two_merges [7]
        ((MappedMap.write_to_buffer merge_table_config two_merges [7]).getD []) ∧
      IterationCovers (cache_config hello_platform) two_words [7]
        ((MappedMap.write_to_buffer (cache_config hello_platform) two_words [7]).getD []) :=
  ⟨iteration_covers_map.1 two_merges [7] _ (by decide) (by decide!) (by decide!),
    iteration_covers_map.2 hello_platform two_words [7] _ (by decide) (by decide!)
      (by decide!)⟩

end bpe

namespace bpe

/-! ## The rewriting of an id sequence -/

theorem replace_pair_of_not_mem (pair : Pair) (c : Nat) :
    ∀ ids : List Nat, pair ∉ adjacent_pairs ids → replace_pair pair c ids = ids
  | [], _ => rfl
  | [_], _ => rfl
  | a :: b :: rest, h => by
    rw [adjacent_pairs_cons_cons, List.mem_cons, not_or] at h
    have hne : ¬ (a = pair.1 ∧ b = pair.2) := fun e => h.1 (Prod.ext e.1.symm e.2.symm)
    simp only [replace_pair, if_neg hne]
    rw [replace_pair_of_not_mem pair c (b :: rest) h.2]

theorem replace_pair_head (pair : Pair) (c : Nat) :
    ∀ (ids : List Nat) (x : Nat) (tl : List Nat), replace_pair pair c ids = x :: tl →
      x = c ∨ ∃ tl2, ids = x :: tl2
  | [], x, tl, h => by simp [replace_pair] at h
  | [a], x, tl, h => by
    simp only [replace_pair, List.cons.injEq] at h
    exact Or.inr ⟨[], by rw [h.1]⟩
  | a :: b :: rest, x, tl, h => by
    simp only [replace_pair] at h
    split at h
    · simp only [List.cons.injEq] at h
      exact Or.inl h.1.symm
    · simp only [List.cons.injEq] at h
      exact Or.inr ⟨b :: rest, by rw [h.1]⟩

/-- After the rewriting by a fresh id the merged pair is adjacent nowhere. -/
theorem replace_pair_no_pair (pair : Pair) (c : Nat) (h1 : c ≠ pair.1) (h2 : c ≠ pair.2) :
    ∀ ids : List Nat, pair ∉ adjacent_pairs (replace_pair pair c ids)
  | [] => by simp [replace_pair, adjacent_pairs]
  | [a] => by simp [replace_pair, adjacent_pairs]
  | a :: b :: rest => by
    simp only [replace_pair]
    split
    · intro hmem
      cases hr : replace_pair pair c rest with
      | nil => rw [hr] at hmem; simp [adjacent_pairs] at hmem
      | cons x tl =>
        rw [hr, adjacent_pairs_cons_cons, List.mem_cons] at hmem
        rcases hmem with e | e
        · exact h1 (congrArg Prod.fst e).symm
        · rw [← hr] at e
          exact replace_pair_no_pair pair c h1 h2 rest e
    · rename_i hne
      intro hmem
      cases hr : replace_pair pair c (b :: rest) with
      | nil => rw [hr] at hmem; simp [adjacent_pairs] at hmem
      | cons x tl =>
        rw [hr, adjacent_pairs_cons_cons, List.mem_cons] at hmem
        rcases hmem with e | e
        · rcases replace_pair_head pair c (b :: rest) x tl hr with hx | ⟨tl2, hx⟩
          · exact h2 (hx ▸ (congrArg Prod.snd e).symm)
          · simp only [List.cons.injEq] at hx
            exact hne ⟨(congrArg Prod.fst e).symm, hx.1 ▸ (congrArg Prod.snd e).symm⟩
        · rw [← hr] at e
          exact replace_pair_no_pair pair c h1 h2 (b :: rest) e

theorem rewrite_entry_idem (pair : Pair) (c : Nat) (h1 : c ≠ pair.1) (h2 : c ≠ pair.2)
    (e : VocabEntry) :
    rewrite_entry pair c (rewrite_entry pair c e) = rewrite_entry pair c e := by
  unfold rewrite_entry
  simp only
  rw [replace_pair_of_not_mem pair c _ (replace_pair_no_pair pair c h1 h2 e.ids)]

theorem rewrite_entry_of_not_mem (pair : Pair) (c : Nat) (e : VocabEntry)
    (h : pair ∉ adjacent_pairs e.ids) : rewrite_entry pair c e = e := by
  unfold rewrite_entry
  rw [replace_pair_of_not_mem pair c _ h]

theorem modify_fold_getElem {α : Type} (g : α → α) (hg : ∀ a, g (g a) = g a) (ws : List Nat) :
    ∀ (l : List α) (k : Nat),
      (ws.foldl (fun v i => v.modify g i) l)[k]? =
        if k ∈ ws then l[k]?.map g else l[k]? := by
  induction ws with
  | nil => intro l k; simp
  | cons w rest ih =>
    intro l k
    rw [List.foldl_cons, ih, List.getElem?_modify]
    by_cases hw : w = k
    · subst hw
      simp only [if_true, List.mem_cons, true_or]
      cases l[w]? with
      | none => simp
      | some a => simp [hg]
    · have hk : ¬ k = w := fun e => hw e.symm
      simp only [hw, if_false, List.mem_cons, hk, false_or]
      cases l[k]? <;> rfl

end bpe

namespace bpe

/-! ## The sets `where` of the candidate records -/

theorem IndexOK.candidate_of_lookup {q : Queue} (h : IndexOK q.candidates_index q.pairs)
    {p : Pair} {index : Nat} (hl : q.candidates_index.lookup p = some index) :
    ∃ c, q.candidates[index]? = some c ∧ c.pair = p := by
  have := (h p index).1 hl
  simp only [Queue.pairs, List.getElem?_map] at this
  cases hc : q.candidates[index]? with
  | none => rw [hc] at this; cases this
  | some c =>
    rw [hc] at this
    simp only [Option.map_some', Option.some.injEq] at this
    exact ⟨c, rfl, this⟩

theorem holds_mem_pairs {q : Queue} (h : IndexOK q.candidates_index q.pairs) {v : Nat}
    {p : Pair} (hp : q.Holds v p) : p ∈ q.pairs := by
  obtain ⟨index, _, h1, _, _⟩ := hp
  exact (h.mem_iff p).2 ⟨index, h1⟩

theorem holds_modify {q q2 : Queue} (f : MergeCandidate → MergeCandidate) (i : Nat)
    (hi : q2.candidates_index = q.candidates_index)
    (hc : q2.candidates = q.candidates.modify f i)
    (hf : ∀ c v, v ∈ c.where_ → v ∈ (f c).where_) {v : Nat} {p : Pair} (h : q.Holds v p) :
    q2.Holds v p := by
  obtain ⟨index, c, h1, h2, h3⟩ := h
  by_cases e : i = index
  · subst e
    refine ⟨i, f c, by rw [hi]; exact h1, ?_, hf c v h3⟩
    rw [hc, List.getElem?_modify, h2]
    simp
  · refine ⟨index, c, by rw [hi]; exact h1, ?_, h3⟩
    rw [hc, List.getElem?_modify, h2]
    simp [e]

theorem Queue.update_candidate_holds (q : Queue) (pair : Pair) (d : Int) (w : Nat)
    (h : IndexOK q.candidates_index q.pairs) :
    (∀ v p, q.Holds v p → (q.update_candidate pair d w).Holds v p) ∧
      (q.update_candidate pair d w).Holds w pair := by
  cases hl : q.candidates_index.lookup pair with
  | none =>
    have hq1 : (q.update_candidate pair d w).candidates_index =
        q.candidates_index ++ [(pair, q.candidates.length)] := by
      unfold Queue.update_candidate; rw [hl]
    have hq2 : (q.update_candidate pair d w).candidates =
        q.candidates ++ [⟨pair, to_u64 d, to_u64 d, [w]⟩] := by
      unfold Queue.update_candidate; rw [hl]
    constructor
    · rintro v p ⟨index, c, h1, h2, h3⟩
      refine ⟨index, c, ?_, ?_, h3⟩
      · rw [hq1, lookup_append_pair, h1]
      · rw [hq2, List.getElem?_append_left (List.getElem?_eq_some.1 h2).1]
        exact h2
    · refine ⟨q.candidates.length, ⟨pair, to_u64 d, to_u64 d, [w]⟩, ?_, ?_, by simp⟩
      · rw [hq1, lookup_append_pair, hl]
        simp
      · rw [hq2, List.getElem?_append_right (Nat.le_refl _)]
        simp
  | some idx =>
    have hq1 : (q.update_candidate pair d w).candidates_index = q.candidates_index := by
      unfold Queue.update_candidate; rw [hl]
    have hq2 : (q.update_candidate pair d w).candidates =
        q.candidates.modify
          (fun c => { c with
            queue_count := wrap_add_u64 c.queue_count d
            real_count := wrap_add_u64 c.real_count d
            where_ := set_insert c.where_ w }) idx := by
      unfold Queue.update_candidate; rw [hl]
    constructor
    · intro v p hp
      exact holds_modify _ idx hq1 hq2
        (fun c v hv => (set_insert_mem _ _ _).2 (Or.inl hv)) hp
    · obtain ⟨c0, hc0, _⟩ := h.candidate_of_lookup hl
      refine ⟨idx, { c0 with
          queue_count := wrap_add_u64 c0.queue_count d
          real_count := wrap_add_u64 c0.real_count d
          where_ := set_insert c0.where_ w }, by rw [hq1]; exact hl, ?_,
        (set_insert_mem c0.where_ w w).2 (Or.inr rfl)⟩
      rw [hq2, List.getElem?_modify, hc0]
      simp

theorem Queue.update_candidate_real_count_holds (q : Queue) (pair : Pair) (d : Int)
    (h : IndexOK q.candidates_index q.pairs) (hp : pair ∈ q.pairs) :
    ∀ v p, q.Holds v p → (q.update_candidate_real_count pair d).Holds v p := by
  obtain ⟨i, hi⟩ := (h.mem_iff pair).1 hp
  have hr : index_or_insert q.candidates_index pair = (i, q.candidates_index) := by
    unfold index_or_insert; rw [hi]
  intro v p hh
  refine holds_modify (fun c => { c with real_count := wrap_add_u64 c.real_count d }) i ?_ ?_
    (fun c v hv => hv) hh
  · unfold Queue.update_candidate_real_count
    simp only [hr]
  · unfold Queue.update_candidate_real_count
    simp only [hr]

theorem merge_left_holds (pair : Pair) (new_id : Nat) (count : Int) (vi : Nat)
    (prev : Option Nat) (new_ids : List Nat)
    (st : MergeState) (h : IndexOK st.1.candidates_index st.1.pairs)
    (hl : ∀ left, prev = some left → (left, pair.1) ∈ st.1.pairs) :
    IndexOK (merge_left pair new_id count vi prev new_ids st).1.candidates_index
        (merge_left pair new_id count vi prev new_ids st).1.pairs ∧
      (∀ v p, st.1.Holds v p →
        (merge_left pair new_id count vi prev new_ids st).1.Holds v p) ∧
      (∀ left, prev = some left →
        (merge_left pair new_id count vi prev new_ids st).1.Holds vi
          (new_ids.getLastD 0, new_id)) := by
  cases prev with
  | none => exact ⟨h, fun v p hp => hp, fun left hl => by cases hl⟩
  | some left =>
    obtain ⟨e1, _⟩ := st.1.update_candidate_real_count_ext (left, pair.1) (-count) h
      (hl left rfl)
    have k1 := st.1.update_candidate_real_count_holds (left, pair.1) (-count) h (hl left rfl)
    obtain ⟨e2, _⟩ :=
      (st.1.update_candidate_real_count (left, pair.1) (-count)).update_candidate_ext
        (new_ids.getLastD 0, new_id) count vi e1.2.2.2
    obtain ⟨k2, m2⟩ :=
      (st.1.update_candidate_real_count (left, pair.1) (-count)).update_candidate_holds
        (new_ids.getLastD 0, new_id) count vi e1.2.2.2
    exact ⟨e2.2.2.2, fun v p hp => k2 v p (k1 v p hp), fun _ _ => m2⟩

theorem merge_right_holds (pair : Pair) (new_id : Nat) (count : Int) (vi : Nat)
    (rest : List Nat)
    (st : MergeState) (h : IndexOK st.1.candidates_index st.1.pairs)
    (hl : ∀ right tl, rest = right :: tl → (pair.2, right) ∈ st.1.pairs) :
    IndexOK (merge_right pair new_id count vi rest st).1.candidates_index
        (merge_right pair new_id count vi rest st).1.pairs ∧
      (∀ v p, st.1.Holds v p → (merge_right pair new_id count vi rest st).1.Holds v p) ∧
      (∀ right tl, rest = right :: tl →
        (merge_right pair new_id count vi rest st).1.Holds vi (new_id, right)) := by
  cases rest with
  | nil => exact ⟨h, fun v p hp => hp, fun right tl hr => by cases hr⟩
  | cons right tl =>
    obtain ⟨e1, _⟩ := st.1.update_candidate_real_count_ext (pair.2, right) (-count) h
      (hl right tl rfl)
    have k1 := st.1.update_candidate_real_count_holds (pair.2, right) (-count) h
      (hl right tl rfl)
    obtain ⟨e2, _⟩ :=
      (st.1.update_candidate_real_count (pair.2, right) (-count)).update_candidate_ext
        (new_id, right) count vi e1.2.2.2
    obtain ⟨k2, m2⟩ :=
      (st.1.update_candidate_real_count (pair.2, right) (-count)).update_candidate_holds
        (new_id, right) count vi e1.2.2.2
    refine ⟨e2.2.2.2, fun v p hp => k2 v p (k1 v p hp), ?_⟩
    intro r tl2 hr
    simp only [List.cons.injEq] at hr
    rw [← hr.1]
    exact m2

end bpe

namespace bpe

/-- The scan keeps the index map consistent, removes no entry from a set `where`, and leaves
every pair adjacent in the rewritten sequence with a record that lists the entry. -/
theorem merge_scan_holds (pair : Pair) (new_id : Nat) (count : Int) (vi : Nat) (n : Nat) :
    ∀ (prev : Option Nat) (rest new_ids : List Nat) (st : MergeState),
      rest.length ≤ n →
      IndexOK st.1.candidates_index st.1.pairs →
      (∀ p ∈ adjacent_pairs rest, st.1.Holds vi p) →
      (∀ l a tl, prev = some l → rest = a :: tl → st.1.Holds vi (l, a)) →
      (∀ p ∈ adjacent_pairs new_ids, st.1.Holds vi p) →
      (∀ y a tl, new_ids.getLast? = some y → rest = a :: tl → st.1.Holds vi (y, a)) →
      (prev = none ↔ new_ids = []) →
      IndexOK (merge_scan pair new_id count vi prev rest new_ids st).2.1.candidates_index
          (merge_scan pair new_id count vi prev rest new_ids st).2.1.pairs ∧
      (∀ v p, st.1.Holds v p →
        (merge_scan pair new_id count vi prev rest new_ids st).2.1.Holds v p) ∧
      (∀ p ∈ adjacent_pairs (merge_scan pair new_id count vi prev rest new_ids st).1,
        (merge_scan pair new_id count vi prev rest new_ids st).2.1.Holds vi p) := by
  induction n with
  | zero =>
    intro prev rest new_ids st hn hI _ _ hC _ _
    have : rest = [] := List.length_eq_zero.1 (Nat.le_zero.1 hn)
    subst this
    simp only [merge_scan]
    exact ⟨hI, fun v p hp => hp, hC⟩
  | succ n ih =>
    intro prev rest new_ids st hn hI hA hB hC hD hE
    match rest, hn, hA, hB, hD with
    | [], _, _, _, _ =>
      simp only [merge_scan]
      exact ⟨hI, fun v p hp => hp, hC⟩
    | [a], _, _, _, hD =>
      simp only [merge_scan]
      refine ⟨hI, fun v p hp => hp, ?_⟩
      intro p hp
      rcases (adjacent_pairs_append_singleton new_ids a p).1 hp with hp | ⟨y, hy, rfl⟩
      · exact hC p hp
      · exact hD y a [] hy rfl
    | a :: b :: tail, hn, hA, hB, hD =>
      simp only [merge_scan]
      split
      · rename_i hab
        obtain ⟨i1, k1, m1⟩ := merge_left_holds pair new_id count vi prev new_ids st hI
          (fun left hl => by
            have := holds_mem_pairs hI (hB left a (b :: tail) hl rfl)
            rw [hab.1] at this; exact this)
        obtain ⟨i2, k2, m2⟩ := merge_right_holds pair new_id count vi tail
          (merge_left pair new_id count vi prev new_ids st) i1
          (fun right tl ht => by
            subst ht
            have : (b, right) ∈ adjacent_pairs (a :: b :: right :: tl) := by
              simp [adjacent_pairs]
            have := holds_mem_pairs i1 (k1 _ _ (hA _ this))
            rw [hab.2] at this; exact this)
        have k12 : ∀ v p, st.1.Holds v p →
            (merge_right pair new_id count vi tail
              (merge_left pair new_id count vi prev new_ids st)).1.Holds v p :=
          fun v p hp => k2 v p (k1 v p hp)
        have hrec := ih (some b) tail (new_ids ++ [new_id]) _
          (by simp only [List.length_cons] at hn; omega) i2
          (fun p hp => k12 _ _ (hA p (adjacent_pairs_mem_tail (adjacent_pairs_mem_tail hp))))
          (fun l a' tl hl ht => by
            simp only [Option.some.injEq] at hl
            subst hl; subst ht
            exact k12 _ _ (hA _ (by simp [adjacent_pairs])))
          (fun p hp => by
            rcases (adjacent_pairs_append_singleton new_ids new_id p).1 hp with hp | ⟨y, hy, rfl⟩
            · exact k12 _ _ (hC p hp)
            · by_cases hprev : prev = none
              · have : new_ids = [] := hE.1 hprev
                subst this
                simp at hy
              · obtain ⟨left, hleft⟩ := Option.ne_none_iff_exists'.1 hprev
                have := m1 left hleft
                rw [getLastD_eq_of_getLast? hy] at this
                exact k2 _ _ this)
          (fun y a' tl hy ht => by
            rw [getLast?_snoc, Option.some.injEq] at hy
            subst hy
            exact m2 a' tl ht)
          (by simp)
        exact ⟨hrec.1, fun v p hp => hrec.2.1 v p (k12 v p hp), hrec.2.2⟩
      · have hrec := ih (some a) (b :: tail) (new_ids ++ [a]) st
          (by simp only [List.length_cons] at hn ⊢; omega) hI
          (fun p hp => hA p (adjacent_pairs_mem_tail hp))
          (fun l a' tl hl ht => by
            simp only [Option.some.injEq] at hl
            simp only [List.cons.injEq] at ht
            subst hl; rw [← ht.1]
            exact hA _ (by simp [adjacent_pairs]))
          (fun p hp => by
            rcases (adjacent_pairs_append_singleton new_ids a p).1 hp with hp | ⟨y, hy, rfl⟩
            · exact hC p hp
            · exact hD y a (b :: tail) hy rfl)
          (fun y a' tl hy ht => by
            rw [getLast?_snoc, Option.some.injEq] at hy
            simp only [List.cons.injEq] at ht
            subst hy; rw [← ht.1]
            exact hA _ (by simp [adjacent_pairs]))
          (by simp)
        exact hrec

/-- One round of the loop of `Queue::merge` over `where` keeps every adjacent pair of every
entry listed. -/
theorem merge_entry_located (pair : Pair) (new_id : Nat) (st : MergeState) (vi : Nat)
    (hI : IndexOK st.1.candidates_index st.1.pairs) (hL : st.1.Located) :
    IndexOK (merge_entry pair new_id st vi).1.candidates_index
        (merge_entry pair new_id st vi).1.pairs ∧
      (merge_entry pair new_id st vi).1.Located ∧
      (∀ v p, st.1.Holds v p → (merge_entry pair new_id st vi).1.Holds v p) := by
  have hentry : ∀ p ∈ adjacent_pairs (st.1.vocab.getD vi VocabEntry.absent).ids,
      st.1.Holds vi p := by
    rw [List.getD_eq_getElem?_getD]
    cases he : st.1.vocab[vi]? with
    | none => intro p hp; simp [VocabEntry.absent, adjacent_pairs] at hp
    | some e => exact hL vi e he
  obtain ⟨i1, k1, t1⟩ := merge_scan_holds pair new_id
    ((st.1.vocab.getD vi VocabEntry.absent).count : Int) vi _ none
    (st.1.vocab.getD vi VocabEntry.absent).ids [] st (Nat.le_refl _) hI hentry
    (fun l a tl h _ => by cases h) (fun p hp => by simp [adjacent_pairs] at hp)
    (fun y a tl h _ => by simp at h) (by simp)
  obtain ⟨_, hv⟩ := merge_scan_ids pair new_id
    ((st.1.vocab.getD vi VocabEntry.absent).count : Int) vi _ none
    (st.1.vocab.getD vi VocabEntry.absent).ids [] st (Nat.le_refl _)
  unfold merge_entry
  simp only
  generalize merge_scan pair new_id ((st.1.vocab.getD vi VocabEntry.absent).count : Int) vi none
    (st.1.vocab.getD vi VocabEntry.absent).ids [] st = r at *
  obtain ⟨out, q2, np⟩ := r
  simp only at i1 k1 t1 hv ⊢
  refine ⟨i1, ?_, k1⟩
  intro i e he p hp
  have hh : ∀ v p, q2.Holds v p →
      ({ q2 with vocab := q2.vocab.modify (fun e => { e with ids := out }) vi } : Queue).Holds
        v p := fun v p h => h
  apply hh
  simp only at he
  rw [List.getElem?_modify, hv] at he
  by_cases hvi : vi = i
  · subst hvi
    simp only [if_true] at he
    cases h0 : st.1.vocab[vi]? with
    | none => rw [h0] at he; cases he
    | some e0 =>
      rw [h0] at he
      simp only [Option.map_eq_map, Option.map_some', Option.some.injEq] at he
      rw [← he] at hp
      exact t1 p hp
  · simp only [hvi, if_false] at he
    have he2 : st.1.vocab[i]? = some e := by
      cases h0 : st.1.vocab[i]? with
      | none => rw [h0] at he; cases he
      | some e0 =>
        rw [h0] at he
        simp only [Option.map_eq_map, Option.map_some', Option.some.injEq, id] at he
        rw [he]
    exact k1 _ _ (hL i e he2 p hp)

theorem merge_fold_located (pair : Pair) (new_id : Nat) (ws : List Nat) :
    ∀ st : MergeState, IndexOK st.1.candidates_index st.1.pairs → st.1.Located →
      (ws.foldl (merge_entry pair new_id) st).1.Located := by
  induction ws with
  | nil => intro st _ h; exact h
  | cons w rest ih =>
    intro st hI hL
    obtain ⟨a1, a2, _⟩ := merge_entry_located pair new_id st w hI hL
    exact ih _ a1 a2

end bpe

namespace bpe

/-! ## `Queue::merge` rewrites every entry -/

/-- On a queue whose sets `where` list every entry that contains the pair, `Queue::merge`
with a fresh id rewrites every vocabulary entry. -/
theorem Queue.merge_rewrites (q : Queue) (pair : Pair) (new_id : Nat)
    (hL : q.Located) (h1 : new_id ≠ pair.1) (h2 : new_id ≠ pair.2) (hp : pair ∈ q.pairs)
    (hI : IndexOK q.candidates_index q.pairs) :
    (q.merge pair new_id).vocab = q.vocab.map (rewrite_entry pair new_id) := by
  obtain ⟨idx, hidx⟩ := (hI.mem_iff pair).1 hp
  have hr : index_or_insert q.candidates_index pair = (idx, q.candidates_index) := by
    unfold index_or_insert; rw [hidx]
  rw [Queue.merge_vocab, hr]
  apply List.ext_getElem?
  intro k
  rw [modify_fold_getElem _ (rewrite_entry_idem pair new_id h1 h2), List.getElem?_map]
  split
  · rfl
  · rename_i hk
    cases he : q.vocab[k]? with
    | none => rfl
    | some e =>
      simp only [Option.map_some', Option.some.injEq]
      symm
      apply rewrite_entry_of_not_mem
      intro hmem
      obtain ⟨index, c, l1, l2, l3⟩ := hL k e he pair hmem
      rw [hidx, Option.some.injEq] at l1
      subst l1
      apply hk
      simp only [Queue.candidate, List.getD_eq_getElem?_getD, l2, Option.getD_some]
      exact l3

/-- The candidate records and the index map after `Queue::merge`: those of the loop over
`where`, with the record of the merged pair cleared. -/
theorem Queue.merge_parts (q : Queue) (pair : Pair) (new_id : Nat) (idx : Nat)
    (hI : IndexOK q.candidates_index q.pairs) (hT : q.Tracks) (hB : q.Below new_id)
    (hidx : q.candidates_index.lookup pair = some idx) :
    (q.merge pair new_id).candidates =
        (((q.candidate idx).where_.foldl (merge_entry pair new_id) (q, [])).1.clear_candidate
          idx).candidates ∧
      (q.merge pair new_id).candidates_index =
        ((q.candidate idx).where_.foldl (merge_entry pair new_id) (q, [])).1.candidates_index ∧
      (q.merge pair new_id).vocab =
        ((q.candidate idx).where_.foldl (merge_entry pair new_id) (q, [])).1.vocab ∧
      MergeInv new_id q ((q.candidate idx).where_.foldl (merge_entry pair new_id) (q, [])) := by
  have hr : index_or_insert q.candidates_index pair = (idx, q.candidates_index) := by
    unfold index_or_insert; rw [hidx]
  have hB1 : q.Below (new_id + 1) :=
    ⟨fun e he x hx => Nat.lt_succ_of_lt (hB.1 e he x hx),
     fun p hp => ⟨Nat.lt_succ_of_lt (hB.2 p hp).1, Nat.lt_succ_of_lt (hB.2 p hp).2⟩⟩
  have h0 : MergeInv new_id q (q, []) :=
    ⟨hI, hT, by simp, hB1, by simp, List.nodup_nil, List.prefix_refl _, rfl⟩
  have hfold := merge_fold_inv pair new_id q (q.candidate idx).where_ (q, []) h0
  unfold Queue.merge
  simp only [hr]
  have hq0 : ({ q with candidates_index := q.candidates_index } : Queue) = q := rfl
  rw [hq0]
  generalize (q.candidate idx).where_.foldl (merge_entry pair new_id) (q, []) = st at *
  have hI2 := hfold.1
  have hN2 := hfold.2.2.1
  have hpairs2 : (st.1.clear_candidate idx).pairs = st.1.pairs := by
    simp only [Queue.pairs, Queue.clear_candidate]
    apply pairs_modify
    intro c; rfl
  obtain ⟨f1, f2, f3, _⟩ := push_new_pair_fold st.2 (st.1.clear_candidate idx)
    (by rw [hpairs2]; exact hI2) (by rw [hpairs2]; exact hN2)
  exact ⟨f2, f3, f1, hfold⟩

/-- After `Queue::merge` every adjacent pair of every entry is still listed. -/
theorem Queue.merge_located (q : Queue) (pair : Pair) (new_id : Nat)
    (hI : IndexOK q.candidates_index q.pairs) (hT : q.Tracks) (hB : q.Below new_id)
    (hL : q.Located) (hp : pair ∈ q.pairs) : (q.merge pair new_id).Located := by
  obtain ⟨idx, hidx⟩ := (hI.mem_iff pair).1 hp
  have hb := hB.2 pair hp
  have hvoc := q.merge_rewrites pair new_id hL (by omega) (by omega) hp hI
  obtain ⟨g1, g2, g3, hinv⟩ := q.merge_parts pair new_id idx hI hT hB hidx
  have hloc := merge_fold_located pair new_id (q.candidate idx).where_ (q, []) hI hL
  generalize (q.candidate idx).where_.foldl (merge_entry pair new_id) (q, []) = st at *
  obtain ⟨hI2, _, _, _, _, _, hP2, _⟩ := hinv
  have hidx2 : st.1.pairs[idx]? = some pair := by
    have h0 := (hI pair idx).1 hidx
    have hlt : idx < q.pairs.length := (List.getElem?_eq_some.1 h0).1
    rw [IsPrefix_getElem? hP2 hlt]
    exact h0
  intro i e he p hpe
  have hne : p ≠ pair := by
    intro e1
    rw [hvoc, List.getElem?_map] at he
    cases h0 : q.vocab[i]? with
    | none => rw [h0] at he; cases he
    | some e0 =>
      rw [h0] at he
      simp only [Option.map_some', Option.some.injEq] at he
      rw [← he, e1] at hpe
      exact replace_pair_no_pair pair new_id (by omega) (by omega) e0.ids hpe
  rw [g3] at he
  obtain ⟨index, c, l1, l2, l3⟩ := hloc i e he p hpe
  have hix : idx ≠ index := by
    intro e1
    subst e1
    have := (hI2 p idx).1 l1
    rw [hidx2] at this
    exact hne (Option.some.inj this).symm
  refine ⟨index, c, by rw [g2]; exact l1, ?_, l3⟩
  rw [g1]
  simp only [Queue.clear_candidate]
  rw [List.getElem?_modify, l2]
  simp [hix]

theorem Queue.pop_non_zero_holds (fuel : Nat) (q : Queue) (v : Nat) (p : Pair)
    (h : q.Holds v p) : (q.pop_non_zero fuel).2.Holds v p := by
  obtain ⟨_, a2, a3, _⟩ := q.pop_non_zero_spec fuel
  obtain ⟨index, c, l1, l2, l3⟩ := h
  exact ⟨index, c, by rw [a3]; exact l1, by rw [a2]; exact l2, l3⟩

theorem Queue.pop_loop_holds (fuel : Nat) :
    ∀ (q : Queue) (v : Nat) (p : Pair), q.Holds v p → (q.pop_loop fuel).2.Holds v p := by
  induction fuel with
  | zero => intro q v p h; exact h
  | succ n ih =>
    intro q v p h
    have h1 := q.pop_non_zero_holds q.queue.length v p h
    simp only [Queue.pop_loop]
    generalize q.pop_non_zero q.queue.length = r at *
    obtain ⟨o, q1⟩ := r
    cases o with
    | none => exact h1
    | some index =>
      simp only at h1 ⊢
      split
      · exact h1
      · apply ih
        exact @holds_modify q1 (q1.requeue index)
          (fun c => { c with queue_count := c.real_count }) index rfl rfl
          (fun c v hv => hv) v p h1

theorem Queue.pop_located (q : Queue) (h : q.Located) : q.pop.2.Located := by
  intro i e he p hp
  rw [Queue.pop_vocab] at he
  exact Queue.pop_loop_holds _ q i p (h i e he p hp)

end bpe

namespace bpe

/-! ## The sets `where` through the loop of `train_bpe` -/

theorem update_candidate_fold_holds (d : Int) (w : Nat) (ps : List Pair) :
    ∀ q : Queue, IndexOK q.candidates_index q.pairs →
      IndexOK (ps.foldl (fun q pair => q.update_candidate pair d w) q).candidates_index
          (ps.foldl (fun q pair => q.update_candidate pair d w) q).pairs ∧
      (∀ v p, q.Holds v p →
        (ps.foldl (fun q pair => q.update_candidate pair d w) q).Holds v p) ∧
      (∀ p ∈ ps, (ps.foldl (fun q pair => q.update_candidate pair d w) q).Holds w p) := by
  induction ps with
  | nil => intro q hI; exact ⟨hI, fun v p h => h, fun p hp => by cases hp⟩
  | cons a rest ih =>
    intro q hI
    obtain ⟨e1, _⟩ := q.update_candidate_ext a d w hI
    obtain ⟨k1, m1⟩ := q.update_candidate_holds a d w hI
    obtain ⟨i2, k2, m2⟩ := ih (q.update_candidate a d w) e1.2.2.2
    rw [List.foldl_cons]
    refine ⟨i2, fun v p h => k2 v p (k1 v p h), ?_⟩
    intro p hp
    rcases List.mem_cons.1 hp with hp | hp
    · subst hp; exact k2 _ _ m1
    · exact m2 p hp

theorem Queue.init_entries_holds (items : List VocabEntry) :
    ∀ (q : Queue) (vi : Nat), IndexOK q.candidates_index q.pairs →
      (∀ v p, q.Holds v p → (Queue.init_entries q vi items).Holds v p) ∧
      (∀ k e, items[k]? = some e → ∀ p ∈ adjacent_pairs e.ids,
        (Queue.init_entries q vi items).Holds (vi + k) p) := by
  induction items with
  | nil =>
    intro q vi _
    simp only [Queue.init_entries]
    exact ⟨fun v p h => h, fun k e he => by simp at he⟩
  | cons item rest ih =>
    intro q vi hI
    obtain ⟨i1, k1, m1⟩ :=
      update_candidate_fold_holds (item.count : Int) vi (adjacent_pairs item.ids) q hI
    obtain ⟨k2, m2⟩ := ih (q.init_entry vi item) (vi + 1) i1
    simp only [Queue.init_entries]
    refine ⟨fun v p h => k2 v p (k1 v p h), ?_⟩
    intro k e he p hp
    cases k with
    | zero =>
      simp only [List.getElem?_cons_zero, Option.some.injEq] at he
      subst he
      exact k2 _ _ (m1 p hp)
    | succ j =>
      simp only [List.getElem?_cons_succ] at he
      have := m2 j e he p hp
      have e1 : vi + 1 + j = vi + (j + 1) := by omega
      rw [e1] at this
      exact this

/-- The constructor lists every entry in the sets `where` of its adjacent pairs. -/
theorem Queue.new_located (vocab : List VocabEntry) (size : Nat) :
    (Queue.new vocab size).Located := by
  have h0 : IndexOK (⟨sort_vocab vocab, [], [], []⟩ : Queue).candidates_index
      (⟨sort_vocab vocab, [], [], []⟩ : Queue).pairs := by
    intro p i; simp [Queue.pairs]
  obtain ⟨e, _, _⟩ := Queue.init_entries_spec (sort_vocab vocab) ⟨sort_vocab vocab, [], [], []⟩
    0 h0
  obtain ⟨_, m⟩ := Queue.init_entries_holds (sort_vocab vocab) ⟨sort_vocab vocab, [], [], []⟩
    0 h0
  unfold Queue.new
  simp only
  generalize Queue.init_entries ⟨sort_vocab vocab, [], [], []⟩ 0 (sort_vocab vocab) = q at *
  have hv : q.vocab = sort_vocab vocab := e.1
  intro i en he p hp
  simp only at he
  rw [hv] at he
  have := m i en he p hp
  rw [Nat.zero_add] at this
  exact this

/-- What `pop` leaves for the merge that follows it in the loop of `train_bpe`. -/
theorem pop_result_inv (st : TrainState) (h : TrainInv st) (pair : Pair) (q1 : Queue)
    (hpop : st.queue.pop = (some pair, q1)) :
    IndexOK q1.candidates_index q1.pairs ∧ q1.Tracks ∧ q1.Below st.id_to_seq.length ∧
      pair ∈ q1.pairs := by
  obtain ⟨hI, hT, hH, hB, _⟩ := h
  obtain ⟨p1, p2, p3, _, _, p6⟩ := Queue.pop_loop_spec (st.queue.queue.length + 1) st.queue hH
  unfold Queue.pop at hpop
  rw [hpop] at p1 p2 p3 p6
  simp only at p1 p2 p3 p6
  refine ⟨by rw [p2, p3]; exact hI, ?_, ?_, ?_⟩
  · intro e he p hp
    rw [p3]; rw [p1] at he
    exact hT e he p hp
  · exact ⟨fun e he => hB.1 e (by rw [p1] at he; exact he),
      fun p hp => hB.2 p (by rw [p3] at hp; exact hp)⟩
  · obtain ⟨idx, _, _, d3⟩ := p6 pair rfl
    rw [p3]
    exact List.getElem?_mem d3

/-- The loop of `train_bpe` keeps every adjacent pair of every entry listed. -/
theorem train_loop_located (n : Nat) :
    ∀ st : TrainState, TrainInv st → st.queue.Located → (train_loop n st).queue.Located := by
  induction n with
  | zero => intro st _ h; exact h
  | succ n ih =>
    intro st h hL
    have hpl := st.queue.pop_located hL
    simp only [train_loop]
    split
    · rename_i q1 hpop
      rw [hpop] at hpl
      exact hpl
    · rename_i pair q1 hpop
      rw [hpop] at hpl
      obtain ⟨a1, a2, a3, a4⟩ := pop_result_inv st h pair q1 hpop
      exact ih _ (train_step_inv st h pair q1 hpop).2.2
        (q1.merge_located pair st.id_to_seq.length a1 a2 a3 hpl a4)

theorem build_start_located (t : TokenizerTrainer) : (build_start t).queue.Located :=
  Queue.new_located (create_vocab_from_word_vocab t.config.min_count t.word_vocab t.vocab)
    t.config.size

end bpe

namespace bpe

/-- Claim C28. Effect of merge on the vocabulary: in every round of the loop of `train_bpe`
(after any number `k` of earlier rounds of `build_bpe`), the call `Queue::merge((a, b), c)`
on the pair returned by `pop` replaces the id sequence of each vocabulary entry by the
sequence scanned left to right with every non-overlapping occurrence of `a` followed by `b`
replaced by `c`; it leaves every text and count, and the number and order of the entries,
unchanged; the id sequence of an entry without an adjacent `(a, b)` is unchanged; and with
`a = b` the sequence `[a, a, a]` becomes `[c, a]`. -/
theorem merge_rewrites_vocabulary (t : TokenizerTrainer) (hv : t.vocab = [])
    (hi : t.id_to_seq = []) (hm : t.merge_table = []) (k : Nat) (pair : Pair) (q1 : Queue)
    (hpop : (train_loop k (build_start t)).queue.pop = (some pair, q1)) :
    (q1.merge pair (train_loop k (build_start t)).id_to_seq.length).vocab =
        q1.vocab.map (rewrite_entry pair (train_loop k (build_start t)).id_to_seq.length) ∧
      (∀ (c : Nat) (e : VocabEntry), (rewrite_entry pair c e).text = e.text ∧
        (rewrite_entry pair c e).count = e.count ∧
        (rewrite_entry pair c e).ids = replace_pair pair c e.ids) ∧
      (∀ (c : Nat) (e : VocabEntry), pair ∉ adjacent_pairs e.ids →
        rewrite_entry pair c e = e) ∧
      (∀ a c : Nat, replace_pair (a, a) c [a, a, a] = [c, a]) := by
  have hinv := train_loop_inv k (build_start t) (build_start_inv t hv hi hm)
  have hloc := train_loop_located k (build_start t) (build_start_inv t hv hi hm)
    (build_start_located t)
  generalize train_loop k (build_start t) = st at *
  have hpl := st.queue.pop_located hloc
  rw [hpop] at hpl
  obtain ⟨a1, _, a3, a4⟩ := pop_result_inv st hinv pair q1 hpop
  have hb := a3.2 pair a4
  refine ⟨q1.merge_rewrites pair st.id_to_seq.length hpl (by omega) (by omega) a4 a1,
    fun c e => ⟨rfl, rfl, rfl⟩, fun c e h => rewrite_entry_of_not_mem pair c e h, ?_⟩
  intro a c
  simp [replace_pair]

/-- The sixth round of the training of the test `BpeTest.tokenize`: `pop` returns
`(256, 257)` and the merge into 261 rewrites every entry. -/
theorem merge_rewrites_vocabulary_witness :
    hello_trainer.vocab = [] ∧ hello_trainer.id_to_seq = [] ∧ hello_trainer.merge_table = [] ∧
      (train_loop 5 (build_start hello_trainer)).queue.pop =
        (some (256, 257), (train_loop 5 (build_start hello_trainer)).queue.pop.2) ∧
      ((train_loop 5 (build_start hello_trainer)).queue.pop.2.merge (256, 257)
          (train_loop 5 (build_start hello_trainer)).id_to_seq.length).vocab =
        (train_loop 5 (build_start hello_trainer)).queue.pop.2.vocab.map
          (rewrite_entry (256, 257)
            (train_loop 5 (build_start hello_trainer)).id_to_seq.length) :=
  ⟨rfl, rfl, rfl, by decide!,
    (merge_rewrites_vocabulary hello_trainer rfl rfl rfl 5 (256, 257)
      (train_loop 5 (build_start hello_trainer)).queue.pop.2 (by decide!)).1⟩

end bpe

namespace bpe

theorem tracked_once_of_located (q : Queue) (hI : IndexOK q.candidates_index q.pairs)
    (hL : q.Located) : q.TrackedOnce := by
  intro i e he p hp
  obtain ⟨index, c, l1, l2, l3⟩ := hL i e he p hp
  obtain ⟨c1, hc1, hpair⟩ := hI.candidate_of_lookup l1
  rw [l2, Option.some.injEq] at hc1
  subst hc1
  refine ⟨index, c, l1, l2, hpair, l3, ?_⟩
  intro j c2 hj hp2
  have : q.pairs[j]? = some p := by
    simp only [Queue.pairs, List.getElem?_map, hj, Option.map_some', hp2]
  have := (hI p j).2 this
  rw [l1] at this
  exact (Option.some.inj this).symm

/-- Claim C31. Every live pair is tracked: in the queue state after any number `k` of rounds
of the loop of `train_bpe`, and in the state that `pop` leaves, every pair adjacent in a
vocabulary entry has exactly one candidate record, the index map leads to it, and its set
`where` contains the index of the entry; so the merge of the popped pair `(a, b)` visits
every entry that contains `(a, b)`, and after it no vocabulary entry contains `a` followed
by `b`. -/
theorem live_pairs_tracked (t : TokenizerTrainer) (hv : t.vocab = [])
    (hi : t.id_to_seq = []) (hm : t.merge_table = []) (k : Nat) :
    (train_loop k (build_start t)).queue.TrackedOnce ∧
    ∀ pair q1, (train_loop k (build_start t)).queue.pop = (some pair, q1) →
      q1.TrackedOnce ∧
      (∀ i e, q1.vocab[i]? = some e → pair ∈ adjacent_pairs e.ids → i ∈ q1.visited pair) ∧
      (∀ e ∈ (q1.merge pair (train_loop k (build_start t)).id_to_seq.length).vocab,
        pair ∉ adjacent_pairs e.ids) := by
  have hinv := train_loop_inv k (build_start t) (build_start_inv t hv hi hm)
  have hloc := train_loop_located k (build_start t) (build_start_inv t hv hi hm)
    (build_start_located t)
  generalize train_loop k (build_start t) = st at *
  refine ⟨tracked_once_of_located _ hinv.1 hloc, ?_⟩
  intro pair q1 hpop
  have hpl := st.queue.pop_located hloc
  rw [hpop] at hpl
  obtain ⟨a1, _, a3, a4⟩ := pop_result_inv st hinv pair q1 hpop
  have hb := a3.2 pair a4
  refine ⟨tracked_once_of_located _ a1 hpl, ?_, ?_⟩
  · intro i e he hp
    obtain ⟨index, c, l1, l2, l3⟩ := hpl i e he pair hp
    have hr : index_or_insert q1.candidates_index pair = (index, q1.candidates_index) := by
      unfold index_or_insert; rw [l1]
    simp only [Queue.visited, hr, Queue.candidate, List.getD_eq_getElem?_getD, l2,
      Option.getD_some]
    exact l3
  · intro e he
    rw [q1.merge_rewrites pair st.id_to_seq.length hpl (by omega) (by omega) a4 a1,
      List.mem_map] at he
    obtain ⟨e0, _, rfl⟩ := he
    exact replace_pair_no_pair pair st.id_to_seq.length (by omega) (by omega) e0.ids

/-- The state after five rounds of the training of the test `BpeTest.tokenize`: every live
pair is tracked, and after the merge of the next pair `(256, 257)` no entry contains it. -/
theorem live_pairs_tracked_witness :
    hello_trainer.vocab = [] ∧ hello_trainer.id_to_seq = [] ∧ hello_trainer.merge_table = [] ∧
      (train_loop 5 (build_start hello_trainer)).queue.TrackedOnce ∧
      (train_loop 5 (build_start hello_trainer)).queue.pop =
        (some (256, 257), (train_loop 5 (build_start hello_trainer)).queue.pop.2) ∧
      ∀ e ∈ ((train_loop 5 (build_start hello_trainer)).queue.pop.2.merge (256, 257)
          (train_loop 5 (build_start hello_trainer)).id_to_seq.length).vocab,
        (256, 257) ∉ adjacent_pairs e.ids :=
  ⟨rfl, rfl, rfl, (live_pairs_tracked hello_trainer rfl rfl rfl 5).1, by decide!,
    ((live_pairs_tracked hello_trainer rfl rfl rfl 5).2 (256, 257) _ (by decide!)).2.2⟩

end bpe

namespace bpe

/-! ## The ids of an entry spell its text -/

theorem concat_tokens_nil (S : List Bytes) : concat_tokens S [] = [] := rfl

theorem concat_tokens_cons (S : List Bytes) (x : Nat) (xs : List Nat) :
    concat_tokens S (x :: xs) = S.getD x [] ++ concat_tokens S xs := by
  unfold concat_tokens
  rw [List.flatMap_cons]

theorem concat_tokens_bytes : ∀ ids : List Nat, (∀ id ∈ ids, id < 256) →
    concat_tokens (init_id_to_seq []) ids = ids
  | [], _ => rfl
  | x :: xs, h => by
    rw [concat_tokens_cons, init_id_to_seq_getD x (h x (by simp)),
      concat_tokens_bytes xs (fun id hid => h id (List.mem_cons_of_mem _ hid))]
    rfl

/-- Rewriting a pair by the new token, whose string is the concatenation of the strings of
the two ids, does not change the spelling. -/
theorem concat_tokens_replace (S : List Bytes) (a b : Nat) :
    ∀ ids : List Nat, (∀ id ∈ ids, id < S.length) →
      concat_tokens (S ++ [S.getD a [] ++ S.getD b []]) (replace_pair (a, b) S.length ids) =
        concat_tokens S ids
  | [], _ => rfl
  | [x], h => by
    have hx := h x (by simp)
    simp only [replace_pair, concat_tokens_cons, concat_tokens_nil]
    rw [List.getD_append _ _ _ _ hx]
  | x :: y :: rest, h => by
    have hx := h x (by simp)
    simp only [replace_pair]
    split
    · rename_i hxy
      have hrec := concat_tokens_replace S a b rest
        (fun id hid => h id (List.mem_cons_of_mem _ (List.mem_cons_of_mem _ hid)))
      rw [concat_tokens_cons, hrec, concat_tokens_cons, concat_tokens_cons,
        List.getD_append_right _ _ _ _ (Nat.le_refl _), Nat.sub_self, hxy.1, hxy.2]
      simp
    · have hrec := concat_tokens_replace S a b (y :: rest)
        (fun id hid => h id (List.mem_cons_of_mem _ hid))
      rw [concat_tokens_cons, hrec, concat_tokens_cons (x := x),
        List.getD_append _ _ _ _ hx]

/-- The loop of `train_bpe` keeps the spelling of every entry. -/
theorem train_loop_spells (n : Nat) :
    ∀ st : TrainState, TrainInv st → st.queue.Located →
      (∀ e ∈ st.queue.vocab, concat_tokens st.id_to_seq e.ids = e.text) →
      ∀ e ∈ (train_loop n st).queue.vocab,
        concat_tokens (train_loop n st).id_to_seq e.ids = e.text := by
  induction n with
  | zero => intro st _ _ h; exact h
  | succ n ih =>
    intro st h hL hS
    have hpl := st.queue.pop_located hL
    have hpv := st.queue.pop_vocab
    simp only [train_loop]
    split
    · rename_i q1 hpop
      rw [hpop] at hpv
      intro e he
      simp only at he hpv ⊢
      rw [hpv] at he
      exact hS e he
    · rename_i pair q1 hpop
      rw [hpop] at hpl hpv
      simp only at hpv
      obtain ⟨a1, a2, a3, a4⟩ := pop_result_inv st h pair q1 hpop
      have hb := a3.2 pair a4
      refine ih _ (train_step_inv st h pair q1 hpop).2.2
        (q1.merge_located pair st.id_to_seq.length a1 a2 a3 hpl a4) ?_
      intro e he
      simp only at he ⊢
      rw [q1.merge_rewrites pair st.id_to_seq.length hpl (by omega) (by omega) a4 a1,
        List.mem_map] at he
      obtain ⟨e0, he0, rfl⟩ := he
      show concat_tokens _ (replace_pair pair st.id_to_seq.length e0.ids) = e0.text
      rw [concat_tokens_replace st.id_to_seq pair.1 pair.2 e0.ids
        (fun id hid => a3.1 e0 he0 id hid)]
      rw [hpv] at he0
      exact hS e0 he0

theorem create_vocab_spells (min_count : Nat) (word_vocab : List (Bytes × Nat))
    (hbytes : ∀ item ∈ word_vocab, ∀ c ∈ item.1, c < 256) :
    ∀ e ∈ create_vocab_from_word_vocab min_count word_vocab [],
      concat_tokens (init_id_to_seq []) e.ids = e.text := by
  intro e he
  rw [create_vocab_eq, List.mem_map] at he
  obtain ⟨item, hitem, rfl⟩ := he
  have hmem := (List.mem_filter.1 hitem).1
  have hids : (make_entry item).ids = item.1 := by
    simp only [make_entry]
    conv_rhs => rw [← List.map_id item.1]
    apply List.map_congr_left
    intro c hc
    exact Nat.mod_eq_of_lt (hbytes item hmem c hc)
  rw [hids, concat_tokens_bytes item.1 (hbytes item hmem)]
  rfl

theorem build_start_spells (t : TokenizerTrainer) (hv : t.vocab = []) (hi : t.id_to_seq = [])
    (hbytes : ∀ item ∈ t.word_vocab, ∀ c ∈ item.1, c < 256) :
    ∀ e ∈ (build_start t).queue.vocab,
      concat_tokens (build_start t).id_to_seq e.ids = e.text := by
  intro e he
  rw [build_start_vocab t hv, sort_vocab_mem] at he
  have hs : (build_start t).id_to_seq = init_id_to_seq [] := by
    show init_id_to_seq t.id_to_seq = _
    rw [hi]
  rw [hs]
  exact create_vocab_spells _ _ hbytes e he

/-- The accumulation of `decode` over ids that the string table holds. -/
theorem decode_eq_concat (tk : Tokenizer) (S : List Bytes)
    (hget : ∀ i s, S[i]? = some s → tk.id_to_seq.get tk.memory i = some s) :
    ∀ (ids : List Nat) (acc : Bytes), (∀ id ∈ ids, id < S.length) →
      ids.foldl
        (fun acc id =>
          match acc, tk.id_to_seq.get tk.memory id with
          | some text, some token => some (text ++ token)
          | _, _ => none)
        (some acc) = some (acc ++ concat_tokens S ids) := by
  intro ids
  induction ids with
  | nil => intro acc _; simp [concat_tokens_nil]
  | cons x xs ih =>
    intro acc h
    have hx := h x (by simp)
    have hg := hget x (S.getD x []) (by
      rw [List.getD_eq_getElem?_getD, List.getElem?_eq_getElem hx]
      rfl)
    rw [List.foldl_cons, hg]
    simp only
    rw [ih _ (fun id hid => h id (List.mem_cons_of_mem _ hid)), concat_tokens_cons,
      List.append_assoc]

end bpe

namespace bpe

/-- Claim C32. Entries always spell their word: for a trainer whose words are byte strings
(with no vocabulary and no cache before `build_bpe`), the concatenation of `id_to_seq[id]`
over `entry.ids` equals `entry.text` for every vocabulary entry after
`create_vocab_from_word_vocab`, after any number `k` of rounds of the loop of `train_bpe`,
and after `build_bpe`; hence every cached id sequence spells its cached word, and a
tokenizer attached to the saved artifact (smaller than 4 GiB) decodes it to that word. -/
theorem entries_spell_their_word (t t' : TokenizerTrainer) (hv : t.vocab = [])
    (hc : t.cache = []) (hbytes : ∀ item ∈ t.word_vocab, ∀ c ∈ item.1, c < 256)
    (h : t.build_bpe = some t') :
    (∀ e ∈ create_vocab_from_word_vocab t.config.min_count t.word_vocab [],
      concat_tokens (init_id_to_seq []) e.ids = e.text) ∧
    (∀ k, ∀ e ∈ (train_loop k (build_start t)).queue.vocab,
      concat_tokens (train_loop k (build_start t)).id_to_seq e.ids = e.text) ∧
    (∀ e ∈ t'.vocab, concat_tokens t'.id_to_seq e.ids = e.text) ∧
    (∀ kv ∈ t'.cache, concat_tokens t'.id_to_seq kv.2 = kv.1) ∧
    (∀ (pl : Platform) (buf : Bytes), t'.save pl = some buf → buf.length < 4294967296 →
      ∃ tk, Tokenizer.attach buf = some tk ∧ ∀ kv ∈ t'.cache, tk.decode kv.2 = some kv.1) := by
  obtain ⟨hi, hm, _, _⟩ := build_bpe_eq t t' h
  have hloop : ∀ k, ∀ e ∈ (train_loop k (build_start t)).queue.vocab,
      concat_tokens (train_loop k (build_start t)).id_to_seq e.ids = e.text :=
    fun k => train_loop_spells k (build_start t) (build_start_inv t hv hi hm)
      (build_start_located t) (build_start_spells t hv hi hbytes)
  obtain ⟨st, hinv, e1, e2, e3, _, e5, _⟩ := build_bpe_inv t t' hv h
  have hvocab : ∀ e ∈ t'.vocab, concat_tokens t'.id_to_seq e.ids = e.text := by
    intro e he
    have := hloop (t.config.size - 256)
    rw [e5] at this
    rw [e2]
    rw [e3] at he
    exact this e he
  have hcache : ∀ kv ∈ t'.cache, concat_tokens t'.id_to_seq kv.2 = kv.1 := by
    intro kv hkv
    obtain ⟨e, he, rfl⟩ := build_bpe_cache_mem t t' hc h kv hkv
    exact hvocab e he
  refine ⟨create_vocab_spells _ _ hbytes, hloop, hvocab, hcache, ?_⟩
  intro pl buf hs hfit
  obtain ⟨_, _, _, hB, _, hE, _, _, _, _⟩ := hinv
  have hN := save_length_ge pl t' buf hs
  rw [e2] at hN
  have hmt : ∀ kv ∈ t'.merge_table,
      (kv.1.1 < 4294967296 ∧ kv.1.2 < 4294967296) ∧ kv.2 < 4294967296 := by
    intro kv hkv
    rw [e1] at hkv
    obtain ⟨a1, a2, a3, _⟩ := hE kv hkv
    omega
  have hlt : ∀ kv ∈ t'.cache, ∀ x ∈ kv.2, x < t'.id_to_seq.length := by
    intro kv hkv x hx
    obtain ⟨e, hvoc, rfl⟩ := build_bpe_cache_mem t t' hc h kv hkv
    rw [e3] at hvoc
    rw [e2]
    exact hB.1 e hvoc x hx
  have hcb : ∀ kv ∈ t'.cache, True ∧ ∀ x ∈ kv.2, x < 4294967296 := by
    intro kv hkv
    refine ⟨trivial, fun x hx => ?_⟩
    have := hlt kv hkv x hx
    rw [e2] at this
    omega
  obtain ⟨tk, k1, k2, _, k4, _, _⟩ := attach_save pl t' buf hs hfit hmt hcb
  refine ⟨tk, k1, fun kv hkv => ?_⟩
  have := decode_eq_concat tk t'.id_to_seq (by rw [k2]; exact k4) kv.2 [] (hlt kv hkv)
  rw [List.nil_append, hcache kv hkv] at this
  exact this

/-- The entries and the cache of the test `BpeTest.tokenize` spell their words. -/
theorem entries_spell_their_word_witness :
    hello_trainer.vocab = [] ∧ hello_trainer.cache = [] ∧
      (∀ item ∈ hello_trainer.word_vocab, ∀ c ∈ item.1, c < 256) ∧
      hello_trainer.build_bpe = some hello_trained ∧
      (∀ e ∈ hello_trained.vocab, concat_tokens hello_trained.id_to_seq e.ids = e.text) ∧
      (∀ kv ∈ hello_trained.cache, concat_tokens hello_trained.id_to_seq kv.2 = kv.1) :=
  ⟨rfl, rfl, by decide, hello_trained_eq,
    (entries_spell_their_word hello_trainer hello_trained rfl rfl (by decide)
      hello_trained_eq).2.2.1,
    (entries_spell_their_word hello_trainer hello_trained rfl rfl (by decide)
      hello_trained_eq).2.2.2.1⟩

end bpe

namespace bpe

/-! ## The number of rounds of `encode_word` -/

theorem encode_word_stops (get : Nat → Nat → Option (Option Nat)) (ids : List Nat)
    (h : ids.length < 2 ∨ min_id_loop get 1 ids none = some none) :
    ∀ fuel, encode_word_rounds get fuel ids = some 0 ∧
      encode_word_loop get fuel ids = some ids := by
  intro fuel
  by_cases hlen : ids.length ≥ 2
  · have hm : min_id_loop get 1 ids none = some none := by
      rcases h with h | h
      · omega
      · exact h
    cases fuel with
    | zero =>
      refine ⟨?_, rfl⟩
      unfold encode_word_rounds
      rw [if_pos hlen, hm]
    | succ g =>
      constructor
      · unfold encode_word_rounds
        rw [if_pos hlen, hm]
      · unfold encode_word_loop
        rw [if_pos hlen, hm]
  · cases fuel with
    | zero =>
      refine ⟨?_, rfl⟩
      unfold encode_word_rounds
      rw [if_neg hlen]
    | succ g =>
      constructor
      · unfold encode_word_rounds
        rw [if_neg hlen]
      · unfold encode_word_loop
        rw [if_neg hlen]

/-- The loop of `encode_word` from a sequence of at most `n + 1` ids stops within `n`
rounds: the number of rounds and the result do not depend on the bound once it is at least
`n`, every round removes one id, and the result holds no mergeable pair. -/
theorem encode_word_rounds_spec (get : Nat → Nat → Option (Option Nat))
    (table : Nat → Nat → Option Nat) (hget : ∀ a b, get a b = some (table a b)) :
    ∀ (n : Nat) (ids : List Nat), ids.length ≤ n + 1 →
      ∃ r out, (∀ fuel, n ≤ fuel → encode_word_rounds get fuel ids = some r ∧
          encode_word_loop get fuel ids = some out) ∧
        out.length + r = ids.length ∧ (ids ≠ [] → 1 ≤ out.length) ∧
        ∀ j id, ¬ Mergeable table out j id := by
  intro n
  induction n with
  | zero =>
    intro ids h
    refine ⟨0, ids, fun fuel _ => encode_word_stops get ids (Or.inl (by omega)) fuel, rfl,
      fun hne => List.length_pos.2 hne, fun j id hm => ?_⟩
    have := hm.1
    omega
  | succ n ih =>
    intro ids h
    rcases min_id_loop_greedy get table hget ids with ⟨h1, h2⟩ | ⟨id, idx, h1, h2⟩
    · exact ⟨0, ids, fun fuel _ => encode_word_stops get ids (Or.inr h1) fuel, rfl,
        fun hne => List.length_pos.2 hne, h2⟩
    · have hlt := h2.1.1
      have hlen : ids.length ≥ 2 := by omega
      have hml := merge_at_length ids idx id hlt
      obtain ⟨r, out, k1, k2, k3, k4⟩ := ih (merge_at ids idx id) (by omega)
      refine ⟨r + 1, out, ?_, by omega, fun _ => k3 (by simp [merge_at]), k4⟩
      intro fuel hf
      obtain ⟨g, rfl⟩ : ∃ g, fuel = g + 1 := ⟨fuel - 1, by omega⟩
      obtain ⟨g1, g2⟩ := k1 g (by omega)
      constructor
      · conv_lhs => unfold encode_word_rounds
        rw [if_pos hlen, h1]
        simp only
        rw [set_eraseIdx_eq id ids idx hlt, g1]
        rfl
      · conv_lhs => unfold encode_word_loop
        rw [if_pos hlen, h1]
        simp only
        rw [set_eraseIdx_eq id ids idx hlt, g2]

/-- Claim C34. Termination of `encode_word`, for a tokenizer whose `get_merge_id` answers
from a merge table `table` (any table): the loop performs at most `max(|word| - 1, 0)`
rounds, the count being the same for every bound on the rounds from `|word| - 1` on; each
round shortens the id sequence by exactly one; `encode_word` returns a sequence whose length
plus the number of rounds is `|word|`; it has between 1 and `|word|` ids for a non-empty
word and is empty for the empty word. -/
theorem encode_word_terminates (tk : Tokenizer) (table : Nat → Nat → Option Nat)
    (hget : ∀ a b, tk.get_merge_id a b = some (table a b)) (pl : Platform) (text : Bytes) :
    (∀ ids id idx, GreedyChoice table ids idx id →
      (merge_at ids idx id).length + 1 = ids.length) ∧
    ∃ r out,
      (∀ fuel, text.length - 1 ≤ fuel →
        encode_word_rounds tk.get_merge_id fuel (text.map (char_to_u32 pl)) = some r) ∧
      r ≤ max (text.length - 1) 0 ∧
      tk.encode_word pl text = some out ∧ out.length + r = text.length ∧
      (text ≠ [] → 1 ≤ out.length ∧ out.length ≤ text.length) ∧
      (text = [] → out = []) := by
  refine ⟨fun ids id idx h => merge_at_length ids idx id h.1.1, ?_⟩
  obtain ⟨r, out, k1, k2, k3, _⟩ := encode_word_rounds_spec tk.get_merge_id table hget
    (text.length - 1) (text.map (char_to_u32 pl)) (by rw [List.length_map]; omega)
  rw [List.length_map] at k2
  refine ⟨r, out, fun fuel hf => (k1 fuel hf).1, ?_, ?_, k2, ?_, ?_⟩
  · by_cases hne : text = []
    · subst hne
      simp only [List.length_nil] at k2
      omega
    · have := k3 (by simpa using hne)
      rw [Nat.max_eq_left (Nat.zero_le _)]
      omega
  · unfold Tokenizer.encode_word
    exact (k1 text.length (by omega)).2
  · intro hne
    have := k3 (by simpa using hne)
    omega
  · intro he
    subst he
    simp only [List.length_nil] at k2
    exact List.length_eq_zero.1 (by omega)

/-- The encoding of the word `Hello` by the tokenizer of the test `BpeTest.tokenize` stops
within four rounds and leaves between one and five ids. -/
theorem encode_word_terminates_witness :
    ∃ tk, Tokenizer.attach hello_artifact = some tk ∧
      ∃ r out,
        (∀ fuel, [72, 101, 108, 108, 111].length - 1 ≤ fuel →
          encode_word_rounds tk.get_merge_id fuel
            ([72, 101, 108, 108, 111].map (char_to_u32 hello_platform)) = some r) ∧
        r ≤ max ([72, 101, 108, 108, 111].length - 1) 0 ∧
        tk.encode_word hello_platform [72, 101, 108, 108, 111] = some out ∧
        out.length + r = [72, 101, 108, 108, 111].length ∧
        (([72, 101, 108, 108, 111] : Bytes) ≠ [] →
          1 ≤ out.length ∧ out.length ≤ [72, 101, 108, 108, 111].length) ∧
        (([72, 101, 108, 108, 111] : Bytes) = [] → out = []) :=
  hello_tokenizer.imp (fun tk h =>
    ⟨h.1, (encode_word_terminates tk (fun a b => hello_trained.merge_table.lookup (a, b)) h.2
      hello_platform [72, 101, 108, 108, 111]).2⟩)

end bpe

namespace bpe

theorem accent_trained_tables :
    (accent_trained 2).map (fun t => t.merge_table) =
      some [((32, 122), 256), ((32, 121), 257)] ∧
    (accent_trained 4).map (fun t => t.merge_table) =
      some [((32, 122), 256), ((32, 121), 257)] ∧
    (accent_trained 4).map (fun t => t.vocab.map (fun e => (e.text, e.ids))) =
      some [([32, 122], [256]), ([32, 121], [257]), ([120], [120]),
        ([32, 195, 169], [32, 195, 169])] ∧
    (accent_trained 2).map (fun t => t.cache) =
      some [([32, 122], [256]), ([32, 121], [257])] ∧
    (accent_trained 4).map (fun t => t.cache) =
      some [([32, 122], [256]), ([32, 121], [257]), ([120], [120]),
        ([32, 195, 169], [32, 195, 169])] := by
  refine ⟨?_, ?_, ?_, ?_, ?_⟩ <;> decide!

theorem accent_encode_word :
    (accent_tokenizer 4).map (fun tk => tk.encode_word hello_platform [32, 195, 169]) =
      some (some [32, 4294967235, 4294967209]) := by decide!

theorem accent_encode_small_cache :
    (accent_tokenizer 2).map (fun tk => tk.encode hello_platform accent_text) =
      some (some [120, 257, 257, 256, 256, 256, 32, 4294967235, 4294967209]) := by decide!

theorem accent_encode_full_cache :
    (accent_tokenizer 4).map (fun tk => tk.encode hello_platform accent_text) =
      some (some [120, 257, 257, 256, 256, 256, 32, 195, 169]) := by decide!

/-- Claim C33 (the code departs from the claim). Training on `accent_text` with target size
258 gives, for every cache size, the merge table `(32, 122) -> 256`, `(32, 121) -> 257` and
the entry of the word ` ` `C3 A9` with the ids `[32, 195, 169]`. On a platform whose plain
`char` is signed, `encode_word` of that word against this merge table returns
`[32, 4294967235, 4294967209]`, not the ids of the entry. With cache size 2 the cache holds
the words ` z` and ` y` only and `encode` of the text ends with these sign-extended ids;
with cache size 4 the word is served from the cache and `encode` ends with
`32, 195, 169`: the cache size changes the output of `encode`. -/
theorem cache_not_transparent :
    (accent_trained 2).map (fun t => t.merge_table) =
      some [((32, 122), 256), ((32, 121), 257)] ∧
    (accent_trained 4).map (fun t => t.merge_table) =
      some [((32, 122), 256), ((32, 121), 257)] ∧
    (accent_trained 4).map (fun t => t.vocab.map (fun e => (e.text, e.ids))) =
      some [([32, 122], [256]), ([32, 121], [257]), ([120], [120]),
        ([32, 195, 169], [32, 195, 169])] ∧
    (accent_trained 2).map (fun t => t.cache) =
      some [([32, 122], [256]), ([32, 121], [257])] ∧
    (accent_trained 4).map (fun t => t.cache) =
      some [([32, 122], [256]), ([32, 121], [257]), ([120], [120]),
        ([32, 195, 169], [32, 195, 169])] ∧
    (accent_tokenizer 4).map (fun tk => tk.encode_word hello_platform [32, 195, 169]) =
      some (some [32, 4294967235, 4294967209]) ∧
    (accent_tokenizer 2).map (fun tk => tk.encode hello_platform accent_text) =
      some (some [120, 257, 257, 256, 256, 256, 32, 4294967235, 4294967209]) ∧
    (accent_tokenizer 4).map (fun tk => tk.encode hello_platform accent_text) =
      some (some [120, 257, 257, 256, 256, 256, 32, 195, 169]) := by
  exact ⟨accent_trained_tables.1, accent_trained_tables.2.1, accent_trained_tables.2.2.1,
    accent_trained_tables.2.2.2.1, accent_trained_tables.2.2.2.2, accent_encode_word,
    accent_encode_small_cache, accent_encode_full_cache⟩

end bpe

namespace bpe

/-! ## One merge of the encoder against the rewriting of the trainer -/

theorem adjacent_pairs_of_index : ∀ (u : List Nat) (j : Nat), j + 1 < u.length →
    (u.getD j 0, u.getD (j + 1) 0) ∈ adjacent_pairs u
  | [], j, h => by simp at h
  | [_], j, h => by simp at h
  | a :: b :: rest, 0, _ => by simp [adjacent_pairs]
  | a :: b :: rest, j + 1, h => by
    have := adjacent_pairs_of_index (b :: rest) j (by simp only [List.length_cons] at h ⊢; omega)
    simp only [List.getD_cons_succ]
    exact adjacent_pairs_mem_tail this

theorem index_of_adjacent_pairs : ∀ (u : List Nat) (p : Pair), p ∈ adjacent_pairs u →
    ∃ j, j + 1 < u.length ∧ u.getD j 0 = p.1 ∧ u.getD (j + 1) 0 = p.2
  | [], p, h => by simp [adjacent_pairs] at h
  | [_], p, h => by simp [adjacent_pairs] at h
  | a :: b :: rest, p, h => by
    rw [adjacent_pairs_cons_cons, List.mem_cons] at h
    rcases h with h | h
    · subst h
      exact ⟨0, by simp, rfl, rfl⟩
    · obtain ⟨j, h1, h2, h3⟩ := index_of_adjacent_pairs (b :: rest) p h
      exact ⟨j + 1, by simp only [List.length_cons] at h1 ⊢; omega, h2, h3⟩

theorem replace_pair_mem (pair : Pair) (c : Nat) :
    ∀ (ids : List Nat) (x : Nat), x ∈ replace_pair pair c ids → x ∈ ids ∨ x = c
  | [], x, h => by simp [replace_pair] at h
  | [a], x, h => by
    simp only [replace_pair] at h
    exact Or.inl h
  | a :: b :: rest, x, h => by
    simp only [replace_pair] at h
    split at h
    · rcases List.mem_cons.1 h with h | h
      · exact Or.inr h
      · rcases replace_pair_mem pair c rest x h with h | h
        · exact Or.inl (List.mem_cons_of_mem _ (List.mem_cons_of_mem _ h))
        · exact Or.inr h
    · rcases List.mem_cons.1 h with h | h
      · exact Or.inl (by rw [h]; simp)
      · rcases replace_pair_mem pair c (b :: rest) x h with h | h
        · exact Or.inl (List.mem_cons_of_mem _ h)
        · exact Or.inr h

/-- The pairs adjacent after a rewriting were adjacent before or contain the new id. -/
theorem replace_pair_pairs (pair : Pair) (c : Nat) :
    ∀ (ids : List Nat) (q : Pair), q ∈ adjacent_pairs (replace_pair pair c ids) →
      q ∈ adjacent_pairs ids ∨ q.1 = c ∨ q.2 = c
  | [], q, h => by simp [replace_pair, adjacent_pairs] at h
  | [a], q, h => by simp [replace_pair, adjacent_pairs] at h
  | a :: b :: rest, q, h => by
    simp only [replace_pair] at h
    split at h
    · cases hr : replace_pair pair c rest with
      | nil => rw [hr] at h; simp [adjacent_pairs] at h
      | cons x tl =>
        rw [hr, adjacent_pairs_cons_cons, List.mem_cons] at h
        rcases h with e | e
        · exact Or.inr (Or.inl (by rw [e]))
        · rw [← hr] at e
          rcases replace_pair_pairs pair c rest q e with e | e
          · exact Or.inl (adjacent_pairs_mem_tail (adjacent_pairs_mem_tail e))
          · exact Or.inr e
    · cases hr : replace_pair pair c (b :: rest) with
      | nil => rw [hr] at h; simp [adjacent_pairs] at h
      | cons x tl =>
        rw [hr, adjacent_pairs_cons_cons, List.mem_cons] at h
        rcases h with e | e
        · rcases replace_pair_head pair c (b :: rest) x tl hr with hx | ⟨tl2, hx⟩
          · exact Or.inr (Or.inr (by rw [e]; exact hx))
          · simp only [List.cons.injEq] at hx
            left
            rw [e, ← hx.1, adjacent_pairs_cons_cons]
            exact List.mem_cons_self _ _
        · rw [← hr] at e
          rcases replace_pair_pairs pair c (b :: rest) q e with e | e
          · exact Or.inl (adjacent_pairs_mem_tail e)
          · exact Or.inr e

theorem merge_at_zero (a b : Nat) (rest : List Nat) (c : Nat) :
    merge_at (a :: b :: rest) 0 c = c :: rest := by
  simp [merge_at]

theorem merge_at_succ (x : Nat) (u : List Nat) (k c : Nat) :
    merge_at (x :: u) (k + 1) c = x :: merge_at u k c := by
  simp [merge_at]

/-- The pairs adjacent after one merge of the encoder were adjacent before or contain the
new id. -/
theorem merge_at_pairs (c : Nat) : ∀ (u : List Nat) (idx : Nat), idx + 1 < u.length →
    ∀ q ∈ adjacent_pairs (merge_at u idx c), q ∈ adjacent_pairs u ∨ q.1 = c ∨ q.2 = c
  | [], idx, h => by simp at h
  | [_], idx, h => by simp at h
  | a :: b :: rest, 0, _ => by
    intro q hq
    rw [merge_at_zero] at hq
    cases rest with
    | nil => simp [adjacent_pairs] at hq
    | cons y tl =>
      rw [adjacent_pairs_cons_cons, List.mem_cons] at hq
      rcases hq with e | e
      · exact Or.inr (Or.inl (by rw [e]))
      · exact Or.inl (adjacent_pairs_mem_tail (adjacent_pairs_mem_tail e))
  | a :: b :: rest, k + 1, h => by
    intro q hq
    have hl : k + 1 < (b :: rest).length := by simp only [List.length_cons] at h ⊢; omega
    rw [merge_at_succ] at hq
    have ih := merge_at_pairs c (b :: rest) k hl
    cases hm : merge_at (b :: rest) k c with
    | nil => rw [hm] at hq; simp [adjacent_pairs] at hq
    | cons y tl =>
      rw [hm, adjacent_pairs_cons_cons, List.mem_cons] at hq
      rcases hq with e | e
      · cases k with
        | zero =>
          cases rest with
          | nil => simp at hl
          | cons b2 r2 =>
            rw [merge_at_zero] at hm
            simp only [List.cons.injEq] at hm
            exact Or.inr (Or.inr (by rw [e]; exact hm.1.symm))
        | succ k2 =>
          rw [merge_at_succ] at hm
          simp only [List.cons.injEq] at hm
          left
          rw [e, ← hm.1, adjacent_pairs_cons_cons]
          exact List.mem_cons_self _ _
      · rw [← hm] at e
        rcases ih q e with e | e
        · exact Or.inl (adjacent_pairs_mem_tail e)
        · exact Or.inr e

/-- Merging the leftmost occurrence of the pair first and rewriting the rest gives the
rewriting of the whole sequence. -/
theorem replace_pair_merge_at (a b c : Nat) (hca : c ≠ a) (hcb : c ≠ b) :
    ∀ (u : List Nat) (idx : Nat), idx + 1 < u.length →
      u.getD idx 0 = a → u.getD (idx + 1) 0 = b →
      (∀ j, j < idx → ¬ (u.getD j 0 = a ∧ u.getD (j + 1) 0 = b)) →
      replace_pair (a, b) c (merge_at u idx c) = replace_pair (a, b) c u
  | [], idx, h, _, _, _ => by simp at h
  | [_], idx, h, _, _, _ => by simp at h
  | x :: y :: rest, 0, _, h1, h2, _ => by
    simp only [List.getD_cons_zero, List.getD_cons_succ] at h1 h2
    rw [merge_at_zero]
    have hm : x = (a, b).1 ∧ y = (a, b).2 := ⟨h1, h2⟩
    simp only [replace_pair, if_pos hm]
    cases rest with
    | nil => simp [replace_pair]
    | cons z tl =>
      have hne : ¬ (c = (a, b).1 ∧ z = (a, b).2) := fun e => hca e.1
      simp only [replace_pair, if_neg hne]
  | x :: y :: rest, k + 1, h, h1, h2, hleft => by
    have hl : k + 1 < (y :: rest).length := by simp only [List.length_cons] at h ⊢; omega
    simp only [List.getD_cons_succ] at h1 h2
    have h0 := hleft 0 (Nat.succ_pos k)
    simp only [List.getD_cons_zero, List.getD_cons_succ, Nat.zero_add] at h0
    have hne : ¬ (x = (a, b).1 ∧ y = (a, b).2) := h0
    have ih := replace_pair_merge_at a b c hca hcb (y :: rest) k hl h1 h2
      (fun j hj => by
        have := hleft (j + 1) (by omega)
        simp only [List.getD_cons_succ] at this
        exact this)
    rw [merge_at_succ]
    simp only [replace_pair, if_neg hne]
    rw [← ih]
    cases hm : merge_at (y :: rest) k c with
    | nil =>
      have := merge_at_length (y :: rest) k c hl
      rw [hm] at this
      simp only [List.length_nil, List.length_cons] at this
      have : rest.length = 0 := by omega
      simp only [List.length_cons] at hl
      omega
    | cons y2 tl =>
      have hne2 : ¬ (x = (a, b).1 ∧ y2 = (a, b).2) := by
        cases k with
        | zero =>
          cases rest with
          | nil => simp at hl
          | cons b2 r2 =>
            rw [merge_at_zero] at hm
            simp only [List.cons.injEq] at hm
            intro e
            exact hcb (hm.1.trans e.2)
        | succ k2 =>
          rw [merge_at_succ] at hm
          simp only [List.cons.injEq] at hm
          rw [← hm.1]
          exact hne
      simp only [replace_pair, if_neg hne2]

end bpe

namespace bpe

/-! ## The encoder replays the merges of the trainer -/

theorem encode_word_loop_stable (get : Nat → Nat → Option (Option Nat))
    (table : Nat → Nat → Option Nat) (hget : ∀ a b, get a b = some (table a b))
    (ids : List Nat) (f1 f2 : Nat) (h1 : ids.length ≤ f1) (h2 : ids.length ≤ f2) :
    encode_word_loop get f1 ids = encode_word_loop get f2 ids := by
  obtain ⟨_, out, k, _⟩ := encode_word_rounds_spec get table hget (ids.length - 1) ids
    (by omega)
  rw [(k f1 (by omega)).2, (k f2 (by omega)).2]

theorem encode_word_loop_greedy (get : Nat → Nat → Option (Option Nat))
    (table : Nat → Nat → Option Nat) (hget : ∀ a b, get a b = some (table a b))
    (ids : List Nat) (idx id : Nat) (h : GreedyChoice table ids idx id) (fuel : Nat) :
    encode_word_loop get (fuel + 1) ids = encode_word_loop get fuel (merge_at ids idx id) := by
  rcases encode_word_loop_step get table hget ids with ⟨h1, _⟩ | ⟨id2, idx2, h1, h2⟩
  · exact absurd h.1 (h1 idx id)
  · have e1 := h.2 idx2 id2 h1.1
    have e2 := h1.2 idx id h.1
    have hid : id2 = id := by omega
    have hidx : idx2 = idx := by omega
    rw [hid, hidx] at h2
    exact h2 fuel

/-- While the pair `p` of the merge `p -> c` occurs in the sequence and no pair of an
earlier merge does, the encoder merges occurrences of `p`, leftmost first, until it reaches
the rewriting of the sequence by `p -> c`. -/
theorem encode_word_loop_phase (get : Nat → Nat → Option (Option Nat))
    (table : Nat → Nat → Option Nat) (hget : ∀ a b, get a b = some (table a b))
    (done : List (Pair × Nat)) (p : Pair) (c : Nat)
    (hp : table p.1 p.2 = some c)
    (ht : ∀ a b id, table a b = some id →
      ((a, b), id) ∈ done ∨ ((a, b) = p ∧ id = c) ∨ c < id)
    (hc1 : c ≠ p.1) (hc2 : c ≠ p.2)
    (hd : ∀ kv ∈ done, kv.1.1 < c ∧ kv.1.2 < c) :
    ∀ (n : Nat) (u : List Nat), u.length ≤ n →
      (∀ kv ∈ done, kv.1 ∉ adjacent_pairs u) →
      ∀ fuel fuel2, u.length ≤ fuel → (replace_pair p c u).length ≤ fuel2 →
        encode_word_loop get fuel u = encode_word_loop get fuel2 (replace_pair p c u) := by
  intro n
  induction n with
  | zero =>
    intro u hu _ fuel fuel2 _ _
    have : u = [] := List.length_eq_zero.1 (Nat.le_zero.1 hu)
    subst this
    cases fuel <;> cases fuel2 <;> rfl
  | succ n ih =>
    intro u hu hS fuel fuel2 hf hf2
    by_cases hocc : p ∈ adjacent_pairs u
    · obtain ⟨j, j1, j2, j3⟩ := index_of_adjacent_pairs u p hocc
      have hmj : Mergeable table u j c := ⟨j1, by rw [j2, j3]; exact hp⟩
      rcases min_id_loop_greedy get table hget u with ⟨_, h2⟩ | ⟨id, idx, _, hg⟩
      · exact absurd hmj (h2 j c)
      · have hle := hg.2 j c hmj
        have hq := hg.1.2
        have hqmem := adjacent_pairs_of_index u idx hg.1.1
        have hpc : (u.getD idx 0, u.getD (idx + 1) 0) = p ∧ id = c := by
          rcases ht _ _ _ hq with h | h | h
          · exact absurd hqmem (hS _ h)
          · exact h
          · omega
        obtain ⟨hpair, hid⟩ := hpc
        subst hid
        have ha : u.getD idx 0 = p.1 := by rw [← hpair]
        have hb : u.getD (idx + 1) 0 = p.2 := by rw [← hpair]
        have hleft : ∀ j2, j2 < idx → ¬ (u.getD j2 0 = p.1 ∧ u.getD (j2 + 1) 0 = p.2) := by
          intro j2 hj2 e
          have hm2 : Mergeable table u j2 id :=
            ⟨by have := hg.1.1; omega, by rw [e.1, e.2]; exact hp⟩
          have := hg.2 j2 id hm2
          omega
        have hK := replace_pair_merge_at p.1 p.2 id hc1 hc2 u idx hg.1.1 ha hb hleft
        have hml := merge_at_length u idx id hg.1.1
        have hS2 : ∀ kv ∈ done, kv.1 ∉ adjacent_pairs (merge_at u idx id) := by
          intro kv hkv hmem
          have hb2 := hd kv hkv
          rcases merge_at_pairs id u idx hg.1.1 kv.1 hmem with h | h | h
          · exact hS kv hkv h
          · omega
          · omega
        obtain ⟨g, rfl⟩ : ∃ g, fuel = g + 1 := ⟨fuel - 1, by have := hg.1.1; omega⟩
        rw [encode_word_loop_greedy get table hget u idx id hg g]
        have hrec := ih (merge_at u idx id) (by omega) hS2 g fuel2 (by omega)
          (by
            have e : (p.1, p.2) = p := rfl
            rw [e] at hK
            rw [hK]; exact hf2)
        rw [hrec]
        have e : (p.1, p.2) = p := rfl
        rw [e] at hK
        rw [hK]
    · rw [replace_pair_of_not_mem p c u hocc] at hf2 ⊢
      exact encode_word_loop_stable get table hget u fuel fuel2 hf hf2

theorem apply_merges_cons (kv : Pair × Nat) (rest : List (Pair × Nat)) (ids : List Nat) :
    apply_merges (kv :: rest) ids = apply_merges rest (replace_pair kv.1 kv.2 ids) := rfl

theorem apply_merges_append (tbl : List (Pair × Nat)) (kv : Pair × Nat) (ids : List Nat) :
    apply_merges (tbl ++ [kv]) ids = replace_pair kv.1 kv.2 (apply_merges tbl ids) := by
  unfold apply_merges
  rw [List.foldl_append]
  rfl

theorem replace_pair_length (pair : Pair) (c : Nat) :
    ∀ ids : List Nat, (replace_pair pair c ids).length ≤ ids.length
  | [] => Nat.le_refl _
  | [_] => Nat.le_refl _
  | a :: b :: rest => by
    simp only [replace_pair]
    split
    · have := replace_pair_length pair c rest
      simp only [List.length_cons]
      omega
    · have := replace_pair_length pair c (b :: rest)
      simp only [List.length_cons] at this ⊢
      omega

theorem apply_merges_length (tbl : List (Pair × Nat)) :
    ∀ ids : List Nat, (apply_merges tbl ids).length ≤ ids.length := by
  induction tbl with
  | nil => intro ids; exact Nat.le_refl _
  | cons kv rest ih =>
    intro ids
    rw [apply_merges_cons]
    exact Nat.le_trans (ih _) (replace_pair_length kv.1 kv.2 ids)

end bpe

namespace bpe

/-- For a merge table whose values increase and exceed the ids of their pairs, the encoder
started on a sequence that holds no pair of the merges `done` and only ids below the values
of the merges `todo` returns the sequence rewritten by the merges `todo`, one after the
other. -/
theorem encode_replays (get : Nat → Nat → Option (Option Nat))
    (table : Nat → Nat → Option Nat) (hget : ∀ a b, get a b = some (table a b)) :
    ∀ (todo done : List (Pair × Nat)),
      (∀ a b id, table a b = some id → ((a, b), id) ∈ done ∨ ((a, b), id) ∈ todo) →
      (∀ kv ∈ todo, table kv.1.1 kv.1.2 = some kv.2) →
      (todo.map Prod.snd).Pairwise (· < ·) →
      (∀ kv ∈ done ++ todo, kv.1.1 < kv.2 ∧ kv.1.2 < kv.2) →
      (∀ kv ∈ done, ∀ kv2 ∈ todo, kv.2 < kv2.2) →
      ∀ s : List Nat, (∀ kv ∈ done, kv.1 ∉ adjacent_pairs s) →
        (∀ x ∈ s, ∀ kv ∈ todo, x < kv.2) →
        ∀ fuel, s.length ≤ fuel → encode_word_loop get fuel s = some (apply_merges todo s) := by
  intro todo
  induction todo with
  | nil =>
    intro done H1 _ _ _ _ s S1 _ fuel _
    have hno : ∀ j id, ¬ Mergeable table s j id := by
      intro j id hm
      rcases H1 _ _ _ hm.2 with h | h
      · exact S1 _ h (adjacent_pairs_of_index s j hm.1)
      · cases h
    rcases encode_word_loop_step get table hget s with ⟨_, h2⟩ | ⟨id, idx, h1, _⟩
    · cases fuel with
      | zero => rfl
      | succ g => exact h2 g
    · exact absurd h1.1 (hno idx id)
  | cons kv rest ih =>
    intro done H1 H2 H3 H4 H5 s S1 S2 fuel hf
    rw [List.map_cons, List.pairwise_cons] at H3
    have hkv := H4 kv (by simp)
    have hrest : ∀ kv2 ∈ rest, kv.2 < kv2.2 :=
      fun kv2 h2 => H3.1 kv2.2 (List.mem_map_of_mem Prod.snd h2)
    have hphase := encode_word_loop_phase get table hget done kv.1 kv.2
      (H2 kv (by simp))
      (fun a b id h => by
        rcases H1 a b id h with h | h
        · exact Or.inl h
        · rcases List.mem_cons.1 h with h | h
          · right; left
            rw [← h]
            exact ⟨rfl, rfl⟩
          · right; right
            exact hrest _ h)
      (by omega) (by omega)
      (fun kv0 h0 => by
        have a1 := H4 kv0 (List.mem_append_left _ h0)
        have a2 := H5 kv0 h0 kv (by simp)
        omega)
      s.length s (Nat.le_refl _) S1 fuel (replace_pair kv.1 kv.2 s).length hf (Nat.le_refl _)
    rw [hphase, apply_merges_cons]
    refine ih (done ++ [kv]) ?_ ?_ H3.2 ?_ ?_ (replace_pair kv.1 kv.2 s) ?_ ?_ _ (Nat.le_refl _)
    · intro a b id h
      rcases H1 a b id h with h | h
      · exact Or.inl (List.mem_append_left _ h)
      · rcases List.mem_cons.1 h with h | h
        · exact Or.inl (List.mem_append_right _ (by rw [h]; simp))
        · exact Or.inr h
    · exact fun kv2 h2 => H2 kv2 (List.mem_cons_of_mem _ h2)
    · intro kv2 h2
      apply H4
      rw [List.append_assoc] at h2
      exact h2
    · intro kv0 h0 kv2 h2
      rcases List.mem_append.1 h0 with h0 | h0
      · exact H5 kv0 h0 kv2 (List.mem_cons_of_mem _ h2)
      · rw [List.mem_singleton] at h0
        rw [h0]
        exact hrest kv2 h2
    · intro kv0 h0 hmem
      rcases List.mem_append.1 h0 with h0 | h0
      · have a1 := H4 kv0 (List.mem_append_left _ h0)
        have a2 := H5 kv0 h0 kv (by simp)
        rcases replace_pair_pairs kv.1 kv.2 s kv0.1 hmem with h | h | h
        · exact S1 kv0 h0 h
        · omega
        · omega
      · rw [List.mem_singleton] at h0
        rw [h0] at hmem
        exact replace_pair_no_pair kv.1 kv.2 (by omega) (by omega) s hmem
    · intro x hx kv2 h2
      rcases replace_pair_mem kv.1 kv.2 s x hx with h | h
      · exact S2 x h kv2 (List.mem_cons_of_mem _ h2)
      · rw [h]
        exact hrest kv2 h2

/-- The loop of `train_bpe` keeps every entry equal to its bytes rewritten by the merges of
the merge table, in the order of the table. -/
theorem train_loop_replays (n : Nat) :
    ∀ st : TrainState, TrainInv st → st.queue.Located →
      (∀ e ∈ st.queue.vocab,
        e.ids = apply_merges st.merge_table (e.text.map (fun c => c % 256))) →
      ∀ e ∈ (train_loop n st).queue.vocab,
        e.ids = apply_merges (train_loop n st).merge_table (e.text.map (fun c => c % 256)) := by
  induction n with
  | zero => intro st _ _ h; exact h
  | succ n ih =>
    intro st h hL hS
    have hpl := st.queue.pop_located hL
    have hpv := st.queue.pop_vocab
    simp only [train_loop]
    split
    · rename_i q1 hpop
      rw [hpop] at hpv
      intro e he
      simp only at he hpv ⊢
      rw [hpv] at he
      exact hS e he
    · rename_i pair q1 hpop
      rw [hpop] at hpl hpv
      simp only at hpv
      obtain ⟨a1, a2, a3, a4⟩ := pop_result_inv st h pair q1 hpop
      have hb := a3.2 pair a4
      obtain ⟨_, hmt, hinv⟩ := train_step_inv st h pair q1 hpop
      refine ih _ hinv (q1.merge_located pair st.id_to_seq.length a1 a2 a3 hpl a4) ?_
      intro e he
      simp only at he ⊢
      rw [q1.merge_rewrites pair st.id_to_seq.length hpl (by omega) (by omega) a4 a1,
        List.mem_map] at he
      obtain ⟨e0, he0, rfl⟩ := he
      rw [hpv] at he0
      rw [hmt, apply_merges_append]
      show replace_pair pair st.id_to_seq.length e0.ids = _
      rw [hS e0 he0]
      rfl

theorem build_start_replays (t : TokenizerTrainer) (hv : t.vocab = [])
    (hm : t.merge_table = []) :
    ∀ e ∈ (build_start t).queue.vocab,
      e.ids = apply_merges (build_start t).merge_table (e.text.map (fun c => c % 256)) := by
  intro e he
  rw [build_start_vocab t hv, sort_vocab_mem, create_vocab_eq, List.mem_map] at he
  obtain ⟨item, _, rfl⟩ := he
  have hs : (build_start t).merge_table = [] := hm
  rw [hs]
  rfl

end bpe

namespace bpe

/-! ## The cache against `encode_word` where no byte is sign-extended -/

/-- After `build_bpe`, `encode_word` against the final merge table returns the ids of every
vocabulary entry whose bytes the conversion `static_cast<u32>(char)` leaves unchanged. -/
theorem encode_word_replays_training (t t' : TokenizerTrainer) (hv : t.vocab = [])
    (h : t.build_bpe = some t') (tk : Tokenizer)
    (hget : ∀ a b, tk.get_merge_id a b = some (t'.merge_table.lookup (a, b)))
    (pl : Platform) (e : VocabEntry) (he : e ∈ t'.vocab)
    (hchar : ∀ c ∈ e.text, char_to_u32 pl c = c % 256) :
    tk.encode_word pl e.text = some e.ids := by
  obtain ⟨hi, hm, _, _⟩ := build_bpe_eq t t' h
  have hrep := train_loop_replays (t.config.size - 256) (build_start t)
    (build_start_inv t hv hi hm) (build_start_located t) (build_start_replays t hv hm)
  obtain ⟨st, hinv, e1, _, e3, _, e5, _⟩ := build_bpe_inv t t' hv h
  rw [e5] at hrep
  rw [e3] at he
  have hids := hrep e he
  obtain ⟨_, _, _, _, _, hE, hK, hVal, _, _⟩ := hinv
  rw [e1] at hget
  have hmap : e.text.map (char_to_u32 pl) = e.text.map (fun c => c % 256) :=
    List.map_congr_left hchar
  unfold Tokenizer.encode_word
  rw [hmap, hids]
  refine encode_replays tk.get_merge_id (fun a b => st.merge_table.lookup (a, b)) hget
    st.merge_table [] ?_ ?_ ?_ ?_ ?_ _ ?_ ?_ _ (by rw [List.length_map])
  · intro a b id hl
    right
    simp only [lookup_eq_find_entry] at hl
    cases hf : find_entry st.merge_table (a, b) with
    | none => rw [hf] at hl; cases hl
    | some kv =>
      rw [hf] at hl
      simp only [Option.map_some', Option.some.injEq] at hl
      obtain ⟨m1, m2⟩ := find_entry_mem st.merge_table (a, b) kv hf
      have : kv = ((a, b), id) := Prod.ext m2 hl
      rw [← this]
      exact m1
  · intro kv hkv
    show st.merge_table.lookup (kv.1.1, kv.1.2) = some kv.2
    have e : (kv.1.1, kv.1.2) = kv.1 := rfl
    rw [e, lookup_eq_find_entry, find_entry_of_mem st.merge_table hK kv hkv]
    rfl
  · rw [hVal]
    exact List.pairwise_lt_range' _ _
  · intro kv hkv
    rw [List.nil_append] at hkv
    obtain ⟨a1, a2, _, _⟩ := hE kv hkv
    exact ⟨a1, a2⟩
  · intro kv hkv
    cases hkv
  · intro kv hkv
    cases hkv
  · intro x hx kv hkv
    obtain ⟨c, _, rfl⟩ := List.mem_map.1 hx
    have : kv.2 ∈ st.merge_table.map Prod.snd := List.mem_map_of_mem _ hkv
    rw [hVal, List.mem_range'_1] at this
    have := Nat.mod_lt c (by decide : 0 < 256)
    omega

theorem char_to_u32_unsigned (pl : Platform) (hp : pl.char_is_signed = false) (c : Nat) :
    char_to_u32 pl c = c % 256 := by
  unfold char_to_u32
  rw [if_neg (by rw [hp]; simp)]

theorem char_to_u32_ascii (pl : Platform) (c : Nat) (h : c < 128) :
    char_to_u32 pl c = c % 256 := by
  unfold char_to_u32
  rw [if_neg (by rw [Nat.mod_eq_of_lt (by omega : c < 256)]; omega)]

/-- The lookups of a tokenizer attached to the artifact saved after `build_bpe`. -/
theorem attached_lookups (pl : Platform) (t t' : TokenizerTrainer) (buf : Bytes)
    (hv : t.vocab = []) (hc : t.cache = []) (hb : t.build_bpe = some t')
    (hs : t'.save pl = some buf) (hfit : buf.length < 4294967296) :
    ∃ tk, Tokenizer.attach buf = some tk ∧
      (∀ a b, tk.get_merge_id a b = some (t'.merge_table.lookup (a, b))) ∧
      (∀ w, MappedMap.contains (cache_config pl) tk.memory tk.cache w =
          some (find_entry t'.cache w).isSome ∧
        ∀ kv, find_entry t'.cache w = some kv →
          MappedMap.get (cache_config pl) tk.memory tk.cache w = some kv.2) := by
  obtain ⟨st, hinv, e1, e2, e3, _, _, _⟩ := build_bpe_inv t t' hv hb
  obtain ⟨_, _, _, hB, _, hE, _, _, _, _⟩ := hinv
  have hN := save_length_ge pl t' buf hs
  rw [e2] at hN
  have hm : ∀ kv ∈ t'.merge_table,
      (kv.1.1 < 4294967296 ∧ kv.1.2 < 4294967296) ∧ kv.2 < 4294967296 := by
    intro kv hkv
    rw [e1] at hkv
    obtain ⟨a1, a2, a3, _⟩ := hE kv hkv
    omega
  have hcache : ∀ kv ∈ t'.cache, True ∧ ∀ x ∈ kv.2, x < 4294967296 := by
    intro kv hkv
    obtain ⟨e, hvocab, rfl⟩ := build_bpe_cache_mem t t' hc hb kv hkv
    refine ⟨trivial, ?_⟩
    intro x hx
    rw [e3] at hvocab
    have := hB.1 e hvocab x hx
    omega
  obtain ⟨tk, k1, k2, _, _, k5, k6⟩ := attach_save pl t' buf hs hfit hm hcache
  refine ⟨tk, k1, fun a b => ?_, fun w => ?_⟩
  · apply get_merge_id_eq
    rw [k2]
    exact k5 (a, b)
  · rw [k2]
    exact k6 w

/-- Where no byte of the word is sign-extended the cache is transparent: for a tokenizer
attached to the artifact saved after `build_bpe` (smaller than 4 GiB, from a trainer with
distinct words), `encode_word` of the text of every vocabulary entry returns the ids of the
entry, and so does the body of the loop of `encode`, whether the word is in the cache or
not. -/
theorem encode_one_transparent (pl : Platform) (t t' : TokenizerTrainer) (buf : Bytes)
    (hv : t.vocab = []) (hc : t.cache = []) (hn : (t.word_vocab.map Prod.fst).Nodup)
    (hb : t.build_bpe = some t') (hs : t'.save pl = some buf)
    (hfit : buf.length < 4294967296) :
    ∃ tk, Tokenizer.attach buf = some tk ∧
      ∀ e ∈ t'.vocab, (∀ c ∈ e.text, char_to_u32 pl c = c % 256) →
        tk.encode_word pl e.text = some e.ids ∧ tk.encode_one pl e.text = some e.ids := by
  obtain ⟨tk, k1, k2, k3⟩ := attached_lookups pl t t' buf hv hc hb hs hfit
  refine ⟨tk, k1, fun e he hchar => ?_⟩
  have hw := encode_word_replays_training t t' hv hb tk k2 pl e he hchar
  refine ⟨hw, ?_⟩
  have htexts : (t'.vocab.map (fun e => e.text)).Nodup := by
    have h1 := congrArg (List.map Prod.fst) (build_bpe_vocab t t' hv hb).1
    rw [List.map_map, List.map_map] at h1
    have h2 : (Prod.fst ∘ fun e : VocabEntry => (e.text, e.count)) = fun e => e.text := rfl
    rw [h2] at h1
    rw [h1]
    refine ((List.perm_insertionSort _ _).map _).nodup_iff.2 ?_
    rw [create_vocab_texts]
    exact hn.sublist ((List.filter_sublist _).map Prod.fst)
  obtain ⟨c1, c2⟩ := k3 e.text
  unfold Tokenizer.encode_one
  rw [c1]
  cases hf : find_entry t'.cache e.text with
  | none => exact hw
  | some kv =>
    simp only [Option.isSome_some]
    rw [c2 kv hf]
    obtain ⟨m1, m2⟩ := find_entry_mem t'.cache e.text kv hf
    obtain ⟨e2, he2, hkv⟩ := build_bpe_cache_mem t t' hc hb kv m1
    have ht : e2.text = e.text := by
      rw [← m2, hkv]
    have : e2 = e := List.inj_on_of_nodup_map htexts he2 he ht
    rw [hkv, this]

/-- The words of the test `BpeTest.tokenize` hold no byte above 0x7F: `encode_word` and the
body of the loop of `encode` return the ids of every vocabulary entry. -/
theorem encode_one_transparent_witness :
    ∃ tk, Tokenizer.attach hello_artifact = some tk ∧
      ∀ e ∈ hello_trained.vocab, (∀ c ∈ e.text, char_to_u32 hello_platform c = c % 256) →
        tk.encode_word hello_platform e.text = some e.ids ∧
          tk.encode_one hello_platform e.text = some e.ids :=
  encode_one_transparent hello_platform hello_trainer hello_trained hello_artifact rfl rfl
    (by decide) hello_trained_eq hello_artifact_eq (by decide!)

end bpe

namespace bpe

/-! ## When `Queue::pop` returns a pair -/

theorem heap_top_some (key : Nat → Nat) :
    ∀ l : List Nat, l ≠ [] → ∃ i, heap_top key l = some i
  | [], h => absurd rfl h
  | i :: rest, _ => by
    simp only [heap_top]
    cases heap_top key rest with
    | none => exact ⟨i, rfl⟩
    | some j =>
      by_cases h : key i < key j
      · exact ⟨j, by simp [h]⟩
      · exact ⟨i, by simp [h]⟩

/-- With a candidate of nonzero `real_count` in the heap, `pop_non_zero` returns an index: it
drops only candidates whose `real_count` is zero. -/
theorem Queue.pop_non_zero_some (fuel : Nat) :
    ∀ q : Queue, q.queue.length ≤ fuel →
      (∃ i ∈ q.queue, (q.candidate i).real_count ≠ 0) →
      ∃ idx q1, q.pop_non_zero fuel = (some idx, q1) ∧ (q.candidate idx).real_count ≠ 0 ∧
        q1.vocab = q.vocab ∧ q1.candidates = q.candidates ∧
        q1.candidates_index = q.candidates_index ∧
        (idx :: q1.queue).Subperm q.queue ∧
        (∀ i ∈ q.queue, i ≠ idx → (q.candidate i).real_count ≠ 0 → i ∈ q1.queue) := by
  induction fuel with
  | zero =>
    intro q hlen ⟨i, hi, _⟩
    have : q.queue = [] := List.length_eq_zero.1 (Nat.le_zero.1 hlen)
    rw [this] at hi; cases hi
  | succ n ih =>
    intro q hlen ⟨i, hi, hr⟩
    obtain ⟨index, htop⟩ := heap_top_some (fun i => (q.candidate i).queue_count) q.queue
      (List.ne_nil_of_mem hi)
    have hmem := heap_top_mem _ _ _ htop
    simp only [Queue.pop_non_zero, htop]
    by_cases hz : (q.candidate index).real_count ≠ 0
    · rw [if_pos hz]
      refine ⟨index, _, rfl, hz, rfl, rfl, rfl, (List.perm_cons_erase hmem).symm.subperm, ?_⟩
      intro k hk hne _
      exact (List.mem_erase_of_ne hne).2 hk
    · rw [if_neg hz]
      have hz0 : (q.candidate index).real_count = 0 := not_not.1 hz
      have hlen2 : (q.queue.erase index).length ≤ n := by
        rw [List.length_erase_of_mem hmem]; omega
      obtain ⟨idx, q1, e, h1, h2, h3, h4, h5, h6⟩ :=
        ih { q with queue := q.queue.erase index } hlen2
          ⟨i, (List.mem_erase_of_ne (by rintro rfl; exact hr hz0)).2 hi, hr⟩
      refine ⟨idx, q1, e, h1, h2, h3, h4, h5.trans (List.erase_sublist _ _).subperm, ?_⟩
      intro k hk hne hkr
      exact h6 k ((List.mem_erase_of_ne (by rintro rfl; exact hkr hz0)).2 hk) hne hkr

theorem Queue.requeue_candidate (q : Queue) (idx i : Nat) :
    ((q.requeue idx).candidate i).real_count = (q.candidate i).real_count ∧
      ((q.requeue idx).candidate i).pair = (q.candidate i).pair ∧
      (i ≠ idx → (q.requeue idx).candidate i = q.candidate i) ∧
      (i = idx → ((q.requeue idx).candidate i).queue_count =
        ((q.requeue idx).candidate i).real_count) := by
  unfold Queue.candidate Queue.requeue
  simp only [List.getD_eq_getElem?_getD, List.getElem?_modify]
  cases q.candidates[i]? with
  | none => simp [MergeCandidate.absent]
  | some c =>
    by_cases h : idx = i
    · simp [h]
    · simp only [Option.map_eq_map, Option.map_some', if_neg h, Option.getD_some, true_and]
      exact ⟨fun _ => trivial, fun e => absurd e.symm h⟩

/-- With a candidate of nonzero `real_count` in the heap, the loop of `pop` returns a pair
within as many rounds as the heap has stale candidates, plus one. It changes no `real_count`
and keeps in the heap every candidate of nonzero `real_count` other than the one returned. -/
theorem Queue.pop_loop_some (fuel : Nat) :
    ∀ q : Queue,
      (q.queue.filter (fun i =>
        decide ((q.candidate i).real_count ≠ (q.candidate i).queue_count))).length < fuel →
      (∃ i ∈ q.queue, (q.candidate i).real_count ≠ 0) →
      ∃ p q1, q.pop_loop fuel = (some p, q1) ∧
        (∀ i, (q1.candidate i).real_count = (q.candidate i).real_count ∧
          (q1.candidate i).pair = (q.candidate i).pair) ∧
        (∀ i ∈ q.queue, (q.candidate i).real_count ≠ 0 → (q.candidate i).pair ≠ p →
          i ∈ q1.queue) := by
  induction fuel with
  | zero => intro q h _; exact absurd h (Nat.not_lt_zero _)
  | succ n ih =>
    intro q hd hex
    obtain ⟨idx, q1, e, h1, h2, h3, h4, h5, h6⟩ :=
      Queue.pop_non_zero_some q.queue.length q (Nat.le_refl _) hex
    have hc : ∀ i, q1.candidate i = q.candidate i := fun i => by
      unfold Queue.candidate; rw [h3]
    simp only [Queue.pop_loop, e]
    by_cases hclean : (q1.candidate idx).real_count = (q1.candidate idx).queue_count
    · rw [if_pos hclean]
      refine ⟨_, _, rfl, fun i => by rw [hc i]; exact ⟨rfl, rfl⟩, ?_⟩
      intro i hi hr hp
      refine h6 i hi ?_ hr
      rintro rfl
      exact hp (by rw [hc])
    · rw [if_neg hclean]
      have hq2 : (q1.requeue idx).queue = q1.queue ++ [idx] := rfl
      have hdirty : ((q1.requeue idx).queue.filter (fun i =>
          decide (((q1.requeue idx).candidate i).real_count ≠
            ((q1.requeue idx).candidate i).queue_count))).length < n := by
        have s1 : ((idx :: q1.queue).filter (fun i =>
            decide ((q.candidate i).real_count ≠ (q.candidate i).queue_count))).length ≤
            (q.queue.filter (fun i =>
              decide ((q.candidate i).real_count ≠ (q.candidate i).queue_count))).length :=
          (h5.filter _).length_le
        have s2 : decide ((q.candidate idx).real_count ≠ (q.candidate idx).queue_count) =
            true := by
          rw [← hc idx]; exact decide_eq_true hclean
        rw [List.filter_cons] at s1
        simp only [s2, if_true, List.length_cons] at s1
        have s3 : ((q1.queue ++ [idx]).filter (fun i =>
            decide (((q1.requeue idx).candidate i).real_count ≠
              ((q1.requeue idx).candidate i).queue_count))).length ≤
            (q1.queue.filter (fun i =>
              decide ((q.candidate i).real_count ≠ (q.candidate i).queue_count))).length := by
          rw [List.filter_append]
          have t1 : [idx].filter (fun i =>
              decide (((q1.requeue idx).candidate i).real_count ≠
                ((q1.requeue idx).candidate i).queue_count)) = [] := by
            have := ((q1.requeue_candidate idx idx).2.2.2 rfl).symm
            simp [this]
          rw [t1, List.append_nil]
          refine (List.monotone_filter_right q1.queue ?_).length_le
          intro i hi
          by_cases hii : i = idx
          · subst hii
            have := ((q1.requeue_candidate i i).2.2.2 rfl).symm
            simp [this] at hi
          · rw [(q1.requeue_candidate idx i).2.2.1 hii, hc i] at hi
            exact hi
        rw [hq2]
        omega
      have hex2 : ∃ i ∈ (q1.requeue idx).queue,
          ((q1.requeue idx).candidate i).real_count ≠ 0 :=
        ⟨idx, by rw [hq2]; simp, by rw [(q1.requeue_candidate idx idx).1, hc]; exact h1⟩
      obtain ⟨p, qf, ef, f1, f2⟩ := ih (q1.requeue idx) hdirty hex2
      have hrc : ∀ i, ((q1.requeue idx).candidate i).real_count = (q.candidate i).real_count ∧
          ((q1.requeue idx).candidate i).pair = (q.candidate i).pair := fun i => by
        rw [(q1.requeue_candidate idx i).1, (q1.requeue_candidate idx i).2.1, hc]
        exact ⟨rfl, rfl⟩
      refine ⟨p, qf, ef, fun i => ⟨(f1 i).1.trans (hrc i).1, (f1 i).2.trans (hrc i).2⟩, ?_⟩
      intro i hi hr hp
      refine f2 i ?_ (by rw [(hrc i).1]; exact hr) (by rw [(hrc i).2]; exact hp)
      rw [hq2, List.mem_append]
      by_cases hii : i = idx
      · right; rw [hii]; simp
      · left; exact h6 i hi hii hr

/-- With a candidate of nonzero `real_count` in the heap, `Queue::pop` returns a pair. -/
theorem Queue.pop_some (q : Queue) (hex : ∃ i ∈ q.queue, (q.candidate i).real_count ≠ 0) :
    ∃ p q1, q.pop = (some p, q1) ∧
      (∀ i, (q1.candidate i).real_count = (q.candidate i).real_count ∧
        (q1.candidate i).pair = (q.candidate i).pair) ∧
      (∀ i ∈ q.queue, (q.candidate i).real_count ≠ 0 → (q.candidate i).pair ≠ p →
        i ∈ q1.queue) :=
  Queue.pop_loop_some (q.queue.length + 1) q
    (Nat.lt_succ_of_le (List.length_filter_le _ _)) hex

end bpe

namespace bpe

/-! ## Candidate records that an update leaves alone -/

theorem Queue.pairs_getElem? (q : Queue) (j : Nat) (c : MergeCandidate)
    (hj : q.candidates[j]? = some c) : q.pairs[j]? = some c.pair := by
  simp only [Queue.pairs, List.getElem?_map, hj, Option.map_some']

/-- The call `update_candidate(pair, ...)` leaves the record of every other pair as it is. -/
theorem Queue.update_candidate_frame (q : Queue) (pair : Pair) (d : Int) (w : Nat)
    (h : IndexOK q.candidates_index q.pairs) (j : Nat) (c : MergeCandidate)
    (hj : q.candidates[j]? = some c) (hne : c.pair ≠ pair) :
    (q.update_candidate pair d w).candidates[j]? = some c := by
  cases hl : q.candidates_index.lookup pair with
  | none =>
    have hq2 : (q.update_candidate pair d w).candidates =
        q.candidates ++ [⟨pair, to_u64 d, to_u64 d, [w]⟩] := by
      unfold Queue.update_candidate; rw [hl]
    rw [hq2, List.getElem?_append_left (List.getElem?_eq_some.1 hj).1]
    exact hj
  | some index =>
    have hq2 : (q.update_candidate pair d w).candidates =
        q.candidates.modify
          (fun c => { c with
            queue_count := wrap_add_u64 c.queue_count d
            real_count := wrap_add_u64 c.real_count d
            where_ := set_insert c.where_ w }) index := by
      unfold Queue.update_candidate; rw [hl]
    have hidx : index ≠ j := by
      rintro rfl
      have h1 := (h pair index).1 hl
      rw [q.pairs_getElem? index c hj] at h1
      exact hne (Option.some.inj h1)
    rw [hq2, List.getElem?_modify, hj]
    simp [hidx]

/-- The call `update_candidate_real_count(pair, ...)` on a pair that has a record leaves the
record of every other pair as it is. -/
theorem Queue.update_candidate_real_count_frame (q : Queue) (pair : Pair) (d : Int)
    (h : IndexOK q.candidates_index q.pairs) (hp : pair ∈ q.pairs) (j : Nat)
    (c : MergeCandidate) (hj : q.candidates[j]? = some c) (hne : c.pair ≠ pair) :
    (q.update_candidate_real_count pair d).candidates[j]? = some c := by
  obtain ⟨index, hl⟩ := (h.mem_iff pair).1 hp
  have hq2 : (q.update_candidate_real_count pair d).candidates =
      q.candidates.modify
        (fun c => { c with real_count := wrap_add_u64 c.real_count d }) index := by
    unfold Queue.update_candidate_real_count index_or_insert; rw [hl]
  have hidx : index ≠ j := by
    rintro rfl
    have h1 := (h pair index).1 hl
    rw [q.pairs_getElem? index c hj] at h1
    exact hne (Option.some.inj h1)
  rw [hq2, List.getElem?_modify, hj]
  simp [hidx]

theorem update_candidate_fold_frame (d : Int) (w : Nat) (j : Nat) (c : MergeCandidate)
    (ps : List Pair) :
    ∀ q : Queue, IndexOK q.candidates_index q.pairs → q.candidates[j]? = some c →
      (∀ p ∈ ps, c.pair ≠ p) →
      (ps.foldl (fun q pair => q.update_candidate pair d w) q).candidates[j]? = some c := by
  induction ps with
  | nil => intro q _ hj _; exact hj
  | cons p rest ih =>
    intro q hI hj hne
    rw [List.foldl_cons]
    exact ih _ (q.update_candidate_ext p d w hI).1.2.2.2
      (q.update_candidate_frame p d w hI j c hj (hne p (by simp)))
      (fun p' hp' => hne p' (List.mem_cons_of_mem _ hp'))

theorem Queue.init_entries_frame (j : Nat) (c : MergeCandidate) (items : List VocabEntry) :
    ∀ (q : Queue) (vi : Nat), IndexOK q.candidates_index q.pairs →
      q.candidates[j]? = some c → (∀ e ∈ items, c.pair ∉ adjacent_pairs e.ids) →
      (Queue.init_entries q vi items).candidates[j]? = some c := by
  induction items with
  | nil => intro q vi _ hj _; exact hj
  | cons item rest ih =>
    intro q vi hI hj hne
    simp only [Queue.init_entries]
    refine ih _ _
      (update_candidate_fold (item.count : Int) vi (adjacent_pairs item.ids) q hI).1.2.2.2
      (update_candidate_fold_frame _ _ j c _ q hI hj ?_)
      (fun e he => hne e (List.mem_cons_of_mem _ he))
    intro p hp e
    exact hne item (by simp) (e ▸ hp)

theorem Queue.init_entries_append (l1 : List VocabEntry) :
    ∀ (q : Queue) (vi : Nat) (l2 : List VocabEntry),
      Queue.init_entries q vi (l1 ++ l2) =
        Queue.init_entries (Queue.init_entries q vi l1) (vi + l1.length) l2 := by
  induction l1 with
  | nil => intro q vi l2; rfl
  | cons item rest ih =>
    intro q vi l2
    rw [List.cons_append]
    simp only [Queue.init_entries, List.length_cons]
    rw [ih]
    have : vi + 1 + rest.length = vi + (rest.length + 1) := by omega
    rw [this]

/-- A pair that is adjacent in one entry only, a word of two ids, has after the constructor a
record in the heap whose `real_count` is the count of that word. -/
theorem Queue.new_live (vocab : List VocabEntry) (size : Nat) (w : VocabEntry) (a b : Nat)
    (hn : vocab.Nodup) (hw : w ∈ vocab) (hids : w.ids = [a, b])
    (honly : ∀ e ∈ vocab, (a, b) ∈ adjacent_pairs e.ids → e = w) :
    ∃ j c, (Queue.new vocab size).candidates[j]? = some c ∧ c.pair = (a, b) ∧
      c.real_count = to_u64 (w.count : Int) ∧ j ∈ (Queue.new vocab size).queue := by
  have hs : w ∈ sort_vocab vocab := (sort_vocab_mem vocab w).2 hw
  obtain ⟨pre, post, hsplit⟩ := List.append_of_mem hs
  have hnod : (sort_vocab vocab).Nodup :=
    (List.perm_insertionSort _ vocab).nodup_iff.2 hn
  rw [hsplit] at hnod
  have hpre : w ∉ pre := fun h => by
    have := (List.nodup_append.1 hnod).2.2
    exact this h (by simp) 
  have hpost : w ∉ post := fun h => by
    have := (List.nodup_cons.1 (List.nodup_append.1 hnod).2.1).1
    exact this h
  have hin : ∀ e, e ∈ pre ∨ e ∈ post → e ∈ vocab := fun e he => by
    refine (sort_vocab_mem vocab e).1 ?_
    rw [hsplit]
    rcases he with he | he
    · exact List.mem_append_left _ he
    · exact List.mem_append_right _ (List.mem_cons_of_mem _ he)
  have h0 : IndexOK (⟨sort_vocab vocab, [], [], []⟩ : Queue).candidates_index
      (⟨sort_vocab vocab, [], [], []⟩ : Queue).pairs := by
    intro p i; simp [Queue.pairs]
  obtain ⟨e1, _, n1⟩ := Queue.init_entries_spec pre ⟨sort_vocab vocab, [], [], []⟩ 0 h0
  have hq : Queue.new vocab size =
      { Queue.init_entries ⟨sort_vocab vocab, [], [], []⟩ 0 (pre ++ w :: post) with
        queue := List.range
          (Queue.init_entries ⟨sort_vocab vocab, [], [], []⟩ 0
            (pre ++ w :: post)).candidates.length } := by
    unfold Queue.new
    simp only
    rw [← hsplit]
  rw [hq, Queue.init_entries_append]
  simp only [Queue.init_entries, Queue.init_entry, hids, adjacent_pairs, List.foldl_cons,
    List.foldl_nil]
  generalize Queue.init_entries ⟨sort_vocab vocab, [], [], []⟩ 0 pre = qa at e1 n1
  have hI := e1.2.2.2
  have hnot : (a, b) ∉ qa.pairs := by
    intro hmem
    rcases n1 _ hmem with h | ⟨e, he, h⟩
    · simp [Queue.pairs] at h
    · exact hpre (honly e (hin e (Or.inl he)) h ▸ he)
  have hl : qa.candidates_index.lookup (a, b) = none := by
    cases hlk : qa.candidates_index.lookup (a, b) with
    | none => rfl
    | some i => exact absurd ((hI.mem_iff _).2 ⟨i, hlk⟩) hnot
  have hq2 : (qa.update_candidate (a, b) (w.count : Int) (0 + pre.length)).candidates =
      qa.candidates ++ [⟨(a, b), to_u64 w.count, to_u64 w.count, [0 + pre.length]⟩] := by
    unfold Queue.update_candidate; rw [hl]
  have hj : (qa.update_candidate (a, b) (w.count : Int) (0 + pre.length)).candidates[
      qa.candidates.length]? =
      some ⟨(a, b), to_u64 w.count, to_u64 w.count, [0 + pre.length]⟩ := by
    rw [hq2, List.getElem?_append_right (Nat.le_refl _)]
    simp
  have hfin := Queue.init_entries_frame qa.candidates.length _ post
    (qa.update_candidate (a, b) (w.count : Int) (0 + pre.length)) (0 + pre.length + 1)
    (qa.update_candidate_ext (a, b) _ _ hI).1.2.2.2 hj
    (fun e he h => hpost (honly e (hin e (Or.inr he)) h ▸ he))
  refine ⟨qa.candidates.length, _, hfin, rfl, rfl, ?_⟩
  exact List.mem_range.2 (List.getElem?_eq_some.1 hfin).1

end bpe

namespace bpe

/-! ## Candidate records that `Queue::merge` leaves alone -/

theorem merge_left_frame (pair : Pair) (new_id : Nat) (count : Int) (vi : Nat)
    (prev : Option Nat) (new_ids : List Nat) (st : MergeState)
    (h : IndexOK st.1.candidates_index st.1.pairs)
    (hl : ∀ left, prev = some left → (left, pair.1) ∈ st.1.pairs)
    (j : Nat) (c : MergeCandidate) (hj : st.1.candidates[j]? = some c)
    (hne : ∀ left, prev = some left → c.pair ≠ (left, pair.1)) (hn2 : c.pair.2 ≠ new_id) :
    (merge_left pair new_id count vi prev new_ids st).1.candidates[j]? = some c := by
  cases prev with
  | none => exact hj
  | some left =>
    obtain ⟨e1, _⟩ := st.1.update_candidate_real_count_ext (left, pair.1) (-count) h
      (hl left rfl)
    have f1 := st.1.update_candidate_real_count_frame (left, pair.1) (-count) h (hl left rfl)
      j c hj (hne left rfl)
    exact (st.1.update_candidate_real_count (left, pair.1) (-count)).update_candidate_frame
      (new_ids.getLastD 0, new_id) count vi e1.2.2.2 j c f1
      (fun e => hn2 (congrArg Prod.snd e))

theorem merge_right_frame (pair : Pair) (new_id : Nat) (count : Int) (vi : Nat)
    (rest : List Nat) (st : MergeState)
    (h : IndexOK st.1.candidates_index st.1.pairs)
    (hl : ∀ right tl, rest = right :: tl → (pair.2, right) ∈ st.1.pairs)
    (j : Nat) (c : MergeCandidate) (hj : st.1.candidates[j]? = some c)
    (hne : ∀ right tl, rest = right :: tl → c.pair ≠ (pair.2, right))
    (hn1 : c.pair.1 ≠ new_id) :
    (merge_right pair new_id count vi rest st).1.candidates[j]? = some c := by
  cases rest with
  | nil => exact hj
  | cons right tl =>
    obtain ⟨e1, _⟩ := st.1.update_candidate_real_count_ext (pair.2, right) (-count) h
      (hl right tl rfl)
    have f1 := st.1.update_candidate_real_count_frame (pair.2, right) (-count) h
      (hl right tl rfl) j c hj (hne right tl rfl)
    exact (st.1.update_candidate_real_count (pair.2, right) (-count)).update_candidate_frame
      (new_id, right) count vi e1.2.2.2 j c f1 (fun e => hn1 (congrArg Prod.fst e))

/-- The scan of an entry leaves alone the record of a pair that is not adjacent in the entry
and does not contain the new id. -/
theorem merge_scan_frame (pair : Pair) (new_id : Nat) (count : Int) (vi : Nat) (j : Nat)
    (c : MergeCandidate) (hn1 : c.pair.1 ≠ new_id) (hn2 : c.pair.2 ≠ new_id) (n : Nat) :
    ∀ (prev : Option Nat) (rest new_ids : List Nat) (st : MergeState),
      rest.length ≤ n →
      IndexOK st.1.candidates_index st.1.pairs →
      (∀ p ∈ adjacent_pairs rest, p ∈ st.1.pairs) →
      (∀ l a tl, prev = some l → rest = a :: tl → (l, a) ∈ st.1.pairs) →
      (∀ p ∈ adjacent_pairs rest, c.pair ≠ p) →
      (∀ l a tl, prev = some l → rest = a :: tl → c.pair ≠ (l, a)) →
      (prev = none ↔ new_ids = []) →
      (∀ p ∈ st.2, p ∈ st.1.pairs) →
      st.1.candidates[j]? = some c →
      (merge_scan pair new_id count vi prev rest new_ids st).2.1.candidates[j]? = some c := by
  induction n with
  | zero =>
    intro prev rest new_ids st hn _ _ _ _ _ _ _ hj
    have : rest = [] := List.length_eq_zero.1 (Nat.le_zero.1 hn)
    subst this
    simp only [merge_scan]
    exact hj
  | succ n ih =>
    intro prev rest new_ids st hn hI hA hB hS hP hE hN hj
    match rest, hn, hA, hB, hS, hP with
    | [], _, _, _, _, _ =>
      simp only [merge_scan]
      exact hj
    | [a], _, _, _, _, _ =>
      simp only [merge_scan]
      exact hj
    | a :: b :: tail, hn, hA, hB, hS, hP =>
      simp only [merge_scan]
      split
      · rename_i hab
        have hl1 : ∀ left, prev = some left → (left, pair.1) ∈ st.1.pairs := fun left hl => by
          have := hB left a (b :: tail) hl rfl
          rw [hab.1] at this; exact this
        obtain ⟨e1, _, n1⟩ := merge_left_spec pair new_id count vi prev new_ids st hI hl1
          hE hN
        have f1 := merge_left_frame pair new_id count vi prev new_ids st hI hl1 j c hj
          (fun left hl => by
            have := hP left a (b :: tail) hl rfl
            rw [hab.1] at this; exact this) hn2
        have hl2 : ∀ right tl, tail = right :: tl →
            (pair.2, right) ∈ (merge_left pair new_id count vi prev new_ids st).1.pairs :=
          fun right tl ht => by
            subst ht
            have : (b, right) ∈ adjacent_pairs (a :: b :: right :: tl) := by
              simp [adjacent_pairs]
            have := e1.mem (hA _ this)
            rw [hab.2] at this; exact this
        obtain ⟨e2, _, n2⟩ := merge_right_spec pair new_id count vi tail
          (merge_left pair new_id count vi prev new_ids st) e1.2.2.2 hl2 n1
        have f2 := merge_right_frame pair new_id count vi tail
          (merge_left pair new_id count vi prev new_ids st) e1.2.2.2 hl2 j c f1
          (fun right tl ht => by
            subst ht
            have := hS (b, right) (by simp [adjacent_pairs])
            rw [hab.2] at this; exact this) hn1
        have e12 := e1.trans e2
        exact ih (some b) tail (new_ids ++ [new_id]) _
          (by simp only [List.length_cons] at hn; omega) e2.2.2.2
          (fun p hp => e12.mem (hA p (adjacent_pairs_mem_tail (adjacent_pairs_mem_tail hp))))
          (fun l a' tl hl ht => by
            simp only [Option.some.injEq] at hl
            subst hl; subst ht
            exact e12.mem (hA _ (by simp [adjacent_pairs])))
          (fun p hp => hS p (adjacent_pairs_mem_tail (adjacent_pairs_mem_tail hp)))
          (fun l a' tl hl ht => by
            simp only [Option.some.injEq] at hl
            subst hl; subst ht
            exact hS _ (by simp [adjacent_pairs]))
          (by simp) n2 f2
      · exact ih (some a) (b :: tail) (new_ids ++ [a]) st
          (by simp only [List.length_cons] at hn ⊢; omega) hI
          (fun p hp => hA p (adjacent_pairs_mem_tail hp))
          (fun l a' tl hl ht => by
            simp only [Option.some.injEq] at hl
            simp only [List.cons.injEq] at ht
            subst hl; rw [← ht.1]
            exact hA _ (by simp [adjacent_pairs]))
          (fun p hp => hS p (adjacent_pairs_mem_tail hp))
          (fun l a' tl hl ht => by
            simp only [Option.some.injEq] at hl
            simp only [List.cons.injEq] at ht
            subst hl; rw [← ht.1]
            exact hS _ (by simp [adjacent_pairs]))
          (by simp) hN hj

/-- The scan of an entry in which the merged pair is not adjacent changes nothing. -/
theorem merge_scan_no_match (pair : Pair) (new_id : Nat) (count : Int) (vi : Nat) :
    ∀ (rest : List Nat) (prev : Option Nat) (new_ids : List Nat) (st : MergeState),
      pair ∉ adjacent_pairs rest →
      merge_scan pair new_id count vi prev rest new_ids st = (new_ids ++ rest, st)
  | [], _, _, _, _ => by simp [merge_scan]
  | [a], _, _, _, _ => by simp [merge_scan]
  | a :: b :: tail, prev, new_ids, st, h => by
    rw [adjacent_pairs_cons_cons, List.mem_cons, not_or] at h
    have hne : ¬ (a = pair.1 ∧ b = pair.2) := fun e => h.1 (Prod.ext e.1.symm e.2.symm)
    simp only [merge_scan, if_neg hne]
    rw [merge_scan_no_match pair new_id count vi (b :: tail) (some a) (new_ids ++ [a]) st h.2]
    simp

theorem merge_entry_frame (pair : Pair) (new_id : Nat) (st : MergeState) (vi : Nat)
    (hI : IndexOK st.1.candidates_index st.1.pairs) (hT : st.1.Tracks)
    (hN : ∀ p ∈ st.2, p ∈ st.1.pairs) (j : Nat) (c : MergeCandidate)
    (hn1 : c.pair.1 ≠ new_id) (hn2 : c.pair.2 ≠ new_id)
    (hj : st.1.candidates[j]? = some c)
    (hV : ∀ e ∈ st.1.vocab, pair ∈ adjacent_pairs e.ids → c.pair ∉ adjacent_pairs e.ids) :
    (merge_entry pair new_id st vi).1.candidates[j]? = some c := by
  unfold merge_entry
  simp only
  by_cases hm : pair ∈ adjacent_pairs (st.1.vocab.getD vi VocabEntry.absent).ids
  · have hmem : st.1.vocab.getD vi VocabEntry.absent ∈ st.1.vocab := by
      rcases getD_mem_or st.1.vocab vi VocabEntry.absent with ⟨_, h⟩ | ⟨_, h⟩
      · exact h
      · rw [h] at hm; simp [VocabEntry.absent, adjacent_pairs] at hm
    have hfree := hV _ hmem hm
    exact merge_scan_frame pair new_id _ vi j c hn1 hn2 _ none
      (st.1.vocab.getD vi VocabEntry.absent).ids [] st (Nat.le_refl _) hI
      (hT _ hmem) (fun l a tl h _ => by cases h)
      (fun p hp e => hfree (e ▸ hp)) (fun l a tl h _ => by cases h) (by simp) hN hj
  · rw [merge_scan_no_match pair new_id _ vi _ none [] st hm]
    exact hj

theorem merge_fold_frame (pair : Pair) (new_id : Nat) (h1 : new_id ≠ pair.1)
    (h2 : new_id ≠ pair.2) (q0 : Queue) (j : Nat) (c : MergeCandidate)
    (hn1 : c.pair.1 ≠ new_id) (hn2 : c.pair.2 ≠ new_id) (ws : List Nat) :
    ∀ st : MergeState, MergeInv new_id q0 st → st.1.candidates[j]? = some c →
      (∀ e ∈ st.1.vocab, pair ∈ adjacent_pairs e.ids → c.pair ∉ adjacent_pairs e.ids) →
      (ws.foldl (merge_entry pair new_id) st).1.candidates[j]? = some c := by
  induction ws with
  | nil => intro st _ hj _; exact hj
  | cons w rest ih =>
    intro st h hj hV
    obtain ⟨hI, hT, hN, hB, hS, hD, hP, hQ⟩ := h
    obtain ⟨a1, a2, a3, a4, a5, a6, a7, a8⟩ :=
      merge_entry_spec pair new_id st w hI hT hN hB hS hD
    refine ih _ ⟨a1, a2, a3, a4, a5, a6, hP.trans a7, a8.trans hQ⟩
      (merge_entry_frame pair new_id st w hI hT hN j c hn1 hn2 hj hV) ?_
    intro e he hm
    rw [merge_entry_vocab] at he
    rcases mem_modify_imp _ _ _ _ he with h | ⟨y, _, rfl⟩
    · exact hV e h hm
    · exact absurd hm (replace_pair_no_pair pair new_id h1 h2 y.ids)

/-- The call `merge(pair, new_id)` leaves alone, and in the heap, the record of another pair
that is adjacent in no entry in which `pair` is adjacent. -/
theorem Queue.merge_frame (q : Queue) (pair : Pair) (new_id : Nat)
    (hI : IndexOK q.candidates_index q.pairs) (hT : q.Tracks) (hB : q.Below new_id)
    (hp : pair ∈ q.pairs) (j : Nat) (c : MergeCandidate)
    (hj : q.candidates[j]? = some c) (hne : c.pair ≠ pair)
    (hV : ∀ e ∈ q.vocab, pair ∈ adjacent_pairs e.ids → c.pair ∉ adjacent_pairs e.ids)
    (hq : j ∈ q.queue) :
    (q.merge pair new_id).candidates[j]? = some c ∧ j ∈ (q.merge pair new_id).queue := by
  obtain ⟨idx, hidx⟩ := (hI.mem_iff pair).1 hp
  have hcp : c.pair ∈ q.pairs := List.getElem?_mem (q.pairs_getElem? j c hj)
  have hb1 := hB.2 pair hp
  have hb2 := hB.2 c.pair hcp
  have hji : idx ≠ j := by
    rintro rfl
    have h1 := (hI pair idx).1 hidx
    rw [q.pairs_getElem? idx c hj] at h1
    exact hne (Option.some.inj h1)
  have hr : index_or_insert q.candidates_index pair = (idx, q.candidates_index) := by
    unfold index_or_insert; rw [hidx]
  have hB1 : q.Below (new_id + 1) :=
    ⟨fun e he x hx => Nat.lt_succ_of_lt (hB.1 e he x hx),
     fun p hp => ⟨Nat.lt_succ_of_lt (hB.2 p hp).1, Nat.lt_succ_of_lt (hB.2 p hp).2⟩⟩
  have h0 : MergeInv new_id q (q, []) :=
    ⟨hI, hT, by simp, hB1, by simp, List.nodup_nil, List.prefix_refl _, rfl⟩
  have hfold := merge_fold_inv pair new_id q (q.candidate idx).where_ (q, []) h0
  have hfr := merge_fold_frame pair new_id (by omega) (by omega) q j c (by omega) (by omega)
    (q.candidate idx).where_ (q, []) h0 hj hV
  unfold Queue.merge
  simp only [hr]
  have hq0 : ({ q with candidates_index := q.candidates_index } : Queue) = q := rfl
  rw [hq0]
  generalize (q.candidate idx).where_.foldl (merge_entry pair new_id) (q, []) = st at *
  obtain ⟨hI2, _, hN2, _, _, _, _, hQ2⟩ := hfold
  have hpairs2 : (st.1.clear_candidate idx).pairs = st.1.pairs := by
    simp only [Queue.pairs, Queue.clear_candidate]
    apply pairs_modify
    intro c; rfl
  obtain ⟨_, f2, _, f4⟩ := push_new_pair_fold st.2 (st.1.clear_candidate idx)
    (by rw [hpairs2]; exact hI2) (by rw [hpairs2]; exact hN2)
  refine ⟨?_, ?_⟩
  · rw [f2]
    show (st.1.candidates.modify _ idx)[j]? = some c
    rw [List.getElem?_modify, hfr]
    simp [hji]
  · rw [f4]
    refine List.mem_append_left _ ?_
    show j ∈ st.1.queue
    rw [hQ2]; exact hq

end bpe

namespace bpe

/-! ## Two rounds of the loop of `train_bpe` -/

theorem Queue.candidate_of_getElem? (q : Queue) (j : Nat) (c : MergeCandidate)
    (h : q.candidates[j]? = some c) : q.candidate j = c := by
  unfold Queue.candidate
  rw [List.getD_eq_getElem?_getD, h]
  rfl

theorem Queue.getElem?_of_candidate (q : Queue) (j : Nat)
    (h : (q.candidate j).real_count ≠ 0) : q.candidates[j]? = some (q.candidate j) := by
  unfold Queue.candidate at h ⊢
  rw [List.getD_eq_getElem?_getD] at h ⊢
  cases hc : q.candidates[j]? with
  | none => rw [hc] at h; exact absurd rfl h
  | some c => rfl

theorem getD_length_le (l : List Bytes) (k : Nat) (h : ∀ s ∈ l, s.length ≤ k) (i : Nat) :
    (l.getD i []).length ≤ k := by
  rcases getD_mem_or l i [] with ⟨_, hm⟩ | ⟨_, hn⟩
  · exact h _ hm
  · rw [hn]; exact Nat.zero_le _

/-- Two words of two ids each, whose pairs are adjacent in no other entry, make the first two
rounds of the loop of `train_bpe` succeed: whatever pair the first round merges, the record
of one of the two pairs is untouched and still in the heap. -/
theorem train_two_rounds (st : TrainState) (hinv : TrainInv st) (hmt : st.merge_table = [])
    (hlen : ∀ s ∈ st.id_to_seq, s.length ≤ 1)
    (a1 b1 a2 b2 j1 j2 : Nat) (c1 c2 : MergeCandidate) (hne : (a1, b1) ≠ (a2, b2))
    (h1 : st.queue.candidates[j1]? = some c1) (hp1 : c1.pair = (a1, b1))
    (hr1 : c1.real_count ≠ 0) (hq1 : j1 ∈ st.queue.queue)
    (h2 : st.queue.candidates[j2]? = some c2) (hp2 : c2.pair = (a2, b2))
    (hr2 : c2.real_count ≠ 0) (hq2 : j2 ∈ st.queue.queue)
    (hv1 : ∀ e ∈ st.queue.vocab, (a1, b1) ∈ adjacent_pairs e.ids → e.ids = [a1, b1])
    (hv2 : ∀ e ∈ st.queue.vocab, (a2, b2) ∈ adjacent_pairs e.ids → e.ids = [a2, b2]) :
    ∃ p1 p2, (train_loop 2 st).merge_table =
        [(p1, st.id_to_seq.length), (p2, st.id_to_seq.length + 1)] ∧
      (train_loop 2 st).id_to_seq.length = st.id_to_seq.length + 2 ∧
      ∀ s ∈ (train_loop 2 st).id_to_seq, s.length ≤ 4 := by
  obtain ⟨p1, q1, hpop1, hpres, hkeep⟩ := st.queue.pop_some
    ⟨j1, hq1, by rw [st.queue.candidate_of_getElem? j1 c1 h1]; exact hr1⟩
  obtain ⟨hI1, hT1, hB1, hpm1⟩ := pop_result_inv st hinv p1 q1 hpop1
  obtain ⟨_, hma1, hinv1⟩ := train_step_inv st hinv p1 q1 hpop1
  have hvoc : q1.vocab = st.queue.vocab := by
    have := st.queue.pop_vocab
    rw [hpop1] at this; exact this
  have sel : ∀ (a b j : Nat) (c : MergeCandidate), st.queue.candidates[j]? = some c →
      c.pair = (a, b) → c.real_count ≠ 0 → j ∈ st.queue.queue →
      (∀ e ∈ st.queue.vocab, (a, b) ∈ adjacent_pairs e.ids → e.ids = [a, b]) →
      (a, b) ≠ p1 →
      ∃ i ∈ (q1.merge p1 st.id_to_seq.length).queue,
        ((q1.merge p1 st.id_to_seq.length).candidate i).real_count ≠ 0 := by
    intro a b j c hj hp hr hq hv hnp
    have hcj := st.queue.candidate_of_getElem? j c hj
    have hr' : (q1.candidate j).real_count ≠ 0 := by rw [(hpres j).1, hcj]; exact hr
    have hp' : (q1.candidate j).pair = (a, b) := by rw [(hpres j).2, hcj]; exact hp
    have hj' := q1.getElem?_of_candidate j hr'
    have hq' : j ∈ q1.queue :=
      hkeep j hq (by rw [hcj]; exact hr) (by rw [hcj, hp]; exact hnp)
    obtain ⟨f1, f2⟩ := q1.merge_frame p1 st.id_to_seq.length hI1 hT1 hB1 hpm1 j
      (q1.candidate j) hj' (by rw [hp']; exact hnp)
      (fun e he hm hcp => by
        rw [hp'] at hcp
        rw [hvoc] at he
        rw [hv e he hcp] at hm
        simp only [adjacent_pairs, List.mem_singleton] at hm
        exact hnp hm.symm) hq'
    refine ⟨j, f2, ?_⟩
    rw [(q1.merge p1 st.id_to_seq.length).candidate_of_getElem? j _ f1]
    exact hr'
  have hlive : ∃ i ∈ (q1.merge p1 st.id_to_seq.length).queue,
      ((q1.merge p1 st.id_to_seq.length).candidate i).real_count ≠ 0 := by
    by_cases hsel : (a1, b1) = p1
    · exact sel a2 b2 j2 c2 h2 hp2 hr2 hq2 hv2 (fun e => hne (hsel.trans e.symm))
    · exact sel a1 b1 j1 c1 h1 hp1 hr1 hq1 hv1 hsel
  obtain ⟨p2, q2, hpop2, _, _⟩ := (q1.merge p1 st.id_to_seq.length).pop_some hlive
  obtain ⟨_, hma2, _⟩ := train_step_inv _ hinv1 p2 q2 hpop2
  have etl : train_loop 2 st =
      { queue := q2.merge p2 (st.id_to_seq.length + 1)
        merge_table := map_assign (map_assign st.merge_table p1 st.id_to_seq.length) p2
          (st.id_to_seq.length + 1)
        id_to_seq := st.id_to_seq ++
            [st.id_to_seq.getD p1.1 [] ++ st.id_to_seq.getD p1.2 []] ++
          [(st.id_to_seq ++
              [st.id_to_seq.getD p1.1 [] ++ st.id_to_seq.getD p1.2 []]).getD p2.1 [] ++
            (st.id_to_seq ++
              [st.id_to_seq.getD p1.1 [] ++ st.id_to_seq.getD p1.2 []]).getD p2.2 []] } := by
    show train_loop (1 + 1) st = _
    simp only [train_loop, hpop1, hpop2, List.length_append, List.length_singleton]
  simp only [List.length_append, List.length_singleton] at hma2
  refine ⟨p1, p2, ?_, ?_, ?_⟩
  · rw [etl]
    show map_assign (map_assign st.merge_table p1 st.id_to_seq.length) p2
      (st.id_to_seq.length + 1) = _
    rw [hma2, hma1, hmt]
    rfl
  · rw [etl]
    simp only [List.length_append, List.length_singleton]
  · rw [etl]
    have hA : ∀ s ∈ st.id_to_seq ++
        [st.id_to_seq.getD p1.1 [] ++ st.id_to_seq.getD p1.2 []], s.length ≤ 2 := by
      intro s hs
      rcases List.mem_append.1 hs with h | h
      · exact Nat.le_trans (hlen s h) (by omega)
      · simp only [List.mem_singleton] at h
        subst h
        have := getD_length_le st.id_to_seq 1 hlen p1.1
        have := getD_length_le st.id_to_seq 1 hlen p1.2
        simp only [List.length_append]
        omega
    intro s hs
    rcases List.mem_append.1 hs with h | h
    · exact Nat.le_trans (hA s h) (by omega)
    · simp only [List.mem_singleton] at h
      subst h
      have := getD_length_le _ 2 hA p2.1
      have := getD_length_le _ 2 hA p2.2
      simp only [List.length_append]
      omega

end bpe

namespace bpe

/-! ## The hash-table size of a large map -/

theorem sieve_mark_keeps (n step p : Nat) (hp : ∀ m, 2 ≤ m → step * m ≠ p) :
    ∀ (fuel j : Nat) (is_prime : List Bool), (∃ m, 2 ≤ m ∧ j = step * m) →
      is_prime.getD p false = true →
      (sieve_mark n step fuel j is_prime).getD p false = true := by
  intro fuel
  induction fuel with
  | zero => intro j l _ h; exact h
  | succ k ih =>
    intro j l hj h
    obtain ⟨m, hm, rfl⟩ := hj
    simp only [sieve_mark]
    split
    · refine ih _ _ ⟨m + 1, by omega, by rw [Nat.mul_succ]⟩ ?_
      rw [List.getD_eq_getElem?_getD, List.getElem?_set_ne (hp m hm),
        ← List.getD_eq_getElem?_getD]
      exact h
    · exact h

theorem sieve_next_ge (n : Nat) (is_prime : List Bool) :
    ∀ fuel last_prime, last_prime ≤ sieve_next n is_prime fuel last_prime := by
  intro fuel
  induction fuel with
  | zero => intro l; exact Nat.le_refl _
  | succ k ih =>
    intro l
    simp only [sieve_next]
    split
    · exact Nat.le_trans (Nat.le_succ l) (ih (l + 1))
    · exact Nat.le_refl _

/-- The sieve never clears the flag of a number that is not a product of two factors
above 1. -/
theorem sieve_loop_keeps (n p : Nat) (hp : ∀ s m, 2 ≤ s → 2 ≤ m → s * m ≠ p) :
    ∀ (fuel last_prime : Nat) (is_prime : List Bool), 2 ≤ last_prime →
      is_prime.getD p false = true →
      (sieve_loop n fuel last_prime is_prime).getD p false = true := by
  intro fuel
  induction fuel with
  | zero => intro l is_prime _ h; exact h
  | succ k ih =>
    intro l is_prime hl h
    simp only [sieve_loop]
    split
    · refine ih _ _ ?_ ?_
      · exact Nat.le_trans (by omega) (sieve_next_ge n _ n (l + 1))
      · exact sieve_mark_keeps n l p (fun m hm => hp l m hl hm) n (l * 2) is_prime
          ⟨2, Nat.le_refl _, rfl⟩ h
    · exact h

theorem find_prime_numbers_mem (n p : Nat) (hp : ∀ s m, 2 ≤ s → 2 ≤ m → s * m ≠ p)
    (hlt : p < n) : p ∈ find_prime_numbers n := by
  unfold find_prime_numbers
  simp only [List.mem_filter, List.mem_range]
  refine ⟨hlt, sieve_loop_keeps n p hp n 2 _ (Nat.le_refl _) ?_⟩
  rw [List.getD_eq_getElem?_getD, List.getElem?_replicate, if_pos hlt]
  rfl

theorem find_prime_numbers_sorted (n : Nat) :
    (find_prime_numbers n).Pairwise (· < ·) ∧ ∀ x ∈ find_prime_numbers n, x < n := by
  unfold find_prime_numbers
  exact ⟨(List.pairwise_lt_range n).filter _,
    fun x hx => List.mem_range.1 (List.mem_of_mem_filter hx)⟩

theorem dropWhile_lt_ge (m : Nat) :
    ∀ l : List Nat, l.Pairwise (· < ·) →
      ∀ x ∈ l.dropWhile (fun p => decide (p < m)), m ≤ x := by
  intro l
  induction l with
  | nil => intro _ x hx; simp at hx
  | cons a rest ih =>
    intro hs x hx
    rw [List.pairwise_cons] at hs
    by_cases ha : a < m
    · rw [List.dropWhile_cons_of_pos (by simpa using ha)] at hx
      exact ih hs.2 x hx
    · rw [List.dropWhile_cons_of_neg (by simpa using ha)] at hx
      rcases List.mem_cons.1 hx with rfl | h
      · omega
      · have := hs.1 x h
        omega

theorem mem_dropWhile_of_not (f : Nat → Bool) (x : Nat) (hx : f x = false) :
    ∀ l : List Nat, x ∈ l → x ∈ l.dropWhile f := by
  intro l
  induction l with
  | nil => intro h; cases h
  | cons a rest ih =>
    intro h
    by_cases ha : f a = true
    · rw [List.dropWhile_cons_of_pos ha]
      rcases List.mem_cons.1 h with rfl | h
      · rw [hx] at ha; cases ha
      · exact ih h
    · rw [List.dropWhile_cons_of_neg ha]
      exact h

theorem sum_modify_succ (i : Nat) :
    ∀ l : List Nat, (l.modify (fun c => c + 1) i).sum ≤ l.sum + 1 := by
  induction i with
  | zero =>
    intro l
    cases l with
    | nil => simp
    | cons a rest =>
      show ((a + 1) :: rest).sum ≤ _
      simp only [List.sum_cons]
      omega
  | succ k ih =>
    intro l
    cases l with
    | nil => simp
    | cons a rest =>
      have := ih rest
      simp only [List.modify_succ_cons, List.sum_cons]
      omega

theorem collision_count_le (hashes : List Nat) (H : Nat) :
    collision_count hashes H ≤ hashes.length := by
  unfold collision_count
  have h1 : ∀ (hs : List Nat) (acc : List Nat),
      (hs.foldl (fun counts key_hash => counts.modify (fun c => c + 1) (key_hash % H))
        acc).sum ≤ acc.sum + hs.length := by
    intro hs
    induction hs with
    | nil => intro acc; simp
    | cons h rest ih =>
      intro acc
      rw [List.foldl_cons]
      have := ih (acc.modify (fun c => c + 1) (h % H))
      have := sum_modify_succ (h % H) acc
      simp only [List.length_cons]
      omega
  have h2 : ∀ (l : List Nat) (total : Nat),
      l.foldl (fun total count => if count ≥ 2 then total + (count - 1) else total) total ≤
        total + l.sum := by
    intro l
    induction l with
    | nil => intro total; simp
    | cons a rest ih =>
      intro total
      rw [List.foldl_cons, List.sum_cons]
      split
      · have := ih (total + (a - 1)); omega
      · have := ih total; omega
  have s1 := h1 hashes (List.replicate H 0)
  have s2 := h2 (hashes.foldl
    (fun counts key_hash => counts.modify (fun c => c + 1) (key_hash % H))
    (List.replicate H 0)) 0
  have s3 : (List.replicate H 0).sum = 0 := by simp
  simp only at s1 s2 ⊢
  omega

theorem choose_loop_some (hashes : List Nat) (M : Nat) :
    ∀ (cands : List Nat) (best : Nat × Nat), (∀ c ∈ cands, 0 < c ∧ c < M) →
      (best.2 < int_max → 0 < best.1 ∧ best.1 < M) →
      ∃ r, choose_loop hashes cands best = some r ∧
        (r.2 < int_max → 0 < r.1 ∧ r.1 < M) ∧ r.2 ≤ best.2 ∧
        ∀ c ∈ cands, r.2 ≤ collision_count hashes c := by
  intro cands
  induction cands with
  | nil =>
    intro best _ hb
    exact ⟨best, rfl, hb, Nat.le_refl _, fun c hc => by cases hc⟩
  | cons c rest ih =>
    intro best hc hb
    have hc0 := hc c (by simp)
    have hne : ¬ (c = 0 ∧ hashes ≠ []) := fun h => by omega
    simp only [choose_loop, if_neg hne]
    by_cases hlt : collision_count hashes c < best.2
    · rw [if_pos hlt]
      obtain ⟨r, e, r1, r2, r3⟩ := ih (c, collision_count hashes c)
        (fun c' hc' => hc c' (List.mem_cons_of_mem _ hc')) (fun _ => hc0)
      refine ⟨r, e, r1, Nat.le_trans r2 (Nat.le_of_lt hlt), ?_⟩
      intro c' hc'
      rcases List.mem_cons.1 hc' with rfl | h
      · exact r2
      · exact r3 c' h
    · rw [if_neg hlt]
      obtain ⟨r, e, r1, r2, r3⟩ := ih best
        (fun c' hc' => hc c' (List.mem_cons_of_mem _ hc')) hb
      refine ⟨r, e, r1, r2, ?_⟩
      intro c' hc'
      rcases List.mem_cons.1 hc' with rfl | h
      · omega
      · exact r3 c' h

/-- The source's `choose_hash_table_size` returns a size between 1 and its upper bound when a
prime lies between the lower and the upper bound and the map has fewer than `INT_MAX`
entries. -/
theorem choose_hash_table_size_some (hashes : List Nat) (M p : Nat)
    (hM : scale_max hashes.length = M) (hmin : 0 < scale_min hashes.length)
    (hlo : scale_min hashes.length ≤ p) (hhi : p < M) (hp : Nat.Prime p)
    (hn : hashes.length < int_max) :
    ∃ H, choose_hash_table_size hashes = some H ∧ 0 < H ∧ H < M := by
  have hp' : ∀ s m, 2 ≤ s → 2 ≤ m → s * m ≠ p := by
    intro s m hs hm e
    rcases (Nat.dvd_prime hp).1 ⟨m, e.symm⟩ with h | h
    · omega
    · rw [h] at e
      have : p * m = p * 1 := by rw [e, Nat.mul_one]
      have := Nat.eq_of_mul_eq_mul_left hp.pos this
      omega
  obtain ⟨hs, hb⟩ := find_prime_numbers_sorted M
  have hmem := find_prime_numbers_mem M p hp' hhi
  unfold choose_hash_table_size
  simp only [hM]
  rw [← dropWhile_eq_drop]
  generalize find_prime_numbers M = primes at hs hb hmem
  have hc : ∀ c ∈ primes.dropWhile (fun p => decide (p < scale_min hashes.length)),
      0 < c ∧ c < M := fun c hc =>
    ⟨Nat.lt_of_lt_of_le hmin (dropWhile_lt_ge _ primes hs c hc),
      hb c (List.dropWhile_sublist _ |>.subset hc)⟩
  have hpc : p ∈ primes.dropWhile (fun p => decide (p < scale_min hashes.length)) :=
    mem_dropWhile_of_not _ p (by simpa using hlo) primes hmem
  obtain ⟨r, e, r1, _, r3⟩ := choose_loop_some hashes M _ (0, int_max) hc
    (fun h => absurd h (Nat.lt_irrefl _))
  have := r3 p hpc
  have := collision_count_le hashes p
  exact ⟨r.1, by rw [e]; rfl, r1 (by omega)⟩

end bpe

namespace bpe

/-! ## A mapped map whose storage region reaches `2 ^ 32` bytes -/

section
variable {Key Value : Type}

theorem write_entries_split (cfg : MapConfig Key Value) (es1 : List (Key × Value)) :
    ∀ (es2 : List (Key × Value)) (bytes : Bytes),
      write_entries cfg (es1 ++ es2) = some bytes →
      ∃ b1 b2, write_entries cfg es1 = some b1 ∧ write_entries cfg es2 = some b2 ∧
        bytes = b1 ++ b2 := by
  induction es1 with
  | nil =>
    intro es2 bytes h
    exact ⟨[], bytes, rfl, h, rfl⟩
  | cons item rest ih =>
    intro es2 bytes h
    rw [List.cons_append] at h
    simp only [write_entries] at h
    split at h
    · rename_i kb vb hk hv
      split at h
      · cases h
      · rename_i tail ht
        simp only [Option.some.injEq] at h
        obtain ⟨b1, b2, e1, e2, e3⟩ := ih es2 tail ht
        refine ⟨kb ++ vb ++ b1, b2, ?_, e2, ?_⟩
        · simp only [write_entries, hk, hv, e1]
        · rw [← h, e3]
          simp only [List.append_assoc]
    · cases h

/-- The scan of `contains` over records none of which has the key, stopped by an end offset
that lies inside or before these records, answers `false`. -/
theorem scan_stops_early [DecidableEq Key] (cfg : MapConfig Key Value) {vk : Key → Prop}
    {vv : Value → Prop} (lk : SerializerLaws cfg.key_serializer vk)
    (lv : SerializerLaws cfg.value_serializer vv) (mem : Bytes)
    (storage : Nat) (key : Key) (L : Nat) (es : List (Key × Value)) :
    ∀ (bytes : Bytes) (b fuel : Nat), write_entries cfg es = some bytes →
      (∀ kv ∈ es, vk kv.1 ∧ vv kv.2) →
      (∀ kv ∈ es,
        cfg.key_serializer.size kv.1 + cfg.value_serializer.size kv.2 < 4294967296) →
      At mem (storage + b) bytes → key ∉ es.map Prod.fst →
      L ≤ b + bytes.length → 0 < fuel → L < b + fuel →
      contains_loop cfg mem storage L key fuel (storage + b) = some false := by
  induction es with
  | nil =>
    intro bytes b fuel h _ _ _ _ hL hf _
    simp only [write_entries, Option.some.injEq] at h
    subst h
    cases fuel with
    | zero => exact absurd hf (Nat.lt_irrefl _)
    | succ n =>
      simp only [List.length_nil, Nat.add_zero] at hL
      have : ¬ (storage + b - storage < L) := by omega
      simp only [contains_loop, if_neg this]
  | cons item rest ih =>
    intro bytes b fuel h hv hsz hat hkey hL hf hfl
    simp only [write_entries] at h
    split at h
    · rename_i kb vb hk hvb
      split at h
      · cases h
      · rename_i tail ht
        simp only [Option.some.injEq] at h
        subst h
        cases fuel with
        | zero => exact absurd hf (Nat.lt_irrefl _)
        | succ n =>
          by_cases hlt : storage + b - storage < L
          · have hvi := hv item (by simp)
            have hsi := hsz item (by simp)
            have l1 := lk.size_eq _ _ hk
            have l2 := lv.size_eq _ _ hvb
            have a1 : At mem (storage + b) kb := hat.append_left.append_left
            have a2 : At mem (storage + b + kb.length) vb := hat.append_left.append_right
            have a3 : At mem (storage + (b + kb.length + vb.length)) tail := by
              have := hat.append_right
              simp only [List.length_append] at this
              have e : storage + b + (kb.length + vb.length) =
                  storage + (b + kb.length + vb.length) := by omega
              rw [e] at this; exact this
            obtain ⟨rk, _⟩ := lk.read_at _ _ _ _ hk hvi.1 a1 (by omega)
            obtain ⟨_, sv⟩ := lv.read_at _ _ _ _ hvb hvi.2 a2 (by omega)
            have hpos : 0 < kb.length := by rw [l1]; exact lk.size_pos _
            have hne : key ≠ item.1 := fun e => hkey (by simp [e])
            simp only [List.length_append] at hL
            have hrec := ih tail (b + kb.length + vb.length) n ht
              (fun kv hkv => hv kv (List.mem_cons_of_mem _ hkv))
              (fun kv hkv => hsz kv (List.mem_cons_of_mem _ hkv)) a3
              (fun hm => hkey (by
                simp only [List.map_cons, List.mem_cons]
                exact Or.inr hm))
              (by omega) (by omega) (by omega)
            have e3 : storage + b + kb.length + vb.length =
                storage + (b + kb.length + vb.length) := by omega
            simp only [contains_loop, if_pos hlt, rk, sv, if_neg hne, e3]
            exact hrec
          · simp only [contains_loop, if_neg hlt]
    · cases h

/-- When the storage region passes `2 ^ 32` bytes, one bucket starts below that offset
and ends at or above it. -/
theorem write_buckets_straddle (cfg : MapConfig Key Value) {vk : Key → Prop}
    {vv : Value → Prop} (lk : SerializerLaws cfg.key_serializer vk)
    (lv : SerializerLaws cfg.value_serializer vv) (bs : List (List (Key × Value))) :
    ∀ (ix sto ix' sto' : Bytes), write_buckets cfg bs (ix, sto) = some (ix', sto') →
      sto.length < 4294967296 → 4294967296 ≤ sto'.length →
      ∃ i es bytes, bs[i]? = some es ∧ write_entries cfg es = some bytes ∧
        ∃ b, b < 4294967296 ∧ 4294967296 ≤ b + bytes.length ∧
          b + bytes.length ≤ sto'.length ∧ At sto' b bytes ∧
          At ix' (ix.length + 8 * i) (u32_bytes b ++ u32_bytes (b + bytes.length)) := by
  induction bs with
  | nil =>
    intro ix sto ix' sto' h h1 h2
    simp only [write_buckets, Option.some.injEq, Prod.mk.injEq] at h
    obtain ⟨_, rfl⟩ := h
    omega
  | cons entry rest ih =>
    intro ix sto ix' sto' h h1 h2
    simp only [write_buckets] at h
    split at h
    · obtain ⟨i, es, bytes, g1, g2, b, g3, g4, g5, g6, g7⟩ := ih _ _ _ _ h h1 h2
      refine ⟨i + 1, es, bytes, by simpa using g1, g2, b, g3, g4, g5, g6, ?_⟩
      simp only [List.length_append, u32_bytes_length] at g7
      have e : ix.length + 4 + 4 + 8 * i = ix.length + 8 * (i + 1) := by omega
      rw [e] at g7; exact g7
    · split at h
      · cases h
      · rename_i bytes hb
        by_cases hcross : 4294967296 ≤ sto.length + bytes.length
        · obtain ⟨_, _, ⟨t1, i3⟩, ⟨t2, i4⟩, _⟩ := write_buckets_spec cfg lk lv rest _ _ _ _ h
          refine ⟨0, entry, bytes, List.getElem?_cons_zero, hb, sto.length, h1, hcross, ?_, ?_, ?_⟩
          · rw [i4]; simp only [List.length_append]; omega
          · rw [i4]
            simpa using At.of_append sto bytes t2
          · rw [i3, List.append_assoc ix]
            simpa using At.of_append ix
              (u32_bytes sto.length ++ u32_bytes (sto.length + bytes.length)) t1
        · obtain ⟨i, es, bytes', g1, g2, b, g3, g4, g5, g6, g7⟩ := ih _ _ _ _ h
            (by simp only [List.length_append]; omega) h2
          refine ⟨i + 1, es, bytes', by simpa using g1, g2, b, g3, g4, g5, g6, ?_⟩
          simp only [List.length_append, u32_bytes_length] at g7
          have e : ix.length + 4 + 4 + 8 * i = ix.length + 8 * (i + 1) := by omega
          rw [e] at g7; exact g7

/-- A mapped map whose storage region has `2 ^ 32` bytes or more loses a key: in the bucket
that crosses the offset `2 ^ 32` the end offset is stored modulo `2 ^ 32`, and `contains` for
the last key of that bucket does not answer `true`: the bucket is skipped because its start is
not below `end_pos`, or the assertion `end_key_offset <= end_pos` fails, or the scan stops
before it reaches the record of the key. -/
theorem map_lost_key [DecidableEq Key] (cfg : MapConfig Key Value) {vk : Key → Prop}
    {vv : Value → Prop} (lk : SerializerLaws cfg.key_serializer vk)
    (lv : SerializerLaws cfg.value_serializer vv) (H : Nat) (hH : H ≠ 0)
    (hH32 : H < 4294967296) (data : List (Key × Value)) (index storage : Bytes)
    (hw : write_buckets cfg (fill_buckets cfg H data) ([], []) = some (index, storage))
    (hn : (data.map Prod.fst).Nodup) (hvalid : ∀ kv ∈ data, vk kv.1 ∧ vv kv.2)
    (hsz : ∀ kv ∈ data,
      cfg.key_serializer.size kv.1 + cfg.value_serializer.size kv.2 < 4294967296)
    (hbig : 4294967296 ≤ storage.length) (mem : Bytes) (base : Nat)
    (hat : At mem base (map_bytes cfg H data index storage)) :
    ∃ m sz, MappedMap.attach mem base = some (m, sz) ∧
      ∃ kv ∈ data, MappedMap.contains cfg mem m kv.1 ≠ some true := by
  have hattach := map_attach_header cfg H data index storage mem base hat
  refine ⟨_, _, hattach, ?_⟩
  obtain ⟨w1, _, _, _, _⟩ := write_buckets_spec cfg lk lv _ _ _ _ _ hw
  simp only [List.length_nil, Nat.zero_add, fill_buckets_length] at w1
  obtain ⟨i, es, bytes, g1, g2, b, g3, g4, g5, g6, g7⟩ :=
    write_buckets_straddle cfg lk lv _ _ _ _ _ hw (by simp) hbig
  simp only [List.length_nil, Nat.zero_add] at g7
  have hi : i < H := by
    have := (List.getElem?_eq_some.1 g1).1
    rw [fill_buckets_length] at this; exact this
  have hes : es = bucket_of cfg H data i := by
    have := fill_buckets_get cfg H data i hi
    rw [g1] at this; exact Option.some.inj this
  have hne : es ≠ [] := by
    rintro rfl
    simp only [write_entries, Option.some.injEq] at g2
    subst g2
    simp only [List.length_nil, Nat.add_zero] at g4
    omega
  obtain ⟨init, last, hsplit⟩ : ∃ init last, es = init ++ [last] :=
    ⟨es.dropLast, es.getLast hne, (List.dropLast_append_getLast hne).symm⟩
  rw [hsplit] at g2
  obtain ⟨b1, b2, e1, e2, e3⟩ := write_entries_split cfg init [last] bytes g2
  have hlast : last ∈ data ∧ cfg.hash last.1 % H = i := by
    have : last ∈ bucket_of cfg H data i := by rw [← hes, hsplit]; simp
    unfold bucket_of at this
    have := List.mem_filter.1 this
    exact ⟨this.1, of_decide_eq_true this.2⟩
  have hsub : es.Sublist data := by rw [hes]; exact List.filter_sublist _
  have hnod : (es.map Prod.fst).Nodup := hn.sublist (hsub.map _)
  have hkey : last.1 ∉ init.map Prod.fst := by
    rw [hsplit, List.map_append, List.nodup_append] at hnod
    intro h
    exact hnod.2.2 h (by simp)
  have hmem : ∀ kv ∈ init, kv ∈ data := fun kv hkv =>
    hsub.subset (by rw [hsplit]; exact List.mem_append_left _ hkv)
  have hb2 : b2.length < 4294967296 := by
    have h1 := (write_entries_length cfg lk lv [last] b2 e2).1
    simp only [List.map_cons, List.map_nil, List.sum_cons, List.sum_nil, Nat.add_zero] at h1
    have := hsz last hlast.1
    omega
  refine ⟨last, hlast.1, ?_⟩
  have hat' := hat
  unfold map_bytes at hat'
  have pidx := hat'.append_right.append_right.append_right.append_right.append_left
  have psto := hat'.append_right.append_right.append_right.append_right.append_right
  simp only [u32_bytes_length, w1] at pidx psto
  have q := At.of_at pidx g7
  have q0 := read_u32_at_lt _ q.append_left g3
  have q1 := read_u32_at _ q.append_right
  simp only [u32_bytes_length] at q1
  have hmod : H % 4294967296 = H := Nat.mod_eq_of_lt hH32
  have haddr : base + 4 * 4 + 2 * 4 * (cfg.hash last.1 % H) =
      base + 4 + 4 + 4 + 4 + 8 * i := by rw [hlast.2]
  have qs : At mem (base + 4 * 4 + H * (2 * 4) + b) b1 := by
    have h1 := At.of_at psto g6
    rw [e3] at h1
    have h2 := h1.append_left
    have e : base + 4 + 4 + 4 + 4 + 8 * H + b = base + 4 * 4 + H * (2 * 4) + b := by omega
    rw [e] at h2; exact h2
  have hL : (b + bytes.length) % 4294967296 ≤ b + b1.length := by
    have h1 : (b + bytes.length) % 4294967296 =
        (b + bytes.length - 4294967296) % 4294967296 := Nat.mod_eq_sub_mod g4
    have h2 := Nat.mod_le (b + bytes.length - 4294967296) 4294967296
    rw [e3, List.length_append] at h1 h2 ⊢
    omega
  have hscan := scan_stops_early cfg lk lv mem (base + 4 * 4 + H * (2 * 4)) last.1
    ((b + bytes.length) % 4294967296) init b1 b ((b + bytes.length) % 4294967296 + 1) e1
    (fun kv hkv => hvalid kv (hmem kv hkv)) (fun kv hkv => hsz kv (hmem kv hkv)) qs hkey hL
    (by omega) (by omega)
  unfold MappedMap.contains
  simp only [hmod, if_neg hH, haddr, q0]
  split
  · intro h; cases h
  · simp only [q1]
    split
    · rw [hscan]
      intro h; cases h
    · intro h; cases h

end

end bpe

namespace bpe

/-! ## Saving and attaching a trainer whose cache passes `2 ^ 32` bytes -/

section
variable {Key Value : Type}

theorem write_entries_total (cfg : MapConfig Key Value) (es : List (Key × Value))
    (h : ∀ kv ∈ es, ∃ kb vb, cfg.key_serializer.write kv.1 = some kb ∧
      cfg.value_serializer.write kv.2 = some vb) :
    ∃ bytes, write_entries cfg es = some bytes := by
  induction es with
  | nil => exact ⟨[], rfl⟩
  | cons item rest ih =>
    obtain ⟨kb, vb, hk, hv⟩ := h item (by simp)
    obtain ⟨tail, ht⟩ := ih (fun kv hkv => h kv (List.mem_cons_of_mem _ hkv))
    exact ⟨kb ++ vb ++ tail, by simp only [write_entries, hk, hv, ht]⟩

theorem write_buckets_total (cfg : MapConfig Key Value) (bs : List (List (Key × Value))) :
    ∀ st : Bytes × Bytes,
      (∀ es ∈ bs, ∀ kv ∈ es, ∃ kb vb, cfg.key_serializer.write kv.1 = some kb ∧
        cfg.value_serializer.write kv.2 = some vb) →
      ∃ r, write_buckets cfg bs st = some r := by
  induction bs with
  | nil => intro st _; exact ⟨st, rfl⟩
  | cons entry rest ih =>
    intro st h
    simp only [write_buckets]
    split
    · exact ih _ (fun es hes => h es (List.mem_cons_of_mem _ hes))
    · obtain ⟨bytes, hb⟩ := write_entries_total cfg entry (h entry (by simp))
      simp only [hb]
      exact ih _ (fun es hes => h es (List.mem_cons_of_mem _ hes))

/-- The bucket vector of `write_to_buffer` can be written when every key and value of the
map can. -/
theorem fill_buckets_written (cfg : MapConfig Key Value) (H : Nat) (hH : H ≠ 0)
    (data : List (Key × Value))
    (h : ∀ kv ∈ data, ∃ kb vb, cfg.key_serializer.write kv.1 = some kb ∧
      cfg.value_serializer.write kv.2 = some vb) :
    ∃ index storage,
      write_buckets cfg (fill_buckets cfg H data) ([], []) = some (index, storage) := by
  obtain ⟨r, hr⟩ := write_buckets_total cfg (fill_buckets cfg H data) ([], [])
    (fun es hes kv hkv =>
      h kv ((fill_buckets_perm cfg H hH data).mem_iff.1 (List.mem_flatten.2 ⟨es, hes, hkv⟩)))
  exact ⟨r.1, r.2, hr⟩

/-- The size `storage_size` of `write_to_buffer` is the sum of the record sizes of the
map. -/
theorem storage_size_eq (cfg : MapConfig Key Value) (H : Nat) (hH : H ≠ 0)
    (data : List (Key × Value)) :
    storage_size_of cfg (fill_buckets cfg H data) =
      (data.map (fun item =>
        cfg.key_serializer.size item.1 + cfg.value_serializer.size item.2)).sum := by
  have h1 : ∀ bs : List (List (Key × Value)), storage_size_of cfg bs =
      (bs.flatten.map (fun item =>
        cfg.key_serializer.size item.1 + cfg.value_serializer.size item.2)).sum := by
    intro bs
    induction bs with
    | nil => rfl
    | cons b rest ih =>
      unfold storage_size_of at ih ⊢
      simp only [List.map_cons, List.sum_cons, List.flatten_cons, List.map_append,
        List.sum_append, ih]
  rw [h1]
  exact ((fill_buckets_perm cfg H hH data).map _).sum_eq

end

theorem save_of_parts (pl : Platform) (t : TokenizerTrainer) (strings : Bytes)
    (H2 : Nat) (index2 storage2 : Bytes) (H3 : Nat) (index3 storage3 : Bytes)
    (hs : write_strings t.id_to_seq = some strings)
    (hc2 : choose_hash_table_size
      (t.merge_table.map (fun item => merge_table_config.hash item.1)) = some H2)
    (hH2 : H2 ≠ 0)
    (hw2 : write_buckets merge_table_config (fill_buckets merge_table_config H2 t.merge_table)
      ([], []) = some (index2, storage2))
    (hc3 : choose_hash_table_size
      (t.cache.map (fun item => (cache_config pl).hash item.1)) = some H3)
    (hH3 : H3 ≠ 0)
    (hw3 : write_buckets (cache_config pl) (fill_buckets (cache_config pl) H3 t.cache)
      ([], []) = some (index3, storage3)) :
    t.save pl = some (string_table_bytes t.id_to_seq strings ++
      (map_bytes merge_table_config H2 t.merge_table index2 storage2 ++
        map_bytes (cache_config pl) H3 t.cache index3 storage3)) := by
  unfold TokenizerTrainer.save
  rw [write_to_buffer_strings _ _ _ hs]
  simp only
  rw [write_to_buffer_of_some merge_table_config _ _ H2 index2 storage2 hc2 hH2 hw2]
  simp only
  rw [write_to_buffer_of_some (cache_config pl) _ _ H3 index3 storage3 hc3 hH3 hw3]
  simp only [List.nil_append, List.append_assoc]

/-- A trainer with two merges and a cache whose records take `2 ^ 32` bytes or more: `save`
succeeds, `attach` accepts the bytes, and the attached cache does not find one of the cached
words. -/
theorem save_wraps (pl : Platform) (t : TokenizerTrainer) (e1 e2 : Pair × Nat) (M p : Nat)
    (hmt : t.merge_table = [e1, e2])
    (hm : ∀ kv ∈ t.merge_table,
      (kv.1.1 < 4294967296 ∧ kv.1.2 < 4294967296) ∧ kv.2 < 4294967296)
    (hids : ∀ s ∈ t.id_to_seq, s.length ≤ 255) (hlen : t.id_to_seq.length = 258)
    (hkeys : (t.cache.map Prod.fst).Nodup)
    (hklen : ∀ kv ∈ t.cache, kv.1.length ≤ 255)
    (hvals : ∀ kv ∈ t.cache, (∀ x ∈ kv.2, x < 4294967296) ∧ kv.2.length ≤ 255)
    (hM : scale_max t.cache.length = M) (hM32 : M ≤ 4294967296)
    (hmin : 0 < scale_min t.cache.length) (hlo : scale_min t.cache.length ≤ p)
    (hhi : p < M) (hp : Nat.Prime p) (hn : t.cache.length < int_max)
    (hbig : 4294967296 ≤ (t.cache.map (fun kv => 5 + kv.1.length)).sum) :
    ∃ buf tk w, t.save pl = some buf ∧ 4294967296 ≤ buf.length ∧
      Tokenizer.attach buf = some tk ∧ tk.memory = buf ∧ w ∈ t.cache.map Prod.fst ∧
      MappedMap.contains (cache_config pl) tk.memory tk.cache w ≠ some true := by
  obtain ⟨strings, hs⟩ := write_strings_some t.id_to_seq hids
  have hc2 : choose_hash_table_size
      (t.merge_table.map (fun item => merge_table_config.hash item.1)) = some 1 := by
    rw [hmt]
    exact choose_hash_table_size_two _ _
  obtain ⟨ix2, sto2, hw2⟩ := fill_buckets_written merge_table_config 1 (by omega)
    t.merge_table (fun kv _ => ⟨_, _, rfl, rfl⟩)
  obtain ⟨H3, hc3, hH3, hH3M⟩ := choose_hash_table_size_some
    (t.cache.map (fun item => (cache_config pl).hash item.1)) M p
    (by rw [List.length_map]; exact hM) (by rw [List.length_map]; exact hmin)
    (by rw [List.length_map]; exact hlo) hhi hp (by rw [List.length_map]; exact hn)
  have hH3' : H3 ≠ 0 := by omega
  obtain ⟨ix3, sto3, hw3⟩ := fill_buckets_written (cache_config pl) H3 hH3' t.cache
    (fun kv hkv => ⟨kv.1.length :: kv.1, _, by
      show write_string_view kv.1 = _
      unfold write_string_view
      exact if_pos (hklen kv hkv), rfl⟩)
  have hsave := save_of_parts pl t strings 1 ix2 sto2 H3 ix3 sto3 hs hc2 (by omega) hw2 hc3
    hH3' hw3
  -- sizes of the three parts
  have hl1 := string_table_bytes_length t.id_to_seq strings hs
  have hsum1 : (t.id_to_seq.map (fun item => item.length + 1)).sum ≤
      t.id_to_seq.length * 256 := by
    have := List.sum_le_card_nsmul (t.id_to_seq.map (fun item => item.length + 1)) 256
      (fun x hx => by
        obtain ⟨s, hs', rfl⟩ := List.mem_map.1 hx
        have := hids s hs'
        omega)
    simpa using this
  obtain ⟨hl2, hst2⟩ := map_bytes_length merge_table_config laws_pair laws_u32 1
    t.merge_table ix2 sto2 hw2
  have hsz2 : sto2.length = 24 := by
    rw [hst2, storage_size_eq merge_table_config 1 (by omega), hmt]
    rfl
  obtain ⟨hl3, hst3⟩ := map_bytes_length (cache_config pl) laws_string_view laws_vector_u32
    H3 t.cache ix3 sto3 hw3
  have hbig3 : 4294967296 ≤ sto3.length := by
    rw [hst3, storage_size_eq (cache_config pl) H3 hH3']
    refine Nat.le_trans hbig (List.sum_le_sum (fun kv _ => ?_))
    show 5 + kv.1.length ≤ (1 + kv.1.length) + (4 + kv.2.length * 4)
    omega
  have a1 : At (string_table_bytes t.id_to_seq strings ++
      (map_bytes merge_table_config 1 t.merge_table ix2 sto2 ++
        map_bytes (cache_config pl) H3 t.cache ix3 sto3)) 0
      (string_table_bytes t.id_to_seq strings) := List.prefix_append _ _
  have a23 : At (string_table_bytes t.id_to_seq strings ++
      (map_bytes merge_table_config 1 t.merge_table ix2 sto2 ++
        map_bytes (cache_config pl) H3 t.cache ix3 sto3))
      (0 + (string_table_bytes t.id_to_seq strings).length)
      (map_bytes merge_table_config 1 t.merge_table ix2 sto2 ++
        map_bytes (cache_config pl) H3 t.cache ix3 sto3) := by
    have h0 : At (string_table_bytes t.id_to_seq strings ++
        (map_bytes merge_table_config 1 t.merge_table ix2 sto2 ++
          map_bytes (cache_config pl) H3 t.cache ix3 sto3)) 0
        (string_table_bytes t.id_to_seq strings ++
          (map_bytes merge_table_config 1 t.merge_table ix2 sto2 ++
            map_bytes (cache_config pl) H3 t.cache ix3 sto3)) := List.prefix_refl _
    exact h0.append_right
  have a2 := a23.append_left
  have a3 := a23.append_right
  generalize hbuf : string_table_bytes t.id_to_seq strings ++
      (map_bytes merge_table_config 1 t.merge_table ix2 sto2 ++
        map_bytes (cache_config pl) H3 t.cache ix3 sto3) = buf at hsave a1 a2 a3
  have hlb : 4294967296 ≤ buf.length := by
    rw [← hbuf]
    simp only [List.length_append, hl3]
    omega
  obtain ⟨a, r1, _, _⟩ := string_table_read t.id_to_seq strings buf 0 hs a1
    (by rw [hl1, hlen] at *; omega)
  obtain ⟨_, m, q1, _⟩ := map_read merge_table_config laws_pair laws_u32 1 (by omega)
    t.merge_table ix2 sto2 hw2 hm buf _ a2 (by rw [hl2, hsz2]; omega)
  obtain ⟨mc, sz, hatt, kv, hkv, hcont⟩ := map_lost_key (cache_config pl) laws_string_view
    laws_vector_u32 H3 hH3' (by omega) t.cache ix3 sto3 hw3 hkeys
    (fun kv hkv => ⟨trivial, (hvals kv hkv).1⟩)
    (fun kv hkv => by
      have h1 := hklen kv hkv
      have h2 := (hvals kv hkv).2
      show (1 + kv.1.length) + (4 + kv.2.length * 4) < 4294967296
      omega)
    hbig3 buf _ a3
  refine ⟨buf, ⟨buf, a, m, mc⟩, kv.1, hsave, hlb, ?_, rfl, List.mem_map_of_mem _ hkv, hcont⟩
  unfold Tokenizer.attach
  rw [r1]
  simp only [q1, hatt]

end bpe

namespace bpe

/-! ## Training on the words `ab`, `cd` and many long words -/

theorem build_bpe_some (t : TokenizerTrainer) (hi : t.id_to_seq = []) (hm : t.merge_table = [])
    (hs : 256 ≤ t.config.size) : ∃ t', t.build_bpe = some t' := by
  unfold TokenizerTrainer.build_bpe
  rw [if_pos ⟨hi, hm⟩]
  unfold TokenizerTrainer.train_bpe
  dsimp only
  rw [if_pos (by rw [byte_count_eq]; exact hs)]
  exact ⟨_, rfl⟩

theorem wide_vocab_eq (rest : List (Bytes × Nat)) (hrc : ∀ item ∈ rest, item.2 = 1) :
    create_vocab_from_word_vocab 1 (([97, 98], 1) :: ([99, 100], 1) :: rest) [] =
      ⟨[97, 98], [97, 98], 1⟩ :: ⟨[99, 100], [99, 100], 1⟩ :: rest.map make_entry := by
  rw [create_vocab_eq]
  have h : (([97, 98], 1) :: ([99, 100], 1) :: rest).filter
      (fun item => decide (1 ≤ item.2)) = ([97, 98], 1) :: ([99, 100], 1) :: rest := by
    refine List.filter_eq_self.2 ?_
    intro item hitem
    rcases List.mem_cons.1 hitem with rfl | hitem
    · rfl
    · rcases List.mem_cons.1 hitem with rfl | hitem
      · rfl
      · rw [hrc item hitem]; rfl
  rw [h]
  rfl

theorem wide_vocab_free (rest : List (Bytes × Nat))
    (hrc : ∀ item ∈ rest, ∀ c ∈ item.1, c < 97 ∨ (100 < c ∧ c < 256)) (x : Nat)
    (hx : 97 ≤ x ∧ x ≤ 100) : ∀ e ∈ rest.map make_entry, x ∉ e.ids := by
  intro e he hmem
  obtain ⟨item, hitem, rfl⟩ := List.mem_map.1 he
  simp only [make_entry, List.mem_map] at hmem
  obtain ⟨c, hc, hcx⟩ := hmem
  have := hrc item hitem c hc
  omega

/-- In the vocabulary of the words `ab`, `cd` and words without the letters `a` to `d`, the
pair `(a, b)` is adjacent in the entry `ab` only and the pair `(c, d)` in the entry `cd`
only. -/
theorem wide_vocab_only (rest : List (Bytes × Nat))
    (hrc : ∀ item ∈ rest, ∀ c ∈ item.1, c < 97 ∨ (100 < c ∧ c < 256)) :
    (∀ e ∈ (⟨[97, 98], [97, 98], 1⟩ : VocabEntry) :: ⟨[99, 100], [99, 100], 1⟩ ::
        rest.map make_entry,
      (97, 98) ∈ adjacent_pairs e.ids → e = ⟨[97, 98], [97, 98], 1⟩) ∧
    (∀ e ∈ (⟨[97, 98], [97, 98], 1⟩ : VocabEntry) :: ⟨[99, 100], [99, 100], 1⟩ ::
        rest.map make_entry,
      (99, 100) ∈ adjacent_pairs e.ids → e = ⟨[99, 100], [99, 100], 1⟩) := by
  refine ⟨?_, ?_⟩
  · intro e he hp
    rcases List.mem_cons.1 he with rfl | he
    · rfl
    · rcases List.mem_cons.1 he with rfl | he
      · simp [adjacent_pairs] at hp
      · exact absurd (adjacent_pairs_mem_both hp).1
          (wide_vocab_free rest hrc 97 (by omega) e he)
  · intro e he hp
    rcases List.mem_cons.1 he with rfl | he
    · simp [adjacent_pairs] at hp
    · rcases List.mem_cons.1 he with rfl | he
      · rfl
      · exact absurd (adjacent_pairs_mem_both hp).1
          (wide_vocab_free rest hrc 99 (by omega) e he)

theorem wide_vocab_texts (rest : List (Bytes × Nat)) (hrn : (rest.map Prod.fst).Nodup)
    (hrc : ∀ item ∈ rest, ∀ c ∈ item.1, c < 97 ∨ (100 < c ∧ c < 256)) :
    (((⟨[97, 98], [97, 98], 1⟩ : VocabEntry) :: ⟨[99, 100], [99, 100], 1⟩ ::
      rest.map make_entry).map (fun e => e.text)).Nodup := by
  have hmap : (rest.map make_entry).map (fun e => e.text) = rest.map Prod.fst := by
    rw [List.map_map]; rfl
  have hfree : ∀ (x y : Nat), 97 ≤ x ∧ x ≤ 100 → [x, y] ∉ rest.map Prod.fst := by
    intro x y hx hmem
    obtain ⟨item, hitem, he⟩ := List.mem_map.1 hmem
    have := hrc item hitem x (by rw [he]; simp)
    omega
  simp only [List.map_cons, hmap, List.nodup_cons, List.mem_cons, not_or]
  refine ⟨⟨by decide, hfree 97 98 (by omega)⟩, hfree 99 100 (by omega), hrn⟩

end bpe

namespace bpe

theorem init_id_to_seq_short : ∀ s ∈ init_id_to_seq [], s.length ≤ 1 := by
  intro s hs
  simp only [init_id_to_seq, List.nil_append, List.mem_map] at hs
  obtain ⟨i, _, rfl⟩ := hs
  exact Nat.le_refl _

/-- Training with target size 258 on the words `ab`, `cd` and words without the letters `a` to
`d`, each seen once, makes exactly two merges; no token is longer than four bytes. -/
theorem wide_train (t : TokenizerTrainer) (rest : List (Bytes × Nat))
    (hv : t.vocab = []) (hi : t.id_to_seq = []) (hm : t.merge_table = [])
    (hmin : t.config.min_count = 1)
    (hwv : t.word_vocab = ([97, 98], 1) :: ([99, 100], 1) :: rest)
    (hrn : (rest.map Prod.fst).Nodup) (hr1 : ∀ item ∈ rest, item.2 = 1)
    (hrc : ∀ item ∈ rest, ∀ c ∈ item.1, c < 97 ∨ (100 < c ∧ c < 256)) :
    ∃ p1 p2, (train_loop 2 (build_start t)).merge_table = [(p1, 256), (p2, 257)] ∧
      (train_loop 2 (build_start t)).id_to_seq.length = 258 ∧
      ∀ s ∈ (train_loop 2 (build_start t)).id_to_seq, s.length ≤ 4 := by
  have hV := wide_vocab_eq rest hr1
  have hq : (build_start t).queue =
      Queue.new (create_vocab_from_word_vocab t.config.min_count t.word_vocab t.vocab)
        t.config.size := rfl
  rw [hv, hmin, hwv, hV] at hq
  have hvoc := build_start_vocab t hv
  rw [hmin, hwv, hV] at hvoc
  obtain ⟨o1, o2⟩ := wide_vocab_only rest hrc
  have hnod := (wide_vocab_texts rest hrn hrc).of_map
  obtain ⟨j1, c1, a1, a2, a3, a4⟩ := Queue.new_live _ t.config.size
    ⟨[97, 98], [97, 98], 1⟩ 97 98 hnod (by simp) rfl o1
  obtain ⟨j2, c2, b1, b2, b3, b4⟩ := Queue.new_live _ t.config.size
    ⟨[99, 100], [99, 100], 1⟩ 99 100 hnod (by simp) rfl o2
  rw [← hq] at a1 a4 b1 b4
  have hinv := build_start_inv t hv hi hm
  have hmt : (build_start t).merge_table = [] := hm
  have hids : (build_start t).id_to_seq = init_id_to_seq [] := by
    show init_id_to_seq t.id_to_seq = _
    rw [hi]
  have hlen : (build_start t).id_to_seq.length = 256 := by
    rw [hids]; exact init_id_to_seq_length
  have hshort : ∀ s ∈ (build_start t).id_to_seq, s.length ≤ 1 := by
    rw [hids]; exact init_id_to_seq_short
  have hv1 : ∀ e ∈ (build_start t).queue.vocab, (97, 98) ∈ adjacent_pairs e.ids →
      e.ids = [97, 98] := by
    intro e he hp
    rw [hvoc, sort_vocab_mem] at he
    rw [o1 e he hp]
  have hv2 : ∀ e ∈ (build_start t).queue.vocab, (99, 100) ∈ adjacent_pairs e.ids →
      e.ids = [99, 100] := by
    intro e he hp
    rw [hvoc, sort_vocab_mem] at he
    rw [o2 e he hp]
  generalize build_start t = st0 at *
  obtain ⟨p1, p2, r1, r2, r3⟩ := train_two_rounds st0 hinv hmt hshort 97 98 99 100 j1 j2 c1 c2
    (by decide) a1 a2 (by rw [a3]; exact (by decide : to_u64 ((1 : Nat) : Int) ≠ 0)) a4
    b1 b2 (by rw [b3]; exact (by decide : to_u64 ((1 : Nat) : Int) ≠ 0)) b4 hv1 hv2
  rw [hlen] at r1 r2
  exact ⟨p1, p2, r1, r2, r3⟩

end bpe

namespace bpe

/-! ## The saved artifact of the wide vocabulary -/

/-- After `build_bpe` with target size 258 on the words `ab`, `cd` and enough long words
without the letters `a` to `d`, each seen once and all of them cached, `save` succeeds with
`2 ^ 32` bytes or more, `attach` accepts them, and the attached cache does not find one of the
words that the cache of the trainer holds. -/
theorem build_wraps (pl : Platform) (t : TokenizerTrainer) (rest : List (Bytes × Nat))
    (M p : Nat) (hv : t.vocab = []) (hc : t.cache = []) (hi : t.id_to_seq = [])
    (hm : t.merge_table = []) (hsize : t.config.size = 258) (hmin : t.config.min_count = 1)
    (hwv : t.word_vocab = ([97, 98], 1) :: ([99, 100], 1) :: rest)
    (hcs : rest.length + 2 ≤ t.config.cache_size)
    (hrn : (rest.map Prod.fst).Nodup) (hr1 : ∀ item ∈ rest, item.2 = 1)
    (hrl : ∀ item ∈ rest, item.1.length ≤ 255)
    (hrc : ∀ item ∈ rest, ∀ c ∈ item.1, c < 97 ∨ (100 < c ∧ c < 256))
    (hM : scale_max (rest.length + 2) = M) (hM32 : M ≤ 4294967296)
    (hmin0 : 0 < scale_min (rest.length + 2)) (hlo : scale_min (rest.length + 2) ≤ p)
    (hhi : p < M) (hp : Nat.Prime p) (hn : rest.length + 2 < int_max)
    (hbig : 4294967296 ≤ (rest.map (fun item => 5 + item.1.length)).sum) :
    ∃ t' buf tk w, t.build_bpe = some t' ∧ t'.save pl = some buf ∧
      4294967296 ≤ buf.length ∧ Tokenizer.attach buf = some tk ∧
      (t'.cache.lookup w).isSome = true ∧
      MappedMap.contains (cache_config pl) tk.memory tk.cache w ≠ some true := by
  obtain ⟨t', hb⟩ := build_bpe_some t hi hm (by omega)
  obtain ⟨st, hinv, e1, e2, e3, _, e5, _⟩ := build_bpe_inv t t' hv hb
  have h2 : t.config.size - 256 = 2 := by omega
  rw [h2] at e5
  obtain ⟨p1, p2, r1, r2, r3⟩ := wide_train t rest hv hi hm hmin hwv hrn hr1 hrc
  have hrep := train_loop_replays 2 (build_start t) (build_start_inv t hv hi hm)
    (build_start_located t) (build_start_replays t hv hm)
  rw [e5] at r1 r2 r3 hrep
  obtain ⟨hmap, hcache⟩ := build_bpe_vocab t t' hv hb
  rw [hmin, hwv, wide_vocab_eq rest hr1] at hmap
  rw [hc] at hcache
  have htexts : t'.vocab.map (fun e => e.text) =
      (sort_vocab ((⟨[97, 98], [97, 98], 1⟩ : VocabEntry) :: ⟨[99, 100], [99, 100], 1⟩ ::
        rest.map make_entry)).map (fun e => e.text) := by
    have h1 := congrArg (List.map Prod.fst) hmap
    rw [List.map_map, List.map_map] at h1
    exact h1
  have hperm : (t'.vocab.map (fun e => e.text)).Perm
      ([97, 98] :: [99, 100] :: rest.map Prod.fst) := by
    rw [htexts]
    have h1 := (List.perm_insertionSort (fun first second : VocabEntry =>
      second.count ≤ first.count) ((⟨[97, 98], [97, 98], 1⟩ : VocabEntry) ::
        ⟨[99, 100], [99, 100], 1⟩ :: rest.map make_entry)).map (fun e => e.text)
    have h2 : ((⟨[97, 98], [97, 98], 1⟩ : VocabEntry) :: ⟨[99, 100], [99, 100], 1⟩ ::
        rest.map make_entry).map (fun e => e.text) =
        [97, 98] :: [99, 100] :: rest.map Prod.fst := by
      simp only [List.map_cons, List.map_map]
      rfl
    rw [h2] at h1
    exact h1
  have hnodt : (t'.vocab.map (fun e => e.text)).Nodup := by
    refine hperm.nodup_iff.2 ?_
    have := wide_vocab_texts rest hrn hrc
    simp only [List.map_cons, List.map_map] at this
    exact this
  have hlenv : t'.vocab.length = rest.length + 2 := by
    have := hperm.length_eq
    simp only [List.length_map, List.length_cons] at this
    exact this
  have hk : t'.cache = t'.vocab.map (fun e => (e.text, e.ids)) := by
    rw [hcache, if_neg (by omega), Nat.min_eq_right (by omega), List.take_length,
      emplace_fold_distinct _ [] hnodt (fun e _ => by simp)]
    simp
  have hkeysq : t'.cache.map Prod.fst = t'.vocab.map (fun e => e.text) := by
    rw [hk, List.map_map]; rfl
  have htl : ∀ s ∈ t'.vocab.map (fun e => e.text), s.length ≤ 255 := by
    intro s hs
    have := hperm.mem_iff.1 hs
    rcases List.mem_cons.1 this with rfl | h
    · decide
    · rcases List.mem_cons.1 h with rfl | h
      · decide
      · obtain ⟨item, hitem, rfl⟩ := List.mem_map.1 h
        exact hrl item hitem
  obtain ⟨_, _, _, hB, _, hE, _, _, _, _⟩ := hinv
  have hm' : ∀ kv ∈ t'.merge_table,
      (kv.1.1 < 4294967296 ∧ kv.1.2 < 4294967296) ∧ kv.2 < 4294967296 := by
    intro kv hkv
    rw [e1] at hkv
    obtain ⟨a1, a2, a3, _⟩ := hE kv hkv
    omega
  have hvals : ∀ kv ∈ t'.cache, (∀ x ∈ kv.2, x < 4294967296) ∧ kv.2.length ≤ 255 := by
    intro kv hkv
    rw [hk] at hkv
    obtain ⟨e, he, rfl⟩ := List.mem_map.1 hkv
    have he' : e ∈ st.queue.vocab := by rw [← e3]; exact he
    refine ⟨fun x hx => ?_, ?_⟩
    · have := hB.1 e he' x hx
      omega
    · show e.ids.length ≤ 255
      rw [hrep e he']
      have h1 := apply_merges_length st.merge_table (e.text.map (fun c => c % 256))
      have h2 := htl e.text (List.mem_map_of_mem _ he)
      rw [List.length_map] at h1
      omega
  have hclen : t'.cache.length = rest.length + 2 := by
    rw [hk, List.length_map, hlenv]
  have hbig' : 4294967296 ≤ (t'.cache.map (fun kv => 5 + kv.1.length)).sum := by
    have h1 : t'.cache.map (fun kv => 5 + kv.1.length) =
        (t'.vocab.map (fun e => e.text)).map (fun s => 5 + s.length) := by
      rw [hk, List.map_map, List.map_map]; rfl
    rw [h1, (hperm.map _).sum_eq]
    simp only [List.map_cons, List.sum_cons, List.map_map]
    have h3 : (rest.map ((fun s : Bytes => 5 + s.length) ∘ Prod.fst)).sum =
        (rest.map (fun item => 5 + item.1.length)).sum := rfl
    rw [h3]
    omega
  obtain ⟨buf, tk, w, s1, s2, s3, _, s5, s6⟩ := save_wraps pl t' (p1, 256) (p2, 257) M p
    (by rw [e1, r1]) hm'
    (fun s hs => by
      rw [e2] at hs
      have := r3 s hs
      omega)
    (by rw [e2, r2]) (by rw [hkeysq]; exact hnodt)
    (fun kv hkv => by
      have : kv.1 ∈ t'.cache.map Prod.fst := List.mem_map_of_mem _ hkv
      rw [hkeysq] at this
      exact htl _ this)
    hvals (by rw [hclen]; exact hM) hM32 (by rw [hclen]; exact hmin0)
    (by rw [hclen]; exact hlo) hhi hp (by rw [hclen]; exact hn) hbig'
  refine ⟨t', buf, tk, w, hb, s1, s2, s3, ?_, s6⟩
  obtain ⟨kv, hkv, rfl⟩ := List.mem_map.1 s5
  rw [lookup_eq_find_entry,
    find_entry_of_mem t'.cache (by rw [hkeysq]; exact hnodt) kv hkv]
  rfl

end bpe

namespace bpe

/-! ## The long words -/

theorem long_word_length (i : Nat) : (long_word i).length = 252 := by
  simp only [long_word, List.length_cons, List.length_append, List.length_replicate,
    List.length_nil]

theorem long_word_chars (i : Nat) : ∀ c ∈ long_word i, c < 97 ∨ (100 < c ∧ c < 256) := by
  intro c hc
  simp only [long_word, List.mem_cons, List.mem_append, List.mem_replicate,
    List.mem_nil_iff, or_false] at hc
  omega

theorem long_word_inj (i j : Nat) (hi : i < 16777216) (hj : j < 16777216)
    (h : long_word i = long_word j) : i = j := by
  simp only [long_word, List.cons_append, List.cons.injEq, List.nil_append] at h
  omega

theorem long_words_length (n : Nat) : (long_words n).length = n := by
  simp only [long_words, List.length_map, List.length_range]

theorem long_words_keys (n : Nat) (hn : n ≤ 16777216) :
    ((long_words n).map Prod.fst).Nodup := by
  have h : (long_words n).map Prod.fst = (List.range n).map long_word := by
    simp only [long_words, List.map_map]
    rfl
  rw [h]
  refine List.Nodup.map_on ?_ (List.nodup_range n)
  intro x hx y hy hxy
  exact long_word_inj x y (Nat.lt_of_lt_of_le (List.mem_range.1 hx) hn)
    (Nat.lt_of_lt_of_le (List.mem_range.1 hy) hn) hxy

theorem long_words_mem (n : Nat) :
    ∀ item ∈ long_words n, item.2 = 1 ∧ item.1.length = 252 ∧
      ∀ c ∈ item.1, c < 97 ∨ (100 < c ∧ c < 256) := by
  intro item hitem
  simp only [long_words, List.mem_map, List.mem_range] at hitem
  obtain ⟨i, _, rfl⟩ := hitem
  exact ⟨rfl, long_word_length i, long_word_chars i⟩

theorem long_words_size (n : Nat) :
    n * 257 ≤ ((long_words n).map (fun item => 5 + item.1.length)).sum := by
  have := List.card_nsmul_le_sum ((long_words n).map (fun item => 5 + item.1.length)) 257
    (fun x hx => by
      obtain ⟨item, hitem, rfl⟩ := List.mem_map.1 hx
      rw [(long_words_mem n item hitem).2.1])
  simpa [long_words_length] using this

end bpe

namespace bpe

/-! ## The texts that lead to the wide vocabulary -/

/-- A text made of one space byte and a non-empty run of bytes that are neither spaces nor
punctuation is one word. -/
theorem split_space_word (c : Nat) (v : Bytes) (hc : is_space c = true) (hv : v ≠ [])
    (hvp : ∀ x ∈ v, is_space x = false ∧ is_punctuation x = false) :
    split_by_words (c :: v) = [c :: v] := by
  have hf : find_spaces (c :: v) = [(0, 0 + 1)] := by
    have := find_spaces_one_run [] [c] v (by simp) hv (by simp) (fun x hx => (hvp x hx).1)
      (fun x hx => by rw [List.mem_singleton.1 hx]; exact hc)
    simpa using this
  have hrun := split_at_points_run [] c v [] (by simp) hc hv hvp
  simp only [List.nil_append, List.length_nil, List.map_nil, Nat.zero_add] at hrun
  unfold split_by_words split_points
  rw [hf]
  simp only [List.flatMap_cons, List.flatMap_nil, List.append_nil, interval_points_eq]
  have h1 : List.range' 0 1 = [0] := rfl
  rw [h1] at hrun ⊢
  have h2 : [0] ++ [0] ++ [(c :: v).length] = 0 :: 0 :: [1 + v.length] := by
    simp only [List.length_cons, List.cons_append, List.nil_append]
    rw [Nat.add_comm]
  rw [h2, split_at_points_cons_cons]
  have h3 : emit_parts (substr (c :: v) 0 (0 - 0)) = [] := by
    have : substr (c :: v) 0 (0 - 0) = [] := by simp [substr]
    rw [this]
    rfl
  rw [h3, List.nil_append]
  exact hrun

theorem plain_letter (x : Nat) (h1 : 107 ≤ x) (h2 : x ≤ 122) :
    is_space x = false ∧ is_punctuation x = false := by
  interval_cases x <;> exact ⟨rfl, rfl⟩

theorem split_long_word (i : Nat) : split_by_words (long_word i) = [long_word i] := by
  unfold long_word
  refine split_space_word 32 _ rfl (by simp) ?_
  intro x hx
  simp only [List.mem_cons, List.mem_append, List.mem_replicate, List.mem_nil_iff,
    or_false] at hx
  exact plain_letter x (by omega) (by omega)

/-- Counting words that are all new and distinct appends them with count 1. -/
theorem count_words_fresh (ws : List Bytes) :
    ∀ acc : List (Bytes × Nat), (acc.map Prod.fst ++ ws).Nodup →
      ws.foldl count_word acc = acc ++ ws.map (fun w => (w, 1)) := by
  induction ws with
  | nil => intro acc _; simp
  | cons w rest ih =>
    intro acc hn
    have hw : w ∉ acc.map Prod.fst := by
      intro h
      exact (List.nodup_append.1 hn).2.2 h (by simp)
    have hl : acc.lookup w = none := by
      rw [lookup_eq_find_entry]
      cases hf : find_entry acc w with
      | none => rfl
      | some kv =>
        obtain ⟨h1, h2⟩ := find_entry_mem acc w kv hf
        exact absurd (h2 ▸ List.mem_map_of_mem Prod.fst h1) hw
    have hstep : count_word acc w = acc ++ [(w, 1)] := by
      unfold count_word
      rw [hl]
      exact map_assign_of_not_mem acc w 1 hw
    rw [List.foldl_cons, hstep, ih]
    · simp
    · rw [List.map_append]
      simp only [List.map_cons, List.map_nil, List.append_assoc, List.singleton_append]
      exact hn

theorem train_on_texts_frame (texts : List Bytes) : ∀ t : TokenizerTrainer,
    texts.foldl TokenizerTrainer.train_on_text t =
      { t with word_vocab := (texts.foldl TokenizerTrainer.train_on_text t).word_vocab } := by
  induction texts with
  | nil => intro t; rfl
  | cons x rest ih =>
    intro t
    rw [List.foldl_cons, ih]
    rfl

/-- The word counts after `train_on_text` on the text `ab`, the text `cd` and each of the
first `n` long words. -/
theorem wide_texts_counts (n : Nat) (hn : n ≤ 16777216) (t : TokenizerTrainer)
    (ht : t.word_vocab = []) :
    (([97, 98] :: [99, 100] :: (List.range n).map long_word).foldl
      TokenizerTrainer.train_on_text t).word_vocab =
      ([97, 98], 1) :: ([99, 100], 1) :: long_words n := by
  rw [train_on_texts_eq, ht]
  have hsplit : ([97, 98] :: [99, 100] :: (List.range n).map long_word).flatMap
      split_by_words = [97, 98] :: [99, 100] :: (List.range n).map long_word := by
    have h1 : split_by_words [97, 98] = [[97, 98]] := by decide
    have h2 : split_by_words [99, 100] = [[99, 100]] := by decide
    have h3 : ∀ l : List Nat, (l.map long_word).flatMap split_by_words = l.map long_word := by
      intro l
      induction l with
      | nil => rfl
      | cons i rest ih =>
        rw [List.map_cons, List.flatMap_cons, split_long_word, ih]
        rfl
    rw [List.flatMap_cons, List.flatMap_cons, h1, h2, h3]
    rfl
  rw [hsplit, count_words_fresh _ []]
  · simp only [List.nil_append, List.map_cons, List.map_map, long_words]
    rfl
  · have hk := long_words_keys n hn
    have hm : (long_words n).map Prod.fst = (List.range n).map long_word := by
      simp only [long_words, List.map_map]
      rfl
    rw [hm] at hk
    have hfree : ∀ (x y : Nat), 97 ≤ x ∧ x ≤ 100 → [x, y] ∉ (List.range n).map long_word := by
      intro x y hx hmem
      obtain ⟨i, _, he⟩ := List.mem_map.1 hmem
      have := long_word_chars i x (by rw [he]; simp)
      omega
    simp only [List.map_nil, List.nil_append, List.nodup_cons, List.mem_cons, not_or]
    exact ⟨⟨by decide, hfree 97 98 (by omega)⟩, hfree 99 100 (by omega), hk⟩

/-- The trainer `wide_trainer` is the state after the constructor and `train_on_text` on each
text of `wide_texts`. -/
theorem wide_trainer_reached :
    ∃ t0, TokenizerTrainer.new ⟨258, 1, 1, 16777218⟩ = some t0 ∧
      wide_texts.foldl TokenizerTrainer.train_on_text t0 = wide_trainer := by
  refine ⟨⟨⟨258, 1, 1, 16777218⟩, [], [], [], [], []⟩, by decide, ?_⟩
  rw [train_on_texts_frame]
  unfold wide_texts
  rw [wide_texts_counts 16777216 (Nat.le_refl _) _ rfl]
  rfl

end bpe

namespace bpe

/-! ## The artifact of the wide vocabulary -/

theorem scale_max_wide : scale_max (16777216 + 2) = 20132661 := by decide!

theorem scale_min_wide : scale_min (16777216 + 2) = 8388609 := by decide!

theorem prime_8388617 : Nat.Prime 8388617 := by norm_num

/-- Claim C3, the claim as stated fails: the trainer `wide_trainer`, reached by the
constructor and `train_on_text` on the texts `wide_texts`, has seen the words `ab` and `cd`
and 16777216 distinct words of 252 bytes, once each, and caches them all. On every platform
`build_bpe` and `save` succeed, the artifact has `2 ^ 32` bytes or more, `attach` accepts it,
and for some byte string `w` that the cache of the trainer contains, `contains(w)` of the
attached cache does not answer `true`: the end offset of the bucket of `w` is stored modulo
`2 ^ 32`. -/
theorem artifact_lookup_lost_above_4gib :
    ∃ t0 t', TokenizerTrainer.new ⟨258, 1, 1, 16777218⟩ = some t0 ∧
      wide_texts.foldl TokenizerTrainer.train_on_text t0 = wide_trainer ∧
      wide_trainer.vocab = [] ∧ wide_trainer.cache = [] ∧
      wide_trainer.build_bpe = some t' ∧
      ∀ pl : Platform, ∃ buf tk w, t'.save pl = some buf ∧
        4294967296 ≤ buf.length ∧ Tokenizer.attach buf = some tk ∧
        (t'.cache.lookup w).isSome = true ∧
        MappedMap.contains (cache_config pl) tk.memory tk.cache w ≠
          some (t'.cache.lookup w).isSome := by
  obtain ⟨t0, g1, g2⟩ := wide_trainer_reached
  obtain ⟨t', hb⟩ := build_bpe_some wide_trainer rfl rfl (by decide)
  refine ⟨t0, t', g1, g2, rfl, rfl, hb, ?_⟩
  intro pl
  have hlen := long_words_length 16777216
  obtain ⟨t2, buf, tk, w, h1, h2, h3, h4, h5, h6⟩ := build_wraps pl wide_trainer
    (long_words 16777216) 20132661 8388617 rfl rfl rfl rfl rfl rfl rfl
    (by rw [hlen]; exact Nat.le_refl _)
    (long_words_keys 16777216 (Nat.le_refl _))
    (fun item hitem => (long_words_mem 16777216 item hitem).1)
    (fun item hitem => by rw [(long_words_mem 16777216 item hitem).2.1]; omega)
    (fun item hitem => (long_words_mem 16777216 item hitem).2.2)
    (by rw [hlen]; exact scale_max_wide) (by omega)
    (by rw [hlen, scale_min_wide]; omega) (by rw [hlen, scale_min_wide]; omega) (by omega)
    prime_8388617 (by rw [hlen]; decide)
    (Nat.le_trans (by omega) (long_words_size 16777216))
  rw [hb] at h1
  obtain rfl := Option.some.inj h1
  refine ⟨buf, tk, w, h2, h3, h4, h5, ?_⟩
  rw [h5]
  exact h6

end bpe

